import Mathlib

/-!
# lcdb: filter blocks, file names, byte comparison, status codes, red-black tree

A shallow embedding of `src/table/filter_block.c`, `src/filename.c`, `rdb_memcmp4` of
`src/util/internal.c`, the status codes and default options of `contrib/lwdb/lwdb.c`, and
`src/util/rbt.c`.

* Byte strings (`ldb_slice_t`, `ldb_buffer_t`) are `List UInt8`.
* `ldb_array_t` is a `List Nat`.
* C strings are `List Char` (the terminating NUL is not part of the list).
* Unsigned machine integers are `Nat`; the places where the C code narrows a
  value to 32 bits carry an explicit `% 2 ^ 32`.
* The shift `block_offset >> fr->base_lg`, whose count is a byte read from the filter
  block, goes through `uint64_shr`: C leaves a shift by 64 or more undefined, and the
  value of such a shift is a parameter `wide` of every statement about the reader.
* The nodes of the red-black tree live in a memory `rb_mem` of node records indexed by
  addresses; loops over the tree carry an iteration budget and return an `Option`.
-/

namespace Lcdb

/-! ## Byte strings and coding primitives -/

/-- A byte string: the contents of an `ldb_slice_t` or an `ldb_buffer_t`. -/
abbrev Bytes := List UInt8

/-- Modelled from the spec: `ldb_buffer_fixed32` (util/buffer.h and util/coding.h are not
among the sources). "fixed32 little-endian encode of exact-width integers": the argument
is a `uint32_t`, so a wider value is first narrowed modulo `2 ^ 32`; the four bytes
produced are the ones the call appends to the buffer. -/
def ldb_fixed32_encode (x : Nat) : Bytes :=
  let v := x % 2 ^ 32
  [UInt8.ofNat v, UInt8.ofNat (v / 2 ^ 8), UInt8.ofNat (v / 2 ^ 16), UInt8.ofNat (v / 2 ^ 24)]

/-- Modelled from the spec: `ldb_fixed32_decode` (util/coding.h is not among the sources).
"fixed32 little-endian decode": the 32-bit word stored in the four bytes of `bs` that
start at position `pos`. Reading past the end of `bs` (which no caller below does on an
accepted block) yields `0`. -/
def ldb_fixed32_decode (bs : Bytes) (pos : Nat) : Nat :=
  match bs.drop pos with
  | b0 :: b1 :: b2 :: b3 :: _ =>
      b0.toNat + b1.toNat * 2 ^ 8 + b2.toNat * 2 ^ 16 + b3.toNat * 2 ^ 24
  | _ => 0

/-- Modelled from the spec: `ldb_slice_set` (util/slice.h is not among the sources). The
slice `bytes[start..limit]`, as set by `ldb_slice_set(&s, data + start, limit - start)`. -/
def slice (bs : Bytes) (start limit : Nat) : Bytes :=
  (bs.drop start).take (limit - start)

/-! ## Filter policy -/

/-- The filter policy `ldb_bloom_t`, seen through its two entry points.
`build keys` is the byte string that `ldb_bloom_build(policy, dst, keys, n)` appends to
`dst`; `key_match filter key` is `ldb_bloom_match(policy, filter, key)`. -/
structure ldb_bloom_t where
  build : List Bytes → Bytes
  key_match : Bytes → Bytes → Bool

/-! ## Constants (filter_block.c, lines 30-32) -/

def LDB_FILTER_BASE_LG : Nat := 11

def LDB_FILTER_BASE : Nat := 1 <<< LDB_FILTER_BASE_LG

/-! ## Filter builder -/

/-- The state of `ldb_filterbuilder_t`: `keys` is the flattened key buffer, `start` the
starting index in `keys` of each pending key, `result` the filter data computed so far,
`filter_offsets` the start in `result` of every generated filter. -/
structure ldb_filterbuilder_t where
  policy : ldb_bloom_t
  keys : Bytes
  start : List Nat
  result : Bytes
  filter_offsets : List Nat

def ldb_filterbuilder_init (policy : ldb_bloom_t) : ldb_filterbuilder_t :=
  { policy := policy, keys := [], start := [], result := [], filter_offsets := [] }

/-- The list `tmp_keys` that `ldb_filterbuilder_generate_filter` rebuilds from the
flattened key structure: `start` is the start array after the final `keys.size` has been
pushed, and key `i` is `keys[start[i] .. start[i+1]]`. -/
def tmp_keys (keys : Bytes) (start : List Nat) (num_keys : Nat) : List Bytes :=
  (List.range num_keys).map fun i =>
    let base := start.getD i 0
    let length := start.getD (i + 1) 0 - start.getD i 0
    (keys.drop base).take length

/-- The function `ldb_filterbuilder_generate_filter`. `ldb_array_push` and
`ldb_buffer_append` append at the end, `ldb_buffer_reset` and `ldb_array_reset` empty
their argument. -/
def ldb_filterbuilder_generate_filter (fb : ldb_filterbuilder_t) : ldb_filterbuilder_t :=
  let num_keys := fb.start.length
  if num_keys = 0 then
    -- Fast path if there are no keys for this filter.
    { fb with filter_offsets := fb.filter_offsets ++ [fb.result.length] }
  else
    -- Make list of keys from flattened key structure.
    let start := fb.start ++ [fb.keys.length]
    let keys := tmp_keys fb.keys start num_keys
    -- Generate filter for current set of keys and append to result.
    { fb with
      filter_offsets := fb.filter_offsets ++ [fb.result.length]
      result := fb.result ++ fb.policy.build keys
      keys := []
      start := [] }

/-- The `while (filter_index > fb->filter_offsets.length)` loop of
`ldb_filterbuilder_start_block`, with an iteration budget. -/
def start_block_loop (filter_index : Nat) : Nat → ldb_filterbuilder_t → ldb_filterbuilder_t
  | 0, fb => fb
  | fuel + 1, fb =>
    if filter_index > fb.filter_offsets.length then
      start_block_loop filter_index fuel (ldb_filterbuilder_generate_filter fb)
    else fb

/-- The function `ldb_filterbuilder_start_block`. The failing
`assert(filter_index >= fb->filter_offsets.length)` is the result `none`. Every
iteration of the loop adds one filter offset, so `filter_index` iterations are always
enough (see `start_block_loop_done`). -/
def ldb_filterbuilder_start_block (fb : ldb_filterbuilder_t) (block_offset : Nat) :
    Option ldb_filterbuilder_t :=
  let filter_index := block_offset / LDB_FILTER_BASE
  if filter_index ≥ fb.filter_offsets.length then
    some (start_block_loop filter_index filter_index fb)
  else none

/-- The function `ldb_filterbuilder_add_key`: push the current size of `keys` on `start`,
then append the key to `keys`. -/
def ldb_filterbuilder_add_key (fb : ldb_filterbuilder_t) (key : Bytes) : ldb_filterbuilder_t :=
  { fb with start := fb.start ++ [fb.keys.length], keys := fb.keys ++ key }

/-- The function `ldb_filterbuilder_finish`: the builder after the call, and the slice
returned (the contents of `fb->result`). -/
def ldb_filterbuilder_finish (fb : ldb_filterbuilder_t) : ldb_filterbuilder_t × Bytes :=
  let fb1 := if fb.start.length > 0 then ldb_filterbuilder_generate_filter fb else fb
  -- Append array of per-filter offsets.
  let array_offset := fb1.result.length % 2 ^ 32
  let r1 := fb1.filter_offsets.foldl (fun r off => r ++ ldb_fixed32_encode off) fb1.result
  let r2 := r1 ++ ldb_fixed32_encode array_offset
  -- Save encoding parameter in result.
  let r3 := r2 ++ [UInt8.ofNat LDB_FILTER_BASE_LG]
  ({ fb1 with result := r3 }, r3)

/-! ## Filter reader -/

/-- The state of `ldb_filterreader_t`. `data` is the filter block (`[]` for the `NULL`
pointer), `offset` is the position of the offset array inside `data`, that is
`fr->offset - fr->data` (`0` when both are `NULL`). -/
structure ldb_filterreader_t where
  policy : ldb_bloom_t
  data : Bytes
  offset : Nat
  num : Nat
  base_lg : Nat

/-- The function `ldb_filterreader_init`: the reader state it leaves in `*fr`. -/
def ldb_filterreader_init (policy : ldb_bloom_t) (contents : Bytes) : ldb_filterreader_t :=
  let n := contents.length
  if n < 5 then
    -- 1 byte for base_lg and 4 for start of offset array.
    { policy := policy, data := [], offset := 0, num := 0, base_lg := 0 }
  else
    let base_lg := (contents.getD (n - 1) 0).toNat
    let last_word := ldb_fixed32_decode contents (n - 5)
    if last_word > n - 5 then
      { policy := policy, data := [], offset := 0, num := 0, base_lg := base_lg }
    else
      { policy := policy, data := contents, offset := last_word,
        num := (n - 5 - last_word) / 4, base_lg := base_lg }

/-- The expression `x >> s` on `uint64_t` operands, as in `block_offset >> fr->base_lg`.
A count below 64 gives the shift on natural numbers. C leaves a shift by 64 or more
undefined, and `base_lg` is a byte of the block that `ldb_filterreader_init` stores
unchecked: for such a count the model fixes no value, the result is `wide x s`, where
the function `wide` is a parameter of the reader and of every statement about it. -/
def uint64_shr (wide : Nat → Nat → Nat) (x s : Nat) : Nat :=
  if s < 64 then x >>> s else wide x s

/-- The function `ldb_filterreader_matches`; a non-zero result is `true`. The index is
`block_offset >> fr->base_lg` on `uint64_t`; `wide` is the value of that shift when
`base_lg` is 64 or more (see `uint64_shr`). -/
def ldb_filterreader_matches (wide : Nat → Nat → Nat) (fr : ldb_filterreader_t)
    (block_offset : Nat) (key : Bytes) : Bool :=
  let index := uint64_shr wide block_offset fr.base_lg
  if index < fr.num then
    let start := ldb_fixed32_decode fr.data (fr.offset + index * 4)
    let limit := ldb_fixed32_decode fr.data (fr.offset + index * 4 + 4)
    if start ≤ limit ∧ limit ≤ fr.offset then
      fr.policy.key_match (slice fr.data start limit) key
    else if start = limit then
      -- Empty filters do not match any keys.
      false
    else
      -- Errors are treated as potential matches.
      true
  else
    true

/-! ## Builder runs and the filters they generate -/

/-- The byte string that one call of `ldb_filterbuilder_generate_filter` appends to
`fb->result`: nothing on the fast path, the policy's `build` of the pending keys
otherwise. -/
def generated (fb : ldb_filterbuilder_t) : Bytes :=
  if fb.start.length = 0 then []
  else fb.policy.build (tmp_keys fb.keys (fb.start ++ [fb.keys.length]) fb.start.length)

/-- One call on a filter builder between `init` and `finish`. -/
inductive filter_op where
  | start_block (block_offset : Nat)
  | add_key (key : Bytes)

def apply_op (fb : ldb_filterbuilder_t) : filter_op → Option ldb_filterbuilder_t
  | .start_block block_offset => ldb_filterbuilder_start_block fb block_offset
  | .add_key key => some (ldb_filterbuilder_add_key fb key)

/-- A builder run: the calls of `ops` in order; `none` when an assertion fails. -/
def run_ops (fb : ldb_filterbuilder_t) : List filter_op → Option ldb_filterbuilder_t
  | [] => some fb
  | op :: ops =>
    match apply_op fb op with
    | some fb1 => run_ops fb1 ops
    | none => none

/-- The block offsets passed to `start_block` in a run, in call order. -/
def block_offsets : List filter_op → List Nat
  | [] => []
  | .start_block block_offset :: ops => block_offset :: block_offsets ops
  | .add_key _ :: ops => block_offsets ops

/-- The start inside `F = fs.flatten` of every filter of `fs`, counted from `base`. -/
def filter_starts (base : Nat) : List Bytes → List Nat
  | [] => []
  | f :: fs => base :: filter_starts (base + f.length) fs

/-- Specification-level view of a filter builder (spec, section 4.4): the filters
generated so far, and the pending batch of keys. -/
structure filter_view where
  filters : List Bytes
  pending : List Bytes

/-- Specification-level flush of a batch: an empty batch records an empty filter without
calling `build`, a non-empty batch is summarised by the policy's `build`. -/
def flush_pending (policy : ldb_bloom_t) (pending : List Bytes) : Bytes :=
  if pending.length = 0 then [] else policy.build pending

/-- Specification-level effect of one call: `add_key` appends the key to the pending
batch; `start_block` generates filters until `block_offset >> base_lg` of them exist, the
first one flushing the pending batch and the later ones empty. -/
def view_step (policy : ldb_bloom_t) (v : filter_view) : filter_op → filter_view
  | .add_key key => { v with pending := v.pending ++ [key] }
  | .start_block block_offset =>
    let filter_index := block_offset >>> LDB_FILTER_BASE_LG
    if filter_index ≤ v.filters.length then v
    else
      { filters := v.filters ++ flush_pending policy v.pending ::
          List.replicate (filter_index - v.filters.length - 1) []
        pending := [] }

def view_run (policy : ldb_bloom_t) (v : filter_view) (ops : List filter_op) : filter_view :=
  ops.foldl (view_step policy) v

/-- Specification-level `finish`: flush the pending batch, if non-empty, as one final
filter. -/
def view_finish (policy : ldb_bloom_t) (v : filter_view) : List Bytes :=
  if v.pending.length = 0 then v.filters else v.filters ++ [policy.build v.pending]

/-- The filters generated by the run `init, ops, finish`, in order. -/
def generated_filters (policy : ldb_bloom_t) (ops : List filter_op) : List Bytes :=
  view_finish policy (view_run policy { filters := [], pending := [] } ops)

/-- The representation invariant tying a builder state to its specification-level view:
the result is the concatenation of the generated filters, the recorded offsets are their
starts, and the flattened key buffer with its start array holds the pending batch. -/
def Rep (fb : ldb_filterbuilder_t) (v : filter_view) : Prop :=
  fb.result = v.filters.flatten ∧ fb.filter_offsets = filter_starts 0 v.filters
    ∧ fb.keys = v.pending.flatten ∧ fb.start = filter_starts 0 v.pending

/-- The filter block holding the filters `fs` (spec, section 3, "Filter block"): the
concatenated filters, the fixed32 start of every filter, the fixed32 `array_offset`, and
the byte `base_lg`. -/
def filter_block (fs : List Bytes) : Bytes :=
  fs.flatten ++ ((filter_starts 0 fs).map ldb_fixed32_encode).flatten
    ++ ldb_fixed32_encode fs.flatten.length ++ [UInt8.ofNat LDB_FILTER_BASE_LG]

/-! ## File names (filename.c) -/

/-- Modelled from the spec: the enumeration `rdb_filetype_t` (filename.h is not among the
sources), with the seven constants that filename.c stores through `*type`. -/
inductive rdb_filetype_t where
  | RDB_FILE_LOG
  | RDB_FILE_LOCK
  | RDB_FILE_TABLE
  | RDB_FILE_DESC
  | RDB_FILE_CURRENT
  | RDB_FILE_TEMP
  | RDB_FILE_INFO
  deriving DecidableEq, Repr

/-- The largest `uint64_t`. -/
def UINT64_MAX : Nat := 2 ^ 64 - 1

/-- Modelled from the spec: `rdb_encode_int` (util/strutil.c is not among the sources).
"<6+digit decimal>": the decimal digits of `x`, left-padded with `0` to at least `pad`
characters. -/
def rdb_encode_int (x : Nat) (pad : Nat) : List Char :=
  let digits := Nat.toDigits 10 x
  List.replicate (pad - digits.length) '0' ++ digits

/-- The digit loop of `rdb_decode_int`: consume decimal digits, accumulating their value
in `x`; stop at the first other character, fail when the value leaves 64 bits. -/
def decode_digits : List Char → Nat → Option (Nat × List Char)
  | [], x => some (x, [])
  | c :: cs, x =>
    if '0' ≤ c ∧ c ≤ '9' then
      let d := c.toNat - '0'.toNat
      if x > UINT64_MAX / 10 ∨ (x = UINT64_MAX / 10 ∧ d > UINT64_MAX % 10) then none
      else decode_digits cs (x * 10 + d)
    else some (x, c :: cs)

/-- Modelled from the spec: `rdb_decode_int` (util/strutil.c is not among the sources).
Parses the "decimal" number at the start of `name`: on success the value and the rest of
the string (the advanced `*name`); failure (`none`) when `name` does not start with a
digit or the number does not fit in a `uint64_t`. -/
def rdb_decode_int (name : List Char) : Option (Nat × List Char) :=
  match name with
  | [] => none
  | c :: _ => if '0' ≤ c ∧ c ≤ '9' then decode_digits name 0 else none

/-- Modelled from the spec: `rdb_starts_with` (util/strutil.c is not among the sources):
`name` begins with the characters of `pre`. -/
def rdb_starts_with (name pre : List Char) : Bool :=
  pre.isPrefixOf name

/-- Modelled from the spec: `rdb_join` (util/strutil.c is not among the sources).
"dbname/NAME": the path of `name` inside the directory `pfx`. The size of the output
buffer is not modelled. -/
def rdb_join (pfx name : List Char) : List Char :=
  pfx ++ '/' :: name

/-- The function `make_filename`: the string written to `buf`. -/
def make_filename (pfx : List Char) (num : Nat) (ext : List Char) : List Char :=
  let id := rdb_encode_int num 6
  -- sprintf(tmp, "%s.%s", id, ext)
  let tmp := id ++ '.' :: ext
  rdb_join pfx tmp

/-- The function `rdb_log_filename`; `none` is the failing `assert(num > 0)`. -/
def rdb_log_filename (pfx : List Char) (num : Nat) : Option (List Char) :=
  if num > 0 then some (make_filename pfx num "log".toList) else none

def rdb_table_filename (pfx : List Char) (num : Nat) : Option (List Char) :=
  if num > 0 then some (make_filename pfx num "ldb".toList) else none

def rdb_sstable_filename (pfx : List Char) (num : Nat) : Option (List Char) :=
  if num > 0 then some (make_filename pfx num "sst".toList) else none

def rdb_desc_filename (pfx : List Char) (num : Nat) : Option (List Char) :=
  if num > 0 then
    let id := rdb_encode_int num 6
    -- sprintf(tmp, "MANIFEST-%s", id)
    let tmp := "MANIFEST-".toList ++ id
    some (rdb_join pfx tmp)
  else none

def rdb_current_filename (pfx : List Char) : List Char :=
  rdb_join pfx "CURRENT".toList

def rdb_lock_filename (pfx : List Char) : List Char :=
  rdb_join pfx "LOCK".toList

def rdb_temp_filename (pfx : List Char) (num : Nat) : Option (List Char) :=
  if num > 0 then some (make_filename pfx num "dbtmp".toList) else none

def rdb_info_filename (pfx : List Char) : List Char :=
  rdb_join pfx "LOG".toList

def rdb_oldinfo_filename (pfx : List Char) : List Char :=
  rdb_join pfx "LOG.old".toList

/-- The function `rdb_parse_filename`: `some (type, num)` when it returns 1 (with the
values stored through the two out-pointers), `none` when it returns 0. -/
def rdb_parse_filename (name : List Char) : Option (rdb_filetype_t × Nat) :=
  if name = "CURRENT".toList then
    some (.RDB_FILE_CURRENT, 0)
  else if name = "LOCK".toList then
    some (.RDB_FILE_LOCK, 0)
  else if name = "LOG".toList ∨ name = "LOG.old".toList then
    some (.RDB_FILE_INFO, 0)
  else if rdb_starts_with name "MANIFEST-".toList then
    match rdb_decode_int (name.drop 9) with
    | none => none
    | some (x, rest) =>
      if rest ≠ [] then none
      else some (.RDB_FILE_DESC, x)
  else
    match rdb_decode_int name with
    | some (x, rest) =>
      if rest = ".log".toList then some (.RDB_FILE_LOG, x)
      else if rest = ".sst".toList ∨ rest = ".ldb".toList then some (.RDB_FILE_TABLE, x)
      else if rest = ".dbtmp".toList then some (.RDB_FILE_TEMP, x)
      else none
    | none => none

/-! ## Byte comparison (util/internal.c) -/

/-- The C library function `memcmp(x, y, n)` on the first `n` bytes of two buffers: zero
when they agree, otherwise the difference of the first pair of differing bytes, taken as
`unsigned char` (the C standard fixes only the sign of the result). -/
def memcmp : Bytes → Bytes → Nat → Int
  | a :: as, b :: bs, n + 1 => if a = b then memcmp as bs n else (a.toNat : Int) - (b.toNat : Int)
  | _, _, _ => 0

/-- The function `rdb_memcmp4(x, xn, y, yn)`; the lengths `xn` and `yn` are the lengths of
the two byte strings. -/
def rdb_memcmp4 (x y : Bytes) : Int :=
  let xn := x.length
  let yn := y.length
  let n := if xn < yn then xn else yn
  let cmp := if n > 0 then memcmp x y n else 0
  if n > 0 ∧ cmp ≠ 0 then cmp
  else if xn ≠ yn then (if xn < yn then -1 else 1)
  else 0

/-! ## Status codes (contrib/lwdb/lwdb.c) -/

def LDB_OK : Int := 0

def LDB_NOTFOUND : Int := -1

def LDB_CORRUPTION : Int := -2

def LDB_NOSUPPORT : Int := -3

def LDB_INVALID : Int := -4

def LDB_IOERR : Int := -5

/-- The function `convert_error`. The argument is `none` for the `NULL` pointer; writing
`'\0'` over the first `':'` found by `strchr` leaves the text before that colon. -/
def convert_error (err : Option (List Char)) : Int :=
  match err with
  | none => LDB_OK
  | some s =>
    let err := s.takeWhile (fun c => c ≠ ':')
    if err = "OK".toList then LDB_OK
    else if err = "NotFound".toList then LDB_NOTFOUND
    else if err = "Corruption".toList then LDB_CORRUPTION
    else if err = "Not implemented".toList then LDB_NOSUPPORT
    else if err = "Invalid argument".toList then LDB_INVALID
    else if err = "IO error".toList then LDB_IOERR
    else LDB_INVALID

/-- The table `ldb_errmsg`. -/
def ldb_errmsg : List (List Char) :=
  ["OK".toList, "NotFound".toList, "Corruption".toList, "Not implemented".toList,
   "Invalid argument".toList, "IO error".toList]

/-- The function `ldb_strerror`, on mathematical integers (the negation of `INT_MIN` is
outside the model). -/
def ldb_strerror (code : Int) : List Char :=
  let code := if code < 0 then -code else code
  let code := if code ≥ (ldb_errmsg.length : Int) then -LDB_INVALID else code
  ldb_errmsg.getD code.toNat []

/-! ## Owned file names, in the words of the specification -/

/-- The value of a string of decimal digits. -/
def decimal_value (ds : List Char) : Nat :=
  ds.foldl (fun x c => x * 10 + (c.toNat - '0'.toNat)) 0

/-- A decimal number that fits in 64 bits: a non-empty string of decimal digits whose
value is at most `UINT64_MAX`. -/
def is_decimal_number (ds : List Char) : Prop :=
  ds ≠ [] ∧ (∀ c ∈ ds, '0' ≤ c ∧ c ≤ '9') ∧ decimal_value ds ≤ UINT64_MAX

/-- The names of the files a database owns: `CURRENT`, `LOCK`, `LOG`, `LOG.old`,
`MANIFEST-<decimal number>`, and `<decimal number>` followed by exactly one of `.log`,
`.sst`, `.ldb`, `.dbtmp`. -/
def owned_filename (name : List Char) : Prop :=
  name = "CURRENT".toList ∨ name = "LOCK".toList ∨ name = "LOG".toList
    ∨ name = "LOG.old".toList
    ∨ (∃ ds, is_decimal_number ds ∧ name = "MANIFEST-".toList ++ ds)
    ∨ (∃ ds ext, is_decimal_number ds
        ∧ ext ∈ [".log".toList, ".sst".toList, ".ldb".toList, ".dbtmp".toList]
        ∧ name = ds ++ ext)

/-! ## The pending batch of a filter builder -/

/-- The keys passed to `ldb_filterbuilder_add_key` since the builder last generated a
filter, along a run of calls from the builder `fb`: the list `batch` gets every key of an
`add_key` at its end, and is emptied by a `start_block` that generated filters (one that
made the filter-offset list longer). The result is `none` when an assertion fails. -/
def keys_since_filter (fb : ldb_filterbuilder_t) (batch : List Bytes) :
    List filter_op → Option (ldb_filterbuilder_t × List Bytes)
  | [] => some (fb, batch)
  | .add_key key :: ops =>
    keys_since_filter (ldb_filterbuilder_add_key fb key) (batch ++ [key]) ops
  | .start_block block_offset :: ops =>
    match ldb_filterbuilder_start_block fb block_offset with
    | none => none
    | some fb1 =>
      keys_since_filter fb1
        (if fb.filter_offsets.length < fb1.filter_offsets.length then [] else batch) ops

/-! ## Default options (contrib/lwdb/lwdb.c) -/

/-- The constant `LDB_NO_COMPRESSION` of `enum ldb_compression`. -/
def LDB_NO_COMPRESSION : Nat := 0

/-- The structure `ldb_dbopt_s`. A pointer field holds `none` for `NULL`; the `int`
fields are integers, the `size_t` fields natural numbers. -/
structure ldb_dbopt_t where
  comparator : Option Nat
  create_if_missing : Int
  error_if_exists : Int
  paranoid_checks : Int
  info_log : Option Nat
  write_buffer_size : Nat
  max_open_files : Int
  block_cache : Option Nat
  block_size : Nat
  block_restart_interval : Int
  max_file_size : Nat
  compression : Nat
  reuse_logs : Int
  filter_policy : Option Nat
  use_mmap : Int

/-- The constant `db_options`. -/
def db_options : ldb_dbopt_t :=
  { comparator := none
    create_if_missing := 0
    error_if_exists := 0
    paranoid_checks := 0
    info_log := none
    write_buffer_size := 4 * 1024 * 1024
    max_open_files := 1000
    block_cache := none
    block_size := 4 * 1024
    block_restart_interval := 16
    max_file_size := 2 * 1024 * 1024
    compression := LDB_NO_COMPRESSION
    reuse_logs := 0
    filter_policy := none
    use_mmap := 1 }

/-- The object that the pointer `ldb_dbopt_default` points to (`&db_options`). -/
def ldb_dbopt_default : ldb_dbopt_t := db_options

/-! ## Red-black tree (util/rbt.c): memory model -/

/-- The colour of a node. rbt.h is not among the sources; the static sentinel of rbt.c is
zero-initialised and the code relies on it being black, so the constant of value 0 is
`RB_BLACK`. -/
inductive rb_color where
  | RB_BLACK
  | RB_RED
  deriving DecidableEq, Repr

/-- A node `rb_node_t`. Keys and values (`rb_val_t`) are 64-bit words, pointers are
addresses. -/
structure rb_node_t where
  key : Nat
  value : Nat
  color : rb_color
  parent : Nat
  left : Nat
  right : Nat
  deriving DecidableEq, Repr

/-- The null pointer. -/
def NULL : Nat := 0

/-- The address `NIL` of the static sentinel node. -/
def NIL : Nat := 1

/-- The memory holding the nodes: the node stored at every address, and the address
`next` that the next `malloc` returns (addresses are never reused). -/
structure rb_mem where
  nodes : Nat → rb_node_t
  next : Nat

/-- The memory at program start: the sentinel is zero-initialised, nothing is allocated. -/
def rb_mem_init : rb_mem :=
  { nodes := fun _ => { key := 0, value := 0, color := .RB_BLACK, parent := NULL,
                        left := NULL, right := NULL },
    next := 2 }

/-- The structure `rb_tree_t`; `unique` is `true` for a non-zero `int`. -/
structure rb_tree_t where
  root : Nat
  compare : Nat → Nat → Int
  unique : Bool
  size : Nat

/-- The assignment `x->color = c`. -/
def set_color (m : rb_mem) (x : Nat) (c : rb_color) : rb_mem :=
  { m with nodes := Function.update m.nodes x { m.nodes x with color := c } }

/-- The assignment `x->parent = p`. -/
def set_parent (m : rb_mem) (x : Nat) (p : Nat) : rb_mem :=
  { m with nodes := Function.update m.nodes x { m.nodes x with parent := p } }

/-- The assignment `x->left = p`. -/
def set_left (m : rb_mem) (x : Nat) (p : Nat) : rb_mem :=
  { m with nodes := Function.update m.nodes x { m.nodes x with left := p } }

/-- The assignment `x->right = p`. -/
def set_right (m : rb_mem) (x : Nat) (p : Nat) : rb_mem :=
  { m with nodes := Function.update m.nodes x { m.nodes x with right := p } }

/-- The assignments `x->key = k; x->value = v`. -/
def set_kv (m : rb_mem) (x : Nat) (k v : Nat) : rb_mem :=
  { m with nodes := Function.update m.nodes x { m.nodes x with key := k, value := v } }

/-- The function `rb_node_create`: the memory after the allocation and the new node. -/
def rb_node_create (m : rb_mem) (key value : Nat) : rb_mem × Nat :=
  ({ nodes := Function.update m.nodes m.next
      { key := key, value := value, color := .RB_RED, parent := NIL, left := NIL,
        right := NIL },
     next := m.next + 1 }, m.next)

/-- The function `rb_node_swap`: exchange the keys and values of `x` and `y`, return `y`. -/
def rb_node_swap (m : rb_mem) (x y : Nat) : rb_mem × Nat :=
  let x_key := (m.nodes x).key
  let x_value := (m.nodes x).value
  let m := set_kv m x (m.nodes y).key (m.nodes y).value
  let m := set_kv m y x_key x_value
  (m, y)

/-- The loop `while (z->left != NIL) z = z->left`; `none` when the budget is used up. -/
def min_loop (m : rb_mem) : Nat → Nat → Option Nat
  | 0, _ => none
  | fuel + 1, z => if (m.nodes z).left ≠ NIL then min_loop m fuel (m.nodes z).left else some z

/-- The loop `while (z->right != NIL) z = z->right`. -/
def max_loop (m : rb_mem) : Nat → Nat → Option Nat
  | 0, _ => none
  | fuel + 1, z => if (m.nodes z).right ≠ NIL then max_loop m fuel (m.nodes z).right else some z

/-- The function `rb_node_min`. Every loop over the nodes gets the number of allocated
addresses as its iteration budget. -/
def rb_node_min (m : rb_mem) (z : Nat) : Option Nat :=
  if z = NIL then some z else min_loop m m.next z

def rb_node_max (m : rb_mem) (z : Nat) : Option Nat :=
  if z = NIL then some z else max_loop m m.next z

/-- The loop `while (y != NIL && x == y->right) { x = y; y = y->parent; }` of
`rb_node_successor`, returning `y`. -/
def succ_loop (m : rb_mem) : Nat → Nat → Nat → Option Nat
  | 0, _, _ => none
  | fuel + 1, x, y =>
    if y ≠ NIL ∧ x = (m.nodes y).right then succ_loop m fuel y (m.nodes y).parent else some y

/-- The loop `while (y != NIL && x == y->left) { x = y; y = y->parent; }` of
`rb_node_predecessor`. -/
def pred_loop (m : rb_mem) : Nat → Nat → Nat → Option Nat
  | 0, _, _ => none
  | fuel + 1, x, y =>
    if y ≠ NIL ∧ x = (m.nodes y).left then pred_loop m fuel y (m.nodes y).parent else some y

def rb_node_successor (m : rb_mem) (x : Nat) : Option Nat :=
  if (m.nodes x).right ≠ NIL then min_loop m m.next (m.nodes x).right
  else succ_loop m m.next x (m.nodes x).parent

def rb_node_predecessor (m : rb_mem) (x : Nat) : Option Nat :=
  if (m.nodes x).left ≠ NIL then max_loop m m.next (m.nodes x).left
  else pred_loop m m.next x (m.nodes x).parent

/-- The function `rb_tree_init`. -/
def rb_tree_init (compare : Nat → Nat → Int) (unique : Bool) : rb_tree_t :=
  { root := NIL, compare := compare, unique := unique, size := 0 }

/-- The function `rb_tree_rotl`. -/
def rb_tree_rotl (m : rb_mem) (tree : rb_tree_t) (x : Nat) : rb_mem × rb_tree_t :=
  let y := (m.nodes x).right
  let m := set_right m x (m.nodes y).left
  let m := if (m.nodes y).left ≠ NIL then set_parent m (m.nodes y).left x else m
  let m := set_parent m y (m.nodes x).parent
  let (m, tree) :=
    if (m.nodes x).parent = NIL then (m, { tree with root := y })
    else if x = (m.nodes (m.nodes x).parent).left then (set_left m (m.nodes x).parent y, tree)
    else (set_right m (m.nodes x).parent y, tree)
  let m := set_left m y x
  let m := set_parent m x y
  (m, tree)

/-- The function `rb_tree_rotr`. -/
def rb_tree_rotr (m : rb_mem) (tree : rb_tree_t) (x : Nat) : rb_mem × rb_tree_t :=
  let y := (m.nodes x).left
  let m := set_left m x (m.nodes y).right
  let m := if (m.nodes y).right ≠ NIL then set_parent m (m.nodes y).right x else m
  let m := set_parent m y (m.nodes x).parent
  let (m, tree) :=
    if (m.nodes x).parent = NIL then (m, { tree with root := y })
    else if x = (m.nodes (m.nodes x).parent).right then (set_right m (m.nodes x).parent y, tree)
    else (set_left m (m.nodes x).parent y, tree)
  let m := set_right m y x
  let m := set_parent m x y
  (m, tree)

/-- The body of the loop of `rb_tree_insert_fixup`: the memory, the tree and `x` after
one iteration. -/
def insert_fixup_step (m : rb_mem) (tree : rb_tree_t) (x : Nat) : rb_mem × rb_tree_t × Nat :=
  if (m.nodes x).parent = (m.nodes (m.nodes (m.nodes x).parent).parent).left then
    let y := (m.nodes (m.nodes (m.nodes x).parent).parent).right
    if y ≠ NIL ∧ (m.nodes y).color = .RB_RED then
      let m := set_color m (m.nodes x).parent .RB_BLACK
      let m := set_color m y .RB_BLACK
      let m := set_color m (m.nodes (m.nodes x).parent).parent .RB_RED
      (m, tree, (m.nodes (m.nodes x).parent).parent)
    else
      let (m, tree, x) :=
        if x = (m.nodes (m.nodes x).parent).right then
          let x := (m.nodes x).parent
          let (m, tree) := rb_tree_rotl m tree x
          (m, tree, x)
        else (m, tree, x)
      let m := set_color m (m.nodes x).parent .RB_BLACK
      let m := set_color m (m.nodes (m.nodes x).parent).parent .RB_RED
      let (m, tree) := rb_tree_rotr m tree (m.nodes (m.nodes x).parent).parent
      (m, tree, x)
  else
    let y := (m.nodes (m.nodes (m.nodes x).parent).parent).left
    if y ≠ NIL ∧ (m.nodes y).color = .RB_RED then
      let m := set_color m (m.nodes x).parent .RB_BLACK
      let m := set_color m y .RB_BLACK
      let m := set_color m (m.nodes (m.nodes x).parent).parent .RB_RED
      (m, tree, (m.nodes (m.nodes x).parent).parent)
    else
      let (m, tree, x) :=
        if x = (m.nodes (m.nodes x).parent).left then
          let x := (m.nodes x).parent
          let (m, tree) := rb_tree_rotr m tree x
          (m, tree, x)
        else (m, tree, x)
      let m := set_color m (m.nodes x).parent .RB_BLACK
      let m := set_color m (m.nodes (m.nodes x).parent).parent .RB_RED
      let (m, tree) := rb_tree_rotl m tree (m.nodes (m.nodes x).parent).parent
      (m, tree, x)

/-- The loop `while (x != tree->root && x->parent->color == RED)` of
`rb_tree_insert_fixup`. -/
def insert_fixup_loop : Nat → rb_mem → rb_tree_t → Nat → Option (rb_mem × rb_tree_t)
  | 0, _, _, _ => none
  | fuel + 1, m, tree, x =>
    if x ≠ tree.root ∧ (m.nodes (m.nodes x).parent).color = .RB_RED then
      let (m, tree, x) := insert_fixup_step m tree x
      insert_fixup_loop fuel m tree x
    else some (m, tree)

/-- The function `rb_tree_insert_fixup`. -/
def rb_tree_insert_fixup (m : rb_mem) (tree : rb_tree_t) (x : Nat) :
    Option (rb_mem × rb_tree_t) :=
  let m := set_color m x .RB_RED
  match insert_fixup_loop m.next m tree x with
  | none => none
  | some (m, tree) => some (set_color m tree.root .RB_BLACK, tree)

/-- The block `if (w->color == RED)` of `rb_tree_remove_fixup` for `x` a left child: the
memory, the tree and the new `w`. -/
def remove_fixup_red_l (m : rb_mem) (tree : rb_tree_t) (x w : Nat) :
    rb_mem × rb_tree_t × Nat :=
  let m := set_color m w .RB_BLACK
  let m := set_color m (m.nodes x).parent .RB_RED
  let (m, tree) := rb_tree_rotl m tree (m.nodes x).parent
  (m, tree, (m.nodes (m.nodes x).parent).right)

/-- The block `if (w->color == RED)` of `rb_tree_remove_fixup` for `x` a right child. -/
def remove_fixup_red_r (m : rb_mem) (tree : rb_tree_t) (x w : Nat) :
    rb_mem × rb_tree_t × Nat :=
  let m := set_color m w .RB_BLACK
  let m := set_color m (m.nodes x).parent .RB_RED
  let (m, tree) := rb_tree_rotr m tree (m.nodes x).parent
  (m, tree, (m.nodes (m.nodes x).parent).left)

/-- The body of the loop of `rb_tree_remove_fixup` after the first `if`, for `x` a left
child: `w` is the sibling of `x`. -/
def remove_fixup_black_l (m : rb_mem) (tree : rb_tree_t) (x w : Nat) :
    rb_mem × rb_tree_t × Nat :=
  if (m.nodes (m.nodes w).left).color = .RB_BLACK
      ∧ (m.nodes (m.nodes w).right).color = .RB_BLACK then
    let m := set_color m w .RB_RED
    (m, tree, (m.nodes x).parent)
  else
    let (m, tree, w) :=
      if (m.nodes (m.nodes w).right).color = .RB_BLACK then
        let m := set_color m (m.nodes w).left .RB_BLACK
        let m := set_color m w .RB_RED
        let (m, tree) := rb_tree_rotr m tree w
        (m, tree, (m.nodes (m.nodes x).parent).right)
      else (m, tree, w)
    let m := set_color m w (m.nodes (m.nodes x).parent).color
    let m := set_color m (m.nodes x).parent .RB_BLACK
    let m := set_color m (m.nodes w).right .RB_BLACK
    let (m, tree) := rb_tree_rotl m tree (m.nodes x).parent
    (m, tree, tree.root)

/-- The body of the loop of `rb_tree_remove_fixup` after the first `if`, for `x` a right
child. -/
def remove_fixup_black_r (m : rb_mem) (tree : rb_tree_t) (x w : Nat) :
    rb_mem × rb_tree_t × Nat :=
  if (m.nodes (m.nodes w).right).color = .RB_BLACK
      ∧ (m.nodes (m.nodes w).left).color = .RB_BLACK then
    let m := set_color m w .RB_RED
    (m, tree, (m.nodes x).parent)
  else
    let (m, tree, w) :=
      if (m.nodes (m.nodes w).left).color = .RB_BLACK then
        let m := set_color m (m.nodes w).right .RB_BLACK
        let m := set_color m w .RB_RED
        let (m, tree) := rb_tree_rotl m tree w
        (m, tree, (m.nodes (m.nodes x).parent).left)
      else (m, tree, w)
    let m := set_color m w (m.nodes (m.nodes x).parent).color
    let m := set_color m (m.nodes x).parent .RB_BLACK
    let m := set_color m (m.nodes w).left .RB_BLACK
    let (m, tree) := rb_tree_rotr m tree (m.nodes x).parent
    (m, tree, tree.root)

/-- The body of the loop of `rb_tree_remove_fixup`. -/
def remove_fixup_step (m : rb_mem) (tree : rb_tree_t) (x : Nat) : rb_mem × rb_tree_t × Nat :=
  if x = (m.nodes (m.nodes x).parent).left then
    let w := (m.nodes (m.nodes x).parent).right
    let (m, tree, w) :=
      if (m.nodes w).color = .RB_RED then remove_fixup_red_l m tree x w else (m, tree, w)
    remove_fixup_black_l m tree x w
  else
    let w := (m.nodes (m.nodes x).parent).left
    let (m, tree, w) :=
      if (m.nodes w).color = .RB_RED then remove_fixup_red_r m tree x w else (m, tree, w)
    remove_fixup_black_r m tree x w

/-- The loop `while (x != tree->root && x->color == BLACK)` of `rb_tree_remove_fixup`,
returning also the final `x`. -/
def remove_fixup_loop : Nat → rb_mem → rb_tree_t → Nat → Option (rb_mem × rb_tree_t × Nat)
  | 0, _, _, _ => none
  | fuel + 1, m, tree, x =>
    if x ≠ tree.root ∧ (m.nodes x).color = .RB_BLACK then
      let (m, tree, x) := remove_fixup_step m tree x
      remove_fixup_loop fuel m tree x
    else some (m, tree, x)

/-- The function `rb_tree_remove_fixup`. -/
def rb_tree_remove_fixup (m : rb_mem) (tree : rb_tree_t) (x : Nat) :
    Option (rb_mem × rb_tree_t) :=
  match remove_fixup_loop m.next m tree x with
  | none => none
  | some (m, tree, x) => some (set_color m x .RB_BLACK, tree)

/-- The function `rb_tree_remove_node`: the memory, the tree and the node returned. -/
def rb_tree_remove_node (m : rb_mem) (tree : rb_tree_t) (z : Nat) :
    Option (rb_mem × rb_tree_t × Nat) :=
  let y? := if (m.nodes z).left ≠ NIL ∧ (m.nodes z).right ≠ NIL then rb_node_successor m z
            else some z
  match y? with
  | none => none
  | some y =>
    let x := if (m.nodes y).left = NIL then (m.nodes y).right else (m.nodes y).left
    let m := set_parent m x (m.nodes y).parent
    let (m, tree) :=
      if (m.nodes y).parent = NIL then (m, { tree with root := x })
      else if y = (m.nodes (m.nodes y).parent).left then (set_left m (m.nodes y).parent x, tree)
      else (set_right m (m.nodes y).parent x, tree)
    let (m, z) :=
      if y ≠ z then
        -- z.(k,v) = y.(k,v)
        rb_node_swap m z y
      else (m, z)
    let r := if (m.nodes y).color = .RB_BLACK then rb_tree_remove_fixup m tree x
             else some (m, tree)
    match r with
    | none => none
    | some (m, tree) => some (m, { tree with size := tree.size - 1 }, z)

/-- The loop of `rb_tree_search`; the result `NULL` is "not found". -/
def search_loop (m : rb_mem) (compare : Nat → Nat → Int) (key : Nat) : Nat → Nat → Option Nat
  | 0, _ => none
  | fuel + 1, current =>
    if current ≠ NIL then
      let cmp := compare key (m.nodes current).key
      if cmp = 0 then some current
      else if cmp < 0 then search_loop m compare key fuel (m.nodes current).left
      else search_loop m compare key fuel (m.nodes current).right
    else some NULL

/-- The function `rb_tree_search`. -/
def rb_tree_search (m : rb_mem) (tree : rb_tree_t) (key : Nat) : Option Nat :=
  search_loop m tree.compare key m.next tree.root

/-- The descent loop of `rb_tree_insert`: `inl node` is the early `return current` on a
conflict, `inr (parent, left)` the state when the loop ends. -/
def insert_loop (m : rb_mem) (tree : rb_tree_t) (key : Nat) :
    Nat → Nat → Nat → Bool → Option (Nat ⊕ (Nat × Bool))
  | 0, _, _, _ => none
  | fuel + 1, current, parent, left =>
    if current ≠ NIL then
      let cmp := tree.compare key (m.nodes current).key
      if tree.unique ∧ cmp = 0 then
        -- Conflict. Return the node.
        some (.inl current)
      else if cmp < 0 then insert_loop m tree key fuel (m.nodes current).left current true
      else insert_loop m tree key fuel (m.nodes current).right current false
    else some (.inr (parent, left))

/-- The function `rb_tree_insert`: the memory, the tree and the pointer returned (`NULL`
when the entry was added). -/
def rb_tree_insert (m : rb_mem) (tree : rb_tree_t) (key value : Nat) :
    Option (rb_mem × rb_tree_t × Nat) :=
  match insert_loop m tree key m.next tree.root NULL false with
  | none => none
  | some (.inl current) => some (m, tree, current)
  | some (.inr (parent, left)) =>
    let tree := { tree with size := tree.size + 1 }
    let (m, node) := rb_node_create m key value
    if parent = NULL then
      let tree := { tree with root := node }
      match rb_tree_insert_fixup m tree node with
      | none => none
      | some (m, tree) => some (m, tree, NULL)
    else
      let m := set_parent m node parent
      let m := if left then set_left m parent node else set_right m parent node
      match rb_tree_insert_fixup m tree node with
      | none => none
      | some (m, tree) => some (m, tree, NULL)

/-- The loop of `rb_tree_remove`: the node whose key compares equal, or `NULL`. -/
def remove_loop (m : rb_mem) (compare : Nat → Nat → Int) (key : Nat) : Nat → Nat → Option Nat
  | 0, _ => none
  | fuel + 1, current =>
    if current ≠ NIL then
      let cmp := compare key (m.nodes current).key
      if cmp = 0 then some current
      else if cmp < 0 then remove_loop m compare key fuel (m.nodes current).left
      else remove_loop m compare key fuel (m.nodes current).right
    else some NULL

/-- The function `rb_tree_remove`: the memory, the tree and the node returned (`NULL` when
no key compares equal). -/
def rb_tree_remove (m : rb_mem) (tree : rb_tree_t) (key : Nat) :
    Option (rb_mem × rb_tree_t × Nat) :=
  match remove_loop m tree.compare key m.next tree.root with
  | none => none
  | some current =>
    if current = NULL then some (m, tree, NULL)
    else rb_tree_remove_node m tree current
/-! ## Red-black tree: iterator and 64-bit sets -/

/-- The structure `rb_iter_t`; `tree` stands for the pointer to the tree (only its
comparator is read through it). -/
structure rb_iter_t where
  tree : rb_tree_t
  root : Nat
  node : Nat

def rb_iter_init (tree : rb_tree_t) : rb_iter_t :=
  { tree := tree, root := tree.root, node := NIL }

def rb_iter_valid (iter : rb_iter_t) : Bool :=
  iter.node ≠ NIL

def rb_iter_seek_first (m : rb_mem) (iter : rb_iter_t) : Option rb_iter_t :=
  match rb_node_min m iter.root with
  | none => none
  | some z => some { iter with node := z }

def rb_iter_seek_last (m : rb_mem) (iter : rb_iter_t) : Option rb_iter_t :=
  match rb_node_max m iter.root with
  | none => none
  | some z => some { iter with node := z }

/-- The loop of `rb_iter_seek_min`, returning `current`. -/
def seek_min_loop (m : rb_mem) (compare : Nat → Nat → Int) (key : Nat) :
    Nat → Nat → Nat → Option Nat
  | 0, _, _ => none
  | fuel + 1, root, current =>
    if root ≠ NIL then
      let cmp := compare (m.nodes root).key key
      if cmp = 0 then some root
      else if cmp > 0 then seek_min_loop m compare key fuel (m.nodes root).left root
      else seek_min_loop m compare key fuel (m.nodes root).right current
    else some current

/-- The loop of `rb_iter_seek_max`, returning `current`. -/
def seek_max_loop (m : rb_mem) (compare : Nat → Nat → Int) (key : Nat) :
    Nat → Nat → Nat → Option Nat
  | 0, _, _ => none
  | fuel + 1, root, current =>
    if root ≠ NIL then
      let cmp := compare (m.nodes root).key key
      if cmp = 0 then some root
      else if cmp < 0 then seek_max_loop m compare key fuel (m.nodes root).right root
      else seek_max_loop m compare key fuel (m.nodes root).left current
    else some current

def rb_iter_seek_min (m : rb_mem) (iter : rb_iter_t) (key : Nat) : Option rb_iter_t :=
  match seek_min_loop m iter.tree.compare key m.next iter.root NIL with
  | none => none
  | some current => some { iter with node := current }

def rb_iter_seek_max (m : rb_mem) (iter : rb_iter_t) (key : Nat) : Option rb_iter_t :=
  match seek_max_loop m iter.tree.compare key m.next iter.root NIL with
  | none => none
  | some current => some { iter with node := current }

def rb_iter_seek (m : rb_mem) (iter : rb_iter_t) (key : Nat) : Option rb_iter_t :=
  rb_iter_seek_min m iter key

/-- The function `rb_iter_next`: the iterator after the call and the value returned. -/
def rb_iter_next (m : rb_mem) (iter : rb_iter_t) : Option (rb_iter_t × Int) :=
  if iter.node = NIL then some (iter, 0)
  else
    match rb_node_successor m iter.node with
    | none => none
    | some y => some ({ iter with node := y }, 1)

def rb_iter_prev (m : rb_mem) (iter : rb_iter_t) : Option (rb_iter_t × Int) :=
  if iter.node = NIL then some (iter, 0)
  else
    match rb_node_predecessor m iter.node with
    | none => none
    | some y => some ({ iter with node := y }, 1)

def rb_iter_key (m : rb_mem) (iter : rb_iter_t) : Nat :=
  (m.nodes iter.node).key

def rb_iter_value (m : rb_mem) (iter : rb_iter_t) : Nat :=
  (m.nodes iter.node).value

/-- The traversal `for (rb_iter_seek_first(it); rb_iter_valid(it); rb_iter_next(it))`,
collecting the key and the value at every position; `steps` bounds the number of
positions visited (`none` when the iterator is still valid after that many). -/
def iter_collect (m : rb_mem) : Nat → rb_iter_t → Option (List (Nat × Nat))
  | 0, iter => if rb_iter_valid iter then none else some []
  | steps + 1, iter =>
    if rb_iter_valid iter then
      match rb_iter_next m iter with
      | none => none
      | some (iter1, _) =>
        match iter_collect m steps iter1 with
        | none => none
        | some rest => some ((rb_iter_key m iter, rb_iter_value m iter) :: rest)
    else some []

def rb_set64_compare (x y : Nat) : Int :=
  if x = y then 0 else if x < y then -1 else 1

def rb_set64_init : rb_tree_t :=
  rb_tree_init rb_set64_compare true

/-- The function `rb_set64_has`: `true` for a non-zero result. -/
def rb_set64_has (m : rb_mem) (tree : rb_tree_t) (item : Nat) : Option Bool :=
  match rb_tree_search m tree item with
  | none => none
  | some node => some (node ≠ NULL)

/-- The function `rb_set64_put`: the memory, the tree and the result (`true` for 1). -/
def rb_set64_put (m : rb_mem) (tree : rb_tree_t) (item : Nat) :
    Option (rb_mem × rb_tree_t × Bool) :=
  match rb_tree_insert m tree item 0 with
  | none => none
  | some (m, tree, node) => some (m, tree, node = NULL)

/-- The function `rb_set64_del`; the `free` done by `rb_node_destroy` is not modelled
(addresses are never reused). -/
def rb_set64_del (m : rb_mem) (tree : rb_tree_t) (item : Nat) :
    Option (rb_mem × rb_tree_t × Bool) :=
  match rb_tree_remove m tree item with
  | none => none
  | some (m, tree, node) => some (m, tree, node ≠ NULL)

/-! ## Red-black tree: the tree that a memory represents -/

/-- The shape of a tree in memory: every node with its address, colour, key and value. -/
inductive rbt where
  | nil : rbt
  | node (l : rbt) (x : Nat) (c : rb_color) (k v : Nat) (r : rbt) : rbt

/-- The pointer to the root of a tree: `NIL` for the empty tree. -/
def rbt.ptr : rbt → Nat
  | .nil => NIL
  | .node _ x _ _ _ _ => x

/-- The colour of the root; the empty tree (the sentinel) is black. -/
def rbt.color : rbt → rb_color
  | .nil => .RB_BLACK
  | .node _ _ c _ _ _ => c

/-- The nodes in order: address, key and value. -/
def rbt.items : rbt → List (Nat × Nat × Nat)
  | .nil => []
  | .node l x _ k v r => l.items ++ (x, k, v) :: r.items

/-- The addresses of the nodes, in order. -/
def rbt.ids : rbt → List Nat
  | .nil => []
  | .node l x _ _ _ r => l.ids ++ x :: r.ids

/-- The stored entries (key, value), in order. -/
def rbt.entries (t : rbt) : List (Nat × Nat) :=
  t.items.map fun e => e.2

/-- The stored keys, in order. -/
def rbt.keys (t : rbt) : List Nat :=
  t.items.map fun e => e.2.1

/-- The number of nodes on the longest path from the root. -/
def rbt.height : rbt → Nat
  | .nil => 0
  | .node l _ _ _ _ r => max l.height r.height + 1

/-- The number of black nodes on the leftmost path. -/
def rbt.bh : rbt → Nat
  | .nil => 0
  | .node l _ c _ _ _ => l.bh + (if c = .RB_BLACK then 1 else 0)

/-- The red-black conditions below the root: no red node has a red child, and the two
subtrees of every node have the same black height. -/
def rbt.rb_ok : rbt → Prop
  | .nil => True
  | .node l _ c _ _ r =>
    l.rb_ok ∧ r.rb_ok ∧ l.bh = r.bh ∧ (c = .RB_RED → l.color = .RB_BLACK ∧ r.color = .RB_BLACK)

/-- The memory `m` holds the tree `t` below a parent `par`: every node has the fields
that `t` gives it. -/
def tree_rep (m : rb_mem) : rbt → Nat → Prop
  | .nil, _ => True
  | .node l x c k v r, par =>
    m.nodes x = { key := k, value := v, color := c, parent := par, left := l.ptr,
                  right := r.ptr }
    ∧ tree_rep m l x ∧ tree_rep m r x

/-- One step of the path from a node up to the root: the parent `x`, on which side of it
the path comes from (`left`), and the parent's other subtree `sib`. -/
structure rb_frame where
  left : Bool
  x : Nat
  c : rb_color
  k : Nat
  v : Nat
  sib : rbt

/-- Put a subtree back below a frame. -/
def rb_frame.plug (f : rb_frame) (t : rbt) : rbt :=
  if f.left then .node t f.x f.c f.k f.v f.sib else .node f.sib f.x f.c f.k f.v t

/-- The whole tree: the subtree `t` below the path `path` (nearest frame first). -/
def zip : List rb_frame → rbt → rbt
  | [], t => t
  | f :: fs, t => zip fs (f.plug t)

/-- The parent pointer of the subtree below a path. -/
def path_ptr : List rb_frame → Nat
  | [] => NIL
  | f :: _ => f.x

/-- The memory `m` holds the nodes of the path, above a subtree whose root pointer is
`hole`. -/
def path_rep (m : rb_mem) : List rb_frame → Nat → Prop
  | [], _ => True
  | f :: fs, hole =>
    m.nodes f.x = { key := f.k, value := f.v, color := f.c, parent := path_ptr fs,
                    left := if f.left then hole else f.sib.ptr,
                    right := if f.left then f.sib.ptr else hole }
    ∧ tree_rep m f.sib f.x ∧ path_rep m fs f.x

/-- The addresses of the nodes of a path: the frames and their other subtrees. -/
def path_ids : List rb_frame → List Nat
  | [] => []
  | f :: fs => f.x :: f.sib.ids ++ path_ids fs

/-- The items of a path: those before the hole and those after it. -/
def path_before : List rb_frame → List (Nat × Nat × Nat)
  | [] => []
  | f :: fs => path_before fs ++ (if f.left then [] else f.sib.items ++ [(f.x, f.k, f.v)])

def path_after : List rb_frame → List (Nat × Nat × Nat)
  | [] => []
  | f :: fs => (if f.left then (f.x, f.k, f.v) :: f.sib.items else []) ++ path_after fs

/-- The red-black conditions of a path around a hole of black height `n` whose root has
colour `c`. -/
def path_ok : List rb_frame → Nat → rb_color → Prop
  | [], _, _ => True
  | f :: fs, n, c =>
    f.sib.rb_ok ∧ f.sib.bh = n ∧ (f.c = .RB_RED → c = .RB_BLACK ∧ f.sib.color = .RB_BLACK)
    ∧ path_ok fs (n + (if f.c = .RB_BLACK then 1 else 0)) f.c

/-- The root of the tree around the hole (the last frame) is black. -/
def path_root_black : List rb_frame → Prop
  | [] => True
  | [f] => f.c = .RB_BLACK
  | _ :: f :: fs => path_root_black (f :: fs)

/-- The comparator is a total order: the sign of `compare a b` is opposite to the sign of
`compare b a`, and "not above" is transitive. -/
def total_order (compare : Nat → Nat → Int) : Prop :=
  (∀ a b, compare a b < 0 ↔ 0 < compare b a)
  ∧ (∀ a b c, compare a b ≤ 0 → compare b c ≤ 0 → compare a c ≤ 0)

/-- The keys are in non-decreasing order. -/
def keys_sorted (compare : Nat → Nat → Int) (ks : List Nat) : Prop :=
  ks.Pairwise fun a b => compare a b ≤ 0

/-- The keys are in strictly increasing order. -/
def keys_strict (compare : Nat → Nat → Int) (ks : List Nat) : Prop :=
  ks.Pairwise fun a b => compare a b < 0

/-- The search of `rb_tree_search` on the tree: the address of the first node on the search
path whose key compares equal, `NULL` when the path ends. -/
def rbt.find (compare : Nat → Nat → Int) (key : Nat) : rbt → Nat
  | .nil => NULL
  | .node l x _ k _ r =>
    if compare key k = 0 then x
    else if compare key k < 0 then l.find compare key
    else r.find compare key

/-- The tree after the assignment `z->color = c`. -/
def rbt.recolor (z : Nat) (c : rb_color) : rbt → rbt
  | .nil => .nil
  | .node l x cx k v r =>
    .node (l.recolor z c) x (if x = z then c else cx) k v (r.recolor z c)

/-- The frame after the assignment `z->color = c`. -/
def rb_frame.recolor (z : Nat) (c : rb_color) (f : rb_frame) : rb_frame :=
  { f with c := if f.x = z then c else f.c, sib := f.sib.recolor z c }

/-- The descent of `rb_tree_insert` from the subtree `t` below `path`: `inl x` when the
key conflicts with the node `x` of a unique tree, `inr p` with the path `p` to the empty
place where the descent ends. -/
def rbt.descend (compare : Nat → Nat → Int) (unique : Bool) (key : Nat) :
    rbt → List rb_frame → Nat ⊕ List rb_frame
  | .nil, path => .inr path
  | .node l x c k v r, path =>
    if unique = true ∧ compare key k = 0 then .inl x
    else if compare key k < 0 then
      l.descend compare unique key ({ left := true, x := x, c := c, k := k, v := v, sib := r } :: path)
    else
      r.descend compare unique key ({ left := false, x := x, c := c, k := k, v := v, sib := l } :: path)

/-- The variables `parent` and `left` of `rb_tree_insert` when the descent has followed
`path`. -/
def path_par : List rb_frame → Nat × Bool
  | [] => (NULL, false)
  | f :: _ => (f.x, f.left)

/-- The red-black invariants of a tree in memory: the memory holds the binary tree `t`
below `tree.root`, at distinct allocated addresses (`rep`, `root`, `nodup`, `alloc`); no
red node has a red child and every path from the root to a leaf has the same number of
black nodes (`ok`); the root and the sentinel are black; the keys are in order under the
comparator (`sorted`). -/
structure tree_inv (m : rb_mem) (tree : rb_tree_t) (t : rbt) : Prop where
  rep : tree_rep m t NIL
  root : tree.root = t.ptr
  nodup : t.ids.Nodup
  alloc : ∀ x ∈ t.ids, 2 ≤ x ∧ x < m.next
  next_ge : 2 ≤ m.next
  sentinel : (m.nodes NIL).color = .RB_BLACK
  ok : t.rb_ok
  black : t.color = .RB_BLACK
  sorted : keys_sorted tree.compare t.keys

/-- The memory `m` holds the whole tree `T` at distinct addresses other than `NULL` and
`NIL`. -/
def heap_ok (m : rb_mem) (T : rbt) : Prop :=
  tree_rep m T NIL ∧ T.ids.Nodup ∧ ∀ z ∈ T.ids, 2 ≤ z

/-- The tree after the assignment `root->color = BLACK`. -/
def rbt.blacken : rbt → rbt
  | .nil => .nil
  | .node l x _ k v r => .node l x .RB_BLACK k v r

/-- The loop of `rb_tree_insert_fixup` on the tree: `t` is the subtree at `x`, `path`
leads from it to the root. The result is the whole tree when the loop ends; `none` when
the loop would read the parent of the root. -/
def ins_fix : List rb_frame → rbt → Option rbt
  | [], t => some t
  | [f], t => if f.c = .RB_RED then none else some (f.plug t)
  | f1 :: f2 :: rest, t =>
    if f1.c = .RB_RED then
      if f2.sib.color = .RB_RED then
        ins_fix rest (rb_frame.plug { f2 with c := .RB_RED, sib := f2.sib.blacken }
          (rb_frame.plug { f1 with c := .RB_BLACK } t))
      else if f2.left then
        if f1.left then
          some (zip rest (.node t f1.x .RB_BLACK f1.k f1.v
            (.node f1.sib f2.x .RB_RED f2.k f2.v f2.sib)))
        else
          match t with
          | .nil => none
          | .node tl x _ k v tr =>
            some (zip rest (.node (.node f1.sib f1.x f1.c f1.k f1.v tl) x .RB_BLACK k v
              (.node tr f2.x .RB_RED f2.k f2.v f2.sib)))
      else
        if f1.left then
          match t with
          | .nil => none
          | .node tl x _ k v tr =>
            some (zip rest (.node (.node f2.sib f2.x .RB_RED f2.k f2.v tl) x .RB_BLACK k v
              (.node tr f1.x f1.c f1.k f1.v f1.sib)))
        else
          some (zip rest (.node (.node f2.sib f2.x .RB_RED f2.k f2.v f1.sib)
            f1.x .RB_BLACK f1.k f1.v t))
    else some (zip (f1 :: f2 :: rest) t)

/-- The comparisons made on the way down `path` by the descent of `rb_tree_insert`. -/
def path_bounds (compare : Nat → Nat → Int) (unique : Bool) (key : Nat) :
    List rb_frame → Prop
  | [] => True
  | f :: fs =>
    (if f.left then compare key f.k < 0
     else ¬ (unique = true ∧ compare key f.k = 0) ∧ ¬ compare key f.k < 0)
    ∧ path_bounds compare unique key fs

/-- One iteration of the loop of `rb_tree_remove_fixup` once the sibling is black, on the
tree: `f` is the parent of `x` with the sibling, `X` the subtree at `x`. The result is the
new subtree in the place of the parent: `inl` when the loop goes on with `x = x->parent`,
`inr` when it ends with `x = tree->root`. -/
def del_black (f : rb_frame) (X : rbt) : Option (rbt ⊕ rbt) :=
  match f.sib with
  | .nil => none
  | .node wl w _ wk wv wr =>
    if f.left then
      if wl.color = .RB_BLACK ∧ wr.color = .RB_BLACK then
        some (.inl (.node X f.x f.c f.k f.v (.node wl w .RB_RED wk wv wr)))
      else if wr.color = .RB_BLACK then
        match wl with
        | .nil => none
        | .node a w3 _ k3 v3 b =>
          some (.inr (.node (.node X f.x .RB_BLACK f.k f.v a) w3 f.c k3 v3
            (.node b w .RB_BLACK wk wv wr)))
      else
        some (.inr (.node (.node X f.x .RB_BLACK f.k f.v wl) w f.c wk wv wr.blacken))
    else
      if wr.color = .RB_BLACK ∧ wl.color = .RB_BLACK then
        some (.inl (.node (.node wl w .RB_RED wk wv wr) f.x f.c f.k f.v X))
      else if wl.color = .RB_BLACK then
        match wr with
        | .nil => none
        | .node a w3 _ k3 v3 b =>
          some (.inr (.node (.node wl w .RB_BLACK wk wv a) w3 f.c k3 v3
            (.node b f.x .RB_BLACK f.k f.v X)))
      else
        some (.inr (.node wl.blacken w f.c wk wv (.node wr f.x .RB_BLACK f.k f.v X)))

/-- The loop of `rb_tree_remove_fixup` on the tree: the path and the subtree at `x` when
the loop ends; `none` when the loop would read the fields of the sentinel as a sibling. -/
def del_loop : List rb_frame → rbt → Option (List rb_frame × rbt)
  | [], X => some ([], X)
  | f :: rest, X =>
    if X.color = .RB_RED then some (f :: rest, X)
    else
      match f.sib with
      | .nil => none
      | .node wl w wc wk wv wr =>
        if wc = .RB_RED then
          match del_black { f with c := .RB_RED, sib := if f.left then wl else wr } X with
          | none => none
          | some (.inl S) =>
            some ({ left := f.left, x := w, c := .RB_BLACK, k := wk, v := wv,
                    sib := if f.left then wr else wl } :: rest, S)
          | some (.inr S) =>
            some ([], zip ({ left := f.left, x := w, c := .RB_BLACK, k := wk, v := wv,
                             sib := if f.left then wr else wl } :: rest) S)
        else
          match del_black f X with
          | none => none
          | some (.inl S) => del_loop rest S
          | some (.inr S) => some ([], zip rest S)

/-- The result of the black-sibling part of an iteration: what `del_black` gives. -/
def del_black_post (m1 : rb_mem) (tree tree1 : rb_tree_t) (x1 : Nat) (f : rb_frame)
    (rest : List rb_frame) : rbt ⊕ rbt → Prop
  | .inl S => tree1 = tree ∧ x1 = f.x ∧ S.ptr = f.x ∧ S.color = f.c ∧ heap_ok m1 (zip rest S)
  | .inr S => tree1 = { tree with root := (zip rest S).ptr } ∧ x1 = (zip rest S).ptr
      ∧ heap_ok m1 (zip rest S)

/-- The path from the subtree `t` (below `path`) down to its leftmost node, and the
subtree at that node. -/
def rbt.min_path : rbt → List rb_frame → List rb_frame × rbt
  | .nil, path => (path, .nil)
  | .node .nil y c k v r, path => (path, .node .nil y c k v r)
  | .node (.node ll x cl kl vl lr) y c k v r, path =>
    (rbt.node ll x cl kl vl lr).min_path
      ({ left := true, x := y, c := c, k := k, v := v, sib := r } :: path)

/-- The path from the subtree `t` (below `path`) down to its rightmost node, and the
subtree at that node. -/
def rbt.max_path : rbt → List rb_frame → List rb_frame × rbt
  | .nil, path => (path, .nil)
  | .node l y c k v .nil, path => (path, .node l y c k v .nil)
  | .node l y c k v (.node rl x cr kr vr rr), path =>
    (rbt.node rl x cr kr vr rr).max_path
      ({ left := false, x := y, c := c, k := k, v := v, sib := l } :: path)

/-- The search of `rb_tree_remove` on the tree: the path to the first node on the search
path whose key compares equal, and the subtree at that node. -/
def rbt.find_path (compare : Nat → Nat → Int) (key : Nat) :
    rbt → List rb_frame → Option (List rb_frame × rbt)
  | .nil, _ => none
  | .node l x c k v r, path =>
    if compare key k = 0 then some (path, .node l x c k v r)
    else if compare key k < 0 then
      l.find_path compare key ({ left := true, x := x, c := c, k := k, v := v, sib := r } :: path)
    else
      r.find_path compare key ({ left := false, x := x, c := c, k := k, v := v, sib := l } :: path)

/-- The two memories hold the same key and value at every address. -/
def kv_same (m1 m : rb_mem) : Prop :=
  ∀ a, (m1.nodes a).key = (m.nodes a).key ∧ (m1.nodes a).value = (m.nodes a).value

/-- The memory after the assignments of `rb_tree_remove_node` that unlink the node below
the path `Q`: its child `X` takes its place. -/
def splice_mem (m : rb_mem) (Q : List rb_frame) (X : rbt) : rb_mem :=
  if path_ptr Q = NIL then set_parent m X.ptr (path_ptr Q)
  else if (path_par Q).2 = true then
    set_left (set_parent m X.ptr (path_ptr Q)) (path_ptr Q) X.ptr
  else set_right (set_parent m X.ptr (path_ptr Q)) (path_ptr Q) X.ptr

/-- The address of the first node of a sequence of nodes, `NIL` when there is none. -/
def first_ptr : List (Nat × Nat × Nat) → Nat
  | [] => NIL
  | e :: _ => e.1

/-- The address of the node found by a seek, `cur` when there is none. -/
def found_ptr (cur : Nat) : Option (Nat × Nat × Nat) → Nat
  | some e => e.1
  | none => cur

/-- The node that `rb_iter_seek_min` finds in the tree: the first node in order whose key
is not below `key`, if any. The search mirrors the loop of `rb_iter_seek_min`. -/
def rbt.lower (compare : Nat → Nat → Int) (key : Nat) : rbt → Option (Nat × Nat × Nat)
  | .nil => none
  | .node l x _ k v r =>
    if compare k key = 0 then some (x, k, v)
    else if compare k key > 0 then
      match l.lower compare key with
      | some e => some e
      | none => some (x, k, v)
    else r.lower compare key

/-- The node that `rb_iter_seek_max` finds in the tree: the last node in order whose key
is not above `key`, if any. -/
def rbt.upper (compare : Nat → Nat → Int) (key : Nat) : rbt → Option (Nat × Nat × Nat)
  | .nil => none
  | .node l x _ k v r =>
    if compare k key = 0 then some (x, k, v)
    else if compare k key < 0 then
      match r.upper compare key with
      | some e => some e
      | none => some (x, k, v)
    else l.upper compare key

/-- The same traversal as `iter_collect`, collecting the node at every position. -/
def iter_nodes (m : rb_mem) : Nat → rb_iter_t → Option (List Nat)
  | 0, iter => if rb_iter_valid iter then none else some []
  | steps + 1, iter =>
    if rb_iter_valid iter then
      match rb_iter_next m iter with
      | none => none
      | some (iter1, _) =>
        match iter_nodes m steps iter1 with
        | none => none
        | some rest => some (iter.node :: rest)
    else some []

/-- The entries that the traversal of the tree visits, in the order of the visit: the
iterator is placed by `rb_iter_seek_first` and moved by `rb_iter_next` while
`rb_iter_valid` holds (`none` when it is still valid after `tree.size` positions). -/
def rb_traverse (m : rb_mem) (tree : rb_tree_t) : Option (List (Nat × Nat)) :=
  match rb_iter_seek_first m (rb_iter_init tree) with
  | none => none
  | some iter => iter_collect m tree.size iter

/-- The nodes that the traversal of the tree visits. -/
def rb_traverse_nodes (m : rb_mem) (tree : rb_tree_t) : Option (List Nat) :=
  match rb_iter_seek_first m (rb_iter_init tree) with
  | none => none
  | some iter => iter_nodes m tree.size iter

/-- The list of entries without the first occurrence of the entry `e`. -/
def erase_entry (e : Nat × Nat) : List (Nat × Nat) → List (Nat × Nat)
  | [] => []
  | a :: rest => if a = e then rest else a :: erase_entry e rest

/-- A call of `rb_tree_insert` or of `rb_tree_remove`. -/
inductive rb_op where
  | insert (key value : Nat)
  | remove (key : Nat)

/-- The calls `ops` made one after the other on the tree `tree` in the memory `m`. The
list `stored` records the entries stored by the calls: a call of `rb_tree_insert` that
returns `NULL` has stored its entry, and a call of `rb_tree_remove` that returns a node has
taken out the entry that the node carries. -/
def rb_run_from (m : rb_mem) (tree : rb_tree_t) (stored : List (Nat × Nat)) :
    List rb_op → Option (rb_mem × rb_tree_t × List (Nat × Nat))
  | [] => some (m, tree, stored)
  | .insert key value :: ops =>
    match rb_tree_insert m tree key value with
    | none => none
    | some (m1, tree1, node) =>
      rb_run_from m1 tree1 (if node = NULL then (key, value) :: stored else stored) ops
  | .remove key :: ops =>
    match rb_tree_remove m tree key with
    | none => none
    | some (m1, tree1, node) =>
      rb_run_from m1 tree1
        (if node = NULL then stored
         else erase_entry ((m1.nodes node).key, (m1.nodes node).value) stored) ops

/-- The calls `ops` on the tree that `rb_tree_init` makes in the memory at program start. -/
def rb_run (compare : Nat → Nat → Int) (unique : Bool) (ops : List rb_op) :
    Option (rb_mem × rb_tree_t × List (Nat × Nat)) :=
  rb_run_from rb_mem_init (rb_tree_init compare unique) [] ops

/-- The memory `m` holds the tree `t` for `tree`, with the entries `stored`; the keys of a
unique tree are strictly increasing. -/
structure rb_reach (m : rb_mem) (tree : rb_tree_t) (stored : List (Nat × Nat)) (t : rbt) :
    Prop where
  inv : tree_inv m tree t
  size : tree.size = t.ids.length
  perm : t.entries.Perm stored
  strict : tree.unique = true → keys_strict tree.compare t.keys

/-- A call of `rb_set64_put`, `rb_set64_del` or `rb_set64_has`. -/
inductive set64_op where
  | put (item : Nat)
  | del (item : Nat)
  | has (item : Nat)

/-- One call on the set, with its result (`true` for a non-zero result). -/
def set64_apply (m : rb_mem) (tree : rb_tree_t) : set64_op → Option (rb_mem × rb_tree_t × Bool)
  | .put item => rb_set64_put m tree item
  | .del item => rb_set64_del m tree item
  | .has item =>
    match rb_set64_has m tree item with
    | none => none
    | some b => some (m, tree, b)

/-- The calls `ops` made one after the other on the set, with the list of their results. -/
def set64_run_from (m : rb_mem) (tree : rb_tree_t) :
    List set64_op → Option (rb_mem × rb_tree_t × List Bool)
  | [] => some (m, tree, [])
  | op :: ops =>
    match set64_apply m tree op with
    | none => none
    | some (m1, tree1, b) =>
      match set64_run_from m1 tree1 ops with
      | none => none
      | some (m2, tree2, bs) => some (m2, tree2, b :: bs)

/-- The calls `ops` on the set that `rb_set64_init` makes in the memory at program start. -/
def set64_run (ops : List set64_op) : Option (rb_mem × rb_tree_t × List Bool) :=
  set64_run_from rb_mem_init rb_set64_init ops

/-- The specification of one call on a mathematical finite set: the set afterwards and the
result of the call. -/
def set_spec_step (s : Finset Nat) : set64_op → Finset Nat × Bool
  | .put item => (insert item s, decide (item ∉ s))
  | .del item => (s.erase item, decide (item ∈ s))
  | .has item => (s, decide (item ∈ s))

/-- The specification of a sequence of calls on a mathematical finite set: the set at the
end and the results of the calls. -/
def set_spec_run (s : Finset Nat) : List set64_op → Finset Nat × List Bool
  | [] => (s, [])
  | op :: ops =>
    ((set_spec_run (set_spec_step s op).1 ops).1,
     (set_spec_step s op).2 :: (set_spec_run (set_spec_step s op).1 ops).2)

/-- The function `rb_node_clear`, a recursion over the nodes below `node`. The `free` of
every node is not modelled (addresses are never reused) and the callback `clear` releases
the payload of a node only, so the memory is left as it is; the result is `none` when the
recursion has not ended within `fuel` nested calls. -/
def rb_node_clear (m : rb_mem) : Nat → Nat → Option Unit
  | 0, _ => none
  | fuel + 1, node =>
    if node ≠ NIL then
      match rb_node_clear m fuel (m.nodes node).left with
      | none => none
      | some _ =>
        match rb_node_clear m fuel (m.nodes node).right with
        | none => none
        | some _ => some ()
    else some ()

/-- The function `rb_tree_reset`. -/
def rb_tree_reset (m : rb_mem) (tree : rb_tree_t) : Option (rb_mem × rb_tree_t) :=
  match rb_node_clear m m.next tree.root with
  | none => none
  | some _ => some (m, { tree with root := NIL })

/-- The number of nodes reachable from the node `x` through the `left` and `right`
pointers, `x` included; `none` when the count has not ended within `fuel` levels. -/
def count_nodes (m : rb_mem) : Nat → Nat → Option Nat
  | 0, _ => none
  | fuel + 1, x =>
    if x = NIL then some 0
    else
      match count_nodes m fuel (m.nodes x).left, count_nodes m fuel (m.nodes x).right with
      | some a, some b => some (a + b + 1)
      | _, _ => none

/-- No red node of the tree has a red child. -/
def rbt.no_red_red : rbt → Prop
  | .nil => True
  | .node l _ c _ _ r =>
    l.no_red_red ∧ r.no_red_red ∧ (c = .RB_RED → l.color = .RB_BLACK ∧ r.color = .RB_BLACK)

/-- The number of black nodes on every path from the root to a leaf, from left to
right. -/
def rbt.black_counts : rbt → List Nat
  | .nil => [0]
  | .node l _ c _ _ r =>
    (l.black_counts ++ r.black_counts).map fun n => n + (if c = .RB_BLACK then 1 else 0)

/-- The tree in memory below `tree.root` satisfies the red-black invariants: the memory
holds a binary tree whose keys are in order under the comparator, whose root is black, in
which no red node has a red child and every path from the root to a leaf has the same
number of black nodes (see `tree_inv` and `rb_ok_iff`). -/
def rb_invariants (m : rb_mem) (tree : rb_tree_t) : Prop :=
  ∃ t : rbt, tree_inv m tree t

/-! ## Example policies -/

/-- An always-true policy that builds empty filters (a policy without false negatives). -/
def policy_true : ldb_bloom_t :=
  { build := fun _ => [], key_match := fun _ _ => true }

/-- A policy whose match rejects every filter shorter than two bytes and accepts every
other one. -/
def policy_len : ldb_bloom_t :=
  { build := fun _ => [1, 1], key_match := fun f _ => decide (2 ≤ f.length) }

/-- A policy whose filters are `2 ^ 32` bytes long; its match accepts exactly the filters
of that length, so it has no false negatives. -/
def policy_big : ldb_bloom_t :=
  { build := fun _ => List.replicate (2 ^ 32) 0,
    key_match := fun f _ => decide (f.length = 2 ^ 32) }

/-! ## Slice comparison (contrib/lwdb/lwdb.c) -/

/-- The function `ldb_slice_compare`; `x->size` and `y->size` are the lengths of the two
byte strings. -/
def ldb_slice_compare (x y : Bytes) : Int :=
  let n := if x.length < y.length then x.length else y.length
  let r := if n ≠ 0 then memcmp x y n else 0
  if r = 0 then
    if x.length < y.length then -1
    else if x.length > y.length then 1
    else r
  else r

/-- A policy whose filters are `2 ^ 32` bytes, every byte `1`; its match accepts every
key. -/
def policy_ones : ldb_bloom_t :=
  { build := fun _ => List.replicate (2 ^ 32) 1, key_match := fun _ _ => true }

/-- A value for the parameter `wide` of `uint64_shr`: the 64-bit shift instructions of
x86-64 and AArch64 take the count modulo 64. -/
def shr_mod64 (x s : Nat) : Nat := x >>> (s % 64)

/-! ## The reader on a single lookup -/

theorem uint64_shr_lt (wide : Nat → Nat → Nat) (x : Nat) {s : Nat} (h : s < 64) :
    uint64_shr wide x s = x >>> s :=
  if_pos h

theorem uint64_shr_ge (wide : Nat → Nat → Nat) (x : Nat) {s : Nat} (h : 64 ≤ s) :
    uint64_shr wide x s = wide x s :=
  if_neg (Nat.not_lt.mpr h)

/-- The accepted block `01 02 03 | 00 00 00 00 | 03 00 00 00 | 40` has one filter and
`base_lg = 64`. With the shift of x86-64 (count modulo 64) block offset 1 has index
`1 = num`: the reader returns `true` and does not consult the policy, whose match on the
filter `bytes[0..3]` is `false`. -/
theorem filterreader_wide_count_out_of_range :
    (ldb_filterreader_init policy_big [1, 2, 3, 0, 0, 0, 0, 3, 0, 0, 0, 64]).base_lg = 64
    ∧ (ldb_filterreader_init policy_big [1, 2, 3, 0, 0, 0, 0, 3, 0, 0, 0, 64]).num = 1
    ∧ uint64_shr shr_mod64 1 64 = 1
    ∧ policy_big.key_match (slice [1, 2, 3, 0, 0, 0, 0, 3, 0, 0, 0, 64] 0 3) [] = false
    ∧ ldb_filterreader_matches shr_mod64
        (ldb_filterreader_init policy_big [1, 2, 3, 0, 0, 0, 0, 3, 0, 0, 0, 64]) 1 [] = true := by
  decide

/-- C5, failing input: the block `00 00 00 00 | 00 00 00 00 | 0b` is what the builder
returns after `start_block(2048)` and `finish` (one filter, generated without keys); it
is accepted and holds one filter with `start = limit = 0`, a filter of length zero; with
a policy whose match accepts the empty filter the reader answers `true` for block
offset 0. -/
theorem filterreader_empty_filter_counterexample :
    (ldb_filterbuilder_start_block (ldb_filterbuilder_init policy_true) 2048).map
        (fun fb => (ldb_filterbuilder_finish fb).2) = some [0, 0, 0, 0, 0, 0, 0, 0, 11]
    ∧ 5 ≤ ([0, 0, 0, 0, 0, 0, 0, 0, 11] : Bytes).length
    ∧ ldb_fixed32_decode [0, 0, 0, 0, 0, 0, 0, 0, 11] 4 ≤ 4
    ∧ (ldb_filterreader_init policy_true [0, 0, 0, 0, 0, 0, 0, 0, 11]).base_lg = 11
    ∧ uint64_shr shr_mod64 0
          (ldb_filterreader_init policy_true [0, 0, 0, 0, 0, 0, 0, 0, 11]).base_lg
        < (ldb_filterreader_init policy_true [0, 0, 0, 0, 0, 0, 0, 0, 11]).num
    ∧ ldb_fixed32_decode [0, 0, 0, 0, 0, 0, 0, 0, 11] 0
        = ldb_fixed32_decode [0, 0, 0, 0, 0, 0, 0, 0, 11] 4
    ∧ ldb_filterreader_matches shr_mod64
        (ldb_filterreader_init policy_true [0, 0, 0, 0, 0, 0, 0, 0, 11]) 0 [] = true := by
  decide

/-- C5: what the reader does on a filter of length zero. When the index the reader
computes is below `num` and `start = limit`, the test `start ≤ limit ∧ limit ≤ array_offset`
comes first: if `limit ≤ array_offset` the reader hands the empty slice to the policy and
returns the policy's answer (`true` when the policy accepts it, against the claim and
against the comment "Empty filters do not match any keys" of the branch below), and it
returns `false` only if `limit > array_offset` or the policy rejects the empty filter. -/
theorem filterreader_empty_filter (wide : Nat → Nat → Nat) (policy : ldb_bloom_t)
    (contents : Bytes) (fr : ldb_filterreader_t) (block_offset : Nat) (key : Bytes)
    (index start limit : Nat)
    (hfr : fr = ldb_filterreader_init policy contents)
    (hindex : index = uint64_shr wide block_offset fr.base_lg)
    (hidx : index < fr.num)
    (hstart : start = ldb_fixed32_decode fr.data (fr.offset + index * 4))
    (hlimit : limit = ldb_fixed32_decode fr.data (fr.offset + index * 4 + 4))
    (heq : start = limit) :
    ldb_filterreader_matches wide fr block_offset key
        = (decide (limit ≤ fr.offset) && policy.key_match [] key)
    ∧ (limit ≤ fr.offset → policy.key_match [] key = true →
        ldb_filterreader_matches wide fr block_offset key = true)
    ∧ (policy.key_match [] key = false →
        ldb_filterreader_matches wide fr block_offset key = false)
    ∧ (fr.base_lg < 64 → index = block_offset >>> fr.base_lg) := by
  have hpol : fr.policy = policy := by
    subst hfr
    unfold ldb_filterreader_init
    simp only []
    split
    · rfl
    · split <;> rfl
  have hmain : ldb_filterreader_matches wide fr block_offset key
      = (decide (limit ≤ fr.offset) && policy.key_match [] key) := by
    subst hindex
    unfold ldb_filterreader_matches
    simp only []
    rw [if_pos hidx, ← hstart, ← hlimit, hpol]
    subst heq
    by_cases h : start ≤ fr.offset
    · rw [if_pos ⟨Nat.le_refl _, h⟩]
      simp [slice, h]
    · rw [if_neg (fun hc => h hc.2), if_pos rfl]
      simp [h]
  refine ⟨hmain, fun hle hacc => ?_, fun hrej => ?_,
    fun hlg => by rw [hindex, uint64_shr_lt wide block_offset hlg]⟩
  · rw [hmain, hacc, Bool.and_true]
    exact decide_eq_true hle
  · rw [hmain, hrej, Bool.and_false]

theorem filterreader_empty_filter_witness :
    ldb_filterreader_matches shr_mod64
        (ldb_filterreader_init policy_true [0, 0, 0, 0, 0, 0, 0, 0, 11]) 0 []
        = (decide (0 ≤ (ldb_filterreader_init policy_true [0, 0, 0, 0, 0, 0, 0, 0, 11]).offset)
            && policy_true.key_match [] [])
    ∧ (0 ≤ (ldb_filterreader_init policy_true [0, 0, 0, 0, 0, 0, 0, 0, 11]).offset →
        policy_true.key_match [] [] = true →
        ldb_filterreader_matches shr_mod64
          (ldb_filterreader_init policy_true [0, 0, 0, 0, 0, 0, 0, 0, 11]) 0 [] = true)
    ∧ (policy_true.key_match [] [] = false →
        ldb_filterreader_matches shr_mod64
          (ldb_filterreader_init policy_true [0, 0, 0, 0, 0, 0, 0, 0, 11]) 0 [] = false)
    ∧ ((ldb_filterreader_init policy_true [0, 0, 0, 0, 0, 0, 0, 0, 11]).base_lg < 64 →
        0 = 0 >>> (ldb_filterreader_init policy_true [0, 0, 0, 0, 0, 0, 0, 0, 11]).base_lg) :=
  filterreader_empty_filter shr_mod64 policy_true [0, 0, 0, 0, 0, 0, 0, 0, 11]
    (ldb_filterreader_init policy_true [0, 0, 0, 0, 0, 0, 0, 0, 11]) 0 [] 0 0 0
    rfl (by decide) (by decide) (by decide) (by decide) rfl

/-- C6, counterexample: the block `07 00 00 00 | 07 00 00 00 | 00 00 00 00 | 0b` is
accepted with `array_offset = 0` and two offset words; for index 0 the reader reads
`start = limit = 7 > array_offset`, and answers `false`. -/
theorem filterreader_malformed_counterexample :
    5 ≤ ([7, 0, 0, 0, 7, 0, 0, 0, 0, 0, 0, 0, 11] : Bytes).length
    ∧ ldb_fixed32_decode [7, 0, 0, 0, 7, 0, 0, 0, 0, 0, 0, 0, 11] 8 ≤ 8
    ∧ (ldb_filterreader_init policy_true [7, 0, 0, 0, 7, 0, 0, 0, 0, 0, 0, 0, 11]).base_lg = 11
    ∧ uint64_shr shr_mod64 0
          (ldb_filterreader_init policy_true [7, 0, 0, 0, 7, 0, 0, 0, 0, 0, 0, 0, 11]).base_lg
        < (ldb_filterreader_init policy_true [7, 0, 0, 0, 7, 0, 0, 0, 0, 0, 0, 0, 11]).num
    ∧ ldb_fixed32_decode [7, 0, 0, 0, 7, 0, 0, 0, 0, 0, 0, 0, 11] 4
        > (ldb_filterreader_init policy_true [7, 0, 0, 0, 7, 0, 0, 0, 0, 0, 0, 0, 11]).offset
    ∧ ldb_filterreader_matches shr_mod64
        (ldb_filterreader_init policy_true [7, 0, 0, 0, 7, 0, 0, 0, 0, 0, 0, 0, 11]) 0 []
        = false := by
  decide

/-- C6, amended: when the index the reader computes is below `num` and the offsets are
malformed (`start > limit` or `limit > array_offset`), the reader returns `true` unless
`start = limit`; malformed offsets with `start = limit` give `false`. The index is the
one of the code for every `base_lg`: the shift on natural numbers when `base_lg < 64`,
whatever the machine's shift yields otherwise. -/
theorem filterreader_malformed (wide : Nat → Nat → Nat) (policy : ldb_bloom_t)
    (contents : Bytes) (fr : ldb_filterreader_t) (block_offset : Nat) (key : Bytes)
    (index start limit : Nat)
    (_hfr : fr = ldb_filterreader_init policy contents)
    (hindex : index = uint64_shr wide block_offset fr.base_lg)
    (hidx : index < fr.num)
    (hstart : start = ldb_fixed32_decode fr.data (fr.offset + index * 4))
    (hlimit : limit = ldb_fixed32_decode fr.data (fr.offset + index * 4 + 4))
    (hbad : start > limit ∨ limit > fr.offset) :
    ldb_filterreader_matches wide fr block_offset key = decide (start ≠ limit)
    ∧ (fr.base_lg < 64 → index = block_offset >>> fr.base_lg) := by
  refine ⟨?_, fun hlg => by rw [hindex, uint64_shr_lt wide block_offset hlg]⟩
  subst hindex
  unfold ldb_filterreader_matches
  simp only []
  rw [if_pos hidx, ← hstart, ← hlimit, if_neg (by omega)]
  by_cases h : start = limit
  · rw [if_pos h]; simp [h]
  · rw [if_neg h]; simp [h]

theorem filterreader_malformed_witness :
    ldb_filterreader_matches shr_mod64
        (ldb_filterreader_init policy_len [7, 0, 0, 0, 9, 0, 0, 0, 0, 0, 0, 0, 11]) 0 [9]
        = decide (7 ≠ 9)
    ∧ ((ldb_filterreader_init policy_len [7, 0, 0, 0, 9, 0, 0, 0, 0, 0, 0, 0, 11]).base_lg < 64 →
        0 = 0 >>> (ldb_filterreader_init policy_len [7, 0, 0, 0, 9, 0, 0, 0, 0, 0, 0, 0, 11]).base_lg) :=
  filterreader_malformed shr_mod64 policy_len [7, 0, 0, 0, 9, 0, 0, 0, 0, 0, 0, 0, 11]
    (ldb_filterreader_init policy_len [7, 0, 0, 0, 9, 0, 0, 0, 0, 0, 0, 0, 11]) 0 [9] 0 7 9
    rfl (by decide) (by decide) (by decide) (by decide) (by decide)

/-- The accepted block `07 00 00 00 | 07 00 00 00 | 00 00 00 00 | 40` has two offset
words, `array_offset = 0` and `base_lg = 64`. With the shift of x86-64 (count modulo 64)
block offset 1 has index 1, where `start = 7 > limit = 0`: the reader returns `true`. -/
theorem filterreader_wide_count_malformed :
    (ldb_filterreader_init policy_true [7, 0, 0, 0, 7, 0, 0, 0, 0, 0, 0, 0, 64]).base_lg = 64
    ∧ (ldb_filterreader_init policy_true [7, 0, 0, 0, 7, 0, 0, 0, 0, 0, 0, 0, 64]).num = 2
    ∧ uint64_shr shr_mod64 1 64 = 1
    ∧ ldb_fixed32_decode [7, 0, 0, 0, 7, 0, 0, 0, 0, 0, 0, 0, 64] 4 = 7
    ∧ ldb_fixed32_decode [7, 0, 0, 0, 7, 0, 0, 0, 0, 0, 0, 0, 64] 8 = 0
    ∧ ldb_filterreader_matches shr_mod64
        (ldb_filterreader_init policy_true [7, 0, 0, 0, 7, 0, 0, 0, 0, 0, 0, 0, 64]) 1 []
        = true := by
  decide

/-- C7: for every reader state, key and block offset whose index
`block_offset >> base_lg` is not below `num`, the reader returns `true`, whatever the
policy is (replacing the policy by any other one does not change the answer). -/
theorem filterreader_index_out_of_range (wide : Nat → Nat → Nat) (fr : ldb_filterreader_t)
    (block_offset : Nat) (key : Bytes)
    (hidx : uint64_shr wide block_offset fr.base_lg ≥ fr.num) :
    ldb_filterreader_matches wide fr block_offset key = true
    ∧ ∀ p : ldb_bloom_t,
        ldb_filterreader_matches wide { fr with policy := p } block_offset key = true := by
  have h : ∀ p : ldb_bloom_t,
      ldb_filterreader_matches wide { fr with policy := p } block_offset key = true := by
    intro p
    unfold ldb_filterreader_matches
    simp only []
    rw [if_neg (by omega)]
  exact ⟨h fr.policy, h⟩

theorem filterreader_index_out_of_range_witness :
    ldb_filterreader_matches shr_mod64
        (ldb_filterreader_init policy_len [1, 2, 3, 0, 0, 0, 0, 3, 0, 0, 0, 11]) 2048 [9] = true
    ∧ ∀ p : ldb_bloom_t, ldb_filterreader_matches shr_mod64
        { ldb_filterreader_init policy_len [1, 2, 3, 0, 0, 0, 0, 3, 0, 0, 0, 11] with policy := p }
        2048 [9] = true :=
  filterreader_index_out_of_range shr_mod64
    (ldb_filterreader_init policy_len [1, 2, 3, 0, 0, 0, 0, 3, 0, 0, 0, 11]) 2048 [9] (by decide)

/-- C8: a filter block that `ldb_filterreader_init` rejects (shorter than five bytes, or
whose last word exceeds `n - 5`) leaves the reader with `num = 0`, and the reader then
answers `true` for every block offset and every key. -/
theorem filterreader_degraded (policy : ldb_bloom_t) (contents : Bytes)
    (hrej : contents.length < 5 ∨
      (5 ≤ contents.length ∧
        ldb_fixed32_decode contents (contents.length - 5) > contents.length - 5)) :
    (ldb_filterreader_init policy contents).num = 0
    ∧ ∀ (wide : Nat → Nat → Nat) (block_offset : Nat) (key : Bytes),
        ldb_filterreader_matches wide (ldb_filterreader_init policy contents) block_offset key
          = true := by
  have hnum : (ldb_filterreader_init policy contents).num = 0 := by
    unfold ldb_filterreader_init
    simp only []
    rcases hrej with h | ⟨h5, h⟩
    · rw [if_pos h]
    · rw [if_neg (by omega), if_pos h]
  refine ⟨hnum, fun wide block_offset key => ?_⟩
  unfold ldb_filterreader_matches
  simp only []
  rw [hnum, if_neg (Nat.not_lt_zero _)]

theorem filterreader_degraded_witness :
    (ldb_filterreader_init policy_len [255, 255, 255, 255, 11]).num = 0
    ∧ ∀ (wide : Nat → Nat → Nat) (block_offset : Nat) (key : Bytes),
        ldb_filterreader_matches wide (ldb_filterreader_init policy_len [255, 255, 255, 255, 11])
          block_offset key = true :=
  filterreader_degraded policy_len [255, 255, 255, 255, 11] (Or.inr (by decide))

/-! ## The builder: generating filters -/

theorem generate_filter_result (fb : ldb_filterbuilder_t) :
    (ldb_filterbuilder_generate_filter fb).result = fb.result ++ generated fb := by
  unfold ldb_filterbuilder_generate_filter generated
  by_cases h : fb.start.length = 0 <;> simp [h]

theorem generate_filter_offsets (fb : ldb_filterbuilder_t) :
    (ldb_filterbuilder_generate_filter fb).filter_offsets
      = fb.filter_offsets ++ [fb.result.length] := by
  unfold ldb_filterbuilder_generate_filter
  by_cases h : fb.start.length = 0 <;> simp [h]

theorem generate_filter_start (fb : ldb_filterbuilder_t) :
    (ldb_filterbuilder_generate_filter fb).start = [] := by
  unfold ldb_filterbuilder_generate_filter
  by_cases h : fb.start.length = 0
  · simp [h, List.length_eq_zero.mp h]
  · simp [h]

theorem generate_filter_keys (fb : ldb_filterbuilder_t) (h : fb.start.length ≠ 0) :
    (ldb_filterbuilder_generate_filter fb).keys = [] := by
  unfold ldb_filterbuilder_generate_filter
  simp [h]

theorem generate_filter_policy (fb : ldb_filterbuilder_t) :
    (ldb_filterbuilder_generate_filter fb).policy = fb.policy := by
  unfold ldb_filterbuilder_generate_filter
  by_cases h : fb.start.length = 0 <;> simp [h]

theorem generate_filter_keys_of_empty (fb : ldb_filterbuilder_t) (h : fb.start.length = 0) :
    (ldb_filterbuilder_generate_filter fb).keys = fb.keys := by
  unfold ldb_filterbuilder_generate_filter
  simp [h]

/-- With no pending key, the loop of `start_block` only records offsets: it appends the
current result length once for every missing filter, and the budget `fuel` is enough as
soon as it covers the number of missing filters. -/
theorem start_block_loop_done (filter_index : Nat) :
    ∀ (fuel : Nat) (fb : ldb_filterbuilder_t), fb.start = [] →
      filter_index - fb.filter_offsets.length ≤ fuel →
      start_block_loop filter_index fuel fb
        = { fb with filter_offsets := fb.filter_offsets ++
              List.replicate (filter_index - fb.filter_offsets.length) fb.result.length } := by
  intro fuel
  induction fuel with
  | zero =>
    intro fb _ hle
    have h0 : filter_index - fb.filter_offsets.length = 0 := by omega
    simp [start_block_loop, h0]
  | succ fuel ih =>
    intro fb hs hle
    unfold start_block_loop
    by_cases hgt : filter_index > fb.filter_offsets.length
    · rw [if_pos hgt]
      have hoff := generate_filter_offsets fb
      have hres := generate_filter_result fb
      have hst := generate_filter_start fb
      have hk := generate_filter_keys_of_empty fb (by simp [hs])
      have hp := generate_filter_policy fb
      have hgen : generated fb = [] := by simp [generated, hs]
      rw [hgen, List.append_nil] at hres
      rw [ih _ hst (by rw [hoff]; simp; omega)]
      rw [hoff, hres]
      have hrep : filter_index - fb.filter_offsets.length
          = (filter_index - (fb.filter_offsets ++ [fb.result.length]).length) + 1 := by
        simp; omega
      rw [hrep, List.replicate_succ]
      cases hg : ldb_filterbuilder_generate_filter fb
      rw [hg] at hoff hres hst hk hp
      simp at hoff hres hst hk hp
      cases fb
      simp_all
    · rw [if_neg hgt]
      have h0 : filter_index - fb.filter_offsets.length = 0 := by omega
      simp [h0]

theorem filter_base_eq (block_offset : Nat) :
    block_offset / LDB_FILTER_BASE = block_offset >>> 11 := by
  rw [Nat.shiftRight_eq_div_pow]
  rfl

/-- The builder after `start_block`, in the two cases of the call: no filter is missing
(the builder is returned as it is), or at least one is. -/
theorem start_block_cases (fb : ldb_filterbuilder_t) (block_offset : Nat)
    (hf : fb.filter_offsets.length ≤ block_offset >>> 11) :
    ∃ fb1, ldb_filterbuilder_start_block fb block_offset = some fb1
      ∧ (block_offset >>> 11 = fb.filter_offsets.length → fb1 = fb)
      ∧ (fb.filter_offsets.length < block_offset >>> 11 →
          fb1.policy = fb.policy
          ∧ fb1.result = fb.result ++ generated fb
          ∧ fb1.filter_offsets = fb.filter_offsets ++ fb.result.length ::
              List.replicate (block_offset >>> 11 - fb.filter_offsets.length - 1)
                (fb.result ++ generated fb).length
          ∧ fb1.start = []
          ∧ (fb.start.length ≠ 0 → fb1.keys = [])
          ∧ (fb.start.length = 0 → fb1.keys = fb.keys)) := by
  unfold ldb_filterbuilder_start_block
  simp only []
  rw [filter_base_eq, if_pos hf]
  refine ⟨_, rfl, ?_, ?_⟩
  · intro heq
    cases hfi : block_offset >>> 11 with
    | zero => rfl
    | succ n =>
      unfold start_block_loop
      rw [if_neg (by omega)]
  · intro hlt
    obtain ⟨n, hn⟩ : ∃ n, block_offset >>> 11 = n + 1 := ⟨block_offset >>> 11 - 1, by omega⟩
    rw [hn]
    unfold start_block_loop
    rw [if_pos (by omega)]
    rw [start_block_loop_done (n + 1) n _ (generate_filter_start fb)
      (by rw [generate_filter_offsets, List.length_append, List.length_singleton]; omega)]
    refine ⟨generate_filter_policy fb, generate_filter_result fb, ?_, generate_filter_start fb,
      fun h => generate_filter_keys fb h, fun h => generate_filter_keys_of_empty fb h⟩
    show (ldb_filterbuilder_generate_filter fb).filter_offsets ++ _ = _
    rw [generate_filter_offsets, generate_filter_result, List.length_append,
      List.length_singleton, List.append_assoc, List.singleton_append]
    have e : n + 1 - (fb.filter_offsets.length + 1) = n + 1 - fb.filter_offsets.length - 1 := by
      omega
    rw [e]

/-- After a successful `start_block` the builder holds `block_offset >> 11` filters. -/
theorem start_block_length (fb : ldb_filterbuilder_t) (block_offset : Nat)
    (hf : fb.filter_offsets.length ≤ block_offset >>> 11) :
    ∃ fb1, ldb_filterbuilder_start_block fb block_offset = some fb1
      ∧ fb1.filter_offsets.length = block_offset >>> 11 := by
  obtain ⟨fb1, h1, h2, h3⟩ := start_block_cases fb block_offset hf
  refine ⟨fb1, h1, ?_⟩
  rcases Nat.eq_or_lt_of_le hf with heq | hlt
  · rw [h2 heq.symm]; exact heq
  · obtain ⟨_, _, ho, _⟩ := h3 hlt
    rw [ho]
    simp
    omega

/-- C9: for a builder with `f` generated filters and a block offset with
`block_offset >> 11 ≥ f`, `start_block` succeeds and leaves exactly `block_offset >> 11`
filters. If `block_offset >> 11 = f` the builder is unchanged. Otherwise the call
appends to the result only what generating the first filter appends (the pending keys'
filter, or nothing), records that filter at the old end of the result, gives every later
filter the new end of the result as its start (so each has length zero), and leaves no
pending key. -/
theorem start_block_generates (fb : ldb_filterbuilder_t) (block_offset : Nat)
    (hf : fb.filter_offsets.length ≤ block_offset >>> 11) :
    ∃ fb1, ldb_filterbuilder_start_block fb block_offset = some fb1
      ∧ fb1.filter_offsets.length = block_offset >>> 11
      ∧ (block_offset >>> 11 = fb.filter_offsets.length → fb1 = fb)
      ∧ (fb.filter_offsets.length < block_offset >>> 11 →
          fb1.result = fb.result ++ generated fb
          ∧ fb1.filter_offsets = fb.filter_offsets ++ fb.result.length ::
              List.replicate (block_offset >>> 11 - fb.filter_offsets.length - 1)
                fb1.result.length
          ∧ fb1.start = []) := by
  obtain ⟨fb1, h1, h2, h3⟩ := start_block_cases fb block_offset hf
  obtain ⟨fb2, h4, hlen⟩ := start_block_length fb block_offset hf
  rw [h1] at h4
  cases h4
  refine ⟨fb1, h1, hlen, h2, ?_⟩
  · intro hlt
    obtain ⟨_, hr, ho, hs, _⟩ := h3 hlt
    refine ⟨hr, ?_, hs⟩
    rw [ho, hr]

theorem start_block_generates_witness :
    ∃ fb1, ldb_filterbuilder_start_block
        (ldb_filterbuilder_add_key (ldb_filterbuilder_init policy_len) [7]) 5000 = some fb1
      ∧ fb1.filter_offsets.length = 5000 >>> 11
      ∧ (5000 >>> 11 =
          (ldb_filterbuilder_add_key (ldb_filterbuilder_init policy_len) [7]).filter_offsets.length
          → fb1 = ldb_filterbuilder_add_key (ldb_filterbuilder_init policy_len) [7])
      ∧ ((ldb_filterbuilder_add_key (ldb_filterbuilder_init policy_len) [7]).filter_offsets.length
            < 5000 >>> 11 →
          fb1.result = (ldb_filterbuilder_add_key (ldb_filterbuilder_init policy_len) [7]).result
            ++ generated (ldb_filterbuilder_add_key (ldb_filterbuilder_init policy_len) [7])
          ∧ fb1.filter_offsets =
              (ldb_filterbuilder_add_key (ldb_filterbuilder_init policy_len) [7]).filter_offsets
              ++ (ldb_filterbuilder_add_key (ldb_filterbuilder_init policy_len) [7]).result.length ::
              List.replicate (5000 >>> 11
                - (ldb_filterbuilder_add_key (ldb_filterbuilder_init policy_len)
                    [7]).filter_offsets.length - 1)
                fb1.result.length
          ∧ fb1.start = []) :=
  start_block_generates (ldb_filterbuilder_add_key (ldb_filterbuilder_init policy_len) [7]) 5000
    (by decide)

/-! ## The builder refines its specification-level view -/

theorem filter_starts_length (fs : List Bytes) : ∀ base, (filter_starts base fs).length = fs.length := by
  induction fs with
  | nil => intro base; rfl
  | cons f fs ih => intro base; simp [filter_starts, ih]

theorem filter_starts_append (fs gs : List Bytes) : ∀ base,
    filter_starts base (fs ++ gs)
      = filter_starts base fs ++ filter_starts (base + fs.flatten.length) gs := by
  induction fs with
  | nil => intro base; simp [filter_starts]
  | cons f fs ih =>
    intro base
    simp [filter_starts, ih, Nat.add_assoc]

theorem filter_starts_replicate_nil (n base : Nat) :
    filter_starts base (List.replicate n []) = List.replicate n base := by
  induction n with
  | zero => rfl
  | succ n ih => simp [List.replicate_succ, filter_starts, ih]

theorem flatten_replicate_nil (n : Nat) : (List.replicate n ([] : Bytes)).flatten = [] := by
  induction n with
  | zero => rfl
  | succ n ih => simp [List.replicate_succ, ih]

/-- Rebuilding the keys from the flattened key structure gives back the batch. -/
theorem tmp_keys_flatten_aux (ks : List Bytes) : ∀ (pre : Bytes),
    tmp_keys (pre ++ ks.flatten)
        (filter_starts pre.length ks ++ [pre.length + ks.flatten.length]) ks.length = ks := by
  induction ks with
  | nil => intro pre; rfl
  | cons k ks ih =>
    intro pre
    have ih1 := ih (pre ++ k)
    unfold tmp_keys at ih1 ⊢
    rw [List.length_cons, List.range_succ_eq_map, List.map_cons, List.map_map]
    congr 1
    · cases ks with
      | nil => simp [filter_starts]
      | cons k2 ks2 => simp [filter_starts]
    · refine Eq.trans ?_ ih1
      apply List.map_congr_left
      intro i _
      simp [filter_starts, Nat.add_assoc]

theorem tmp_keys_flatten (ks : List Bytes) :
    tmp_keys ks.flatten (filter_starts 0 ks ++ [ks.flatten.length]) ks.length = ks := by
  have h := tmp_keys_flatten_aux ks []
  simpa using h

theorem generated_of_rep (fb : ldb_filterbuilder_t) (v : filter_view) (h : Rep fb v) :
    generated fb = flush_pending fb.policy v.pending := by
  obtain ⟨_, _, hk, hs⟩ := h
  unfold generated flush_pending
  rw [hs, hk, filter_starts_length, tmp_keys_flatten]

theorem rep_init (policy : ldb_bloom_t) :
    Rep (ldb_filterbuilder_init policy) { filters := [], pending := [] } := by
  simp [Rep, ldb_filterbuilder_init, filter_starts]

theorem rep_add_key (fb : ldb_filterbuilder_t) (v : filter_view) (key : Bytes) (h : Rep fb v) :
    Rep (ldb_filterbuilder_add_key fb key) { v with pending := v.pending ++ [key] } := by
  obtain ⟨hr, ho, hk, hs⟩ := h
  refine ⟨hr, ho, ?_, ?_⟩
  · simp [ldb_filterbuilder_add_key, hk]
  · simp [ldb_filterbuilder_add_key, hk, hs, filter_starts_append, filter_starts]

theorem rep_start_block (fb fb1 : ldb_filterbuilder_t) (v : filter_view) (block_offset : Nat)
    (h : Rep fb v) (hrun : ldb_filterbuilder_start_block fb block_offset = some fb1) :
    Rep fb1 (view_step fb.policy v (.start_block block_offset))
      ∧ fb1.policy = fb.policy
      ∧ fb1.filter_offsets.length = block_offset >>> 11 := by
  have hlen : fb.filter_offsets.length = v.filters.length := by
    rw [h.2.1, filter_starts_length]
  have hf : fb.filter_offsets.length ≤ block_offset >>> 11 := by
    unfold ldb_filterbuilder_start_block at hrun
    simp only [] at hrun
    rw [filter_base_eq] at hrun
    by_contra hc
    rw [if_neg (by omega)] at hrun
    cases hrun
  obtain ⟨fb2, h1, h2, h3⟩ := start_block_cases fb block_offset hf
  rw [hrun] at h1
  cases h1
  have hgen := generated_of_rep fb v h
  obtain ⟨hr, ho, hk, hs⟩ := h
  unfold view_step
  simp only [LDB_FILTER_BASE_LG]
  rcases Nat.eq_or_lt_of_le hf with heq | hlt
  · have := h2 heq.symm
    subst this
    rw [if_pos (by omega)]
    exact ⟨⟨hr, ho, hk, hs⟩, rfl, heq⟩
  · obtain ⟨hp, hr1, ho1, hs1, hk1, hk2⟩ := h3 hlt
    rw [if_neg (by omega)]
    refine ⟨⟨?_, ?_, ?_, ?_⟩, hp, ?_⟩
    · simp [hr1, hr, hgen, flatten_replicate_nil]
    · simp [ho1, ho, hr, hgen, filter_starts_append, filter_starts, filter_starts_replicate_nil,
        filter_starts_length]
    · by_cases hz : fb.start.length = 0
      · rw [hk2 hz, hk]
        rw [hs, filter_starts_length] at hz
        simp [List.length_eq_zero.mp hz]
      · simp [hk1 hz]
    · simp [hs1, filter_starts]
    · rw [ho1]
      simp
      omega

theorem rep_run : ∀ (ops : List filter_op) (fb fb1 : ldb_filterbuilder_t) (v : filter_view),
    Rep fb v → run_ops fb ops = some fb1 →
      Rep fb1 (view_run fb.policy v ops) ∧ fb1.policy = fb.policy := by
  intro ops
  induction ops with
  | nil =>
    intro fb fb1 v h hrun
    cases hrun
    exact ⟨h, rfl⟩
  | cons op ops ih =>
    intro fb fb1 v h hrun
    unfold run_ops at hrun
    cases hstep : apply_op fb op with
    | none => rw [hstep] at hrun; cases hrun
    | some fb2 =>
      rw [hstep] at hrun
      simp only [] at hrun
      have h2 : Rep fb2 (view_step fb.policy v op) ∧ fb2.policy = fb.policy := by
        cases op with
        | start_block o =>
          have := rep_start_block fb fb2 v o h hstep
          exact ⟨this.1, this.2.1⟩
        | add_key k =>
          cases hstep
          exact ⟨rep_add_key fb v k h, rfl⟩
      have h3 := ih fb2 fb1 (view_step fb.policy v op) h2.1 hrun
      rw [h2.2] at h3
      exact h3

theorem fixed32_encode_mod (x : Nat) :
    ldb_fixed32_encode (x % 2 ^ 32) = ldb_fixed32_encode x := by
  unfold ldb_fixed32_encode
  simp only [Nat.mod_mod]

theorem fixed32_encode_length (x : Nat) : (ldb_fixed32_encode x).length = 4 := rfl

theorem foldl_fixed32 (offs : List Nat) : ∀ (r : Bytes),
    offs.foldl (fun r off => r ++ ldb_fixed32_encode off) r
      = r ++ (offs.map ldb_fixed32_encode).flatten := by
  induction offs with
  | nil => intro r; simp
  | cons o offs ih => intro r; simp [ih]

theorem length_flatten_fixed32 (offs : List Nat) :
    (offs.map ldb_fixed32_encode).flatten.length = 4 * offs.length := by
  induction offs with
  | nil => rfl
  | cons o offs ih => simp [ih, fixed32_encode_length]; omega

/-- The layout of the slice returned by `finish`, in terms of the builder state after the
flush of the pending batch. -/
theorem finish_eq (fb : ldb_filterbuilder_t) :
    (ldb_filterbuilder_finish fb).2
      = (if fb.start.length > 0 then ldb_filterbuilder_generate_filter fb else fb).result
        ++ ((if fb.start.length > 0 then ldb_filterbuilder_generate_filter fb
              else fb).filter_offsets.map ldb_fixed32_encode).flatten
        ++ ldb_fixed32_encode
            (if fb.start.length > 0 then ldb_filterbuilder_generate_filter fb else fb).result.length
        ++ [11] := by
  unfold ldb_filterbuilder_finish
  simp only [foldl_fixed32, fixed32_encode_mod]
  rfl

/-- After the flush done by `finish`, the result is the concatenation of the filters of
the specification-level view and the recorded offsets are their starts. -/
theorem rep_flush (fb : ldb_filterbuilder_t) (v : filter_view) (h : Rep fb v) :
    (if fb.start.length > 0 then ldb_filterbuilder_generate_filter fb else fb).result
        = (view_finish fb.policy v).flatten
    ∧ (if fb.start.length > 0 then ldb_filterbuilder_generate_filter fb else fb).filter_offsets
        = filter_starts 0 (view_finish fb.policy v) := by
  have hgen := generated_of_rep fb v h
  obtain ⟨hr, ho, hk, hs⟩ := h
  have hlen : fb.start.length = v.pending.length := by rw [hs, filter_starts_length]
  unfold view_finish
  by_cases hz : v.pending.length = 0
  · rw [if_neg (by omega), if_pos hz]
    exact ⟨hr, ho⟩
  · rw [if_pos (by omega), if_neg hz, generate_filter_result, generate_filter_offsets, hgen]
    unfold flush_pending
    rw [if_neg hz]
    constructor
    · simp [hr]
    · simp [ho, hr, filter_starts_append, filter_starts]

/-- The layout of the finished filter block of a run. -/
theorem finish_run_eq (policy : ldb_bloom_t) (ops : List filter_op) (fb : ldb_filterbuilder_t)
    (hrun : run_ops (ldb_filterbuilder_init policy) ops = some fb) :
    (ldb_filterbuilder_finish fb).2
      = (generated_filters policy ops).flatten
        ++ ((filter_starts 0 (generated_filters policy ops)).map ldb_fixed32_encode).flatten
        ++ ldb_fixed32_encode (generated_filters policy ops).flatten.length
        ++ [11] := by
  obtain ⟨hrep, hpol⟩ := rep_run ops _ fb _ (rep_init policy) hrun
  have hfl := rep_flush fb _ hrep
  rw [hpol] at hfl
  rw [finish_eq, hfl.1, hfl.2]
  rfl

/-- C2: the slice returned by `finish` after a run is
`F ++ LE32(off_0) ++ ... ++ LE32(off_{m-1}) ++ LE32(|F|) ++ [11]`, where `F` is the
concatenation of the filters generated by the run (the pending batch, if non-empty,
flushed as one final filter), `off_i` is the start of filter `i` inside `F` and `m` is
the number of filters; its length is `|F| + 4 * m + 5` and its last byte is `11`. -/
theorem filterbuilder_finish_layout (policy : ldb_bloom_t) (ops : List filter_op)
    (fb : ldb_filterbuilder_t)
    (hrun : run_ops (ldb_filterbuilder_init policy) ops = some fb) :
    (ldb_filterbuilder_finish fb).2
      = (generated_filters policy ops).flatten
        ++ ((filter_starts 0 (generated_filters policy ops)).map ldb_fixed32_encode).flatten
        ++ ldb_fixed32_encode (generated_filters policy ops).flatten.length
        ++ [UInt8.ofNat LDB_FILTER_BASE_LG]
    ∧ (ldb_filterbuilder_finish fb).2.length
      = (generated_filters policy ops).flatten.length
        + 4 * (generated_filters policy ops).length + 5
    ∧ (ldb_filterbuilder_finish fb).2.getLast? = some 11
    ∧ LDB_FILTER_BASE_LG = 11 := by
  have h := finish_run_eq policy ops fb hrun
  refine ⟨h, ?_, ?_, rfl⟩
  · rw [h]
    simp only [List.length_append, length_flatten_fixed32, filter_starts_length,
      fixed32_encode_length, List.length_singleton]
  · rw [h]
    simp

theorem filterbuilder_finish_layout_witness :
    (ldb_filterbuilder_finish (ldb_filterbuilder_add_key (ldb_filterbuilder_init policy_len) [7])).2
      = (generated_filters policy_len [.add_key [7]]).flatten
        ++ ((filter_starts 0 (generated_filters policy_len [.add_key [7]])).map
              ldb_fixed32_encode).flatten
        ++ ldb_fixed32_encode (generated_filters policy_len [.add_key [7]]).flatten.length
        ++ [UInt8.ofNat LDB_FILTER_BASE_LG]
    ∧ (ldb_filterbuilder_finish
        (ldb_filterbuilder_add_key (ldb_filterbuilder_init policy_len) [7])).2.length
      = (generated_filters policy_len [.add_key [7]]).flatten.length
        + 4 * (generated_filters policy_len [.add_key [7]]).length + 5
    ∧ (ldb_filterbuilder_finish
        (ldb_filterbuilder_add_key (ldb_filterbuilder_init policy_len) [7])).2.getLast? = some 11
    ∧ LDB_FILTER_BASE_LG = 11 :=
  filterbuilder_finish_layout policy_len [.add_key [7]]
    (ldb_filterbuilder_add_key (ldb_filterbuilder_init policy_len) [7]) rfl

/-! ## The reader on the output of the builder -/

theorem uint8_toNat_ofNat (n : Nat) : (UInt8.ofNat n).toNat = n % 256 := by
  simp [UInt8.toNat, UInt8.ofNat, Fin.ofNat]

theorem fixed32_decode_encode (pre post : Bytes) (x : Nat) :
    ldb_fixed32_decode (pre ++ ldb_fixed32_encode x ++ post) pre.length = x % 2 ^ 32 := by
  unfold ldb_fixed32_decode ldb_fixed32_encode
  rw [List.append_assoc, List.drop_left]
  simp only [List.cons_append, uint8_toNat_ofNat]
  omega

theorem fixed32_decode_lt (bs : Bytes) (pos : Nat) : ldb_fixed32_decode bs pos < 2 ^ 32 := by
  unfold ldb_fixed32_decode
  split
  · rename_i b0 b1 b2 b3 _ _
    have h0 := b0.val.isLt
    have h1 := b1.val.isLt
    have h2 := b2.val.isLt
    have h3 := b3.val.isLt
    simp only [UInt8.toNat, UInt8.size] at *
    omega
  · decide

/-- Word `j` of an array of fixed32 words stored after `pre`. -/
theorem fixed32_decode_array (ws : List Nat) : ∀ (pre post : Bytes) (j : Nat), j < ws.length →
    ldb_fixed32_decode (pre ++ (ws.map ldb_fixed32_encode).flatten ++ post) (pre.length + j * 4)
      = ws.getD j 0 % 2 ^ 32 := by
  induction ws with
  | nil => intro pre post j hj; cases hj
  | cons w ws ih =>
    intro pre post j hj
    cases j with
    | zero =>
      have := fixed32_decode_encode pre ((ws.map ldb_fixed32_encode).flatten ++ post) w
      simpa [List.append_assoc] using this
    | succ j =>
      have := ih (pre ++ ldb_fixed32_encode w) post j (by simpa using hj)
      rw [List.getD_cons_succ, ← this]
      simp only [List.map_cons, List.flatten_cons, List.append_assoc, List.length_append,
        fixed32_encode_length]
      congr 1
      omega

theorem filter_starts_ext_getD (fs : List Bytes) : ∀ (base j : Nat), j ≤ fs.length →
    (filter_starts base fs ++ [base + fs.flatten.length]).getD j 0
      = base + (fs.take j).flatten.length := by
  induction fs with
  | nil =>
    intro base j hj
    have : j = 0 := by simpa using hj
    subst this
    simp [filter_starts]
  | cons f fs ih =>
    intro base j hj
    cases j with
    | zero => simp [filter_starts]
    | succ j =>
      have := ih (base + f.length) j (by simpa using hj)
      simp only [filter_starts, List.cons_append, List.getD_cons_succ, List.take_succ_cons,
        List.flatten_cons, List.length_append]
      rw [← Nat.add_assoc, this, Nat.add_assoc]

theorem filter_starts_getD (fs : List Bytes) (j : Nat) (hj : j < fs.length) :
    (filter_starts 0 fs).getD j 0 = (fs.take j).flatten.length := by
  have h := filter_starts_ext_getD fs 0 j (Nat.le_of_lt hj)
  rw [List.getD_append _ _ _ _ (by rw [filter_starts_length]; exact hj)] at h
  simpa using h

theorem take_flatten_length_le (fs : List Bytes) (j : Nat) :
    (fs.take j).flatten.length ≤ fs.flatten.length := by
  conv_rhs => rw [← List.take_append_drop j fs]
  rw [List.flatten_append, List.length_append]
  omega

theorem take_succ_flatten (fs : List Bytes) (i : Nat) (hi : i < fs.length) :
    (fs.take (i + 1)).flatten = (fs.take i).flatten ++ fs[i] := by
  rw [List.take_succ, List.flatten_append, List.getElem?_eq_getElem hi]
  simp

/-- Filter `i` is the slice of the block between its start and the next start. -/
theorem slice_filter (fs : List Bytes) (rest : Bytes) (i : Nat) (hi : i < fs.length) :
    slice (fs.flatten ++ rest) (fs.take i).flatten.length (fs.take (i + 1)).flatten.length
      = fs[i] := by
  unfold slice
  rw [take_succ_flatten fs i hi]
  have hsplit : fs.flatten = (fs.take i).flatten ++ (fs[i] ++ (fs.drop (i + 1)).flatten) := by
    conv_lhs => rw [← List.take_append_drop i fs]
    rw [List.flatten_append, List.drop_eq_getElem_cons hi, List.flatten_cons]
  rw [hsplit, List.append_assoc, List.drop_left, List.length_append, Nat.add_sub_cancel_left,
    List.append_assoc, List.take_left]

theorem filter_block_eq_array (fs : List Bytes) :
    filter_block fs
      = fs.flatten ++ ((filter_starts 0 fs ++ [0 + fs.flatten.length]).map
          ldb_fixed32_encode).flatten ++ [11] := by
  unfold filter_block
  simp only [List.map_append, List.flatten_append, List.map_cons, List.map_nil,
    List.flatten_cons, List.flatten_nil, List.append_nil, List.append_assoc, Nat.zero_add]
  rfl

theorem filter_block_length (fs : List Bytes) :
    (filter_block fs).length = fs.flatten.length + 4 * fs.length + 5 := by
  unfold filter_block
  simp only [List.length_append, length_flatten_fixed32, filter_starts_length,
    fixed32_encode_length, List.length_singleton]

/-- Offset word `j` of a filter block, the word after the last offset being the
`array_offset` word. -/
theorem filter_block_word (fs : List Bytes) (j : Nat) (hj : j ≤ fs.length) :
    ldb_fixed32_decode (filter_block fs) (fs.flatten.length + j * 4)
      = (fs.take j).flatten.length % 2 ^ 32 := by
  rw [filter_block_eq_array,
    fixed32_decode_array _ _ _ j (by simp [filter_starts_length]; omega),
    filter_starts_ext_getD fs 0 j hj, Nat.zero_add]

theorem filter_block_base_lg (fs : List Bytes) :
    ((filter_block fs).getD ((filter_block fs).length - 1) 0).toNat = 11 := by
  rw [filter_block_length, filter_block_eq_array]
  rw [List.getD_append_right _ _ _ _ (by
    simp only [List.length_append, length_flatten_fixed32, List.length_append,
      filter_starts_length, List.length_singleton]; omega)]
  have e : fs.flatten.length + 4 * fs.length + 5 - 1
      - (fs.flatten ++ ((filter_starts 0 fs ++ [0 + fs.flatten.length]).map
          ldb_fixed32_encode).flatten).length = 0 := by
    simp only [List.length_append, length_flatten_fixed32, List.length_append,
      filter_starts_length, List.length_singleton]; omega
  rw [e]
  rfl

/-- The reader state on a filter block, whatever its size: the `array_offset` read back
is the length of the filter data modulo `2 ^ 32`. -/
theorem filterreader_init_block (policy : ldb_bloom_t) (fs : List Bytes) :
    ldb_filterreader_init policy (filter_block fs)
      = { policy := policy, data := filter_block fs, offset := fs.flatten.length % 2 ^ 32,
          num := (fs.flatten.length + 4 * fs.length - fs.flatten.length % 2 ^ 32) / 4,
          base_lg := 11 } := by
  have hlen := filter_block_length fs
  have hword := filter_block_word fs fs.length (Nat.le_refl _)
  rw [List.take_length] at hword
  have hpos : (filter_block fs).length - 5 = fs.flatten.length + fs.length * 4 := by omega
  have hmod : fs.flatten.length % 2 ^ 32 ≤ fs.flatten.length := Nat.mod_le _ _
  unfold ldb_filterreader_init
  simp only []
  rw [if_neg (by omega), filter_block_base_lg, hpos, hword, if_neg (by omega)]
  congr 2
  omega

/-- The reader state on a filter block whose filter data is shorter than `2 ^ 32`. -/
theorem filterreader_init_block_small (policy : ldb_bloom_t) (fs : List Bytes)
    (hsize : fs.flatten.length < 2 ^ 32) :
    ldb_filterreader_init policy (filter_block fs)
      = { policy := policy, data := filter_block fs, offset := fs.flatten.length,
          num := fs.length, base_lg := 11 } := by
  rw [filterreader_init_block, Nat.mod_eq_of_lt hsize]
  congr 1
  omega

theorem filter_block_word_small (fs : List Bytes) (j : Nat) (hj : j ≤ fs.length)
    (hsize : fs.flatten.length < 2 ^ 32) :
    ldb_fixed32_decode (filter_block fs) (fs.flatten.length + j * 4)
      = (fs.take j).flatten.length := by
  rw [filter_block_word fs j hj]
  exact Nat.mod_eq_of_lt (Nat.lt_of_le_of_lt (take_flatten_length_le fs j) hsize)

theorem finish_run_block (policy : ldb_bloom_t) (ops : List filter_op) (fb : ldb_filterbuilder_t)
    (hrun : run_ops (ldb_filterbuilder_init policy) ops = some fb) :
    (ldb_filterbuilder_finish fb).2 = filter_block (generated_filters policy ops) :=
  finish_run_eq policy ops fb hrun

/-- C3, counterexample: with a policy that builds a filter of `2 ^ 32` bytes, the run
`add_key ""`, `finish` generates one filter and `|F| = 2 ^ 32`, but the reader of the
finished block has `array_offset = 0` and `num = 2 ^ 30 + 1`. -/
theorem filterreader_decodes_counterexample :
    run_ops (ldb_filterbuilder_init policy_big) [.add_key []]
        = some (ldb_filterbuilder_add_key (ldb_filterbuilder_init policy_big) [])
    ∧ (generated_filters policy_big [.add_key []]).length = 1
    ∧ (generated_filters policy_big [.add_key []]).flatten.length = 2 ^ 32
    ∧ (ldb_filterreader_init policy_big (ldb_filterbuilder_finish
        (ldb_filterbuilder_add_key (ldb_filterbuilder_init policy_big) [])).2).offset = 0
    ∧ (ldb_filterreader_init policy_big (ldb_filterbuilder_finish
        (ldb_filterbuilder_add_key (ldb_filterbuilder_init policy_big) [])).2).num
        = 2 ^ 30 + 1 := by
  have hrun : run_ops (ldb_filterbuilder_init policy_big) [.add_key []]
      = some (ldb_filterbuilder_add_key (ldb_filterbuilder_init policy_big) []) := rfl
  have hfs : generated_filters policy_big [.add_key []] = [List.replicate (2 ^ 32) 0] := rfl
  have hlen : [List.replicate (2 ^ 32) (0 : UInt8)].flatten.length = 2 ^ 32 := by
    simp only [List.flatten_cons, List.flatten_nil, List.append_nil, List.length_replicate]
  refine ⟨hrun, ?_, ?_, ?_, ?_⟩
  · rw [hfs]; rfl
  · rw [hfs, hlen]
  · rw [finish_run_block _ _ _ hrun, filterreader_init_block, hfs, hlen]
    exact Nat.mod_self _
  · rw [finish_run_block _ _ _ hrun, filterreader_init_block, hfs, hlen]
    show (2 ^ 32 + 4 * 1 - 2 ^ 32 % 2 ^ 32) / 4 = 2 ^ 30 + 1
    norm_num

/-- C3, amended: for every run whose filter data `F` is shorter than `2 ^ 32` bytes, the
reader of the finished block has `base_lg = 11`, `num` equal to the number of generated
filters and `array_offset = |F|`; for every `i < num` the two words it reads are the
start of filter `i` and the start of filter `i + 1` (for the last filter the second word
is the `array_offset` word, at position `n - 5`, holding `|F|`), and the slice between
them is exactly the bytes generated for filter `i`. -/
theorem filterreader_decodes_builder_output (policy : ldb_bloom_t) (ops : List filter_op)
    (fb : ldb_filterbuilder_t) (fr : ldb_filterreader_t)
    (hrun : run_ops (ldb_filterbuilder_init policy) ops = some fb)
    (hsize : (generated_filters policy ops).flatten.length < 2 ^ 32)
    (hfr : fr = ldb_filterreader_init policy (ldb_filterbuilder_finish fb).2) :
    fr.base_lg = 11
    ∧ fr.num = (generated_filters policy ops).length
    ∧ fr.offset = (generated_filters policy ops).flatten.length
    ∧ fr.data = (ldb_filterbuilder_finish fb).2
    ∧ ∀ i, i < fr.num →
        ldb_fixed32_decode fr.data (fr.offset + i * 4)
          = (filter_starts 0 (generated_filters policy ops)).getD i 0
        ∧ ldb_fixed32_decode fr.data (fr.offset + i * 4 + 4)
          = (filter_starts 0 (generated_filters policy ops)
              ++ [(generated_filters policy ops).flatten.length]).getD (i + 1) 0
        ∧ (i + 1 = fr.num → fr.offset + i * 4 + 4 = fr.data.length - 5)
        ∧ (generated_filters policy ops)[i]?
          = some (slice fr.data (ldb_fixed32_decode fr.data (fr.offset + i * 4))
              (ldb_fixed32_decode fr.data (fr.offset + i * 4 + 4))) := by
  have hblock := finish_run_block policy ops fb hrun
  rw [hblock] at hfr ⊢
  rw [filterreader_init_block_small policy _ hsize] at hfr
  subst hfr
  refine ⟨rfl, rfl, rfl, rfl, ?_⟩
  intro i hi
  simp only [] at hi ⊢
  have h1 := filter_block_word_small _ i (Nat.le_of_lt hi) hsize
  have h2 := filter_block_word_small _ (i + 1) hi hsize
  have e : (generated_filters policy ops).flatten.length + i * 4 + 4
      = (generated_filters policy ops).flatten.length + (i + 1) * 4 := by omega
  rw [e, h1, h2]
  refine ⟨(filter_starts_getD _ i hi).symm, ?_, ?_, ?_⟩
  · have := filter_starts_ext_getD (generated_filters policy ops) 0 (i + 1) hi
    simpa using this.symm
  · intro hlast
    rw [filter_block_length]
    omega
  · rw [filter_block, List.append_assoc, List.append_assoc, slice_filter _ _ i hi,
      List.getElem?_eq_getElem hi]

theorem filterreader_decodes_builder_output_witness :
    (ldb_filterreader_init policy_len (ldb_filterbuilder_finish
        (ldb_filterbuilder_add_key (ldb_filterbuilder_init policy_len) [7])).2).base_lg = 11
    ∧ (generated_filters policy_len [.add_key [7]]).flatten.length < 2 ^ 32 :=
  ⟨(filterreader_decodes_builder_output policy_len [.add_key [7]]
      (ldb_filterbuilder_add_key (ldb_filterbuilder_init policy_len) [7]) _ rfl (by decide)
      rfl).1, by decide⟩

/-! ## Filter alignment -/

/-- On a filter block whose filter data is shorter than `2 ^ 32`, a lookup whose index
is below the number of filters runs the policy's match on that filter. -/
theorem filterreader_matches_block (wide : Nat → Nat → Nat) (policy : ldb_bloom_t)
    (fs : List Bytes) (block_offset : Nat) (key : Bytes) (hsize : fs.flatten.length < 2 ^ 32)
    (hi : block_offset >>> 11 < fs.length) :
    ldb_filterreader_matches wide (ldb_filterreader_init policy (filter_block fs))
        block_offset key
      = policy.key_match fs[block_offset >>> 11] key := by
  rw [filterreader_init_block_small policy fs hsize]
  unfold ldb_filterreader_matches
  simp only [uint64_shr_lt wide block_offset (show 11 < 64 by decide)]
  rw [if_pos hi]
  have h1 := filter_block_word_small fs (block_offset >>> 11) (Nat.le_of_lt hi) hsize
  have h2 := filter_block_word_small fs (block_offset >>> 11 + 1) hi hsize
  have e : fs.flatten.length + block_offset >>> 11 * 4 + 4
      = fs.flatten.length + (block_offset >>> 11 + 1) * 4 := by omega
  rw [e, h1, h2]
  have hmono : (fs.take (block_offset >>> 11)).flatten.length
      ≤ (fs.take (block_offset >>> 11 + 1)).flatten.length := by
    rw [take_succ_flatten fs _ hi, List.length_append]
    omega
  rw [if_pos ⟨hmono, take_flatten_length_le fs _⟩]
  rw [filter_block, List.append_assoc, List.append_assoc, slice_filter _ _ _ hi]

theorem shiftRight_mono {a b : Nat} (h : a ≤ b) (n : Nat) : a >>> n ≤ b >>> n := by
  rw [Nat.shiftRight_eq_div_pow, Nat.shiftRight_eq_div_pow]
  exact Nat.div_le_div_right h

theorem add_key_offsets (fb : ldb_filterbuilder_t) (key : Bytes) :
    (ldb_filterbuilder_add_key fb key).filter_offsets = fb.filter_offsets := rfl

/-- A run whose block offsets are non-decreasing, and not below the filters already
generated, never fails an assertion. -/
theorem run_succeeds : ∀ (ops : List filter_op) (fb : ldb_filterbuilder_t),
    List.Pairwise (fun a b => a ≤ b) (block_offsets ops) →
    (∀ o ∈ block_offsets ops, fb.filter_offsets.length ≤ o >>> 11) →
    ∃ fb1, run_ops fb ops = some fb1 := by
  intro ops
  induction ops with
  | nil => intro fb _ _; exact ⟨fb, rfl⟩
  | cons op ops ih =>
    intro fb hsorted hlow
    cases op with
    | add_key k =>
      unfold run_ops
      simp only [apply_op]
      exact ih _ hsorted (fun o ho => by rw [add_key_offsets]; exact hlow o ho)
    | start_block o =>
      simp only [block_offsets, List.pairwise_cons, List.mem_cons, forall_eq_or_imp] at hsorted hlow
      obtain ⟨fb1, h1, hlen⟩ := start_block_length fb o hlow.1
      unfold run_ops
      simp only [apply_op, h1]
      exact ih fb1 hsorted.2 (fun o2 ho2 => by
        rw [hlen]; exact shiftRight_mono (hsorted.1 o2 ho2) 11)

theorem run_ops_append : ∀ (ops1 ops2 : List filter_op) (fb fb2 : ldb_filterbuilder_t),
    run_ops fb (ops1 ++ ops2) = some fb2 →
    ∃ fb1, run_ops fb ops1 = some fb1 ∧ run_ops fb1 ops2 = some fb2 := by
  intro ops1
  induction ops1 with
  | nil => intro ops2 fb fb2 h; exact ⟨fb, rfl, h⟩
  | cons op ops1 ih =>
    intro ops2 fb fb2 h
    rw [List.cons_append] at h
    unfold run_ops at h
    cases hstep : apply_op fb op with
    | none => rw [hstep] at h; cases h
    | some fb3 =>
      rw [hstep] at h
      obtain ⟨fb1, ha, hb⟩ := ih ops2 fb3 fb2 h
      refine ⟨fb1, ?_, hb⟩
      simp only [run_ops, hstep]
      exact ha

theorem block_offsets_append (ops1 ops2 : List filter_op) :
    block_offsets (ops1 ++ ops2) = block_offsets ops1 ++ block_offsets ops2 := by
  induction ops1 with
  | nil => rfl
  | cons op ops1 ih =>
    cases op with
    | add_key k => simpa [block_offsets] using ih
    | start_block o => simpa [block_offsets] using ih

theorem block_offsets_add_keys (adds : List Bytes) :
    block_offsets (adds.map filter_op.add_key) = [] := by
  induction adds with
  | nil => rfl
  | cons k adds ih => simpa [block_offsets] using ih

theorem view_run_add_keys (policy : ldb_bloom_t) (adds : List Bytes) : ∀ (v : filter_view),
    view_run policy v (adds.map filter_op.add_key)
      = { v with pending := v.pending ++ adds } := by
  induction adds with
  | nil => intro v; simp [view_run]
  | cons k adds ih =>
    intro v
    have := ih { v with pending := v.pending ++ [k] }
    simp only [view_run, List.map_cons, List.foldl_cons, view_step] at this ⊢
    rw [this]
    simp

/-- A step of the view only appends filters. -/
theorem view_step_filters (policy : ldb_bloom_t) (v : filter_view) (op : filter_op) :
    ∃ more, (view_step policy v op).filters = v.filters ++ more := by
  cases op with
  | add_key k => exact ⟨[], by simp [view_step]⟩
  | start_block o =>
    unfold view_step
    simp only []
    split
    · exact ⟨[], by simp⟩
    · exact ⟨_, rfl⟩

theorem view_run_filters (policy : ldb_bloom_t) (ops : List filter_op) : ∀ (v : filter_view),
    ∃ more, (view_run policy v ops).filters = v.filters ++ more := by
  induction ops with
  | nil => intro v; exact ⟨[], by simp [view_run]⟩
  | cons op ops ih =>
    intro v
    obtain ⟨m1, h1⟩ := view_step_filters policy v op
    obtain ⟨m2, h2⟩ := ih (view_step policy v op)
    refine ⟨m1 ++ m2, ?_⟩
    simp only [view_run, List.foldl_cons] at h2 ⊢
    rw [h2, h1, List.append_assoc]

theorem view_finish_filters (policy : ldb_bloom_t) (v : filter_view) :
    ∃ more, view_finish policy v = v.filters ++ more := by
  unfold view_finish
  split
  · exact ⟨[], by simp⟩
  · exact ⟨_, rfl⟩

/-- A filter that has been generated stays where it is until the end of the run. -/
theorem generated_filter_stays (policy : ldb_bloom_t) (ops : List filter_op) (v : filter_view)
    (i : Nat) (f : Bytes) (h : v.filters[i]? = some f) :
    (view_finish policy (view_run policy v ops))[i]? = some f := by
  obtain ⟨m1, h1⟩ := view_run_filters policy ops v
  obtain ⟨m2, h2⟩ := view_finish_filters policy (view_run policy v ops)
  have hi : i < v.filters.length := by
    by_contra hc
    rw [List.getElem?_eq_none (by omega)] at h
    cases h
  rw [h2, h1, List.append_assoc, List.getElem?_append_left hi, h]

/-- A key pending for filter `idx` ends up in the batch from which filter `idx` is built. -/
theorem pending_key_filter (policy : ldb_bloom_t) (k : Bytes) (idx : Nat) :
    ∀ (ops : List filter_op) (v : filter_view), v.filters.length = idx → k ∈ v.pending →
      (∀ o ∈ block_offsets ops, idx ≤ o >>> 11) →
      ∃ batch, k ∈ batch ∧
        (view_finish policy (view_run policy v ops))[idx]? = some (policy.build batch) := by
  intro ops
  induction ops with
  | nil =>
    intro v hlen hk _
    refine ⟨v.pending, hk, ?_⟩
    have hne : v.pending.length ≠ 0 := by
      intro h0
      rw [List.length_eq_zero.mp h0] at hk
      cases hk
    simp only [view_run, List.foldl_nil, view_finish, if_neg hne]
    rw [List.getElem?_append_right (by omega), hlen]
    simp
  | cons op ops ih =>
    intro v hlen hk hlow
    cases op with
    | add_key k2 =>
      exact ih { v with pending := v.pending ++ [k2] } hlen (by simp [hk])
        (fun o ho => hlow o ho)
    | start_block o =>
      simp only [block_offsets, List.mem_cons, forall_eq_or_imp] at hlow
      by_cases hle : o >>> 11 ≤ v.filters.length
      · have hstep : view_step policy v (.start_block o) = v := by
          simp [view_step, LDB_FILTER_BASE_LG, hle]
        have := ih v hlen hk hlow.2
        simpa only [view_run, List.foldl_cons, hstep] using this
      · have hne : v.pending.length ≠ 0 := by
          intro h0
          rw [List.length_eq_zero.mp h0] at hk
          cases hk
        refine ⟨v.pending, hk, ?_⟩
        have hgen : (view_step policy v (.start_block o)).filters[idx]?
            = some (policy.build v.pending) := by
          simp only [view_step, LDB_FILTER_BASE_LG, if_neg hle, flush_pending, if_neg hne]
          rw [List.getElem?_append_right (by omega), hlen]
          simp
        exact generated_filter_stays policy ops _ idx _ hgen

theorem filter_block_big_head :
    ∃ rest, filter_block [List.replicate (2 ^ 32) 0] = 0 :: 0 :: 0 :: 0 :: 0 :: 0 :: 0 :: 0 :: rest := by
  have e0 : (2 : Nat) ^ 32 = 8 + (2 ^ 32 - 8) := by norm_num
  have e1 : [List.replicate (2 ^ 32) (0 : UInt8)].flatten
      = List.replicate 8 0 ++ List.replicate (2 ^ 32 - 8) 0 := by
    rw [← List.replicate_add, ← e0]
    simp only [List.flatten_cons, List.flatten_nil, List.append_nil]
  refine ⟨List.replicate (2 ^ 32 - 8) 0
    ++ (((filter_starts 0 [List.replicate (2 ^ 32) 0]).map ldb_fixed32_encode).flatten
    ++ (ldb_fixed32_encode [List.replicate (2 ^ 32) (0 : UInt8)].flatten.length
    ++ [UInt8.ofNat LDB_FILTER_BASE_LG])), ?_⟩
  unfold filter_block
  rw [e1, List.append_assoc, List.append_assoc, List.append_assoc]
  rfl

/-- C1, counterexample: the policy `policy_big` has no false negatives, and in the run
`start_block(0)`, `add_key ""`, `finish` the key `""` is added after `start_block(0)`;
the filter data is `2 ^ 32` bytes long, the `array_offset` word wraps to `0`, and the
reader of the finished block answers `false` for block offset `0` and the key `""`. -/
theorem filter_alignment_counterexample :
    (∀ (keys : List Bytes) (key : Bytes), key ∈ keys →
        policy_big.key_match (policy_big.build keys) key = true)
    ∧ List.Pairwise (fun a b => a ≤ b) (block_offsets [.start_block 0, .add_key []])
    ∧ run_ops (ldb_filterbuilder_init policy_big) [.start_block 0, .add_key []]
        = some (ldb_filterbuilder_add_key (ldb_filterbuilder_init policy_big) [])
    ∧ ldb_filterreader_matches shr_mod64 (ldb_filterreader_init policy_big
        (ldb_filterbuilder_finish
          (ldb_filterbuilder_add_key (ldb_filterbuilder_init policy_big) [])).2) 0 [] = false := by
  have hrun : run_ops (ldb_filterbuilder_init policy_big) [.start_block 0, .add_key []]
      = some (ldb_filterbuilder_add_key (ldb_filterbuilder_init policy_big) []) := rfl
  have hfs : generated_filters policy_big [.start_block 0, .add_key []]
      = [List.replicate (2 ^ 32) 0] := rfl
  have hlen : [List.replicate (2 ^ 32) (0 : UInt8)].flatten.length = 2 ^ 32 := by
    simp only [List.flatten_cons, List.flatten_nil, List.append_nil, List.length_replicate]
  refine ⟨?_, ?_, hrun, ?_⟩
  · intro keys key _
    simp only [policy_big, List.length_replicate, decide_True]
  · simp [block_offsets]
  · obtain ⟨rest, hrest⟩ := filter_block_big_head
    rw [finish_run_block _ _ _ hrun, filterreader_init_block, hfs, hlen, hrest, Nat.mod_self]
    rfl

/-- C1, amended: for every policy without false negatives and every run with
non-decreasing block offsets whose filter data `F` is shorter than `2 ^ 32` bytes, the run
succeeds, and a key added after `start_block(o)` and before the next `start_block` is
matched by the reader of the finished block at block offset `o`. -/
theorem filter_alignment (wide : Nat → Nat → Nat) (policy : ldb_bloom_t)
    (pre post : List filter_op) (o : Nat) (adds : List Bytes) (k : Bytes)
    (hpolicy : ∀ (keys : List Bytes) (key : Bytes), key ∈ keys →
      policy.key_match (policy.build keys) key = true)
    (hsorted : List.Pairwise (fun a b => a ≤ b)
      (block_offsets (pre ++ .start_block o :: (adds.map .add_key ++ post))))
    (hk : k ∈ adds)
    (hsize : (generated_filters policy
      (pre ++ .start_block o :: (adds.map .add_key ++ post))).flatten.length < 2 ^ 32) :
    ∃ fb, run_ops (ldb_filterbuilder_init policy)
        (pre ++ .start_block o :: (adds.map .add_key ++ post)) = some fb
      ∧ ldb_filterreader_matches wide
          (ldb_filterreader_init policy (ldb_filterbuilder_finish fb).2) o k = true := by
  obtain ⟨fb, hrun⟩ := run_succeeds _ (ldb_filterbuilder_init policy) hsorted
    (fun o _ => Nat.zero_le _)
  refine ⟨fb, hrun, ?_⟩
  -- the state and the view after `pre` and `start_block(o)`
  obtain ⟨fb0, hpre, hrest⟩ := run_ops_append pre _ _ fb hrun
  obtain ⟨hrep0, hpol0⟩ := rep_run pre _ fb0 _ (rep_init policy) hpre
  unfold run_ops at hrest
  cases hstep : apply_op fb0 (.start_block o) with
  | none => rw [hstep] at hrest; cases hrest
  | some fb1 =>
    obtain ⟨hrep1, _, hlen1⟩ := rep_start_block fb0 fb1 _ o hrep0 hstep
    rw [hpol0] at hrep1
    have hidx : (view_step policy (view_run policy { filters := [], pending := [] } pre)
        (.start_block o)).filters.length = o >>> 11 := by
      rw [← hlen1, hrep1.2.1, filter_starts_length]
      rfl
    -- the later block offsets are not below `o`
    rw [block_offsets_append] at hsorted
    have hs2 := (List.pairwise_append.mp hsorted).2.1
    simp only [block_offsets, block_offsets_append, block_offsets_add_keys, List.nil_append,
      List.pairwise_cons] at hs2
    have hlow : ∀ o2 ∈ block_offsets post, o >>> 11 ≤ o2 >>> 11 :=
      fun o2 ho2 => shiftRight_mono (hs2.1 o2 ho2) 11
    -- the filter of index `o >> 11` is built from a batch containing `k`
    obtain ⟨batch, hkb, hfilter⟩ := pending_key_filter policy k (o >>> 11) post
      { view_step policy (view_run policy { filters := [], pending := [] } pre)
          (.start_block o) with
        pending := (view_step policy (view_run policy { filters := [], pending := [] } pre)
          (.start_block o)).pending ++ adds }
      hidx (by simp [hk]) hlow
    have hgen : generated_filters policy (pre ++ .start_block o :: (adds.map .add_key ++ post))
        = view_finish policy (view_run policy
            { view_step policy (view_run policy { filters := [], pending := [] } pre)
                (.start_block o) with
              pending := (view_step policy (view_run policy { filters := [], pending := [] } pre)
                (.start_block o)).pending ++ adds } post) := by
      unfold generated_filters
      rw [← view_run_add_keys policy]
      simp only [view_run, List.foldl_append, List.foldl_cons]
    rw [← hgen] at hfilter
    have hi : o >>> 11 < (generated_filters policy
        (pre ++ .start_block o :: (adds.map .add_key ++ post))).length := by
      by_contra hc
      rw [List.getElem?_eq_none (by omega)] at hfilter
      cases hfilter
    rw [finish_run_block policy _ fb hrun,
      filterreader_matches_block wide policy _ o k hsize hi]
    rw [List.getElem?_eq_getElem hi] at hfilter
    rw [Option.some.inj hfilter]
    exact hpolicy batch k hkb

theorem filter_alignment_witness :
    ∃ fb, run_ops (ldb_filterbuilder_init policy_len)
        ([] ++ .start_block 0 :: ([[7]].map .add_key ++ [])) = some fb
      ∧ ldb_filterreader_matches shr_mod64
          (ldb_filterreader_init policy_len (ldb_filterbuilder_finish fb).2) 0 [7] = true :=
  filter_alignment shr_mod64 policy_len [] [] 0 [[7]] [7]
    (by intro keys key _; rfl) (by decide) (by decide) (by decide)

/-! ## File names -/

theorem digitChar_spec (d : Nat) (hd : d < 10) :
    ('0' ≤ Nat.digitChar d ∧ Nat.digitChar d ≤ '9')
      ∧ (Nat.digitChar d).toNat - '0'.toNat = d := by
  interval_cases d <;> decide

theorem toDigitsCore_append : ∀ (fuel n : Nat) (ds : List Char),
    Nat.toDigitsCore 10 fuel n ds = Nat.toDigitsCore 10 fuel n [] ++ ds := by
  intro fuel
  induction fuel with
  | zero => intro n ds; rfl
  | succ fuel ih =>
    intro n ds
    unfold Nat.toDigitsCore
    simp only []
    split
    · rfl
    · rw [ih _ (_ :: ds), ih _ [_], List.append_assoc]
      rfl

theorem decode_digits_step (c : Char) (cs : List Char) (x : Nat) (hc : '0' ≤ c ∧ c ≤ '9')
    (hx : x * 10 + (c.toNat - '0'.toNat) ≤ UINT64_MAX) :
    decode_digits (c :: cs) x = decode_digits cs (x * 10 + (c.toNat - '0'.toNat)) := by
  rw [decode_digits, if_pos hc]
  simp only [UINT64_MAX] at hx ⊢
  rw [if_neg (by omega)]

/-- The digit loop reads back the decimal digits of a 64-bit number. -/
theorem decode_digits_toDigitsCore : ∀ (fuel n : Nat), n < fuel → n ≤ UINT64_MAX →
    ∀ tail, decode_digits (Nat.toDigitsCore 10 fuel n [] ++ tail) 0 = decode_digits tail n := by
  intro fuel
  induction fuel with
  | zero => intro n h; cases h
  | succ fuel ih =>
    intro n hn hmax tail
    have hd := digitChar_spec (n % 10) (Nat.mod_lt _ (by decide))
    unfold Nat.toDigitsCore
    simp only []
    by_cases h0 : n / 10 = 0
    · rw [if_pos h0]
      have hmod : n % 10 = n := by omega
      rw [List.singleton_append, decode_digits_step _ _ _ hd.1 (by rw [hd.2]; omega), hd.2,
        Nat.zero_mul, Nat.zero_add, hmod]
    · rw [if_neg h0, toDigitsCore_append, List.append_assoc, List.singleton_append]
      rw [ih (n / 10) (by omega) (by omega)]
      rw [decode_digits_step _ _ _ hd.1 (by rw [hd.2]; omega), hd.2]
      congr 1
      omega

theorem decode_digits_zeros (k : Nat) (tail : List Char) :
    decode_digits (List.replicate k '0' ++ tail) 0 = decode_digits tail 0 := by
  induction k with
  | zero => rfl
  | succ k ih =>
    rw [List.replicate_succ, List.cons_append, decode_digits_step _ _ _ (by decide) (by decide)]
    exact ih

theorem decode_digits_encode (num pad : Nat) (hmax : num ≤ UINT64_MAX) (tail : List Char) :
    decode_digits (rdb_encode_int num pad ++ tail) 0 = decode_digits tail num := by
  unfold rdb_encode_int
  simp only []
  rw [List.append_assoc, decode_digits_zeros]
  exact decode_digits_toDigitsCore (num + 1) num (Nat.lt_succ_self _) hmax tail

theorem toDigitsCore_digits : ∀ (fuel n : Nat) (ds : List Char),
    (∀ c ∈ ds, '0' ≤ c ∧ c ≤ '9') →
    ∀ c ∈ Nat.toDigitsCore 10 fuel n ds, '0' ≤ c ∧ c ≤ '9' := by
  intro fuel
  induction fuel with
  | zero => intro n ds h; exact h
  | succ fuel ih =>
    intro n ds h
    have hd := (digitChar_spec (n % 10) (Nat.mod_lt _ (by decide))).1
    have hds : ∀ c ∈ Nat.digitChar (n % 10) :: ds, '0' ≤ c ∧ c ≤ '9' := by
      intro c hc
      rcases List.mem_cons.mp hc with rfl | hc
      · exact hd
      · exact h c hc
    unfold Nat.toDigitsCore
    simp only []
    split
    · exact hds
    · exact ih _ _ hds

theorem toDigitsCore_ne_nil (fuel n : Nat) : Nat.toDigitsCore 10 (fuel + 1) n [] ≠ [] := by
  unfold Nat.toDigitsCore
  simp only []
  split
  · simp
  · rw [toDigitsCore_append]
    simp

/-- An encoded number starts with a decimal digit. -/
theorem encode_int_head (num pad : Nat) :
    ∃ c cs, rdb_encode_int num pad = c :: cs ∧ '0' ≤ c ∧ c ≤ '9' := by
  have hall : ∀ c ∈ rdb_encode_int num pad, '0' ≤ c ∧ c ≤ '9' := by
    intro c hc
    unfold rdb_encode_int at hc
    simp only [List.mem_append] at hc
    rcases hc with hc | hc
    · rw [(List.mem_replicate.mp hc).2]
      decide
    · exact toDigitsCore_digits _ _ [] (fun _ h => by cases h) c hc
  have hne : rdb_encode_int num pad ≠ [] := by
    unfold rdb_encode_int
    simp only []
    intro h
    exact toDigitsCore_ne_nil num num (List.append_eq_nil.mp h).2
  cases henc : rdb_encode_int num pad with
  | nil => exact absurd henc hne
  | cons c cs =>
    refine ⟨c, cs, rfl, hall c ?_⟩
    rw [henc]
    exact List.mem_cons_self _ _

/-- A name that starts with a decimal digit is parsed as a number followed by a suffix. -/
theorem parse_filename_digit (c : Char) (cs : List Char) (hc : '0' ≤ c ∧ c ≤ '9') :
    rdb_parse_filename (c :: cs)
      = match decode_digits (c :: cs) 0 with
        | some (x, rest) =>
          if rest = ".log".toList then some (.RDB_FILE_LOG, x)
          else if rest = ".sst".toList ∨ rest = ".ldb".toList then some (.RDB_FILE_TABLE, x)
          else if rest = ".dbtmp".toList then some (.RDB_FILE_TEMP, x)
          else none
        | none => none := by
  have hC : c ≠ 'C' := by rintro rfl; revert hc; decide
  have hL : c ≠ 'L' := by rintro rfl; revert hc; decide
  have hM : c ≠ 'M' := by rintro rfl; revert hc; decide
  unfold rdb_parse_filename
  rw [if_neg (by simp [hC]), if_neg (by simp [hL]), if_neg (by simp [hL]),
    if_neg (by simp [rdb_starts_with, Ne.symm hM])]
  simp only [rdb_decode_int, if_pos hc]

/-- The name `<number><suffix>`, for a suffix starting with a dot, is parsed as the number
followed by that suffix. -/
theorem parse_filename_number (num : Nat) (h64 : num ≤ UINT64_MAX) (ext : List Char) :
    rdb_parse_filename (rdb_encode_int num 6 ++ '.' :: ext)
      = if '.' :: ext = ".log".toList then some (.RDB_FILE_LOG, num)
        else if '.' :: ext = ".sst".toList ∨ '.' :: ext = ".ldb".toList then
          some (.RDB_FILE_TABLE, num)
        else if '.' :: ext = ".dbtmp".toList then some (.RDB_FILE_TEMP, num)
        else none := by
  obtain ⟨c, cs, henc, hc⟩ := encode_int_head num 6
  have hdec := decode_digits_encode num 6 h64 ('.' :: ext)
  rw [henc, List.cons_append] at hdec ⊢
  rw [parse_filename_digit c _ hc, hdec, decode_digits, if_neg (by decide)]

theorem parse_filename_manifest (num : Nat) (h64 : num ≤ UINT64_MAX) :
    rdb_parse_filename ("MANIFEST-".toList ++ rdb_encode_int num 6)
      = some (.RDB_FILE_DESC, num) := by
  obtain ⟨c, cs, henc, hc⟩ := encode_int_head num 6
  have hdec := decode_digits_encode num 6 h64 []
  rw [List.append_nil, henc] at hdec
  have hname : "MANIFEST-".toList ++ rdb_encode_int num 6
      = 'M' :: 'A' :: 'N' :: 'I' :: 'F' :: 'E' :: 'S' :: 'T' :: '-' :: c :: cs := by
    rw [henc]; rfl
  rw [hname]
  unfold rdb_parse_filename
  rw [if_neg (by simp), if_neg (by simp), if_neg (by simp), if_pos (by rfl)]
  simp only [List.drop_succ_cons, List.drop_zero, rdb_decode_int, if_pos hc, hdec]
  simp [decode_digits]

/-- C10: for every file number `0 < num < 2 ^ 64` (a non-zero `uint64_t`), the five
builders produce the directory prefix joined with a basename that `rdb_parse_filename`
accepts, with the same number and the type `RDB_FILE_LOG` (`.log`), `RDB_FILE_TABLE`
(`.ldb` and `.sst`), `RDB_FILE_DESC` (`MANIFEST-`) and `RDB_FILE_TEMP` (`.dbtmp`). -/
theorem filename_round_trip (pfx : List Char) (num : Nat) (hpos : 0 < num)
    (h64 : num < 2 ^ 64) :
    (rdb_log_filename pfx num = some (rdb_join pfx (rdb_encode_int num 6 ++ ".log".toList))
      ∧ rdb_parse_filename (rdb_encode_int num 6 ++ ".log".toList)
          = some (.RDB_FILE_LOG, num))
    ∧ (rdb_table_filename pfx num = some (rdb_join pfx (rdb_encode_int num 6 ++ ".ldb".toList))
      ∧ rdb_parse_filename (rdb_encode_int num 6 ++ ".ldb".toList)
          = some (.RDB_FILE_TABLE, num))
    ∧ (rdb_sstable_filename pfx num
          = some (rdb_join pfx (rdb_encode_int num 6 ++ ".sst".toList))
      ∧ rdb_parse_filename (rdb_encode_int num 6 ++ ".sst".toList)
          = some (.RDB_FILE_TABLE, num))
    ∧ (rdb_desc_filename pfx num
          = some (rdb_join pfx ("MANIFEST-".toList ++ rdb_encode_int num 6))
      ∧ rdb_parse_filename ("MANIFEST-".toList ++ rdb_encode_int num 6)
          = some (.RDB_FILE_DESC, num))
    ∧ (rdb_temp_filename pfx num
          = some (rdb_join pfx (rdb_encode_int num 6 ++ ".dbtmp".toList))
      ∧ rdb_parse_filename (rdb_encode_int num 6 ++ ".dbtmp".toList)
          = some (.RDB_FILE_TEMP, num)) := by
  have hmax : num ≤ UINT64_MAX := by
    unfold UINT64_MAX
    omega
  have hnum := parse_filename_number num hmax
  refine ⟨⟨?_, ?_⟩, ⟨?_, ?_⟩, ⟨?_, ?_⟩, ⟨?_, ?_⟩, ⟨?_, ?_⟩⟩
  · unfold rdb_log_filename
    rw [if_pos hpos]
    rfl
  · exact (hnum "log".toList).trans (by rw [if_pos (by decide)])
  · unfold rdb_table_filename
    rw [if_pos hpos]
    rfl
  · exact (hnum "ldb".toList).trans (by rw [if_neg (by decide), if_pos (by decide)])
  · unfold rdb_sstable_filename
    rw [if_pos hpos]
    rfl
  · exact (hnum "sst".toList).trans (by rw [if_neg (by decide), if_pos (by decide)])
  · unfold rdb_desc_filename
    rw [if_pos hpos]
  · exact parse_filename_manifest num hmax
  · unfold rdb_temp_filename
    rw [if_pos hpos]
    rfl
  · exact (hnum "dbtmp".toList).trans
      (by rw [if_neg (by decide), if_neg (by decide), if_pos (by decide)])

theorem filename_round_trip_witness :
    rdb_log_filename "db".toList 7 = some (rdb_join "db".toList
        (rdb_encode_int 7 6 ++ ".log".toList))
    ∧ rdb_parse_filename (rdb_encode_int 7 6 ++ ".log".toList) = some (.RDB_FILE_LOG, 7) :=
  (filename_round_trip "db".toList 7 (by decide) (by decide)).1

/-! ## Byte comparison -/

theorem uint8_lt_iff (a b : UInt8) : a < b ↔ a.toNat < b.toNat := Iff.rfl

theorem uint8_eq_of_toNat_eq {a b : UInt8} (h : a.toNat = b.toNat) : a = b := by
  cases a; cases b
  simp only [UInt8.toNat] at h
  congr
  exact BitVec.eq_of_toNat_eq h

theorem memcmp4_nil_nil : rdb_memcmp4 [] [] = 0 := rfl

theorem memcmp4_nil_cons (b : UInt8) (bs : Bytes) : rdb_memcmp4 [] (b :: bs) = -1 := by
  simp [rdb_memcmp4]

theorem memcmp4_cons_nil (a : UInt8) (as : Bytes) : rdb_memcmp4 (a :: as) [] = 1 := by
  simp [rdb_memcmp4]

theorem memcmp_zero (x y : Bytes) : memcmp x y 0 = 0 := by
  unfold memcmp
  split
  · rename_i h; cases h
  · rfl

/-- The comparison of two non-empty strings looks at the first bytes, then at the rest. -/
theorem memcmp4_cons_cons (a b : UInt8) (as bs : Bytes) :
    rdb_memcmp4 (a :: as) (b :: bs)
      = if a = b then rdb_memcmp4 as bs else (a.toNat : Int) - (b.toNat : Int) := by
  have hmin : (if (a :: as).length < (b :: bs).length then (a :: as).length
      else (b :: bs).length) = (if as.length < bs.length then as.length else bs.length) + 1 := by
    simp only [List.length_cons]
    split <;> split <;> omega
  unfold rdb_memcmp4
  simp only [hmin]
  rw [if_pos (Nat.succ_pos _), memcmp]
  by_cases hab : a = b
  · simp only [hab, if_true, List.length_cons]
    by_cases hn : (if as.length < bs.length then as.length else bs.length) > 0
    · simp only [hn, if_true, true_and, Nat.succ_pos, Nat.add_lt_add_iff_right]
      by_cases hc : memcmp as bs (if as.length < bs.length then as.length else bs.length) = 0
      · simp [hc]
      · simp [hc]
    · have h0 : (if as.length < bs.length then as.length else bs.length) = 0 := by omega
      simp only [h0, memcmp_zero, Nat.lt_irrefl, if_false, false_and, ne_eq, not_true,
        and_false, Nat.add_lt_add_iff_right]
      simp
  · have hne : (a.toNat : Int) - (b.toNat : Int) ≠ 0 := by
      intro h
      exact hab (uint8_eq_of_toNat_eq (by omega))
    simp [hab, hne]

theorem memcmp4_neg_iff : ∀ x y : Bytes, rdb_memcmp4 x y < 0 ↔ List.Lex (fun a b : UInt8 => a < b) x y := by
  intro x
  induction x with
  | nil =>
    intro y
    cases y with
    | nil => simp [memcmp4_nil_nil]
    | cons b bs => simp [memcmp4_nil_cons, List.Lex.nil]
  | cons a as ih =>
    intro y
    cases y with
    | nil => simp [memcmp4_cons_nil]
    | cons b bs =>
      rw [memcmp4_cons_cons]
      by_cases hab : a = b
      · subst hab
        rw [if_pos rfl, ih bs]
        constructor
        · intro h
          exact List.Lex.cons h
        · intro h
          cases h with
          | cons h => exact h
          | rel h => exact absurd h (Nat.lt_irrefl _)
      · rw [if_neg hab]
        constructor
        · intro h
          exact List.Lex.rel ((uint8_lt_iff a b).mpr (by omega))
        · intro h
          cases h with
          | cons h => exact absurd rfl hab
          | rel h => have := (uint8_lt_iff a b).mp h; omega

theorem memcmp4_pos_iff : ∀ x y : Bytes, 0 < rdb_memcmp4 x y ↔ List.Lex (fun a b : UInt8 => a < b) y x := by
  intro x
  induction x with
  | nil =>
    intro y
    cases y with
    | nil => simp [memcmp4_nil_nil]
    | cons b bs => simp [memcmp4_nil_cons]
  | cons a as ih =>
    intro y
    cases y with
    | nil => simp [memcmp4_cons_nil, List.Lex.nil]
    | cons b bs =>
      rw [memcmp4_cons_cons]
      by_cases hab : a = b
      · subst hab
        rw [if_pos rfl, ih bs]
        constructor
        · intro h
          exact List.Lex.cons h
        · intro h
          cases h with
          | cons h => exact h
          | rel h => exact absurd h (Nat.lt_irrefl _)
      · rw [if_neg hab]
        constructor
        · intro h
          exact List.Lex.rel ((uint8_lt_iff b a).mpr (by omega))
        · intro h
          cases h with
          | cons h => exact absurd rfl hab
          | rel h => have := (uint8_lt_iff b a).mp h; omega

theorem memcmp4_zero_iff : ∀ x y : Bytes, rdb_memcmp4 x y = 0 ↔ x = y := by
  intro x
  induction x with
  | nil =>
    intro y
    cases y with
    | nil => simp [memcmp4_nil_nil]
    | cons b bs => simp [memcmp4_nil_cons]
  | cons a as ih =>
    intro y
    cases y with
    | nil => simp [memcmp4_cons_nil]
    | cons b bs =>
      rw [memcmp4_cons_cons]
      by_cases hab : a = b
      · subst hab
        rw [if_pos rfl, ih bs]
        simp
      · rw [if_neg hab]
        have hne : (a.toNat : Int) - (b.toNat : Int) ≠ 0 := by
          intro h
          exact hab (uint8_eq_of_toNat_eq (by omega))
        simp [hab, hne]

/-- C12: `rdb_memcmp4` is lexicographic byte comparison with shorter-is-smaller
tie-break: its result is negative exactly when `x` is below `y` in the lexicographic
order of lists of unsigned bytes (in which a proper prefix is below the longer string),
zero exactly when `x = y`, positive exactly when `y` is below `x`; the empty string is
below every non-empty one. -/
theorem memcmp4_lexicographic (x y : Bytes) :
    (rdb_memcmp4 x y < 0 ↔ List.Lex (fun a b : UInt8 => a < b) x y)
      ∧ (rdb_memcmp4 x y = 0 ↔ x = y)
      ∧ (0 < rdb_memcmp4 x y ↔ List.Lex (fun a b : UInt8 => a < b) y x)
      ∧ (∀ (b : UInt8) (bs : Bytes), rdb_memcmp4 [] (b :: bs) < 0
          ∧ List.Lex (fun a b : UInt8 => a < b) [] (b :: bs)) := by
  refine ⟨memcmp4_neg_iff x y, memcmp4_zero_iff x y, memcmp4_pos_iff x y, ?_⟩
  intro b bs
  refine ⟨?_, List.Lex.nil⟩
  rw [memcmp4_nil_cons]
  decide

/-! ## Status codes -/

/-- C18: `convert_error` looks only at the text before the first `':'`; `NULL` and `"OK"`
give `LDB_OK` (0), `"NotFound"` gives -1, `"Corruption"` -2, `"Not implemented"` -3,
`"Invalid argument"` -4, `"IO error"` -5, every other text before the colon gives
`LDB_INVALID`, and the result is always one of the six codes. -/
theorem convert_error_classifies :
    (∀ s t : List Char, s.takeWhile (fun c => c ≠ ':') = t.takeWhile (fun c => c ≠ ':') →
        convert_error (some s) = convert_error (some t))
    ∧ convert_error none = LDB_OK ∧ LDB_OK = 0
    ∧ (∀ s : List Char,
        (s.takeWhile (fun c => c ≠ ':') = "OK".toList → convert_error (some s) = LDB_OK)
        ∧ (s.takeWhile (fun c => c ≠ ':') = "NotFound".toList →
            convert_error (some s) = LDB_NOTFOUND)
        ∧ (s.takeWhile (fun c => c ≠ ':') = "Corruption".toList →
            convert_error (some s) = LDB_CORRUPTION)
        ∧ (s.takeWhile (fun c => c ≠ ':') = "Not implemented".toList →
            convert_error (some s) = LDB_NOSUPPORT)
        ∧ (s.takeWhile (fun c => c ≠ ':') = "Invalid argument".toList →
            convert_error (some s) = LDB_INVALID)
        ∧ (s.takeWhile (fun c => c ≠ ':') = "IO error".toList →
            convert_error (some s) = LDB_IOERR)
        ∧ (s.takeWhile (fun c => c ≠ ':') ∉
              ["OK".toList, "NotFound".toList, "Corruption".toList, "Not implemented".toList,
               "Invalid argument".toList, "IO error".toList] →
            convert_error (some s) = LDB_INVALID))
    ∧ LDB_NOTFOUND = -1 ∧ LDB_CORRUPTION = -2 ∧ LDB_NOSUPPORT = -3 ∧ LDB_INVALID = -4
    ∧ LDB_IOERR = -5
    ∧ (∀ err : Option (List Char),
        convert_error err ∈
          [LDB_OK, LDB_NOTFOUND, LDB_CORRUPTION, LDB_NOSUPPORT, LDB_INVALID, LDB_IOERR]) := by
  refine ⟨?_, rfl, rfl, ?_, rfl, rfl, rfl, rfl, rfl, ?_⟩
  · intro s t h
    simp only [convert_error, h]
  · intro s
    refine ⟨?_, ?_, ?_, ?_, ?_, ?_, ?_⟩
    · intro h; simp only [convert_error, h]; rfl
    · intro h; simp only [convert_error, h]; rfl
    · intro h; simp only [convert_error, h]; rfl
    · intro h; simp only [convert_error, h]; rfl
    · intro h; simp only [convert_error, h]; rfl
    · intro h; simp only [convert_error, h]; rfl
    · intro h
      simp only [List.mem_cons, List.mem_singleton, List.not_mem_nil, or_false, not_or] at h
      obtain ⟨h1, h2, h3, h4, h5, h6⟩ := h
      simp only [convert_error]
      rw [if_neg h1, if_neg h2, if_neg h3, if_neg h4, if_neg h5, if_neg h6]
  · intro err
    cases err with
    | none => simp [convert_error]
    | some s =>
      simp only [convert_error]
      split_ifs <;> simp

theorem convert_error_classifies_witness :
    convert_error (some "NotFound: key".toList) = LDB_NOTFOUND :=
  (convert_error_classifies.2.2.2.1 "NotFound: key".toList).2.1 (by decide)

/-- C19: for each of the six status codes `c`, `convert_error (ldb_strerror c) = c`, and
the six messages of `ldb_strerror` are pairwise distinct. -/
theorem status_round_trip :
    (∀ c ∈ [LDB_OK, LDB_NOTFOUND, LDB_CORRUPTION, LDB_NOSUPPORT, LDB_INVALID, LDB_IOERR],
        convert_error (some (ldb_strerror c)) = c)
    ∧ ([LDB_OK, LDB_NOTFOUND, LDB_CORRUPTION, LDB_NOSUPPORT, LDB_INVALID, LDB_IOERR].map
        ldb_strerror).Nodup := by
  decide

/-- C20: `rdb_parse_filename` returns 1 on the four fixed names, with
`(RDB_FILE_CURRENT, 0)` for `CURRENT`, `(RDB_FILE_LOCK, 0)` for `LOCK` and
`(RDB_FILE_INFO, 0)` for `LOG` and `LOG.old`; these are the basenames that
`rdb_current_filename`, `rdb_lock_filename`, `rdb_info_filename` and
`rdb_oldinfo_filename` join to the directory prefix. -/
theorem parse_fixed_names (pfx : List Char) :
    rdb_parse_filename "CURRENT".toList = some (.RDB_FILE_CURRENT, 0)
    ∧ rdb_parse_filename "LOCK".toList = some (.RDB_FILE_LOCK, 0)
    ∧ rdb_parse_filename "LOG".toList = some (.RDB_FILE_INFO, 0)
    ∧ rdb_parse_filename "LOG.old".toList = some (.RDB_FILE_INFO, 0)
    ∧ rdb_current_filename pfx = rdb_join pfx "CURRENT".toList
    ∧ rdb_lock_filename pfx = rdb_join pfx "LOCK".toList
    ∧ rdb_info_filename pfx = rdb_join pfx "LOG".toList
    ∧ rdb_oldinfo_filename pfx = rdb_join pfx "LOG.old".toList
    ∧ rdb_join pfx "CURRENT".toList = pfx ++ "/CURRENT".toList := by
  refine ⟨by decide, by decide, by decide, by decide, rfl, rfl, rfl, rfl, rfl⟩

/-! ## The names accepted by `rdb_parse_filename` -/

theorem foldl_digits_le (ds : List Char) : ∀ x : Nat,
    x ≤ ds.foldl (fun x c => x * 10 + (c.toNat - '0'.toNat)) x := by
  induction ds with
  | nil => intro x; exact Nat.le_refl _
  | cons c cs ih =>
    intro x
    exact Nat.le_trans (by omega) (ih (x * 10 + (c.toNat - '0'.toNat)))

theorem digit_le_nine (c : Char) (hc : '0' ≤ c ∧ c ≤ '9') : c.toNat - '0'.toNat ≤ 9 := by
  have h1 : c.toNat ≤ '9'.toNat := hc.2
  have h2 : '9'.toNat = 57 := rfl
  have h3 : '0'.toNat = 48 := rfl
  omega

/-- What a successful run of the digit loop has read. -/
theorem decode_digits_some : ∀ (cs : List Char) (x v : Nat) (rest : List Char),
    decode_digits cs x = some (v, rest) →
    ∃ ds, cs = ds ++ rest ∧ (∀ c ∈ ds, '0' ≤ c ∧ c ≤ '9')
      ∧ v = ds.foldl (fun x c => x * 10 + (c.toNat - '0'.toNat)) x
      ∧ (x ≤ UINT64_MAX → v ≤ UINT64_MAX) := by
  intro cs
  induction cs with
  | nil =>
    intro x v rest h
    simp only [decode_digits, Option.some.injEq, Prod.mk.injEq] at h
    obtain ⟨rfl, rfl⟩ := h
    exact ⟨[], rfl, by simp, rfl, fun h => h⟩
  | cons c cs ih =>
    intro x v rest h
    rw [decode_digits] at h
    by_cases hc : '0' ≤ c ∧ c ≤ '9'
    · rw [if_pos hc] at h
      simp only [] at h
      split at h
      · cases h
      · rename_i hov
        obtain ⟨ds, hcs, hds, hv, hmax⟩ := ih _ _ _ h
        refine ⟨c :: ds, by rw [hcs]; rfl, ?_, hv, ?_⟩
        · intro d hd
          rcases List.mem_cons.mp hd with rfl | hd
          · exact hc
          · exact hds d hd
        · intro _
          apply hmax
          have h9 := digit_le_nine c hc
          simp only [UINT64_MAX] at hov ⊢
          omega
    · rw [if_neg hc] at h
      simp only [Option.some.injEq, Prod.mk.injEq] at h
      obtain ⟨rfl, rfl⟩ := h
      exact ⟨[], rfl, by simp, rfl, fun h => h⟩

/-- The digit loop succeeds on digits whose value fits in 64 bits, followed by a rest
that does not start with a digit. -/
theorem decode_digits_of_digits : ∀ (ds : List Char) (x : Nat) (rest : List Char),
    (∀ c ∈ ds, '0' ≤ c ∧ c ≤ '9') →
    ds.foldl (fun x c => x * 10 + (c.toNat - '0'.toNat)) x ≤ UINT64_MAX →
    (∀ c tl, rest = c :: tl → ¬ ('0' ≤ c ∧ c ≤ '9')) →
    decode_digits (ds ++ rest) x
      = some (ds.foldl (fun x c => x * 10 + (c.toNat - '0'.toNat)) x, rest) := by
  intro ds
  induction ds with
  | nil =>
    intro x rest _ _ hrest
    cases rest with
    | nil => rfl
    | cons c tl =>
      rw [List.nil_append, decode_digits, if_neg (hrest c tl rfl)]
      rfl
  | cons d ds ih =>
    intro x rest hds hmax hrest
    have hd := hds d (List.mem_cons_self _ _)
    have hstep : x * 10 + (d.toNat - '0'.toNat) ≤ UINT64_MAX :=
      Nat.le_trans (foldl_digits_le ds _) hmax
    rw [List.cons_append, decode_digits_step d _ x hd hstep]
    exact ih _ rest (fun c hc => hds c (List.mem_cons_of_mem _ hc)) hmax hrest

theorem decode_int_some (name : List Char) (v : Nat) (rest : List Char)
    (h : rdb_decode_int name = some (v, rest)) :
    ∃ ds, is_decimal_number ds ∧ name = ds ++ rest ∧ v = decimal_value ds
      ∧ (∀ c tl, rest = c :: tl → ¬ ('0' ≤ c ∧ c ≤ '9')) := by
  cases name with
  | nil => cases h
  | cons c cs =>
    simp only [rdb_decode_int] at h
    by_cases hc : '0' ≤ c ∧ c ≤ '9'
    · rw [if_pos hc] at h
      -- the rest does not start with a digit
      have hrest : ∀ (cs : List Char) (x v : Nat) (rest : List Char),
          decode_digits cs x = some (v, rest) →
          ∀ c tl, rest = c :: tl → ¬ ('0' ≤ c ∧ c ≤ '9') := by
        intro cs
        induction cs with
        | nil =>
          intro x v rest h c tl hr
          simp only [decode_digits, Option.some.injEq, Prod.mk.injEq] at h
          rw [← h.2] at hr
          cases hr
        | cons d ds ih =>
          intro x v rest h c tl hr
          rw [decode_digits] at h
          by_cases hd : '0' ≤ d ∧ d ≤ '9'
          · rw [if_pos hd] at h
            simp only [] at h
            split at h
            · cases h
            · exact ih _ _ _ h c tl hr
          · rw [if_neg hd] at h
            simp only [Option.some.injEq, Prod.mk.injEq] at h
            rw [← h.2] at hr
            cases hr
            exact hd
      obtain ⟨ds, hname, hds, hv, hmax⟩ := decode_digits_some _ _ _ _ h
      have hmax0 := hmax (Nat.zero_le _)
      refine ⟨ds, ⟨?_, hds, ?_⟩, hname, hv, hrest _ _ _ _ h⟩
      · intro hnil
        subst hnil
        rw [List.nil_append] at hname
        exact hrest _ _ _ _ h c cs hname.symm hc
      · rw [hv] at hmax0
        exact hmax0
    · rw [if_neg hc] at h
      cases h

theorem decode_int_of_decimal (ds rest : List Char) (hds : is_decimal_number ds)
    (hrest : ∀ c tl, rest = c :: tl → ¬ ('0' ≤ c ∧ c ≤ '9')) :
    rdb_decode_int (ds ++ rest) = some (decimal_value ds, rest) := by
  obtain ⟨hne, hdig, hmax⟩ := hds
  cases ds with
  | nil => exact absurd rfl hne
  | cons d ds =>
    simp only [rdb_decode_int, List.cons_append, if_pos (hdig d (List.mem_cons_self _ _))]
    exact decode_digits_of_digits (d :: ds) 0 rest hdig hmax hrest

theorem suffix_not_digit (ext : List Char)
    (hext : ext ∈ [".log".toList, ".sst".toList, ".ldb".toList, ".dbtmp".toList]) :
    ∀ c tl, ext = c :: tl → ¬ ('0' ≤ c ∧ c ≤ '9') := by
  intro c tl h
  simp only [List.mem_cons, List.mem_singleton, List.not_mem_nil, or_false] at hext
  rcases hext with rfl | rfl | rfl | rfl <;>
  · cases h
    decide

theorem parse_filename_owned (name : List Char) (r : rdb_filetype_t × Nat)
    (h : rdb_parse_filename name = some r) : owned_filename name := by
  unfold rdb_parse_filename at h
  unfold owned_filename
  by_cases h1 : name = "CURRENT".toList
  · exact Or.inl h1
  by_cases h2 : name = "LOCK".toList
  · exact Or.inr (Or.inl h2)
  by_cases h3 : name = "LOG".toList ∨ name = "LOG.old".toList
  · rcases h3 with h3 | h3
    · exact Or.inr (Or.inr (Or.inl h3))
    · exact Or.inr (Or.inr (Or.inr (Or.inl h3)))
  rw [if_neg h1, if_neg h2, if_neg h3] at h
  by_cases h4 : rdb_starts_with name "MANIFEST-".toList = true
  · rw [if_pos h4] at h
    obtain ⟨t, ht⟩ := List.isPrefixOf_iff_prefix.mp h4
    have hdrop : name.drop 9 = t := by rw [← ht]; rfl
    rw [hdrop] at h
    cases hdec : rdb_decode_int t with
    | none => rw [hdec] at h; cases h
    | some p =>
      obtain ⟨x, rest⟩ := p
      rw [hdec] at h
      simp only [] at h
      by_cases hr : rest = []
      · subst hr
        obtain ⟨ds, hds, hname, _, _⟩ := decode_int_some t x [] hdec
        rw [List.append_nil] at hname
        refine Or.inr (Or.inr (Or.inr (Or.inr (Or.inl ⟨ds, hds, ?_⟩))))
        rw [← ht, hname]
      · rw [if_pos hr] at h
        cases h
  · rw [if_neg h4] at h
    cases hdec : rdb_decode_int name with
    | none => rw [hdec] at h; cases h
    | some p =>
      obtain ⟨x, rest⟩ := p
      rw [hdec] at h
      simp only [] at h
      obtain ⟨ds, hds, hname, _, _⟩ := decode_int_some name x rest hdec
      refine Or.inr (Or.inr (Or.inr (Or.inr (Or.inr ⟨ds, rest, hds, ?_, hname⟩))))
      simp only [List.mem_cons, List.mem_singleton, List.not_mem_nil, or_false]
      by_cases e1 : rest = ".log".toList
      · exact Or.inl e1
      by_cases e2 : rest = ".sst".toList
      · exact Or.inr (Or.inl e2)
      by_cases e3 : rest = ".ldb".toList
      · exact Or.inr (Or.inr (Or.inl e3))
      by_cases e4 : rest = ".dbtmp".toList
      · exact Or.inr (Or.inr (Or.inr e4))
      rw [if_neg e1, if_neg (fun hc => hc.elim e2 e3), if_neg e4] at h
      cases h

theorem owned_parse_filename (name : List Char) (h : owned_filename name) :
    ∃ r, rdb_parse_filename name = some r := by
  unfold owned_filename at h
  rcases h with rfl | rfl | rfl | rfl | ⟨ds, hds, rfl⟩ | ⟨ds, ext, hds, hext, rfl⟩
  · exact ⟨(.RDB_FILE_CURRENT, 0), by decide⟩
  · exact ⟨(.RDB_FILE_LOCK, 0), by decide⟩
  · exact ⟨(.RDB_FILE_INFO, 0), by decide⟩
  · exact ⟨(.RDB_FILE_INFO, 0), by decide⟩
  · have hdec := decode_int_of_decimal ds [] hds (fun c tl h => by cases h)
    rw [List.append_nil] at hdec
    obtain ⟨hne, hdig, _⟩ := hds
    cases ds with
    | nil => exact absurd rfl hne
    | cons d ds =>
      have hname : "MANIFEST-".toList ++ d :: ds
          = 'M' :: 'A' :: 'N' :: 'I' :: 'F' :: 'E' :: 'S' :: 'T' :: '-' :: d :: ds := rfl
      rw [hname]
      unfold rdb_parse_filename
      rw [if_neg (by simp), if_neg (by simp), if_neg (by simp), if_pos (by rfl)]
      simp only [List.drop_succ_cons, List.drop_zero, hdec]
      exact ⟨(.RDB_FILE_DESC, decimal_value (d :: ds)), by simp⟩
  · have hrest := suffix_not_digit ext hext
    have hdd := decode_digits_of_digits ds 0 ext hds.2.1 hds.2.2 hrest
    obtain ⟨hne, hdig, _⟩ := hds
    cases ds with
    | nil => exact absurd rfl hne
    | cons d ds =>
      rw [List.cons_append] at hdd ⊢
      rw [parse_filename_digit d _ (hdig d (List.mem_cons_self _ _)), hdd]
      simp only [List.mem_cons, List.mem_singleton, List.not_mem_nil, or_false] at hext
      simp only []
      rcases hext with rfl | rfl | rfl | rfl
      · exact ⟨_, by rw [if_pos (by decide)]⟩
      · exact ⟨_, by rw [if_neg (by decide), if_pos (by decide)]⟩
      · exact ⟨_, by rw [if_neg (by decide), if_pos (by decide)]⟩
      · exact ⟨_, by rw [if_neg (by decide), if_neg (by decide), if_pos (by decide)]⟩

/-- C11: `rdb_parse_filename` returns 1 exactly on the owned file names: `CURRENT`,
`LOCK`, `LOG`, `LOG.old`, `MANIFEST-<decimal number>` with nothing after the digits, and
`<decimal number>` followed by exactly one of `.log`, `.sst`, `.ldb`, `.dbtmp`, the
number fitting in 64 bits; every other name returns 0, for instance the empty string, a
number with no or an unknown suffix, `MANIFEST-` with no digits or with trailing
characters, extra characters after a known suffix, and a number of 65 bits. -/
theorem parse_filename_iff_owned (name : List Char) :
    ((∃ r, rdb_parse_filename name = some r) ↔ owned_filename name)
    ∧ (rdb_parse_filename name = none ↔ ¬ owned_filename name)
    ∧ rdb_parse_filename [] = none
    ∧ rdb_parse_filename "000123".toList = none
    ∧ rdb_parse_filename "000123.txt".toList = none
    ∧ rdb_parse_filename "MANIFEST-".toList = none
    ∧ rdb_parse_filename "MANIFEST-000123x".toList = none
    ∧ rdb_parse_filename "000123.logx".toList = none
    ∧ rdb_parse_filename "18446744073709551616.log".toList = none
    ∧ rdb_parse_filename "18446744073709551615.log".toList
        = some (.RDB_FILE_LOG, 18446744073709551615) := by
  have hiff : (∃ r, rdb_parse_filename name = some r) ↔ owned_filename name :=
    ⟨fun ⟨r, h⟩ => parse_filename_owned name r h, owned_parse_filename name⟩
  refine ⟨hiff, ?_, by decide, by decide, by decide, by decide, by decide, by decide,
    by decide, by decide⟩
  rw [← hiff]
  cases rdb_parse_filename name with
  | none => simp
  | some r => simp

/-! ## The names built for numbered files -/

theorem decimal_value_append (ds : List Char) (c : Char) :
    decimal_value (ds ++ [c]) = decimal_value ds * 10 + (c.toNat - '0'.toNat) := by
  simp [decimal_value, List.foldl_append]

/-- The decimal digits of a number have that number as value. -/
theorem decimal_value_toDigitsCore : ∀ (fuel n : Nat), n < fuel →
    decimal_value (Nat.toDigitsCore 10 fuel n []) = n := by
  intro fuel
  induction fuel with
  | zero => intro n h; cases h
  | succ fuel ih =>
    intro n hn
    have hd := digitChar_spec (n % 10) (Nat.mod_lt _ (by decide))
    unfold Nat.toDigitsCore
    simp only []
    by_cases h0 : n / 10 = 0
    · rw [if_pos h0]
      have := decimal_value_append [] (Nat.digitChar (n % 10))
      simp only [List.nil_append] at this
      rw [this, hd.2]
      simp only [decimal_value, List.foldl_nil]
      omega
    · rw [if_neg h0, toDigitsCore_append, decimal_value_append, ih (n / 10) (by omega), hd.2]
      omega

theorem decimal_value_zeros (k : Nat) (ds : List Char) :
    decimal_value (List.replicate k '0' ++ ds) = decimal_value ds := by
  induction k with
  | zero => rfl
  | succ k ih =>
    rw [List.replicate_succ, List.cons_append]
    unfold decimal_value at ih ⊢
    rw [List.foldl_cons]
    exact ih

/-- The decimal digits of a positive number do not start with a zero. -/
theorem toDigitsCore_head : ∀ (fuel n : Nat), n < fuel → 0 < n →
    (Nat.toDigitsCore 10 fuel n []).head? ≠ some '0' := by
  intro fuel
  induction fuel with
  | zero => intro n h; cases h
  | succ fuel ih =>
    intro n hn hpos
    unfold Nat.toDigitsCore
    simp only []
    by_cases h0 : n / 10 = 0
    · rw [if_pos h0]
      have hlt : n < 10 := by omega
      interval_cases n <;> decide
    · rw [if_neg h0, toDigitsCore_append]
      have hne : Nat.toDigitsCore 10 fuel (n / 10) [] ≠ [] := by
        obtain ⟨f, rfl⟩ : ∃ f, fuel = f + 1 := ⟨fuel - 1, by omega⟩
        exact toDigitsCore_ne_nil f _
      have := ih (n / 10) (by omega) (by omega)
      cases hl : Nat.toDigitsCore 10 fuel (n / 10) [] with
      | nil => exact absurd hl hne
      | cons c cs =>
        rw [hl] at this
        simpa using this

/-- The string written by `rdb_encode_int(id, num, 6)`: decimal digits, at least six of
them, with the value `num`, and with no zero in front once there are more than six. -/
theorem encode_int_six (num : Nat) (hpos : 0 < num) :
    (∀ c ∈ rdb_encode_int num 6, '0' ≤ c ∧ c ≤ '9')
      ∧ decimal_value (rdb_encode_int num 6) = num
      ∧ 6 ≤ (rdb_encode_int num 6).length
      ∧ (6 < (rdb_encode_int num 6).length → (rdb_encode_int num 6).head? ≠ some '0') := by
  refine ⟨?_, ?_, ?_, ?_⟩
  · intro c hc
    unfold rdb_encode_int at hc
    simp only [List.mem_append] at hc
    rcases hc with hc | hc
    · rw [(List.mem_replicate.mp hc).2]
      decide
    · exact toDigitsCore_digits _ _ [] (fun _ h => by cases h) c hc
  · unfold rdb_encode_int
    simp only []
    rw [decimal_value_zeros]
    exact decimal_value_toDigitsCore (num + 1) num (Nat.lt_succ_self _)
  · unfold rdb_encode_int
    simp only [List.length_append, List.length_replicate]
    omega
  · unfold rdb_encode_int
    simp only [List.length_append, List.length_replicate]
    intro hlen
    have h0 : 6 - (Nat.toDigits 10 num).length = 0 := by omega
    rw [h0]
    simp only [List.replicate_zero, List.nil_append]
    exact toDigitsCore_head (num + 1) num (Nat.lt_succ_self _) hpos

/-- C21: for every prefix and every file number `num > 0` there is a string `ds` of
decimal digits, the decimal representation of `num` left-padded with zeros to at least six
digits (only digits, value `num`, at least six characters, no leading zero when longer
than six), such that `rdb_log_filename`, `rdb_table_filename`, `rdb_sstable_filename` and
`rdb_temp_filename` build the prefix joined with `ds` followed by `.log`, `.ldb`, `.sst`
and `.dbtmp` respectively, and `rdb_desc_filename` builds the prefix joined with
`MANIFEST-` followed by `ds`. -/
theorem numbered_filenames (pfx : List Char) (num : Nat) (hpos : 0 < num) :
    ∃ ds : List Char, (∀ c ∈ ds, '0' ≤ c ∧ c ≤ '9') ∧ decimal_value ds = num
      ∧ 6 ≤ ds.length ∧ (6 < ds.length → ds.head? ≠ some '0')
      ∧ rdb_log_filename pfx num = some (pfx ++ "/".toList ++ ds ++ ".log".toList)
      ∧ rdb_table_filename pfx num = some (pfx ++ "/".toList ++ ds ++ ".ldb".toList)
      ∧ rdb_sstable_filename pfx num = some (pfx ++ "/".toList ++ ds ++ ".sst".toList)
      ∧ rdb_temp_filename pfx num = some (pfx ++ "/".toList ++ ds ++ ".dbtmp".toList)
      ∧ rdb_desc_filename pfx num
          = some (pfx ++ "/".toList ++ "MANIFEST-".toList ++ ds) := by
  obtain ⟨h1, h2, h3, h4⟩ := encode_int_six num hpos
  refine ⟨rdb_encode_int num 6, h1, h2, h3, h4, ?_, ?_, ?_, ?_, ?_⟩
  · simp [rdb_log_filename, hpos, make_filename, rdb_join]
  · simp [rdb_table_filename, hpos, make_filename, rdb_join]
  · simp [rdb_sstable_filename, hpos, make_filename, rdb_join]
  · simp [rdb_temp_filename, hpos, make_filename, rdb_join]
  · simp [rdb_desc_filename, hpos, rdb_join]

theorem numbered_filenames_witness :
    ∃ ds : List Char, (∀ c ∈ ds, '0' ≤ c ∧ c ≤ '9') ∧ decimal_value ds = 1234567
      ∧ 6 ≤ ds.length ∧ (6 < ds.length → ds.head? ≠ some '0')
      ∧ rdb_log_filename "db".toList 1234567
          = some ("db".toList ++ "/".toList ++ ds ++ ".log".toList)
      ∧ rdb_table_filename "db".toList 1234567
          = some ("db".toList ++ "/".toList ++ ds ++ ".ldb".toList)
      ∧ rdb_sstable_filename "db".toList 1234567
          = some ("db".toList ++ "/".toList ++ ds ++ ".sst".toList)
      ∧ rdb_temp_filename "db".toList 1234567
          = some ("db".toList ++ "/".toList ++ ds ++ ".dbtmp".toList)
      ∧ rdb_desc_filename "db".toList 1234567
          = some ("db".toList ++ "/".toList ++ "MANIFEST-".toList ++ ds) :=
  numbered_filenames "db".toList 1234567 (by decide)

/-! ## The empty builder -/

/-- C22: `ldb_filterbuilder_finish` on a freshly initialised builder (no `start_block`, no
`add_key`) returns exactly the five bytes 00 00 00 00 0b, and a reader initialised on
those bytes (with any policy) returns true from `ldb_filterreader_matches` for every
block offset and every key. -/
theorem empty_builder_block (policy policy1 : ldb_bloom_t) :
    (ldb_filterbuilder_finish (ldb_filterbuilder_init policy)).2 = [0, 0, 0, 0, 11]
      ∧ ∀ (wide : Nat → Nat → Nat) (block_offset : Nat) (key : Bytes),
          ldb_filterreader_matches wide (ldb_filterreader_init policy1 [0, 0, 0, 0, 11])
            block_offset key = true := by
  refine ⟨?_, fun wide block_offset key => ?_⟩
  · simp [ldb_filterbuilder_finish, ldb_filterbuilder_init, ldb_fixed32_encode,
      LDB_FILTER_BASE_LG]
  have hinit : ldb_filterreader_init policy1 [0, 0, 0, 0, 11]
      = { policy := policy1, data := [0, 0, 0, 0, 11], offset := 0, num := 0, base_lg := 11 } := by
    rfl
  rw [hinit]
  simp [ldb_filterreader_matches]

/-! ## The byte comparison is a total order -/

theorem lex_bytes_trans : ∀ {x y z : Bytes}, List.Lex (fun a b : UInt8 => a < b) x y →
    List.Lex (fun a b : UInt8 => a < b) y z → List.Lex (fun a b : UInt8 => a < b) x z := by
  intro x y z hxy
  induction hxy generalizing z with
  | nil =>
    intro hyz
    cases hyz with
    | cons h => exact List.Lex.nil
    | rel h => exact List.Lex.nil
  | cons h ih =>
    intro hyz
    cases hyz with
    | cons h1 => exact List.Lex.cons (ih h1)
    | rel h1 => exact List.Lex.rel h1
  | rel h =>
    intro hyz
    cases hyz with
    | cons h1 => exact List.Lex.rel h
    | rel h1 =>
      apply List.Lex.rel
      rw [uint8_lt_iff] at h h1 ⊢
      omega

/-- C23: `rdb_memcmp4` is a total order on byte strings: `rdb_memcmp4(x, y) = 0` exactly
when `x` and `y` are the same byte string (same length, same bytes); the sign of
`rdb_memcmp4(x, y)` is the negation of the sign of `rdb_memcmp4(y, x)`; and
`rdb_memcmp4(x, y) < 0` with `rdb_memcmp4(y, z) < 0` gives `rdb_memcmp4(x, z) < 0`. -/
theorem memcmp4_total_order (x y z : Bytes) :
    (rdb_memcmp4 x y = 0 ↔ x.length = y.length ∧ ∀ i : Nat, x[i]? = y[i]?)
      ∧ Int.sign (rdb_memcmp4 x y) = - Int.sign (rdb_memcmp4 y x)
      ∧ (rdb_memcmp4 x y < 0 → rdb_memcmp4 y z < 0 → rdb_memcmp4 x z < 0) := by
  refine ⟨?_, ?_, ?_⟩
  · rw [memcmp4_zero_iff]
    constructor
    · rintro rfl
      exact ⟨rfl, fun _ => rfl⟩
    · rintro ⟨_, h⟩
      exact List.ext_getElem? h
  · have hneg := (memcmp4_neg_iff x y).trans (memcmp4_pos_iff y x).symm
    have hpos := (memcmp4_pos_iff x y).trans (memcmp4_neg_iff y x).symm
    rcases lt_trichotomy (rdb_memcmp4 x y) 0 with h | h | h
    · rw [Int.sign_eq_neg_one_of_neg h, Int.sign_eq_one_of_pos (hneg.1 h)]
    · have h1 : rdb_memcmp4 y x = 0 := (memcmp4_zero_iff y x).2 ((memcmp4_zero_iff x y).1 h).symm
      rw [h, h1]
      rfl
    · rw [Int.sign_eq_one_of_pos h, Int.sign_eq_neg_one_of_neg (hpos.1 h)]
      rfl
  · intro h1 h2
    rw [memcmp4_neg_iff] at h1 h2 ⊢
    exact lex_bytes_trans h1 h2

/-! ## Defaults -/

/-- C24: the default database options object (`ldb_dbopt_default`) has `block_size` 4096
bytes and `block_restart_interval` 16, and the filter base of the filter block builder is
2048 bytes, `LDB_FILTER_BASE = 1 << 11`. -/
theorem default_options :
    ldb_dbopt_default.block_size = 4096 ∧ ldb_dbopt_default.block_restart_interval = 16
      ∧ LDB_FILTER_BASE = 2048 ∧ LDB_FILTER_BASE = 1 <<< 11 := by
  refine ⟨rfl, rfl, ?_, ?_⟩ <;> decide

/-! ## Flushing the pending batch -/

/-- C30: when `ldb_filterbuilder_generate_filter` runs with no pending keys it appends the
current length of the result to the filter-offset list and leaves everything else (the
result bytes, the pending batch) unchanged; the policy's `build` is not called: the
outcome is the same whatever the policy. -/
theorem generate_filter_empty_batch (fb : ldb_filterbuilder_t) (h : fb.start.length = 0) :
    ldb_filterbuilder_generate_filter fb
        = { fb with filter_offsets := fb.filter_offsets ++ [fb.result.length] }
      ∧ ∀ policy1 : ldb_bloom_t,
          ldb_filterbuilder_generate_filter { fb with policy := policy1 }
            = { policy := policy1, keys := fb.keys, start := fb.start, result := fb.result,
                filter_offsets := fb.filter_offsets ++ [fb.result.length] } := by
  constructor
  · unfold ldb_filterbuilder_generate_filter
    simp [h]
  · intro policy1
    unfold ldb_filterbuilder_generate_filter
    simp [h]

theorem generate_filter_empty_batch_witness :
    ldb_filterbuilder_generate_filter (ldb_filterbuilder_init policy_len)
        = { ldb_filterbuilder_init policy_len with
            filter_offsets := (ldb_filterbuilder_init policy_len).filter_offsets
              ++ [(ldb_filterbuilder_init policy_len).result.length] }
      ∧ ∀ policy1 : ldb_bloom_t,
          ldb_filterbuilder_generate_filter
              { ldb_filterbuilder_init policy_len with policy := policy1 }
            = { policy := policy1, keys := (ldb_filterbuilder_init policy_len).keys,
                start := (ldb_filterbuilder_init policy_len).start,
                result := (ldb_filterbuilder_init policy_len).result,
                filter_offsets := (ldb_filterbuilder_init policy_len).filter_offsets
                  ++ [(ldb_filterbuilder_init policy_len).result.length] } :=
  generate_filter_empty_batch (ldb_filterbuilder_init policy_len) rfl

/-- Along a run, the builder holds the keys added since the last generated filter as its
pending batch. -/
theorem keys_since_filter_rep : ∀ (ops : List filter_op) (fb fb1 : ldb_filterbuilder_t)
    (v : filter_view) (batch1 : List Bytes), Rep fb v →
    keys_since_filter fb v.pending ops = some (fb1, batch1) →
    ∃ v1, Rep fb1 v1 ∧ v1.pending = batch1 ∧ fb1.policy = fb.policy := by
  intro ops
  induction ops with
  | nil =>
    intro fb fb1 v batch1 h hrun
    simp only [keys_since_filter, Option.some.injEq, Prod.mk.injEq] at hrun
    obtain ⟨rfl, rfl⟩ := hrun
    exact ⟨v, h, rfl, rfl⟩
  | cons op ops ih =>
    intro fb fb1 v batch1 h hrun
    cases op with
    | add_key key =>
      simp only [keys_since_filter] at hrun
      obtain ⟨v1, h1, h2, h3⟩ := ih (ldb_filterbuilder_add_key fb key) fb1
        { v with pending := v.pending ++ [key] } batch1 (rep_add_key fb v key h) hrun
      exact ⟨v1, h1, h2, h3⟩
    | start_block block_offset =>
      simp only [keys_since_filter] at hrun
      cases hsb : ldb_filterbuilder_start_block fb block_offset with
      | none => simp [hsb] at hrun
      | some fb2 =>
        simp only [hsb] at hrun
        obtain ⟨hrep, hpol, hlen⟩ := rep_start_block fb fb2 v block_offset h hsb
        have hlen0 : fb.filter_offsets.length = v.filters.length := by
          rw [h.2.1, filter_starts_length]
        have hpend : (view_step fb.policy v (.start_block block_offset)).pending
            = if fb.filter_offsets.length < fb2.filter_offsets.length then [] else v.pending := by
          simp only [view_step, LDB_FILTER_BASE_LG]
          rw [hlen, hlen0]
          by_cases hc : block_offset >>> 11 ≤ v.filters.length
          · rw [if_pos hc, if_neg (by omega)]
          · rw [if_neg hc, if_pos (by omega)]
        rw [← hpend] at hrun
        obtain ⟨v1, h1, h2, h3⟩ := ih fb2 fb1 _ batch1 hrep hrun
        exact ⟨v1, h1, h2, h3.trans hpol⟩

/-- C29: in every state of a filter builder reached from `ldb_filterbuilder_init` by
`start_block` and `add_key` calls, when keys were passed to `ldb_filterbuilder_add_key`
since the previous filter was generated, the key list that
`ldb_filterbuilder_generate_filter` rebuilds and hands to the policy's `build` is exactly
those keys, in call order and with their exact bytes and lengths, the bytes that `build`
returns for them are appended to the result, and afterwards the pending batch is empty. -/
theorem pending_batch_exact (policy : ldb_bloom_t) (ops : List filter_op)
    (fb : ldb_filterbuilder_t) (batch : List Bytes)
    (hrun : keys_since_filter (ldb_filterbuilder_init policy) [] ops = some (fb, batch))
    (hne : batch ≠ []) :
    tmp_keys fb.keys (fb.start ++ [fb.keys.length]) fb.start.length = batch
      ∧ ldb_filterbuilder_generate_filter fb
          = { policy := policy, keys := [], start := [],
              result := fb.result ++ policy.build batch,
              filter_offsets := fb.filter_offsets ++ [fb.result.length] } := by
  obtain ⟨v, hrep, hpend, hpol⟩ :=
    keys_since_filter_rep ops (ldb_filterbuilder_init policy) fb
      { filters := [], pending := [] } batch (rep_init policy) hrun
  obtain ⟨_, _, hk, hs⟩ := hrep
  rw [hpend] at hk hs
  have hpol1 : fb.policy = policy := hpol
  have hlen : fb.start.length = batch.length := by rw [hs, filter_starts_length]
  have hkeys : tmp_keys fb.keys (fb.start ++ [fb.keys.length]) fb.start.length = batch := by
    rw [hlen, hs, hk]
    exact tmp_keys_flatten batch
  have hpos : fb.start.length ≠ 0 := by
    rw [hlen]
    exact fun h0 => hne (List.length_eq_zero.mp h0)
  refine ⟨hkeys, ?_⟩
  unfold ldb_filterbuilder_generate_filter
  simp only [hpos, if_false, hkeys, hpol1]

theorem pending_batch_exact_witness :
    tmp_keys [0, 7] ([0, 0] ++ [([0, 7] : Bytes).length]) ([0, 0] : List Nat).length
        = [[], [0, 7]]
      ∧ ldb_filterbuilder_generate_filter
            { policy := policy_len, keys := [0, 7], start := [0, 0], result := [1, 1],
              filter_offsets := [0, 2] }
          = { policy := policy_len, keys := [], start := [],
              result := [1, 1] ++ policy_len.build [[], [0, 7]],
              filter_offsets := [0, 2] ++ [([1, 1] : Bytes).length] } :=
  pending_batch_exact policy_len
    [.add_key [9], .start_block 4096, .add_key [], .add_key [0, 7], .start_block 4096]
    { policy := policy_len, keys := [0, 7], start := [0, 0], result := [1, 1],
      filter_offsets := [0, 2] }
    [[], [0, 7]] rfl (by decide)

/-! ## Red-black tree: paths and trees -/

theorem zip_nil (t : rbt) : zip [] t = t := rfl

theorem zip_cons (f : rb_frame) (fs : List rb_frame) (t : rbt) :
    zip (f :: fs) t = zip fs (f.plug t) := rfl

@[simp] theorem ptr_plug (f : rb_frame) (t : rbt) : (f.plug t).ptr = f.x := by
  unfold rb_frame.plug
  split <;> rfl

theorem items_plug (f : rb_frame) (t : rbt) :
    (f.plug t).items
      = (if f.left then [] else f.sib.items ++ [(f.x, f.k, f.v)]) ++ t.items
        ++ (if f.left then (f.x, f.k, f.v) :: f.sib.items else []) := by
  unfold rb_frame.plug
  cases f.left <;> simp [rbt.items]

theorem items_zip (path : List rb_frame) : ∀ t : rbt,
    (zip path t).items = path_before path ++ t.items ++ path_after path := by
  induction path with
  | nil => intro t; simp [zip, path_before, path_after]
  | cons f fs ih =>
    intro t
    rw [zip.eq_def]
    simp only []
    rw [ih, items_plug]
    simp [path_before, path_after, List.append_assoc]

theorem ids_eq_map (t : rbt) : t.ids = t.items.map fun e => e.1 := by
  induction t with
  | nil => rfl
  | node l x c k v r ihl ihr => simp [rbt.ids, rbt.items, ihl, ihr]

theorem ids_plug_perm (f : rb_frame) (t : rbt) :
    (f.plug t).ids.Perm (f.x :: f.sib.ids ++ t.ids) := by
  unfold rb_frame.plug
  cases f.left
  · simp only [Bool.false_eq_true, if_false, rbt.ids]
    have : (f.sib.ids ++ f.x :: t.ids).Perm (f.x :: (f.sib.ids ++ t.ids)) :=
      List.perm_middle
    simp [this]
  · simp only [if_true, rbt.ids]
    have h1 : (t.ids ++ f.x :: f.sib.ids).Perm (f.x :: f.sib.ids ++ t.ids) :=
      List.perm_append_comm
    simpa using h1

theorem ids_zip_perm (path : List rb_frame) : ∀ t : rbt,
    (zip path t).ids.Perm (path_ids path ++ t.ids) := by
  induction path with
  | nil => intro t; simp [zip, path_ids]
  | cons f fs ih =>
    intro t
    rw [zip.eq_def]
    simp only [path_ids]
    refine (ih (f.plug t)).trans ?_
    refine ((ids_plug_perm f t).append_left (path_ids fs)).trans ?_
    have : (path_ids fs ++ (f.x :: f.sib.ids ++ t.ids)).Perm
        ((f.x :: f.sib.ids ++ path_ids fs) ++ t.ids) := by
      rw [← List.append_assoc]
      exact List.Perm.append_right _ List.perm_append_comm
    exact this

/-- The memory holds the whole tree exactly when it holds the path and the subtree. -/
theorem rep_zip (m : rb_mem) (path : List rb_frame) : ∀ t : rbt,
    tree_rep m (zip path t) NIL ↔ path_rep m path t.ptr ∧ tree_rep m t (path_ptr path) := by
  induction path with
  | nil => intro t; simp [zip, path_rep, path_ptr]
  | cons f fs ih =>
    intro t
    rw [zip.eq_def]
    simp only []
    rw [ih, ptr_plug]
    unfold rb_frame.plug
    cases hf : f.left
    · simp only [tree_rep, path_rep, path_ptr, hf, Bool.false_eq_true, if_false]
      tauto
    · simp only [tree_rep, path_rep, path_ptr, hf, if_true]
      tauto

theorem tree_rep_congr (m m1 : rb_mem) : ∀ (t : rbt) (par : Nat),
    (∀ x ∈ t.ids, m1.nodes x = m.nodes x) → tree_rep m t par → tree_rep m1 t par := by
  intro t
  induction t with
  | nil => intro _ _ _; trivial
  | node l x c k v r ihl ihr =>
    intro par h hrep
    obtain ⟨h1, h2, h3⟩ := hrep
    simp only [rbt.ids, List.mem_append, List.mem_cons] at h
    refine ⟨?_, ihl x (fun z hz => h z (Or.inl hz)) h2,
      ihr x (fun z hz => h z (Or.inr (Or.inr hz))) h3⟩
    rw [← h1]
    exact h x (Or.inr (Or.inl rfl))

theorem path_rep_congr (m m1 : rb_mem) : ∀ (path : List rb_frame) (hole : Nat),
    (∀ x ∈ path_ids path, m1.nodes x = m.nodes x) →
    path_rep m path hole → path_rep m1 path hole := by
  intro path
  induction path with
  | nil => intro _ _ _; trivial
  | cons f fs ih =>
    intro hole h hrep
    obtain ⟨h1, h2, h3⟩ := hrep
    simp only [path_ids, List.mem_append, List.mem_cons] at h
    refine ⟨?_, tree_rep_congr m m1 _ _ (fun z hz => h z (Or.inl (Or.inr hz))) h2,
      ih f.x (fun z hz => h z (Or.inr hz)) h3⟩
    rw [← h1]
    exact h f.x (Or.inl (Or.inl rfl))

/-! ### The iteration budget -/

theorem height_le_length : ∀ t : rbt, t.height ≤ t.ids.length := by
  intro t
  induction t with
  | nil => simp [rbt.height, rbt.ids]
  | node l x c k v r ihl ihr =>
    simp only [rbt.height, rbt.ids, List.length_append, List.length_cons]
    omega

theorem nodup_bounded_length (l : List Nat) (n : Nat) (hn : l.Nodup)
    (hb : ∀ x ∈ l, 2 ≤ x ∧ x < n) (h2 : 2 ≤ n) : l.length + 2 ≤ n := by
  have hsub : l.toFinset ⊆ Finset.Ico 2 n := by
    intro x hx
    rw [List.mem_toFinset] at hx
    rw [Finset.mem_Ico]
    exact hb x hx
  have hcard := Finset.card_le_card hsub
  rw [List.toFinset_card_of_nodup hn, Nat.card_Ico] at hcard
  omega

/-! ## Red-black tree: the comparator -/

theorem cmp_refl {cmp : Nat → Nat → Int} (h : total_order cmp) (a : Nat) : cmp a a = 0 := by
  have := h.1 a a
  omega

theorem cmp_eq_symm {cmp : Nat → Nat → Int} (h : total_order cmp) {a b : Nat}
    (hab : cmp a b = 0) : cmp b a = 0 := by
  have h1 := h.1 a b
  have h2 := h.1 b a
  omega

theorem cmp_le_of_eq {cmp : Nat → Nat → Int} (h : total_order cmp) {a b : Nat}
    (hab : cmp a b = 0) : cmp b a ≤ 0 := by
  have := cmp_eq_symm h hab
  omega

theorem cmp_lt_iff_not_le {cmp : Nat → Nat → Int} (h : total_order cmp) (a b : Nat) :
    cmp a b < 0 ↔ ¬ cmp b a ≤ 0 := by
  have := h.1 a b
  omega

theorem cmp_gt_iff_not_le {cmp : Nat → Nat → Int} (h : total_order cmp) (a b : Nat) :
    0 < cmp a b ↔ ¬ cmp a b ≤ 0 := by
  omega

theorem cmp_le_trans {cmp : Nat → Nat → Int} (h : total_order cmp) {a b c : Nat}
    (hab : cmp a b ≤ 0) (hbc : cmp b c ≤ 0) : cmp a c ≤ 0 :=
  h.2 a b c hab hbc

theorem cmp_lt_of_lt_of_le {cmp : Nat → Nat → Int} (h : total_order cmp) {a b c : Nat}
    (hab : cmp a b < 0) (hbc : cmp b c ≤ 0) : cmp a c < 0 := by
  rw [cmp_lt_iff_not_le h] at hab ⊢
  intro hca
  exact hab (cmp_le_trans h hbc hca)

theorem cmp_lt_of_le_of_lt {cmp : Nat → Nat → Int} (h : total_order cmp) {a b c : Nat}
    (hab : cmp a b ≤ 0) (hbc : cmp b c < 0) : cmp a c < 0 := by
  rw [cmp_lt_iff_not_le h] at hbc ⊢
  intro hca
  exact hbc (cmp_le_trans h hca hab)

theorem cmp_lt_le {cmp : Nat → Nat → Int} {a b : Nat} (hab : cmp a b < 0) : cmp a b ≤ 0 := by
  omega

/-! ## Red-black tree: search -/

theorem keys_node (l r : rbt) (x : Nat) (c : rb_color) (k v : Nat) :
    (rbt.node l x c k v r).keys = l.keys ++ k :: r.keys := by
  simp [rbt.keys, rbt.items]

theorem keys_sorted_node {cmp : Nat → Nat → Int} {l r : rbt} {x : Nat} {c : rb_color}
    {k v : Nat} (h : keys_sorted cmp (rbt.node l x c k v r).keys) :
    keys_sorted cmp l.keys ∧ keys_sorted cmp r.keys
      ∧ (∀ a ∈ l.keys, cmp a k ≤ 0) ∧ (∀ b ∈ r.keys, cmp k b ≤ 0) := by
  rw [keys_node] at h
  unfold keys_sorted at h ⊢
  rw [List.pairwise_append] at h
  obtain ⟨h1, h2, h3⟩ := h
  rw [List.pairwise_cons] at h2
  exact ⟨h1, h2.2, fun a ha => h3 a ha k (List.mem_cons_self _ _), h2.1⟩

/-- The search loop on a tree in memory follows `rbt.find`, within a budget above the
height. -/
theorem search_loop_eq (m : rb_mem) (cmp : Nat → Nat → Int) (key : Nat) :
    ∀ (t : rbt) (par fuel : Nat), tree_rep m t par → (∀ x ∈ t.ids, 2 ≤ x) →
      t.height < fuel → search_loop m cmp key fuel t.ptr = some (t.find cmp key) := by
  intro t
  induction t with
  | nil =>
    intro par fuel _ _ hf
    obtain ⟨n, rfl⟩ : ∃ n, fuel = n + 1 := ⟨fuel - 1, by omega⟩
    simp [search_loop, rbt.ptr, rbt.find]
  | node l x c k v r ihl ihr =>
    intro par fuel hrep hids hf
    obtain ⟨n, rfl⟩ : ∃ n, fuel = n + 1 := ⟨fuel - 1, by omega⟩
    obtain ⟨h1, h2, h3⟩ := hrep
    simp only [rbt.ids, List.mem_append, List.mem_cons] at hids
    have hx : x ≠ NIL := by
      have := hids x (Or.inr (Or.inl rfl))
      unfold NIL
      omega
    simp only [rbt.height] at hf
    simp only [search_loop, rbt.ptr, rbt.find, h1, hx, ne_eq, not_false_eq_true, if_true]
    split
    · rfl
    · split
      · exact ihl x n h2 (fun z hz => hids z (Or.inl hz)) (by omega)
      · exact ihr x n h3 (fun z hz => hids z (Or.inr (Or.inr hz))) (by omega)

/-- The node found, if any, is a node of the tree whose key compares equal. -/
theorem find_mem (cmp : Nat → Nat → Int) (key : Nat) : ∀ t : rbt,
    t.find cmp key ≠ NULL →
      ∃ k v, (t.find cmp key, k, v) ∈ t.items ∧ cmp key k = 0 := by
  intro t
  induction t with
  | nil => intro h; exact absurd rfl h
  | node l x c k v r ihl ihr =>
    intro h
    simp only [rbt.find] at h ⊢
    simp only [rbt.items, List.mem_append, List.mem_cons]
    split at h
    · rename_i h0
      rw [if_pos h0]
      exact ⟨k, v, Or.inr (Or.inl rfl), h0⟩
    · rename_i h0
      rw [if_neg h0]
      split at h
      · rename_i h1
        rw [if_pos h1]
        obtain ⟨k1, v1, hm, hc⟩ := ihl h
        exact ⟨k1, v1, Or.inl hm, hc⟩
      · rename_i h1
        rw [if_neg h1]
        obtain ⟨k1, v1, hm, hc⟩ := ihr h
        exact ⟨k1, v1, Or.inr (Or.inr hm), hc⟩

/-- In a tree with sorted keys the search finds a node whenever some key compares
equal. -/
theorem find_of_mem {cmp : Nat → Nat → Int} (hcmp : total_order cmp) (key : Nat) :
    ∀ t : rbt, keys_sorted cmp t.keys → (∀ x ∈ t.ids, 2 ≤ x) →
      (∃ k ∈ t.keys, cmp key k = 0) → t.find cmp key ≠ NULL := by
  intro t
  induction t with
  | nil => intro _ _ ⟨k, hk, _⟩; simp [rbt.keys, rbt.items] at hk
  | node l x c k v r ihl ihr =>
    intro hs hids ⟨k1, hk1, hc⟩
    obtain ⟨hsl, hsr, hl, hr⟩ := keys_sorted_node hs
    simp only [rbt.ids, List.mem_append, List.mem_cons] at hids
    rw [keys_node, List.mem_append, List.mem_cons] at hk1
    simp only [rbt.find]
    split
    · have := hids x (Or.inr (Or.inl rfl))
      unfold NULL
      omega
    · rename_i h0
      split
      · rename_i hlt
        apply ihl hsl (fun z hz => hids z (Or.inl hz))
        rcases hk1 with hk1 | rfl | hk1
        · exact ⟨k1, hk1, hc⟩
        · exact absurd hc h0
        · exfalso
          have h1 : cmp k key ≤ 0 := cmp_le_trans hcmp (hr k1 hk1) (cmp_le_of_eq hcmp hc)
          have := (cmp_lt_iff_not_le hcmp key k).mp hlt
          exact this h1
      · rename_i hlt
        apply ihr hsr (fun z hz => hids z (Or.inr (Or.inr hz)))
        rcases hk1 with hk1 | rfl | hk1
        · exfalso
          have h1 : cmp key k ≤ 0 := by
            have : cmp key k1 ≤ 0 := by omega
            exact cmp_le_trans hcmp this (hl k1 hk1)
          omega
        · exact absurd hc h0
        · exact ⟨k1, hk1, hc⟩

/-! ## Red-black tree: assignments -/

@[simp] theorem set_color_next (m : rb_mem) (x : Nat) (c : rb_color) :
    (set_color m x c).next = m.next := rfl

@[simp] theorem set_parent_next (m : rb_mem) (x p : Nat) : (set_parent m x p).next = m.next := rfl

@[simp] theorem set_left_next (m : rb_mem) (x p : Nat) : (set_left m x p).next = m.next := rfl

@[simp] theorem set_right_next (m : rb_mem) (x p : Nat) : (set_right m x p).next = m.next := rfl

@[simp] theorem set_kv_next (m : rb_mem) (x k v : Nat) : (set_kv m x k v).next = m.next := rfl

theorem set_color_nodes (m : rb_mem) (x : Nat) (c : rb_color) (z : Nat) :
    (set_color m x c).nodes z
      = if z = x then { m.nodes x with color := c } else m.nodes z := by
  simp only [set_color, Function.update_apply]

theorem set_parent_nodes (m : rb_mem) (x p : Nat) (z : Nat) :
    (set_parent m x p).nodes z
      = if z = x then { m.nodes x with parent := p } else m.nodes z := by
  simp only [set_parent, Function.update_apply]

theorem set_left_nodes (m : rb_mem) (x p : Nat) (z : Nat) :
    (set_left m x p).nodes z
      = if z = x then { m.nodes x with left := p } else m.nodes z := by
  simp only [set_left, Function.update_apply]

theorem set_right_nodes (m : rb_mem) (x p : Nat) (z : Nat) :
    (set_right m x p).nodes z
      = if z = x then { m.nodes x with right := p } else m.nodes z := by
  simp only [set_right, Function.update_apply]

theorem set_kv_nodes (m : rb_mem) (x k v : Nat) (z : Nat) :
    (set_kv m x k v).nodes z
      = if z = x then { m.nodes x with key := k, value := v } else m.nodes z := by
  simp only [set_kv, Function.update_apply]

@[simp] theorem set_color_get_key (m : rb_mem) (x : Nat) (c : rb_color) (z : Nat) :
    (((set_color m x c).nodes z).key) = (m.nodes z).key := by
  rw [set_color_nodes]; split <;> simp_all

@[simp] theorem set_color_get_value (m : rb_mem) (x : Nat) (c : rb_color) (z : Nat) :
    (((set_color m x c).nodes z).value) = (m.nodes z).value := by
  rw [set_color_nodes]; split <;> simp_all

@[simp] theorem set_color_get_color (m : rb_mem) (x : Nat) (c : rb_color) (z : Nat) :
    (((set_color m x c).nodes z).color) = if z = x then c else (m.nodes z).color := by
  rw [set_color_nodes]; split <;> simp_all

@[simp] theorem set_color_get_parent (m : rb_mem) (x : Nat) (c : rb_color) (z : Nat) :
    (((set_color m x c).nodes z).parent) = (m.nodes z).parent := by
  rw [set_color_nodes]; split <;> simp_all

@[simp] theorem set_color_get_left (m : rb_mem) (x : Nat) (c : rb_color) (z : Nat) :
    (((set_color m x c).nodes z).left) = (m.nodes z).left := by
  rw [set_color_nodes]; split <;> simp_all

@[simp] theorem set_color_get_right (m : rb_mem) (x : Nat) (c : rb_color) (z : Nat) :
    (((set_color m x c).nodes z).right) = (m.nodes z).right := by
  rw [set_color_nodes]; split <;> simp_all

@[simp] theorem set_parent_get_key (m : rb_mem) (x : Nat) (p : Nat) (z : Nat) :
    (((set_parent m x p).nodes z).key) = (m.nodes z).key := by
  rw [set_parent_nodes]; split <;> simp_all

@[simp] theorem set_parent_get_value (m : rb_mem) (x : Nat) (p : Nat) (z : Nat) :
    (((set_parent m x p).nodes z).value) = (m.nodes z).value := by
  rw [set_parent_nodes]; split <;> simp_all

@[simp] theorem set_parent_get_color (m : rb_mem) (x : Nat) (p : Nat) (z : Nat) :
    (((set_parent m x p).nodes z).color) = (m.nodes z).color := by
  rw [set_parent_nodes]; split <;> simp_all

@[simp] theorem set_parent_get_parent (m : rb_mem) (x : Nat) (p : Nat) (z : Nat) :
    (((set_parent m x p).nodes z).parent) = if z = x then p else (m.nodes z).parent := by
  rw [set_parent_nodes]; split <;> simp_all

@[simp] theorem set_parent_get_left (m : rb_mem) (x : Nat) (p : Nat) (z : Nat) :
    (((set_parent m x p).nodes z).left) = (m.nodes z).left := by
  rw [set_parent_nodes]; split <;> simp_all

@[simp] theorem set_parent_get_right (m : rb_mem) (x : Nat) (p : Nat) (z : Nat) :
    (((set_parent m x p).nodes z).right) = (m.nodes z).right := by
  rw [set_parent_nodes]; split <;> simp_all

@[simp] theorem set_left_get_key (m : rb_mem) (x : Nat) (p : Nat) (z : Nat) :
    (((set_left m x p).nodes z).key) = (m.nodes z).key := by
  rw [set_left_nodes]; split <;> simp_all

@[simp] theorem set_left_get_value (m : rb_mem) (x : Nat) (p : Nat) (z : Nat) :
    (((set_left m x p).nodes z).value) = (m.nodes z).value := by
  rw [set_left_nodes]; split <;> simp_all

@[simp] theorem set_left_get_color (m : rb_mem) (x : Nat) (p : Nat) (z : Nat) :
    (((set_left m x p).nodes z).color) = (m.nodes z).color := by
  rw [set_left_nodes]; split <;> simp_all

@[simp] theorem set_left_get_parent (m : rb_mem) (x : Nat) (p : Nat) (z : Nat) :
    (((set_left m x p).nodes z).parent) = (m.nodes z).parent := by
  rw [set_left_nodes]; split <;> simp_all

@[simp] theorem set_left_get_left (m : rb_mem) (x : Nat) (p : Nat) (z : Nat) :
    (((set_left m x p).nodes z).left) = if z = x then p else (m.nodes z).left := by
  rw [set_left_nodes]; split <;> simp_all

@[simp] theorem set_left_get_right (m : rb_mem) (x : Nat) (p : Nat) (z : Nat) :
    (((set_left m x p).nodes z).right) = (m.nodes z).right := by
  rw [set_left_nodes]; split <;> simp_all

@[simp] theorem set_right_get_key (m : rb_mem) (x : Nat) (p : Nat) (z : Nat) :
    (((set_right m x p).nodes z).key) = (m.nodes z).key := by
  rw [set_right_nodes]; split <;> simp_all

@[simp] theorem set_right_get_value (m : rb_mem) (x : Nat) (p : Nat) (z : Nat) :
    (((set_right m x p).nodes z).value) = (m.nodes z).value := by
  rw [set_right_nodes]; split <;> simp_all

@[simp] theorem set_right_get_color (m : rb_mem) (x : Nat) (p : Nat) (z : Nat) :
    (((set_right m x p).nodes z).color) = (m.nodes z).color := by
  rw [set_right_nodes]; split <;> simp_all

@[simp] theorem set_right_get_parent (m : rb_mem) (x : Nat) (p : Nat) (z : Nat) :
    (((set_right m x p).nodes z).parent) = (m.nodes z).parent := by
  rw [set_right_nodes]; split <;> simp_all

@[simp] theorem set_right_get_left (m : rb_mem) (x : Nat) (p : Nat) (z : Nat) :
    (((set_right m x p).nodes z).left) = (m.nodes z).left := by
  rw [set_right_nodes]; split <;> simp_all

@[simp] theorem set_right_get_right (m : rb_mem) (x : Nat) (p : Nat) (z : Nat) :
    (((set_right m x p).nodes z).right) = if z = x then p else (m.nodes z).right := by
  rw [set_right_nodes]; split <;> simp_all

@[simp] theorem set_kv_get_key (m : rb_mem) (x k v : Nat) (z : Nat) :
    ((set_kv m x k v).nodes z).key = if z = x then k else (m.nodes z).key := by
  rw [set_kv_nodes]; split <;> simp_all

@[simp] theorem set_kv_get_value (m : rb_mem) (x k v : Nat) (z : Nat) :
    ((set_kv m x k v).nodes z).value = if z = x then v else (m.nodes z).value := by
  rw [set_kv_nodes]; split <;> simp_all

@[simp] theorem set_kv_get_color (m : rb_mem) (x k v : Nat) (z : Nat) :
    ((set_kv m x k v).nodes z).color = (m.nodes z).color := by
  rw [set_kv_nodes]; split <;> simp_all

@[simp] theorem set_kv_get_parent (m : rb_mem) (x k v : Nat) (z : Nat) :
    ((set_kv m x k v).nodes z).parent = (m.nodes z).parent := by
  rw [set_kv_nodes]; split <;> simp_all

@[simp] theorem set_kv_get_left (m : rb_mem) (x k v : Nat) (z : Nat) :
    ((set_kv m x k v).nodes z).left = (m.nodes z).left := by
  rw [set_kv_nodes]; split <;> simp_all

@[simp] theorem set_kv_get_right (m : rb_mem) (x k v : Nat) (z : Nat) :
    ((set_kv m x k v).nodes z).right = (m.nodes z).right := by
  rw [set_kv_nodes]; split <;> simp_all

theorem node_ext {a b : rb_node_t} (h1 : a.key = b.key) (h2 : a.value = b.value)
    (h3 : a.color = b.color) (h4 : a.parent = b.parent) (h5 : a.left = b.left)
    (h6 : a.right = b.right) : a = b := by
  cases a; cases b; simp_all

/-! ## Red-black tree: recolouring -/

@[simp] theorem recolor_ptr (z : Nat) (c : rb_color) (t : rbt) : (t.recolor z c).ptr = t.ptr := by
  cases t <;> rfl

@[simp] theorem recolor_ids (z : Nat) (c : rb_color) (t : rbt) : (t.recolor z c).ids = t.ids := by
  induction t with
  | nil => rfl
  | node l x cx k v r ihl ihr => simp [rbt.recolor, rbt.ids, ihl, ihr]

@[simp] theorem recolor_items (z : Nat) (c : rb_color) (t : rbt) :
    (t.recolor z c).items = t.items := by
  induction t with
  | nil => rfl
  | node l x cx k v r ihl ihr => simp [rbt.recolor, rbt.items, ihl, ihr]

theorem recolor_of_not_mem (z : Nat) (c : rb_color) : ∀ t : rbt, z ∉ t.ids → t.recolor z c = t := by
  intro t
  induction t with
  | nil => intro _; rfl
  | node l x cx k v r ihl ihr =>
    intro h
    simp only [rbt.ids, List.mem_append, List.mem_cons, not_or] at h
    simp only [rbt.recolor, ihl h.1, ihr h.2.2]
    rw [if_neg (fun e => h.2.1 e.symm)]

/-- The memory after `z->color = c` holds the recoloured tree. -/
theorem tree_rep_recolor (m : rb_mem) (z : Nat) (c : rb_color) : ∀ (t : rbt) (par : Nat),
    tree_rep m t par → tree_rep (set_color m z c) (t.recolor z c) par := by
  intro t
  induction t with
  | nil => intro _ _; trivial
  | node l x cx k v r ihl ihr =>
    intro par h
    obtain ⟨h1, h2, h3⟩ := h
    refine ⟨?_, ihl x h2, ihr x h3⟩
    rw [set_color_nodes]
    by_cases hx : x = z
    · subst hx
      simp [h1]
    · simp [hx, h1]

theorem plug_recolor (z : Nat) (c : rb_color) (f : rb_frame) (t : rbt) :
    (f.plug t).recolor z c = (f.recolor z c).plug (t.recolor z c) := by
  unfold rb_frame.plug rb_frame.recolor
  cases f.left <;> simp [rbt.recolor]

theorem zip_recolor (z : Nat) (c : rb_color) (path : List rb_frame) : ∀ t : rbt,
    (zip path t).recolor z c = zip (path.map (rb_frame.recolor z c)) (t.recolor z c) := by
  induction path with
  | nil => intro t; rfl
  | cons f fs ih =>
    intro t
    rw [zip.eq_def]
    simp only [List.map_cons]
    rw [ih, plug_recolor]
    rfl

theorem frame_recolor_of_not_mem (z : Nat) (c : rb_color) (f : rb_frame)
    (h : z ≠ f.x) (hs : z ∉ f.sib.ids) : f.recolor z c = f := by
  unfold rb_frame.recolor
  rw [recolor_of_not_mem z c _ hs, if_neg (fun e => h e.symm)]

theorem path_recolor_of_not_mem (z : Nat) (c : rb_color) : ∀ path : List rb_frame,
    z ∉ path_ids path → path.map (rb_frame.recolor z c) = path := by
  intro path
  induction path with
  | nil => intro _; rfl
  | cons f fs ih =>
    intro h
    simp only [path_ids, List.mem_cons, List.mem_append, not_or] at h
    rw [List.map_cons, ih h.2, frame_recolor_of_not_mem z c f h.1.1 h.1.2]

/-! ## Red-black tree: rotations -/

theorem ptr_mem_ids : ∀ t : rbt, t ≠ .nil → t.ptr ∈ t.ids := by
  intro t h
  cases t with
  | nil => exact absurd rfl h
  | node l x c k v r => simp [rbt.ptr, rbt.ids]

theorem ptr_eq_nil_iff (t : rbt) (h : ∀ z ∈ t.ids, 2 ≤ z) : t.ptr = NIL ↔ t = .nil := by
  cases t with
  | nil => simp [rbt.ptr]
  | node l x c k v r =>
    have := h x (by simp [rbt.ids])
    simp [rbt.ptr, NIL]
    omega

theorem zip_ptr_nil (t : rbt) : (zip [] t).ptr = t.ptr := rfl

theorem zip_ptr_cons (f : rb_frame) (fs : List rb_frame) (t t1 : rbt) :
    (zip (f :: fs) t).ptr = (zip (f :: fs) t1).ptr := by
  induction fs generalizing f t t1 with
  | nil => simp [zip]
  | cons g gs ih =>
    rw [zip_cons, zip_cons f]
    exact ih g _ _

/-- The fields of the parent of a subtree after the assignment that makes `hole1` its
child in place of `hole`. -/
theorem path_rep_hole (m m1 : rb_mem) (f : rb_frame) (fs : List rb_frame) (hole hole1 : Nat)
    (h : path_rep m (f :: fs) hole)
    (hx : m1.nodes f.x = if f.left then { m.nodes f.x with left := hole1 }
                          else { m.nodes f.x with right := hole1 })
    (hsib : ∀ z ∈ f.sib.ids, m1.nodes z = m.nodes z)
    (hfs : ∀ z ∈ path_ids fs, m1.nodes z = m.nodes z) :
    path_rep m1 (f :: fs) hole1 := by
  obtain ⟨h1, h2, h3⟩ := h
  refine ⟨?_, tree_rep_congr m m1 _ _ hsib h2, path_rep_congr m m1 _ _ hfs h3⟩
  rw [hx, h1]
  cases f.left <;> simp

/-- The fields of the root of a subtree after the assignment of a new parent. -/
theorem tree_rep_reparent (m m1 : rb_mem) (t : rbt) (par par1 : Nat)
    (h : tree_rep m t par)
    (hx : t ≠ .nil → m1.nodes t.ptr = { m.nodes t.ptr with parent := par1 })
    (hids : ∀ z ∈ t.ids, z ≠ t.ptr → m1.nodes z = m.nodes z)
    (hnd : t.ids.Nodup) :
    tree_rep m1 t par1 := by
  cases t with
  | nil => trivial
  | node l x c k v r =>
    obtain ⟨h1, h2, h3⟩ := h
    simp only [rbt.ids] at hnd hids
    rw [List.nodup_append] at hnd
    obtain ⟨_, hnd2, hdis⟩ := hnd
    rw [List.nodup_cons] at hnd2
    have hxl : x ∉ l.ids := fun hm => hdis hm (List.mem_cons_self _ _)
    refine ⟨?_, tree_rep_congr m m1 _ _ ?_ h2, tree_rep_congr m m1 _ _ ?_ h3⟩
    · have := hx (by simp)
      simp only [rbt.ptr] at this
      rw [this, h1]
    · intro z hz
      exact hids z (by simp [hz]) (fun e => hxl (by rw [rbt.ptr] at e; rw [← e]; exact hz))
    · intro z hz
      exact hids z (by simp [hz]) (fun e => hnd2.1 (by rw [rbt.ptr] at e; rw [← e]; exact hz))

/-- The memory after `rb_tree_rotl(tree, x)`, field by field: `y` is `x->right`, `bp` is
`y->left` and `p` is `x->parent`. -/
theorem rotl_nodes (m : rb_mem) (tree : rb_tree_t) (x y bp p : Nat)
    (hy : (m.nodes x).right = y) (hbp : (m.nodes y).left = bp) (hp : (m.nodes x).parent = p)
    (hxy : x ≠ y) (hbx : bp ≠ x) (hby : bp ≠ y) (hpx : p ≠ x) (hpy : p ≠ y)
    (hpb : p = NIL ∨ p ≠ bp) :
    (rb_tree_rotl m tree x).2 = (if p = NIL then { tree with root := y } else tree)
    ∧ (rb_tree_rotl m tree x).1.next = m.next
    ∧ ∀ z,
      ((rb_tree_rotl m tree x).1.nodes z).key = (m.nodes z).key
      ∧ ((rb_tree_rotl m tree x).1.nodes z).value = (m.nodes z).value
      ∧ ((rb_tree_rotl m tree x).1.nodes z).color = (m.nodes z).color
      ∧ ((rb_tree_rotl m tree x).1.nodes z).parent
          = (if z = x then y else if z = y then p
             else if z = bp ∧ bp ≠ NIL then x else (m.nodes z).parent)
      ∧ ((rb_tree_rotl m tree x).1.nodes z).left
          = (if z = y then x
             else if z = p ∧ p ≠ NIL ∧ x = (m.nodes p).left then y else (m.nodes z).left)
      ∧ ((rb_tree_rotl m tree x).1.nodes z).right
          = (if z = x then bp
             else if z = p ∧ p ≠ NIL ∧ x ≠ (m.nodes p).left then y else (m.nodes z).right) := by
  unfold rb_tree_rotl
  by_cases hb0 : bp = NIL <;> by_cases hp0 : p = NIL
  · simp [hy, hbp, hp, hb0, hp0, hxy, hxy.symm]
    all_goals (intro z; split_ifs <;> simp_all)
  · by_cases hc : x = (m.nodes p).left
    · simp [hy, hbp, hp, hb0, hp0, hxy, hxy.symm, hpx, hpx.symm, hpy, hpy.symm, ← hc]
      all_goals (intro z; split_ifs <;> simp_all)
    · simp [hy, hbp, hp, hb0, hp0, hxy, hxy.symm, hpx, hpx.symm, hpy, hpy.symm, hc]
      all_goals (intro z; split_ifs <;> simp_all)
  · simp [hy, hbp, hp, hb0, hp0, hxy, hxy.symm, hbx, hbx.symm, hby, hby.symm]
    all_goals (intro z; split_ifs <;> simp_all)
  · have hpb1 : p ≠ bp := hpb.resolve_left hp0
    by_cases hc : x = (m.nodes p).left
    · simp [hy, hbp, hp, hb0, hp0, hxy, hxy.symm, hpx, hpx.symm, hpy, hpy.symm, ← hc, hbx,
        hbx.symm, hby, hby.symm, hpb1, hpb1.symm]
      all_goals (intro z; split_ifs <;> simp_all)
    · simp [hy, hbp, hp, hb0, hp0, hxy, hxy.symm, hpx, hpx.symm, hpy, hpy.symm, hc, hbx,
        hbx.symm, hby, hby.symm, hpb1, hpb1.symm]
      all_goals (intro z; split_ifs <;> simp_all)

/-- The memory after `rb_tree_rotr(tree, x)`, field by field: `y` is `x->left`, `bp` is
`y->right` and `p` is `x->parent`. -/
theorem rotr_nodes (m : rb_mem) (tree : rb_tree_t) (x y bp p : Nat)
    (hy : (m.nodes x).left = y) (hbp : (m.nodes y).right = bp) (hp : (m.nodes x).parent = p)
    (hxy : x ≠ y) (hbx : bp ≠ x) (hby : bp ≠ y) (hpx : p ≠ x) (hpy : p ≠ y)
    (hpb : p = NIL ∨ p ≠ bp) :
    (rb_tree_rotr m tree x).2 = (if p = NIL then { tree with root := y } else tree)
    ∧ (rb_tree_rotr m tree x).1.next = m.next
    ∧ ∀ z,
      ((rb_tree_rotr m tree x).1.nodes z).key = (m.nodes z).key
      ∧ ((rb_tree_rotr m tree x).1.nodes z).value = (m.nodes z).value
      ∧ ((rb_tree_rotr m tree x).1.nodes z).color = (m.nodes z).color
      ∧ ((rb_tree_rotr m tree x).1.nodes z).parent
          = (if z = x then y else if z = y then p
             else if z = bp ∧ bp ≠ NIL then x else (m.nodes z).parent)
      ∧ ((rb_tree_rotr m tree x).1.nodes z).right
          = (if z = y then x
             else if z = p ∧ p ≠ NIL ∧ x = (m.nodes p).right then y else (m.nodes z).right)
      ∧ ((rb_tree_rotr m tree x).1.nodes z).left
          = (if z = x then bp
             else if z = p ∧ p ≠ NIL ∧ x ≠ (m.nodes p).right then y else (m.nodes z).left) := by
  unfold rb_tree_rotr
  by_cases hb0 : bp = NIL <;> by_cases hp0 : p = NIL
  · simp [hy, hbp, hp, hb0, hp0, hxy, hxy.symm]
    all_goals (intro z; split_ifs <;> simp_all)
  · by_cases hc : x = (m.nodes p).right
    · simp [hy, hbp, hp, hb0, hp0, hxy, hxy.symm, hpx, hpx.symm, hpy, hpy.symm, ← hc]
      all_goals (intro z; split_ifs <;> simp_all)
    · simp [hy, hbp, hp, hb0, hp0, hxy, hxy.symm, hpx, hpx.symm, hpy, hpy.symm, hc]
      all_goals (intro z; split_ifs <;> simp_all)
  · simp [hy, hbp, hp, hb0, hp0, hxy, hxy.symm, hbx, hbx.symm, hby, hby.symm]
    all_goals (intro z; split_ifs <;> simp_all)
  · have hpb1 : p ≠ bp := hpb.resolve_left hp0
    by_cases hc : x = (m.nodes p).right
    · simp [hy, hbp, hp, hb0, hp0, hxy, hxy.symm, hpx, hpx.symm, hpy, hpy.symm, ← hc, hbx,
        hbx.symm, hby, hby.symm, hpb1, hpb1.symm]
      all_goals (intro z; split_ifs <;> simp_all)
    · simp [hy, hbp, hp, hb0, hp0, hxy, hxy.symm, hpx, hpx.symm, hpy, hpy.symm, hc, hbx,
        hbx.symm, hby, hby.symm, hpb1, hpb1.symm]
      all_goals (intro z; split_ifs <;> simp_all)

theorem rotl_untouched (m : rb_mem) (tree : rb_tree_t) (x y bp p : Nat)
    (hy : (m.nodes x).right = y) (hbp : (m.nodes y).left = bp) (hp : (m.nodes x).parent = p)
    (hxy : x ≠ y) (hbx : bp ≠ x) (hby : bp ≠ y) (hpx : p ≠ x) (hpy : p ≠ y)
    (hpb : p = NIL ∨ p ≠ bp) (z : Nat) (hzx : z ≠ x) (hzy : z ≠ y)
    (hzb : z ≠ bp ∨ bp = NIL) (hzp : z ≠ p ∨ p = NIL) :
    (rb_tree_rotl m tree x).1.nodes z = m.nodes z := by
  obtain ⟨_, _, h⟩ := rotl_nodes m tree x y bp p hy hbp hp hxy hbx hby hpx hpy hpb
  obtain ⟨h1, h2, h3, h4, h5, h6⟩ := h z
  apply node_ext h1 h2 h3
  · rw [h4, if_neg hzx, if_neg hzy, if_neg]
    rintro ⟨e, hn⟩
    exact hzb.elim (fun h => h e) (fun h => hn h)
  · rw [h5, if_neg hzy, if_neg]
    rintro ⟨e, hn, _⟩
    exact hzp.elim (fun h => h e) (fun h => hn h)
  · rw [h6, if_neg hzx, if_neg]
    rintro ⟨e, hn, _⟩
    exact hzp.elim (fun h => h e) (fun h => hn h)

theorem ptr_nil_or_mem (t : rbt) : t.ptr = NIL ∨ t.ptr ∈ t.ids := by
  cases t with
  | nil => exact Or.inl rfl
  | node l x c k v r => exact Or.inr (by simp [rbt.ptr, rbt.ids])

theorem path_ptr_nil_or_mem (path : List rb_frame) :
    (path = [] ∧ path_ptr path = NIL) ∨ path_ptr path ∈ path_ids path := by
  cases path with
  | nil => exact Or.inl ⟨rfl, rfl⟩
  | cons f fs => exact Or.inr (by simp [path_ptr, path_ids])

/-- Left rotation at `x` in a tree in memory: the subtree `a x (b y c)` becomes
`(a x b) y c`. -/
theorem rotl_spec (m : rb_mem) (tree : rb_tree_t) (path : List rb_frame) (a b c : rbt)
    (x y : Nat) (cx cy : rb_color) (kx vx ky vy : Nat)
    (hrep : tree_rep m (zip path (.node a x cx kx vx (.node b y cy ky vy c))) NIL)
    (hnd : (path_ids path ++ (rbt.node a x cx kx vx (.node b y cy ky vy c)).ids).Nodup)
    (hal : ∀ z ∈ path_ids path ++ (rbt.node a x cx kx vx (.node b y cy ky vy c)).ids, 2 ≤ z) :
    (rb_tree_rotl m tree x).2 = (if path_ptr path = NIL then { tree with root := y } else tree)
      ∧ tree_rep (rb_tree_rotl m tree x).1
          (zip path (.node (.node a x cx kx vx b) y cy ky vy c)) NIL
      ∧ (rb_tree_rotl m tree x).1.next = m.next
      ∧ (rb_tree_rotl m tree x).1.nodes NIL = m.nodes NIL := by
  rw [rep_zip] at hrep
  obtain ⟨hp, hx, ha, hy, hb, hc⟩ := hrep
  change path_rep m path x at hp
  rw [List.nodup_append] at hnd
  obtain ⟨hndp, hndt, hdis⟩ := hnd
  simp only [rbt.ids, List.nodup_append, List.nodup_cons, List.mem_append, List.mem_cons,
    not_or, List.disjoint_left] at hndt
  obtain ⟨hnda, ⟨⟨hxb, hxy0, hxc⟩, hndb, ⟨hyc, hndc⟩, hdbc⟩, hdab⟩ := hndt
  have hxy : x ≠ y := hxy0
  have hmem : ∀ z, z ∈ path_ids path ∨ z ∈ a.ids ∨ z = x ∨ z ∈ b.ids ∨ z = y ∨ z ∈ c.ids
      → 2 ≤ z := by
    intro z hz
    apply hal
    simp only [rbt.ids, List.mem_append, List.mem_cons]
    tauto
  have hpt : ∀ z ∈ path_ids path, z ∉ a.ids ∧ z ≠ x ∧ z ∉ b.ids ∧ z ≠ y ∧ z ∉ c.ids := by
    intro z hz
    have := hdis hz
    simp only [rbt.ids, List.mem_append, List.mem_cons, not_or] at this
    tauto
  have hx2 : 2 ≤ x := hmem x (by tauto)
  have hy2 : 2 ≤ y := hmem y (by tauto)
  have hnil : ∀ z, 2 ≤ z → z ≠ NIL := by
    intro z hz
    unfold NIL
    omega
  -- the pointers that the rotation reads
  have hbx : b.ptr ≠ x := by
    rcases ptr_nil_or_mem b with h | h
    · rw [h]; exact (hnil x hx2).symm
    · rintro e; rw [e] at h; exact hxb h
  have hby : b.ptr ≠ y := by
    rcases ptr_nil_or_mem b with h | h
    · rw [h]; exact (hnil y hy2).symm
    · rintro e
      rw [e] at h
      exact (hdbc h).1 rfl
  have hpx : path_ptr path ≠ x := by
    rcases path_ptr_nil_or_mem path with h | h
    · rw [h.2]; exact (hnil x hx2).symm
    · exact (hpt _ h).2.1
  have hpy : path_ptr path ≠ y := by
    rcases path_ptr_nil_or_mem path with h | h
    · rw [h.2]; exact (hnil y hy2).symm
    · exact (hpt _ h).2.2.2.1
  have hpb : path_ptr path = NIL ∨ path_ptr path ≠ b.ptr := by
    rcases path_ptr_nil_or_mem path with h | h
    · exact Or.inl h.2
    · right
      rcases ptr_nil_or_mem b with h1 | h1
      · rw [h1]; exact hnil _ (hmem _ (Or.inl h))
      · intro e
        rw [e] at h
        exact (hpt _ h).2.2.1 h1
  have hyr : (m.nodes x).right = y := by rw [hx]; rfl
  have hbl : (m.nodes y).left = b.ptr := by rw [hy]
  have hpp : (m.nodes x).parent = path_ptr path := by rw [hx]
  obtain ⟨ht, hnext, hn⟩ :=
    rotl_nodes m tree x y b.ptr (path_ptr path) hyr hbl hpp hxy hbx hby hpx hpy hpb
  have hun := rotl_untouched m tree x y b.ptr (path_ptr path) hyr hbl hpp hxy hbx hby hpx hpy hpb
  refine ⟨ht, ?_, hnext, ?_⟩
  · rw [rep_zip]
    constructor
    · -- the path
      cases path with
      | nil => trivial
      | cons f fs =>
        simp only [path_ptr] at *
        have hfn : f.x ∉ f.sib.ids ++ path_ids fs := (List.nodup_cons.1 hndp).1
        have hfs : f.x ∉ f.sib.ids := fun h => hfn (List.mem_append_left _ h)
        have hfp : f.x ∉ path_ids fs := fun h => hfn (List.mem_append_right _ h)
        have hf2 : 2 ≤ f.x := hmem f.x (Or.inl (by simp [path_ids]))
        have hfx := hp.1
        have hleft : x = (m.nodes f.x).left ↔ f.left = true := by
          rw [hfx]
          cases hfl : f.left
          · simp only [Bool.false_eq_true, if_false, iff_false]
            rcases ptr_nil_or_mem f.sib with h | h
            · rw [h]; exact hnil x hx2
            · intro e
              rw [← e] at h
              exact (hpt x (by simp [path_ids, h])).2.1 rfl
          · simp
        apply path_rep_hole m _ f fs x y hp
        · obtain ⟨h1, h2, h3, h4, h5, h6⟩ := hn f.x
          have hfb : ¬ (f.x = b.ptr ∧ b.ptr ≠ NIL) := by
            rintro ⟨e, _⟩
            exact hpb.elim (fun h => hnil _ hf2 h) (fun h => h e)
          rw [if_neg hpx, if_neg hpy, if_neg hfb] at h4
          rw [if_neg hpy] at h5
          rw [if_neg hpx] at h6
          cases hfl : f.left
          · have hne : ¬ x = (m.nodes f.x).left := by rw [hleft, hfl]; simp
            rw [if_neg (by tauto)] at h5
            rw [if_pos ⟨rfl, hnil _ hf2, hne⟩] at h6
            simp only [Bool.false_eq_true, if_false]
            exact node_ext h1 h2 h3 h4 h5 h6
          · have he : x = (m.nodes f.x).left := by rw [hleft, hfl]
            rw [if_pos ⟨rfl, hnil _ hf2, he⟩] at h5
            rw [if_neg (by tauto)] at h6
            simp only [if_true]
            exact node_ext h1 h2 h3 h4 h5 h6
        · intro z hz
          have hzp : z ∈ path_ids (f :: fs) := by simp [path_ids, hz]
          have := hpt z hzp
          apply hun z this.2.1 this.2.2.2.1
          · rcases ptr_nil_or_mem b with h | h
            · exact Or.inr h
            · left; rintro rfl; exact this.2.2.1 h
          · left; rintro rfl; exact hfs hz
        · intro z hz
          have hzp : z ∈ path_ids (f :: fs) := by simp [path_ids, hz]
          have := hpt z hzp
          apply hun z this.2.1 this.2.2.2.1
          · rcases ptr_nil_or_mem b with h | h
            · exact Or.inr h
            · left; rintro rfl; exact this.2.2.1 h
          · left; rintro rfl; exact hfp hz
    · -- the rotated subtree
      have hzp : ∀ z, z ∈ a.ids ∨ z ∈ b.ids ∨ z ∈ c.ids →
          z ≠ path_ptr path ∨ path_ptr path = NIL := by
        intro z hz
        rcases path_ptr_nil_or_mem path with h | h
        · exact Or.inr h.2
        · left
          rintro rfl
          have := hpt _ h
          tauto
      refine ⟨?_, ⟨?_, ?_, ?_⟩, ?_⟩
      · obtain ⟨h1, h2, h3, h4, h5, h6⟩ := hn y
        rw [if_neg hxy.symm, if_pos rfl] at h4
        rw [if_pos rfl] at h5
        rw [if_neg hxy.symm, if_neg (fun h => hpy h.1.symm)] at h6
        rw [hy] at h1 h2 h3 h6
        exact node_ext h1 h2 h3 h4 h5 h6
      · obtain ⟨h1, h2, h3, h4, h5, h6⟩ := hn x
        rw [if_pos rfl] at h4
        rw [if_neg hxy, if_neg (fun h => hpx h.1.symm)] at h5
        rw [if_pos rfl] at h6
        rw [hx] at h1 h2 h3 h5
        exact node_ext h1 h2 h3 h4 h5 h6
      · apply tree_rep_congr m _ _ _ _ ha
        intro z hz
        have hza := hdab hz
        apply hun z hza.1 hza.2.2.1
        · rcases ptr_nil_or_mem b with h | h
          · exact Or.inr h
          · left; rintro rfl; exact hza.2.1 h
        · exact hzp z (Or.inl hz)
      · apply tree_rep_reparent m _ b y x hb
        · intro hbn
          have hb2 : b.ptr ∈ b.ids := ptr_mem_ids b hbn
          obtain ⟨h1, h2, h3, h4, h5, h6⟩ := hn b.ptr
          rw [if_neg hbx, if_neg hby, if_pos ⟨rfl, hnil _ (hmem _ (by tauto))⟩] at h4
          rw [if_neg hby, if_neg (fun h => (hzp _ (Or.inr (Or.inl hb2))).elim
            (fun h1 => h1 h.1) (fun h1 => h.2.1 h1))] at h5
          rw [if_neg hbx, if_neg (fun h => (hzp _ (Or.inr (Or.inl hb2))).elim
            (fun h1 => h1 h.1) (fun h1 => h.2.1 h1))] at h6
          exact node_ext h1 h2 h3 h4 h5 h6
        · intro z hz hzb
          apply hun z (fun e => hxb (e ▸ hz)) (fun e => (hdbc hz).1 e) (Or.inl hzb)
          exact hzp z (Or.inr (Or.inl hz))
        · exact hndb
      · apply tree_rep_congr m _ _ _ _ hc
        intro z hz
        apply hun z (fun e => hxc (e ▸ hz)) (fun e => hyc (e ▸ hz))
        · rcases ptr_nil_or_mem b with h | h
          · exact Or.inr h
          · left; rintro rfl; exact (hdbc h).2 hz
        · exact hzp z (Or.inr (Or.inr hz))
  · apply hun NIL (hnil x hx2).symm (hnil y hy2).symm
    · rcases ptr_nil_or_mem b with h | h
      · exact Or.inr h
      · left; exact (hnil _ (hmem _ (by tauto))).symm
    · rcases path_ptr_nil_or_mem path with h | h
      · exact Or.inr h.2
      · left; exact (hnil _ (hmem _ (Or.inl h))).symm

theorem rotr_untouched (m : rb_mem) (tree : rb_tree_t) (x y bp p : Nat)
    (hy : (m.nodes x).left = y) (hbp : (m.nodes y).right = bp) (hp : (m.nodes x).parent = p)
    (hxy : x ≠ y) (hbx : bp ≠ x) (hby : bp ≠ y) (hpx : p ≠ x) (hpy : p ≠ y)
    (hpb : p = NIL ∨ p ≠ bp) (z : Nat) (hzx : z ≠ x) (hzy : z ≠ y)
    (hzb : z ≠ bp ∨ bp = NIL) (hzp : z ≠ p ∨ p = NIL) :
    (rb_tree_rotr m tree x).1.nodes z = m.nodes z := by
  obtain ⟨_, _, h⟩ := rotr_nodes m tree x y bp p hy hbp hp hxy hbx hby hpx hpy hpb
  obtain ⟨h1, h2, h3, h4, h5, h6⟩ := h z
  apply node_ext h1 h2 h3
  · rw [h4, if_neg hzx, if_neg hzy, if_neg]
    rintro ⟨e, hn⟩
    exact hzb.elim (fun h => h e) (fun h => hn h)
  · rw [h6, if_neg hzx, if_neg]
    rintro ⟨e, hn, _⟩
    exact hzp.elim (fun h => h e) (fun h => hn h)
  · rw [h5, if_neg hzy, if_neg]
    rintro ⟨e, hn, _⟩
    exact hzp.elim (fun h => h e) (fun h => hn h)

/-- Right rotation at `x` in a tree in memory: the subtree `(a y b) x c` becomes
`a y (b x c)`. -/
theorem rotr_spec (m : rb_mem) (tree : rb_tree_t) (path : List rb_frame) (a b c : rbt)
    (x y : Nat) (cx cy : rb_color) (kx vx ky vy : Nat)
    (hrep : tree_rep m (zip path (.node (.node a y cy ky vy b) x cx kx vx c)) NIL)
    (hnd : (path_ids path ++ (rbt.node (.node a y cy ky vy b) x cx kx vx c).ids).Nodup)
    (hal : ∀ z ∈ path_ids path ++ (rbt.node (.node a y cy ky vy b) x cx kx vx c).ids, 2 ≤ z) :
    (rb_tree_rotr m tree x).2 = (if path_ptr path = NIL then { tree with root := y } else tree)
      ∧ tree_rep (rb_tree_rotr m tree x).1
          (zip path (.node a y cy ky vy (.node b x cx kx vx c))) NIL
      ∧ (rb_tree_rotr m tree x).1.next = m.next
      ∧ (rb_tree_rotr m tree x).1.nodes NIL = m.nodes NIL := by
  rw [rep_zip] at hrep
  obtain ⟨hp, hx, ⟨hy, ha, hb⟩, hc⟩ := hrep
  change path_rep m path x at hp
  rw [List.nodup_append] at hnd
  obtain ⟨hndp, hndt, hdis⟩ := hnd
  simp only [rbt.ids, List.nodup_append, List.nodup_cons, List.mem_append, List.mem_cons,
    not_or, List.disjoint_left] at hndt
  obtain ⟨⟨hnda, ⟨hyb, hndb⟩, hda⟩, ⟨hxc, hndc⟩, hdx⟩ := hndt
  have hxb : x ∉ b.ids := fun h => (hdx (Or.inr (Or.inr h))).1 rfl
  have hxy : x ≠ y := fun e => (hdx (Or.inr (Or.inl rfl))).1 e.symm
  have hyc : y ∉ c.ids := (hdx (Or.inr (Or.inl rfl))).2
  have hdb : ∀ z, z ∈ b.ids → z ≠ x ∧ z ≠ y ∧ z ∉ a.ids ∧ z ∉ c.ids := by
    intro z hz
    refine ⟨(hdx (Or.inr (Or.inr hz))).1, fun e => hyb (e ▸ hz), fun h => (hda h).2 hz,
      (hdx (Or.inr (Or.inr hz))).2⟩
  have hdab : ∀ z, z ∈ a.ids → z ≠ x ∧ z ≠ y ∧ z ∉ b.ids := by
    intro z hz
    exact ⟨(hdx (Or.inl hz)).1, (hda hz).1, (hda hz).2⟩
  have hdc : ∀ z, z ∈ c.ids → z ≠ x ∧ z ≠ y ∧ z ∉ b.ids := by
    intro z hz
    exact ⟨fun e => hxc (e ▸ hz), fun e => hyc (e ▸ hz), fun h => (hdb z h).2.2.2 hz⟩
  have hmem : ∀ z, z ∈ path_ids path ∨ z ∈ a.ids ∨ z = x ∨ z ∈ b.ids ∨ z = y ∨ z ∈ c.ids
      → 2 ≤ z := by
    intro z hz
    apply hal
    simp only [rbt.ids, List.mem_append, List.mem_cons]
    tauto
  have hpt : ∀ z ∈ path_ids path, z ∉ a.ids ∧ z ≠ x ∧ z ∉ b.ids ∧ z ≠ y ∧ z ∉ c.ids := by
    intro z hz
    have := hdis hz
    simp only [rbt.ids, List.mem_append, List.mem_cons, not_or] at this
    tauto
  have hx2 : 2 ≤ x := hmem x (by tauto)
  have hy2 : 2 ≤ y := hmem y (by tauto)
  have hnil : ∀ z, 2 ≤ z → z ≠ NIL := by
    intro z hz
    unfold NIL
    omega
  have hbx : b.ptr ≠ x := by
    rcases ptr_nil_or_mem b with h | h
    · rw [h]; exact (hnil x hx2).symm
    · rintro e; rw [e] at h; exact hxb h
  have hby : b.ptr ≠ y := by
    rcases ptr_nil_or_mem b with h | h
    · rw [h]; exact (hnil y hy2).symm
    · rintro e
      rw [e] at h
      exact hyb h
  have hpx : path_ptr path ≠ x := by
    rcases path_ptr_nil_or_mem path with h | h
    · rw [h.2]; exact (hnil x hx2).symm
    · exact (hpt _ h).2.1
  have hpy : path_ptr path ≠ y := by
    rcases path_ptr_nil_or_mem path with h | h
    · rw [h.2]; exact (hnil y hy2).symm
    · exact (hpt _ h).2.2.2.1
  have hpb : path_ptr path = NIL ∨ path_ptr path ≠ b.ptr := by
    rcases path_ptr_nil_or_mem path with h | h
    · exact Or.inl h.2
    · right
      rcases ptr_nil_or_mem b with h1 | h1
      · rw [h1]; exact hnil _ (hmem _ (Or.inl h))
      · intro e
        rw [e] at h
        exact (hpt _ h).2.2.1 h1
  have hzb : ∀ z, z ∉ b.ids → z ≠ b.ptr ∨ b.ptr = NIL := by
    intro z hz
    rcases ptr_nil_or_mem b with h | h
    · exact Or.inr h
    · left; rintro rfl; exact hz h
  have hyr : (m.nodes x).left = y := by rw [hx]; rfl
  have hbl : (m.nodes y).right = b.ptr := by rw [hy]
  have hpp : (m.nodes x).parent = path_ptr path := by rw [hx]
  obtain ⟨ht, hnext, hn⟩ :=
    rotr_nodes m tree x y b.ptr (path_ptr path) hyr hbl hpp hxy hbx hby hpx hpy hpb
  have hun := rotr_untouched m tree x y b.ptr (path_ptr path) hyr hbl hpp hxy hbx hby hpx hpy hpb
  refine ⟨ht, ?_, hnext, ?_⟩
  · rw [rep_zip]
    constructor
    · -- the path
      cases path with
      | nil => trivial
      | cons f fs =>
        simp only [path_ptr] at *
        have hfn : f.x ∉ f.sib.ids ++ path_ids fs := (List.nodup_cons.1 hndp).1
        have hfs : f.x ∉ f.sib.ids := fun h => hfn (List.mem_append_left _ h)
        have hfp : f.x ∉ path_ids fs := fun h => hfn (List.mem_append_right _ h)
        have hf2 : 2 ≤ f.x := hmem f.x (Or.inl (by simp [path_ids]))
        have hfx := hp.1
        have hright : x = (m.nodes f.x).right ↔ f.left = false := by
          rw [hfx]
          cases hfl : f.left
          · simp
          · simp only [if_true, Bool.true_eq_false, iff_false]
            rcases ptr_nil_or_mem f.sib with h | h
            · rw [h]; exact hnil x hx2
            · intro e
              rw [← e] at h
              exact (hpt x (by simp [path_ids, h])).2.1 rfl
        apply path_rep_hole m _ f fs x y hp
        · obtain ⟨h1, h2, h3, h4, h5, h6⟩ := hn f.x
          have hfb : ¬ (f.x = b.ptr ∧ b.ptr ≠ NIL) := by
            rintro ⟨e, _⟩
            exact hpb.elim (fun h => hnil _ hf2 h) (fun h => h e)
          rw [if_neg hpx, if_neg hpy, if_neg hfb] at h4
          rw [if_neg hpy] at h5
          rw [if_neg hpx] at h6
          cases hfl : f.left
          · have he : x = (m.nodes f.x).right := by rw [hright, hfl]
            rw [if_pos ⟨rfl, hnil _ hf2, he⟩] at h5
            rw [if_neg (by tauto)] at h6
            simp only [Bool.false_eq_true, if_false]
            exact node_ext h1 h2 h3 h4 h6 h5
          · have hne : ¬ x = (m.nodes f.x).right := by rw [hright, hfl]; simp
            rw [if_neg (by tauto)] at h5
            rw [if_pos ⟨rfl, hnil _ hf2, hne⟩] at h6
            simp only [if_true]
            exact node_ext h1 h2 h3 h4 h6 h5
        · intro z hz
          have hzp : z ∈ path_ids (f :: fs) := by simp [path_ids, hz]
          have := hpt z hzp
          apply hun z this.2.1 this.2.2.2.1 (hzb z this.2.2.1)
          left; rintro rfl; exact hfs hz
        · intro z hz
          have hzp : z ∈ path_ids (f :: fs) := by simp [path_ids, hz]
          have := hpt z hzp
          apply hun z this.2.1 this.2.2.2.1 (hzb z this.2.2.1)
          left; rintro rfl; exact hfp hz
    · -- the rotated subtree
      have hzp : ∀ z, z ∈ a.ids ∨ z ∈ b.ids ∨ z ∈ c.ids →
          z ≠ path_ptr path ∨ path_ptr path = NIL := by
        intro z hz
        rcases path_ptr_nil_or_mem path with h | h
        · exact Or.inr h.2
        · left
          rintro rfl
          have := hpt _ h
          tauto
      refine ⟨?_, ?_, ⟨?_, ?_, ?_⟩⟩
      · obtain ⟨h1, h2, h3, h4, h5, h6⟩ := hn y
        rw [if_neg hxy.symm, if_pos rfl] at h4
        rw [if_pos rfl] at h5
        rw [if_neg hxy.symm, if_neg (fun h => hpy h.1.symm)] at h6
        rw [hy] at h1 h2 h3 h6
        exact node_ext h1 h2 h3 h4 h6 h5
      · apply tree_rep_congr m _ _ _ _ ha
        intro z hz
        have hza := hdab z hz
        exact hun z hza.1 hza.2.1 (hzb z hza.2.2) (hzp z (Or.inl hz))
      · obtain ⟨h1, h2, h3, h4, h5, h6⟩ := hn x
        rw [if_pos rfl] at h4
        rw [if_neg hxy, if_neg (fun h => hpx h.1.symm)] at h5
        rw [if_pos rfl] at h6
        rw [hx] at h1 h2 h3 h5
        exact node_ext h1 h2 h3 h4 h6 h5
      · apply tree_rep_reparent m _ b y x hb
        · intro hbn
          have hb2 : b.ptr ∈ b.ids := ptr_mem_ids b hbn
          obtain ⟨h1, h2, h3, h4, h5, h6⟩ := hn b.ptr
          rw [if_neg hbx, if_neg hby, if_pos ⟨rfl, hnil _ (hmem _ (by tauto))⟩] at h4
          rw [if_neg hby, if_neg (fun h => (hzp _ (Or.inr (Or.inl hb2))).elim
            (fun h1 => h1 h.1) (fun h1 => h.2.1 h1))] at h5
          rw [if_neg hbx, if_neg (fun h => (hzp _ (Or.inr (Or.inl hb2))).elim
            (fun h1 => h1 h.1) (fun h1 => h.2.1 h1))] at h6
          exact node_ext h1 h2 h3 h4 h6 h5
        · intro z hz hzb1
          exact hun z (hdb z hz).1 (hdb z hz).2.1 (Or.inl hzb1) (hzp z (Or.inr (Or.inl hz)))
        · exact hndb
      · apply tree_rep_congr m _ _ _ _ hc
        intro z hz
        exact hun z (hdc z hz).1 (hdc z hz).2.1 (hzb z (hdc z hz).2.2) (hzp z (Or.inr (Or.inr hz)))
  · apply hun NIL (hnil x hx2).symm (hnil y hy2).symm
    · rcases ptr_nil_or_mem b with h | h
      · exact Or.inr h
      · left; exact (hnil _ (hmem _ (by tauto))).symm
    · rcases path_ptr_nil_or_mem path with h | h
      · exact Or.inr h.2
      · left; exact (hnil _ (hmem _ (Or.inl h))).symm

theorem ids_zip_congr (path : List rb_frame) (t1 t2 : rbt) (h : t1.ids.Perm t2.ids) :
    (zip path t1).ids.Perm (zip path t2).ids :=
  ((ids_zip_perm path t1).trans (List.Perm.append_left _ h)).trans (ids_zip_perm path t2).symm

theorem heap_ok_perm {m : rb_mem} {T T1 : rbt} (h : heap_ok m T) (hp : T1.ids.Perm T.ids)
    (hr : tree_rep m T1 NIL) : heap_ok m T1 :=
  ⟨hr, (List.Perm.nodup_iff hp).2 h.2.1, fun z hz => h.2.2 z (hp.mem_iff.1 hz)⟩

/-- The record of a node of the tree. -/
theorem heap_node {m : rb_mem} {path : List rb_frame} {l r : rbt} {x : Nat} {c : rb_color}
    {k v : Nat} (h : heap_ok m (zip path (.node l x c k v r))) :
    m.nodes x = { key := k, value := v, color := c, parent := path_ptr path, left := l.ptr,
                  right := r.ptr } :=
  ((rep_zip m path _).1 h.1).2.1

theorem heap_sub_ge {m : rb_mem} {path : List rb_frame} {t : rbt}
    (h : heap_ok m (zip path t)) : ∀ z ∈ t.ids, 2 ≤ z := by
  intro z hz
  exact h.2.2 z ((ids_zip_perm path t).mem_iff.2 (List.mem_append_right _ hz))

theorem heap_node_ge {m : rb_mem} {path : List rb_frame} {l r : rbt} {x : Nat} {c : rb_color}
    {k v : Nat} (h : heap_ok m (zip path (.node l x c k v r))) : 2 ≤ x :=
  heap_sub_ge h x (by simp [rbt.ids])

theorem ne_nil_of_ge {x : Nat} (h : 2 ≤ x) : x ≠ NIL := by
  unfold NIL
  omega

theorem heap_sub_nodup {m : rb_mem} {path : List rb_frame} {t : rbt}
    (h : heap_ok m (zip path t)) : (path_ids path ++ t.ids).Nodup :=
  (List.Perm.nodup_iff (ids_zip_perm path t)).1 h.2.1

theorem heap_sub_all {m : rb_mem} {path : List rb_frame} {t : rbt}
    (h : heap_ok m (zip path t)) : ∀ z ∈ path_ids path ++ t.ids, 2 ≤ z :=
  fun z hz => h.2.2 z ((ids_zip_perm path t).mem_iff.2 hz)

/-- The tree after recolouring the node at the focus. -/
theorem recolor_at (path : List rb_frame) (l r : rbt) (x : Nat) (c c1 : rb_color) (k v : Nat)
    (h : (path_ids path ++ (rbt.node l x c k v r).ids).Nodup) :
    (zip path (.node l x c k v r)).recolor x c1 = zip path (.node l x c1 k v r) := by
  rw [zip_recolor]
  rw [List.nodup_append] at h
  obtain ⟨_, hn, hd⟩ := h
  have hx : x ∈ (rbt.node l x c k v r).ids := by simp [rbt.ids]
  rw [path_recolor_of_not_mem x c1 path (fun hm => hd hm hx)]
  simp only [rbt.ids, List.nodup_append, List.nodup_cons] at hn
  have hl : x ∉ l.ids := by
    intro hm
    exact hn.2.2 hm (by simp)
  rw [rbt.recolor, recolor_of_not_mem x c1 l hl, recolor_of_not_mem x c1 r hn.2.1.1, if_pos rfl]

/-- The assignment `x->color = c1` on a node of the tree. -/
theorem heap_recolor {m : rb_mem} {path : List rb_frame} {l r : rbt} {x : Nat} {c : rb_color}
    {k v : Nat} (c1 : rb_color) (h : heap_ok m (zip path (.node l x c k v r))) :
    heap_ok (set_color m x c1) (zip path (.node l x c1 k v r)) := by
  have h1 := tree_rep_recolor m x c1 _ _ h.1
  rw [recolor_at path l r x c c1 k v (heap_sub_nodup h)] at h1
  have hp : (zip path (rbt.node l x c1 k v r)).ids.Perm (zip path (.node l x c k v r)).ids :=
    ids_zip_congr path _ _ (by simp [rbt.ids])
  exact ⟨h1, (List.Perm.nodup_iff hp).2 h.2.1, fun z hz => h.2.2 z (hp.mem_iff.1 hz)⟩

theorem set_color_nil (m : rb_mem) (x : Nat) (c : rb_color) (hx : x ≠ NIL) :
    (set_color m x c).nodes NIL = m.nodes NIL := by
  rw [set_color_nodes, if_neg (Ne.symm hx)]

/-- Left rotation of a tree in memory. -/
theorem heap_rotl {m : rb_mem} (tree : rb_tree_t) {path : List rb_frame} {a b c : rbt}
    {x y : Nat} {cx cy : rb_color} {kx vx ky vy : Nat}
    (h : heap_ok m (zip path (.node a x cx kx vx (.node b y cy ky vy c)))) :
    heap_ok (rb_tree_rotl m tree x).1 (zip path (.node (.node a x cx kx vx b) y cy ky vy c))
    ∧ (rb_tree_rotl m tree x).2 = (if path_ptr path = NIL then { tree with root := y } else tree)
    ∧ (rb_tree_rotl m tree x).1.next = m.next
    ∧ (rb_tree_rotl m tree x).1.nodes NIL = m.nodes NIL := by
  obtain ⟨h1, h2, h3, h4⟩ := rotl_spec m tree path a b c x y cx cy kx vx ky vy h.1
    (heap_sub_nodup h) (heap_sub_all h)
  have hp : (zip path (rbt.node (.node a x cx kx vx b) y cy ky vy c)).ids.Perm (zip path (rbt.node a x cx kx vx (.node b y cy ky vy c))).ids := by
    apply ids_zip_congr
    simp [rbt.ids]
  exact ⟨⟨h2, (List.Perm.nodup_iff hp).2 h.2.1, fun z hz => h.2.2 z (hp.mem_iff.1 hz)⟩,
    h1, h3, h4⟩

/-- Right rotation of a tree in memory. -/
theorem heap_rotr {m : rb_mem} (tree : rb_tree_t) {path : List rb_frame} {a b c : rbt}
    {x y : Nat} {cx cy : rb_color} {kx vx ky vy : Nat}
    (h : heap_ok m (zip path (.node (.node a y cy ky vy b) x cx kx vx c))) :
    heap_ok (rb_tree_rotr m tree x).1 (zip path (.node a y cy ky vy (.node b x cx kx vx c)))
    ∧ (rb_tree_rotr m tree x).2 = (if path_ptr path = NIL then { tree with root := y } else tree)
    ∧ (rb_tree_rotr m tree x).1.next = m.next
    ∧ (rb_tree_rotr m tree x).1.nodes NIL = m.nodes NIL := by
  obtain ⟨h1, h2, h3, h4⟩ := rotr_spec m tree path a b c x y cx cy kx vx ky vy h.1
    (heap_sub_nodup h) (heap_sub_all h)
  have hp : (zip path (rbt.node a y cy ky vy (.node b x cx kx vx c))).ids.Perm (zip path (rbt.node (.node a y cy ky vy b) x cx kx vx c)).ids := by
    apply ids_zip_congr
    simp [rbt.ids]
  exact ⟨⟨h2, (List.Perm.nodup_iff hp).2 h.2.1, fun z hz => h.2.2 z (hp.mem_iff.1 hz)⟩,
    h1, h3, h4⟩

/-- The record of the parent of the subtree at the focus. -/
theorem heap_frame {m : rb_mem} {f : rb_frame} {fs : List rb_frame} {t : rbt}
    (h : heap_ok m (zip (f :: fs) t)) :
    m.nodes f.x = { key := f.k, value := f.v, color := f.c, parent := path_ptr fs,
                    left := if f.left then t.ptr else f.sib.ptr,
                    right := if f.left then f.sib.ptr else t.ptr } :=
  ((rep_zip m (f :: fs) t).1 h.1).1.1

theorem heap_frame_ge {m : rb_mem} {f : rb_frame} {fs : List rb_frame} {t : rbt}
    (h : heap_ok m (zip (f :: fs) t)) : 2 ≤ f.x :=
  heap_sub_all h f.x (by simp [path_ids])

/-- The assignment `p->color = c1` on the parent of the subtree at the focus. -/
theorem heap_recolor_frame {m : rb_mem} {f : rb_frame} {fs : List rb_frame} {t : rbt}
    (c1 : rb_color) (h : heap_ok m (zip (f :: fs) t)) :
    heap_ok (set_color m f.x c1) (zip ({ f with c := c1 } :: fs) t) := by
  obtain ⟨l, x, c, k, v, s⟩ := f
  cases l
  · exact @heap_recolor _ fs _ _ _ _ _ _ c1 h
  · exact @heap_recolor _ fs _ _ _ _ _ _ c1 h

/-- The focus moved to the other subtree of the parent. -/
theorem zip_swap (f : rb_frame) (fs : List rb_frame) (t : rbt) :
    zip (f :: fs) t = zip ({ f with left := !f.left, sib := t } :: fs) f.sib := by
  obtain ⟨l, x, c, k, v, s⟩ := f
  cases l <;> rfl

@[simp] theorem ptr_node (l r : rbt) (x : Nat) (c : rb_color) (k v : Nat) :
    (rbt.node l x c k v r).ptr = x := rfl

@[simp] theorem ptr_nil : rbt.nil.ptr = NIL := rfl

@[simp] theorem path_ptr_cons (f : rb_frame) (fs : List rb_frame) : path_ptr (f :: fs) = f.x := rfl

@[simp] theorem path_ptr_nil : path_ptr [] = NIL := rfl

theorem heap_ne_sib {m : rb_mem} {f : rb_frame} {fs : List rb_frame} {l r : rbt} {x : Nat}
    {c : rb_color} {k v : Nat} (h : heap_ok m (zip (f :: fs) (.node l x c k v r))) :
    x ≠ f.sib.ptr := by
  have hn := heap_sub_nodup h
  have hx := heap_node_ge h
  rcases ptr_nil_or_mem f.sib with h1 | h1
  · rw [h1]; exact ne_nil_of_ge hx
  · intro e
    rw [List.nodup_append] at hn
    exact hn.2.2 (show f.sib.ptr ∈ path_ids (f :: fs) by simp [path_ids, h1])
      (show f.sib.ptr ∈ (rbt.node l x c k v r).ids by rw [← e]; simp [rbt.ids])

theorem heap_ne_frame {m : rb_mem} {f : rb_frame} {fs : List rb_frame} {l r : rbt} {x : Nat}
    {c : rb_color} {k v : Nat} (h : heap_ok m (zip (f :: fs) (.node l x c k v r))) :
    x ≠ f.x := by
  have hn := heap_sub_nodup h
  intro e
  rw [List.nodup_append] at hn
  exact hn.2.2 (show f.x ∈ path_ids (f :: fs) by simp [path_ids])
    (show f.x ∈ (rbt.node l x c k v r).ids by rw [← e]; simp [rbt.ids])

/-- The uncle is not a red node. -/
theorem heap_black_sib {m : rb_mem} {f : rb_frame} {fs : List rb_frame} {t : rbt}
    (h : heap_ok m (zip (f :: fs) t)) (hc : f.sib.color ≠ .RB_RED) :
    ¬ (f.sib.ptr ≠ NIL ∧ (m.nodes f.sib.ptr).color = .RB_RED) := by
  rw [zip_swap] at h
  rintro ⟨h1, h2⟩
  cases hs : f.sib with
  | nil => rw [hs] at h1; exact h1 rfl
  | node ul u uc uk uv ur =>
    rw [hs] at h h2 hc
    rw [ptr_node, heap_node h] at h2
    exact hc h2

/-- One iteration of the loop of `rb_tree_insert_fixup`: the parent is a left child and
the uncle is red. -/
theorem ins_step_red_l (m : rb_mem) (tree : rb_tree_t) (rest : List rb_frame) (f1 : rb_frame)
    (l r : rbt) (x : Nat) (c : rb_color) (k v : Nat)
    (g : Nat) (gc : rb_color) (gk gv : Nat) (ul ur : rbt) (u uk uv : Nat)
    (h : heap_ok m (zip (f1 :: ⟨true, g, gc, gk, gv, .node ul u .RB_RED uk uv ur⟩ :: rest)
      (.node l x c k v r))) :
    ∃ m1, insert_fixup_step m tree x = (m1, tree, g)
      ∧ heap_ok m1 (zip rest (.node (rb_frame.plug { f1 with c := .RB_BLACK } (.node l x c k v r))
          g .RB_RED gk gv (.node ul u .RB_BLACK uk uv ur)))
      ∧ m1.next = m.next ∧ m1.nodes NIL = m.nodes NIL := by
  have hx := heap_node h
  have hp := heap_frame h
  have h1 : heap_ok m (zip (⟨true, g, gc, gk, gv, .node ul u .RB_RED uk uv ur⟩ :: rest)
      (f1.plug (.node l x c k v r))) := h
  have hg := heap_frame h1
  have hpn := ne_nil_of_ge (heap_frame_ge h)
  have hgn := ne_nil_of_ge (heap_frame_ge h1)
  have h2 := h1
  rw [zip_swap] at h2
  have hu := heap_node h2
  have hune := ne_nil_of_ge (heap_node_ge h2)
  have a1 := heap_recolor_frame .RB_BLACK h
  have a2 : heap_ok _ (zip (⟨false, g, gc, gk, gv,
      rb_frame.plug { f1 with c := .RB_BLACK } (.node l x c k v r)⟩ :: rest)
      (.node ul u .RB_RED uk uv ur)) := a1
  have a3 := heap_recolor .RB_BLACK a2
  have a4 := heap_recolor_frame .RB_RED a3
  simp only [path_ptr_cons, ptr_node, ptr_plug, if_true] at hx hp hg hu
  simp [insert_fixup_step, hx, hp, hg, hu, hune]
  exact ⟨a4, by simp [set_color_nodes, Ne.symm hpn, Ne.symm hgn, Ne.symm hune]⟩

/-- One iteration of the loop of `rb_tree_insert_fixup`: the parent is a left child, the
uncle is not red, `x` is a left child. -/
theorem ins_step_outer_l (m : rb_mem) (tree : rb_tree_t) (rest : List rb_frame)
    (l r : rbt) (x : Nat) (c : rb_color) (k v : Nat) (s : rbt) (p : Nat) (pc : rb_color)
    (pk pv : Nat) (g : Nat) (gc : rb_color) (gk gv : Nat) (u : rbt) (hu : u.color ≠ .RB_RED)
    (h : heap_ok m (zip (⟨true, p, pc, pk, pv, s⟩ :: ⟨true, g, gc, gk, gv, u⟩ :: rest)
      (.node l x c k v r))) :
    ∃ m1, insert_fixup_step m tree x
        = (m1, (if path_ptr rest = NIL then { tree with root := p } else tree), x)
      ∧ heap_ok m1 (zip (⟨true, p, .RB_BLACK, pk, pv, .node s g .RB_RED gk gv u⟩ :: rest)
          (.node l x c k v r))
      ∧ m1.next = m.next ∧ m1.nodes NIL = m.nodes NIL := by
  have hx := heap_node h
  have hp := heap_frame h
  have h1 : heap_ok m (zip (⟨true, g, gc, gk, gv, u⟩ :: rest)
      (.node (.node l x c k v r) p pc pk pv s)) := h
  have hg := heap_frame h1
  have hpn := ne_nil_of_ge (heap_frame_ge h)
  have hgn := ne_nil_of_ge (heap_frame_ge h1)
  have hxs := heap_ne_sib h
  have hun := heap_black_sib h1 hu
  have a1 := heap_recolor .RB_BLACK h1
  have a2 := heap_recolor_frame .RB_RED a1
  have a3 : heap_ok _ (zip rest (.node (.node (.node l x c k v r) p .RB_BLACK pk pv s)
      g .RB_RED gk gv u)) := a2
  obtain ⟨a4, a5, a6, a7⟩ := heap_rotr tree a3
  simp only [path_ptr_cons, ptr_node, ptr_plug, if_true] at hx hp hg hun
  simp [insert_fixup_step, hx, hp, hg, hun, hxs]
  refine ⟨_, ⟨rfl, a5⟩, a4, a6, ?_⟩
  rw [a7]
  simp [set_color_nodes, Ne.symm hpn, Ne.symm hgn]

/-- One iteration of the loop of `rb_tree_insert_fixup`: the parent is a left child, the
uncle is not red, `x` is a right child. -/
theorem ins_step_inner_l (m : rb_mem) (tree : rb_tree_t) (rest : List rb_frame)
    (l r : rbt) (x : Nat) (c : rb_color) (k v : Nat) (s : rbt) (p : Nat) (pc : rb_color)
    (pk pv : Nat) (g : Nat) (gc : rb_color) (gk gv : Nat) (u : rbt) (hu : u.color ≠ .RB_RED)
    (h : heap_ok m (zip (⟨false, p, pc, pk, pv, s⟩ :: ⟨true, g, gc, gk, gv, u⟩ :: rest)
      (.node l x c k v r))) :
    ∃ m1, insert_fixup_step m tree x
        = (m1, (if path_ptr rest = NIL then { tree with root := x } else tree), p)
      ∧ heap_ok m1 (zip (⟨true, x, .RB_BLACK, k, v, .node r g .RB_RED gk gv u⟩ :: rest)
          (.node s p pc pk pv l))
      ∧ m1.next = m.next ∧ m1.nodes NIL = m.nodes NIL := by
  have hx := heap_node h
  have hp := heap_frame h
  have h1 : heap_ok m (zip (⟨true, g, gc, gk, gv, u⟩ :: rest)
      (.node s p pc pk pv (.node l x c k v r))) := h
  have hg := heap_frame h1
  have hxn := ne_nil_of_ge (heap_node_ge h)
  have hpn := ne_nil_of_ge (heap_frame_ge h)
  have hgn := ne_nil_of_ge (heap_frame_ge h1)
  have hun := heap_black_sib h1 hu
  obtain ⟨b1, b2, b3, b4⟩ := heap_rotl tree h1
  have b5 : heap_ok _ (zip (⟨true, x, c, k, v, r⟩ :: ⟨true, g, gc, gk, gv, u⟩ :: rest)
      (.node s p pc pk pv l)) := b1
  have hp1 := heap_node b5
  have hx1 := heap_frame b5
  have a1 := heap_recolor .RB_BLACK b1
  have a2 := heap_recolor_frame .RB_RED a1
  have a3 : heap_ok _ (zip rest (.node (.node (.node s p pc pk pv l) x .RB_BLACK k v r)
      g .RB_RED gk gv u)) := a2
  obtain ⟨a4, a5, a6, a7⟩ := heap_rotr tree a3
  simp only [path_ptr_cons, ptr_node, ptr_plug, if_true] at hx hp hg hun hp1 hx1 b2
  rw [if_neg hgn] at b2
  simp [insert_fixup_step, hx, hp, hg, hun, hp1, hx1, b2]
  refine ⟨_, ⟨rfl, a5⟩, a4, a6.trans b3, ?_⟩
  rw [a7]
  simp [set_color_nodes, Ne.symm hxn, Ne.symm hgn, b4]

theorem heap_frame_ne_sib {m : rb_mem} {f1 f2 : rb_frame} {fs : List rb_frame} {t : rbt}
    (h : heap_ok m (zip (f1 :: f2 :: fs) t)) : f1.x ≠ f2.sib.ptr := by
  obtain ⟨l, x, c, k, v, s⟩ := f1
  cases l
  · exact @heap_ne_sib _ f2 fs _ _ _ _ _ _ h
  · exact @heap_ne_sib _ f2 fs _ _ _ _ _ _ h

/-- One iteration of the loop of `rb_tree_insert_fixup`: the parent is a right child and
the uncle is red. -/
theorem ins_step_red_r (m : rb_mem) (tree : rb_tree_t) (rest : List rb_frame) (f1 : rb_frame)
    (l r : rbt) (x : Nat) (c : rb_color) (k v : Nat)
    (g : Nat) (gc : rb_color) (gk gv : Nat) (ul ur : rbt) (u uk uv : Nat)
    (h : heap_ok m (zip (f1 :: ⟨false, g, gc, gk, gv, .node ul u .RB_RED uk uv ur⟩ :: rest)
      (.node l x c k v r))) :
    ∃ m1, insert_fixup_step m tree x = (m1, tree, g)
      ∧ heap_ok m1 (zip rest (.node (.node ul u .RB_BLACK uk uv ur) g .RB_RED gk gv
          (rb_frame.plug { f1 with c := .RB_BLACK } (.node l x c k v r))))
      ∧ m1.next = m.next ∧ m1.nodes NIL = m.nodes NIL := by
  have hx := heap_node h
  have hp := heap_frame h
  have h1 : heap_ok m (zip (⟨false, g, gc, gk, gv, .node ul u .RB_RED uk uv ur⟩ :: rest)
      (f1.plug (.node l x c k v r))) := h
  have hg := heap_frame h1
  have hpn := ne_nil_of_ge (heap_frame_ge h)
  have hgn := ne_nil_of_ge (heap_frame_ge h1)
  have hpu := heap_frame_ne_sib h
  have h2 := h1
  rw [zip_swap] at h2
  have hu := heap_node h2
  have hune := ne_nil_of_ge (heap_node_ge h2)
  have a1 := heap_recolor_frame .RB_BLACK h
  have a2 : heap_ok _ (zip (⟨true, g, gc, gk, gv,
      rb_frame.plug { f1 with c := .RB_BLACK } (.node l x c k v r)⟩ :: rest)
      (.node ul u .RB_RED uk uv ur)) := a1
  have a3 := heap_recolor .RB_BLACK a2
  have a4 := heap_recolor_frame .RB_RED a3
  simp only [path_ptr_cons, ptr_node, ptr_plug, if_true, Bool.false_eq_true, if_false]
    at hx hp hg hu hpu
  simp [insert_fixup_step, hx, hp, hg, hu, hune, hpu]
  exact ⟨a4, by simp [set_color_nodes, Ne.symm hpn, Ne.symm hgn, Ne.symm hune]⟩

/-- One iteration of the loop of `rb_tree_insert_fixup`: the parent is a right child, the
uncle is not red, `x` is a right child. -/
theorem ins_step_outer_r (m : rb_mem) (tree : rb_tree_t) (rest : List rb_frame)
    (l r : rbt) (x : Nat) (c : rb_color) (k v : Nat) (s : rbt) (p : Nat) (pc : rb_color)
    (pk pv : Nat) (g : Nat) (gc : rb_color) (gk gv : Nat) (u : rbt) (hu : u.color ≠ .RB_RED)
    (h : heap_ok m (zip (⟨false, p, pc, pk, pv, s⟩ :: ⟨false, g, gc, gk, gv, u⟩ :: rest)
      (.node l x c k v r))) :
    ∃ m1, insert_fixup_step m tree x
        = (m1, (if path_ptr rest = NIL then { tree with root := p } else tree), x)
      ∧ heap_ok m1 (zip (⟨false, p, .RB_BLACK, pk, pv, .node u g .RB_RED gk gv s⟩ :: rest)
          (.node l x c k v r))
      ∧ m1.next = m.next ∧ m1.nodes NIL = m.nodes NIL := by
  have hx := heap_node h
  have hp := heap_frame h
  have h1 : heap_ok m (zip (⟨false, g, gc, gk, gv, u⟩ :: rest)
      (.node s p pc pk pv (.node l x c k v r))) := h
  have hg := heap_frame h1
  have hpn := ne_nil_of_ge (heap_frame_ge h)
  have hgn := ne_nil_of_ge (heap_frame_ge h1)
  have hxs := heap_ne_sib h
  have hpu := heap_frame_ne_sib h
  have hun := heap_black_sib h1 hu
  have a1 := heap_recolor .RB_BLACK h1
  have a2 := heap_recolor_frame .RB_RED a1
  have a3 : heap_ok _ (zip rest (.node u g .RB_RED gk gv
      (.node s p .RB_BLACK pk pv (.node l x c k v r)))) := a2
  obtain ⟨a4, a5, a6, a7⟩ := heap_rotl tree a3
  simp only [path_ptr_cons, ptr_node, ptr_plug, if_true, Bool.false_eq_true, if_false]
    at hx hp hg hun hpu hxs
  simp [insert_fixup_step, hx, hp, hg, hun, hxs, hpu]
  refine ⟨_, ⟨rfl, a5⟩, a4, a6, ?_⟩
  rw [a7]
  simp [set_color_nodes, Ne.symm hpn, Ne.symm hgn]

/-- One iteration of the loop of `rb_tree_insert_fixup`: the parent is a right child, the
uncle is not red, `x` is a left child. -/
theorem ins_step_inner_r (m : rb_mem) (tree : rb_tree_t) (rest : List rb_frame)
    (l r : rbt) (x : Nat) (c : rb_color) (k v : Nat) (s : rbt) (p : Nat) (pc : rb_color)
    (pk pv : Nat) (g : Nat) (gc : rb_color) (gk gv : Nat) (u : rbt) (hu : u.color ≠ .RB_RED)
    (h : heap_ok m (zip (⟨true, p, pc, pk, pv, s⟩ :: ⟨false, g, gc, gk, gv, u⟩ :: rest)
      (.node l x c k v r))) :
    ∃ m1, insert_fixup_step m tree x
        = (m1, (if path_ptr rest = NIL then { tree with root := x } else tree), p)
      ∧ heap_ok m1 (zip (⟨false, x, .RB_BLACK, k, v, .node u g .RB_RED gk gv l⟩ :: rest)
          (.node r p pc pk pv s))
      ∧ m1.next = m.next ∧ m1.nodes NIL = m.nodes NIL := by
  have hx := heap_node h
  have hp := heap_frame h
  have h1 : heap_ok m (zip (⟨false, g, gc, gk, gv, u⟩ :: rest)
      (.node (.node l x c k v r) p pc pk pv s)) := h
  have hg := heap_frame h1
  have hxn := ne_nil_of_ge (heap_node_ge h)
  have hpn := ne_nil_of_ge (heap_frame_ge h)
  have hgn := ne_nil_of_ge (heap_frame_ge h1)
  have hpu := heap_frame_ne_sib h
  have hun := heap_black_sib h1 hu
  obtain ⟨b1, b2, b3, b4⟩ := heap_rotr tree h1
  have b5 : heap_ok _ (zip (⟨false, x, c, k, v, l⟩ :: ⟨false, g, gc, gk, gv, u⟩ :: rest)
      (.node r p pc pk pv s)) := b1
  have hp1 := heap_node b5
  have hx1 := heap_frame b5
  have a1 := heap_recolor .RB_BLACK b1
  have a2 := heap_recolor_frame .RB_RED a1
  have a3 : heap_ok _ (zip rest (.node u g .RB_RED gk gv
      (.node l x .RB_BLACK k v (.node r p pc pk pv s)))) := a2
  obtain ⟨a4, a5, a6, a7⟩ := heap_rotl tree a3
  simp only [path_ptr_cons, ptr_node, ptr_plug, if_true, Bool.false_eq_true, if_false]
    at hx hp hg hun hp1 hx1 b2 hpu
  rw [if_neg hgn] at b2
  simp [insert_fixup_step, hx, hp, hg, hun, hp1, hx1, b2, hpu]
  refine ⟨_, ⟨rfl, a5⟩, a4, a6.trans b3, ?_⟩
  rw [a7]
  simp [set_color_nodes, Ne.symm hxn, Ne.symm hgn, b4]

theorem zip_ptr_congr (path : List rb_frame) (t t1 : rbt) (h : t.ptr = t1.ptr) :
    (zip path t).ptr = (zip path t1).ptr := by
  cases path with
  | nil => exact h
  | cons f fs => exact zip_ptr_cons f fs t t1

theorem zip_ptr_mem (f : rb_frame) (fs : List rb_frame) (t : rbt) :
    (zip (f :: fs) t).ptr ∈ path_ids (f :: fs) := by
  induction fs generalizing f t with
  | nil => simp [zip, path_ids]
  | cons g gs ih =>
    rw [zip_cons]
    have := ih g (f.plug t)
    simp only [path_ids, List.mem_cons, List.mem_append] at this ⊢
    tauto

theorem tree_root_eta (tree : rb_tree_t) (r : Nat) (h : tree.root = r) :
    { tree with root := r } = tree := by
  cases tree
  simp_all

theorem root_update (tree : rb_tree_t) (path : List rb_frame) (t0 t1 : rbt) (r : Nat)
    (hroot : tree.root = (zip path t0).ptr) (hge : ∀ z ∈ path_ids path, 2 ≤ z)
    (hr : t1.ptr = r) :
    (if path_ptr path = NIL then { tree with root := r } else tree)
      = { tree with root := (zip path t1).ptr } := by
  subst hr
  cases path with
  | nil => rw [path_ptr_nil, if_pos rfl, zip_nil]
  | cons f fs =>
    have hf : f.x ≠ NIL := ne_nil_of_ge (hge f.x (by simp [path_ids]))
    rw [path_ptr_cons, if_neg hf, zip_ptr_cons f fs t1 t0, ← hroot]

theorem heap_root_ne {m : rb_mem} {f : rb_frame} {fs : List rb_frame} {l r : rbt} {x : Nat}
    {c : rb_color} {k v : Nat} (h : heap_ok m (zip (f :: fs) (.node l x c k v r))) :
    x ≠ (zip (f :: fs) (.node l x c k v r)).ptr := by
  have hn := heap_sub_nodup h
  intro e
  rw [List.nodup_append] at hn
  exact hn.2.2 (zip_ptr_mem f fs (.node l x c k v r))
    (show _ ∈ (rbt.node l x c k v r).ids by rw [← e]; simp [rbt.ids])

theorem ins_loop_exit_root (m : rb_mem) (tree : rb_tree_t) (x : Nat) (fuel : Nat)
    (h : tree.root = x) : insert_fixup_loop (fuel + 1) m tree x = some (m, tree) := by
  simp [insert_fixup_loop, h]

theorem ins_loop_exit_black {m : rb_mem} (tree : rb_tree_t) {f : rb_frame}
    {fs : List rb_frame} {l r : rbt} {x : Nat} {c : rb_color} {k v : Nat} (fuel : Nat)
    (h : heap_ok m (zip (f :: fs) (.node l x c k v r))) (hc : f.c ≠ .RB_RED) :
    insert_fixup_loop (fuel + 1) m tree x = some (m, tree) := by
  have hx := heap_node h
  have hp := heap_frame h
  simp only [path_ptr_cons] at hx
  simp [insert_fixup_loop, hx, hp, hc]

theorem ins_loop_step {m : rb_mem} (tree : rb_tree_t) {f : rb_frame}
    {fs : List rb_frame} {l r : rbt} {x : Nat} {c : rb_color} {k v : Nat} (fuel : Nat)
    (h : heap_ok m (zip (f :: fs) (.node l x c k v r)))
    (hroot : tree.root = (zip (f :: fs) (.node l x c k v r)).ptr) (hc : f.c = .RB_RED) :
    insert_fixup_loop (fuel + 1) m tree x
      = insert_fixup_loop fuel (insert_fixup_step m tree x).1 (insert_fixup_step m tree x).2.1
          (insert_fixup_step m tree x).2.2 := by
  have hx := heap_node h
  have hp := heap_frame h
  have hne := heap_root_ne h
  rw [← hroot] at hne
  simp only [path_ptr_cons] at hx
  simp [insert_fixup_loop, hx, hp, hc, hne]

/-- The loop of `rb_tree_insert_fixup` computes `ins_fix`. -/
theorem insert_fixup_loop_sim : ∀ (n : Nat) (path : List rb_frame), path.length ≤ n →
    ∀ (l r : rbt) (x : Nat) (c : rb_color) (k v : Nat) (m : rb_mem) (tree : rb_tree_t)
      (T : rbt) (fuel : Nat),
    heap_ok m (zip path (.node l x c k v r)) →
    tree.root = (zip path (.node l x c k v r)).ptr →
    ins_fix path (.node l x c k v r) = some T →
    path.length < fuel →
    ∃ m1, insert_fixup_loop fuel m tree x = some (m1, { tree with root := T.ptr })
      ∧ heap_ok m1 T ∧ m1.next = m.next ∧ m1.nodes NIL = m.nodes NIL := by
  intro n
  induction n with
  | zero =>
    intro path hlen l r x c k v m tree T fuel h hroot hfix hfuel
    have : path = [] := List.length_eq_zero.1 (Nat.le_zero.1 hlen)
    subst this
    obtain ⟨fuel, rfl⟩ : ∃ f, fuel = f + 1 := ⟨fuel - 1, by simp at hfuel; omega⟩
    simp only [ins_fix, Option.some.injEq] at hfix
    subst hfix
    refine ⟨m, ?_, h, rfl, rfl⟩
    rw [ins_loop_exit_root m tree x fuel hroot]
    exact congrArg (fun t => some (m, t)) (tree_root_eta tree _ hroot).symm
  | succ n ih =>
    intro path hlen l r x c k v m tree T fuel h hroot hfix hfuel
    obtain ⟨fuel, rfl⟩ : ∃ f, fuel = f + 1 := ⟨fuel - 1, by omega⟩
    cases path with
    | nil =>
      simp only [ins_fix, Option.some.injEq] at hfix
      subst hfix
      refine ⟨m, ?_, h, rfl, rfl⟩
      rw [ins_loop_exit_root m tree x fuel hroot]
      exact congrArg (fun t => some (m, t)) (tree_root_eta tree _ hroot).symm
    | cons f1 rest1 =>
      cases rest1 with
      | nil =>
        simp only [ins_fix] at hfix
        split at hfix
        · exact absurd hfix (by simp)
        · rename_i hc
          simp only [Option.some.injEq] at hfix
          subst hfix
          refine ⟨m, ?_, h, rfl, rfl⟩
          rw [ins_loop_exit_black tree fuel h hc]
          exact congrArg (fun t => some (m, t)) (tree_root_eta tree _ hroot).symm
      | cons f2 rest =>
        by_cases hc : f1.c = .RB_RED
        · rw [ins_loop_step tree fuel h hroot hc]
          simp only [ins_fix, if_pos hc] at hfix
          obtain ⟨fuel, rfl⟩ : ∃ f, fuel = f + 1 := ⟨fuel - 1, by simp at hfuel; omega⟩
          have hlen1 : rest.length ≤ n := by simp at hlen; omega
          have hfuel1 : rest.length < fuel + 1 := by simp at hfuel; omega
          obtain ⟨l2, g, gc, gk, gv, u⟩ := f2
          by_cases hu : u.color = .RB_RED
          · simp only [if_pos hu] at hfix
            cases u with
            | nil => exact absurd hu (by simp [rbt.color])
            | node ul u uc uk uv ur =>
              simp only [rbt.color] at hu
              subst hu
              cases l2
              · obtain ⟨m1, hs, h1, hn1, hz1⟩ :=
                  ins_step_red_r m tree rest f1 l r x c k v g gc gk gv ul ur u uk uv h
                rw [hs]
                obtain ⟨m2, hl2, h2, hn2, hz2⟩ := ih rest hlen1 _ _ _ _ _ _ m1 tree T (fuel + 1)
                  h1 (hroot.trans (zip_ptr_congr rest _ _ rfl)) hfix hfuel1
                exact ⟨m2, hl2, h2, hn2.trans hn1, hz2.trans hz1⟩
              · obtain ⟨m1, hs, h1, hn1, hz1⟩ :=
                  ins_step_red_l m tree rest f1 l r x c k v g gc gk gv ul ur u uk uv h
                rw [hs]
                obtain ⟨m2, hl2, h2, hn2, hz2⟩ := ih rest hlen1 _ _ _ _ _ _ m1 tree T (fuel + 1)
                  h1 (hroot.trans (zip_ptr_congr rest _ _ rfl)) hfix hfuel1
                exact ⟨m2, hl2, h2, hn2.trans hn1, hz2.trans hz1⟩
          · simp only [if_neg hu] at hfix
            obtain ⟨l1, p, pc, pk, pv, s⟩ := f1
            have hge : ∀ z ∈ path_ids rest, 2 ≤ z := by
              intro z hz
              apply heap_sub_all h
              simp [path_ids, hz]
            cases l2 <;> cases l1 <;>
              simp only [Bool.false_eq_true, if_false, if_true, Option.some.injEq] at hfix <;>
              subst hfix
            · obtain ⟨m1, hs, h1, hn1, hz1⟩ :=
                ins_step_outer_r m tree rest l r x c k v s p pc pk pv g gc gk gv u hu h
              rw [hs]
              refine ⟨m1, ?_, h1, hn1, hz1⟩
              rw [ins_loop_exit_black _ fuel h1 (by simp)]
              exact congrArg (fun t => some (m1, t)) (root_update tree rest _ _ _ hroot hge rfl)
            · obtain ⟨m1, hs, h1, hn1, hz1⟩ :=
                ins_step_inner_r m tree rest l r x c k v s p pc pk pv g gc gk gv u hu h
              rw [hs]
              refine ⟨m1, ?_, h1, hn1, hz1⟩
              rw [ins_loop_exit_black _ fuel h1 (by simp)]
              exact congrArg (fun t => some (m1, t)) (root_update tree rest _ _ _ hroot hge rfl)
            · obtain ⟨m1, hs, h1, hn1, hz1⟩ :=
                ins_step_inner_l m tree rest l r x c k v s p pc pk pv g gc gk gv u hu h
              rw [hs]
              refine ⟨m1, ?_, h1, hn1, hz1⟩
              rw [ins_loop_exit_black _ fuel h1 (by simp)]
              exact congrArg (fun t => some (m1, t)) (root_update tree rest _ _ _ hroot hge rfl)
            · obtain ⟨m1, hs, h1, hn1, hz1⟩ :=
                ins_step_outer_l m tree rest l r x c k v s p pc pk pv g gc gk gv u hu h
              rw [hs]
              refine ⟨m1, ?_, h1, hn1, hz1⟩
              rw [ins_loop_exit_black _ fuel h1 (by simp)]
              exact congrArg (fun t => some (m1, t)) (root_update tree rest _ _ _ hroot hge rfl)
        · simp only [ins_fix, if_neg hc, Option.some.injEq] at hfix
          subst hfix
          refine ⟨m, ?_, h, rfl, rfl⟩
          rw [ins_loop_exit_black tree fuel h hc]
          exact congrArg (fun t => some (m, t)) (tree_root_eta tree _ hroot).symm

/-! ## Red-black tree: the colour invariants -/

@[simp] theorem blacken_items (t : rbt) : t.blacken.items = t.items := by
  cases t <;> rfl

@[simp] theorem blacken_ptr (t : rbt) : t.blacken.ptr = t.ptr := by
  cases t <;> rfl

theorem blacken_ok {t : rbt} (h : t.rb_ok) : t.blacken.rb_ok := by
  cases t with
  | nil => trivial
  | node l x c k v r =>
    obtain ⟨h1, h2, h3, _⟩ := h
    exact ⟨h1, h2, h3, fun hc => by cases hc⟩

theorem blacken_color (t : rbt) : t.blacken.color = .RB_BLACK := by
  cases t <;> rfl

theorem blacken_bh_red {t : rbt} (h : t.color = .RB_RED) : t.blacken.bh = t.bh + 1 := by
  cases t with
  | nil => cases h
  | node l x c k v r =>
    simp only [rbt.color] at h
    subst h
    simp [rbt.blacken, rbt.bh]

theorem color_cases (c : rb_color) : c = .RB_BLACK ∨ c = .RB_RED := by
  cases c <;> simp

theorem not_red_iff {c : rb_color} : c ≠ .RB_RED ↔ c = .RB_BLACK := by
  cases c <;> simp

theorem plug_ok {f : rb_frame} {t : rbt} {c : rb_color} (ht : t.rb_ok) (hs : f.sib.rb_ok)
    (hb : f.sib.bh = t.bh) (hc : t.color = c)
    (hr : f.c = .RB_RED → c = .RB_BLACK ∧ f.sib.color = .RB_BLACK) :
    (f.plug t).rb_ok ∧ (f.plug t).bh = t.bh + (if f.c = .RB_BLACK then 1 else 0)
      ∧ (f.plug t).color = f.c := by
  obtain ⟨l, x, fc, k, v, s⟩ := f
  subst hc
  cases l
  · simp only [rb_frame.plug, rbt.rb_ok, rbt.bh, rbt.color, Bool.false_eq_true, if_false]
    simp only at hb hs hr
    exact ⟨⟨hs, ht, hb, fun h => ⟨(hr h).2, (hr h).1⟩⟩, by rw [hb], trivial⟩
  · simp only [rb_frame.plug, rbt.rb_ok, rbt.bh, rbt.color, if_true]
    simp only at hb hs hr
    exact ⟨⟨ht, hs, hb.symm, fun h => hr h⟩, trivial, trivial⟩

theorem plug_ok_inv {f : rb_frame} {t : rbt} (h : (f.plug t).rb_ok) :
    t.rb_ok ∧ f.sib.rb_ok ∧ f.sib.bh = t.bh
      ∧ (f.c = .RB_RED → t.color = .RB_BLACK ∧ f.sib.color = .RB_BLACK)
      ∧ (f.plug t).bh = t.bh + (if f.c = .RB_BLACK then 1 else 0)
      ∧ (f.plug t).color = f.c := by
  obtain ⟨l, x, fc, k, v, s⟩ := f
  cases l
  · simp only [rb_frame.plug, rbt.rb_ok, rbt.bh, rbt.color, Bool.false_eq_true, if_false] at h ⊢
    obtain ⟨h1, h2, h3, h4⟩ := h
    exact ⟨h2, h1, h3, fun hc => ⟨(h4 hc).2, (h4 hc).1⟩, by rw [h3], trivial⟩
  · simp only [rb_frame.plug, rbt.rb_ok, rbt.bh, rbt.color, if_true] at h ⊢
    obtain ⟨h1, h2, h3, h4⟩ := h
    exact ⟨h1, h2, h3.symm, h4, trivial, trivial⟩

/-- A subtree that fits the path gives a red-black tree. -/
theorem zip_ok : ∀ (path : List rb_frame) (t : rbt) (n : Nat) (c : rb_color),
    path_ok path n c → t.rb_ok → t.bh = n → t.color = c → (zip path t).rb_ok := by
  intro path
  induction path with
  | nil => intro t n c _ ht _ _; exact ht
  | cons f fs ih =>
    intro t n c hp ht hb hc
    obtain ⟨h1, h2, h3, h4⟩ := hp
    obtain ⟨a1, a2, a3⟩ := plug_ok ht h1 (h2.trans hb.symm) hc h3
    rw [zip_cons]
    exact ih _ _ _ h4 a1 (by rw [a2, hb]) a3

/-- The path around a subtree of a red-black tree. -/
theorem path_ok_of_zip : ∀ (path : List rb_frame) (t : rbt),
    (zip path t).rb_ok → t.rb_ok ∧ path_ok path t.bh t.color := by
  intro path
  induction path with
  | nil => intro t h; exact ⟨h, trivial⟩
  | cons f fs ih =>
    intro t h
    rw [zip_cons] at h
    obtain ⟨h1, h2⟩ := ih _ h
    obtain ⟨a1, a2, a3, a4, a5, a6⟩ := plug_ok_inv h1
    rw [a5, a6] at h2
    exact ⟨a1, a2, a3, a4, h2⟩

theorem zip_color_cons (f : rb_frame) (fs : List rb_frame) (t t1 : rbt) :
    (zip (f :: fs) t).color = (zip (f :: fs) t1).color := by
  induction fs generalizing f t t1 with
  | nil => obtain ⟨l, x, c, k, v, s⟩ := f; cases l <;> rfl
  | cons g gs ih =>
    rw [zip_cons, zip_cons f]
    exact ih g _ _

theorem root_black_of_zip : ∀ (path : List rb_frame) (t : rbt),
    (path ≠ [] → (zip path t).color = .RB_BLACK) → path_root_black path := by
  intro path
  induction path with
  | nil => intro _ _; trivial
  | cons f fs ih =>
    intro t h
    cases fs with
    | nil =>
      have := h (by simp)
      obtain ⟨l, x, c, k, v, s⟩ := f
      cases l <;> exact this
    | cons g gs =>
      have := ih (f.plug t) (fun _ => h (by simp))
      exact this

theorem root_black_tail {f : rb_frame} {fs : List rb_frame} (h : path_root_black (f :: fs)) :
    path_root_black fs := by
  cases fs with
  | nil => trivial
  | cons g gs => exact h

theorem path_ok_black {path : List rb_frame} {n : Nat} {c : rb_color}
    (h : path_ok path n c) : path_ok path n .RB_BLACK := by
  cases path with
  | nil => trivial
  | cons f fs =>
    obtain ⟨h1, h2, h3, h4⟩ := h
    exact ⟨h1, h2, fun hc => ⟨rfl, (h3 hc).2⟩, h4⟩

theorem path_ok_any {f : rb_frame} {fs : List rb_frame} {n : Nat}
    (h : path_ok (f :: fs) n .RB_BLACK) (hf : f.c = .RB_BLACK) (c1 : rb_color) :
    path_ok (f :: fs) n c1 := by
  obtain ⟨h1, h2, h3, h4⟩ := h
  refine ⟨h1, h2, ?_, h4⟩
  intro hc
  rw [hf] at hc
  cases hc

theorem items_zip_congr (path : List rb_frame) (t1 t2 : rbt) (h : t1.items = t2.items) :
    (zip path t1).items = (zip path t2).items := by
  rw [items_zip, items_zip, h]

/-- The loop of `rb_tree_insert_fixup` keeps the nodes in order. -/
theorem ins_fix_items : ∀ (n : Nat) (path : List rb_frame), path.length ≤ n →
    ∀ (t T : rbt), ins_fix path t = some T → T.items = (zip path t).items := by
  intro n
  induction n using Nat.strong_induction_on with
  | _ n ih =>
    intro path hlen t T hfix
    cases path with
    | nil =>
      simp only [ins_fix, Option.some.injEq] at hfix
      subst hfix
      rfl
    | cons f1 rest1 =>
      cases rest1 with
      | nil =>
        simp only [ins_fix] at hfix
        split at hfix
        · exact absurd hfix (by simp)
        · simp only [Option.some.injEq] at hfix
          subst hfix
          rfl
      | cons f2 rest =>
        simp only [ins_fix] at hfix
        obtain ⟨l1, p, pc, pk, pv, s⟩ := f1
        obtain ⟨l2, g, gc, gk, gv, u⟩ := f2
        simp only at hfix
        split at hfix
        · split at hfix
          · have hl : rest.length < n := by simp at hlen; omega
            rw [ih rest.length hl rest (le_refl _) _ _ hfix, zip_cons, zip_cons]
            apply items_zip_congr
            cases l1 <;> cases l2 <;> simp [rb_frame.plug, rbt.items]
          · cases l2 <;> cases l1 <;>
              simp only [Bool.false_eq_true, if_false, if_true] at hfix
            · simp only [Option.some.injEq] at hfix
              subst hfix
              rw [zip_cons, zip_cons]
              apply items_zip_congr
              simp [rb_frame.plug, rbt.items]
            · cases t with
              | nil => exact absurd hfix (by simp)
              | node tl x xc k v tr =>
                simp only [Option.some.injEq] at hfix
                subst hfix
                rw [zip_cons, zip_cons]
                apply items_zip_congr
                simp [rb_frame.plug, rbt.items]
            · cases t with
              | nil => exact absurd hfix (by simp)
              | node tl x xc k v tr =>
                simp only [Option.some.injEq] at hfix
                subst hfix
                rw [zip_cons, zip_cons]
                apply items_zip_congr
                simp [rb_frame.plug, rbt.items]
            · simp only [Option.some.injEq] at hfix
              subst hfix
              rw [zip_cons, zip_cons]
              apply items_zip_congr
              simp [rb_frame.plug, rbt.items]
        · simp only [Option.some.injEq] at hfix
          subst hfix
          rfl

@[simp] theorem color_node (l r : rbt) (x : Nat) (c : rb_color) (k v : Nat) :
    (rbt.node l x c k v r).color = c := rfl

@[simp] theorem color_nil : rbt.nil.color = .RB_BLACK := rfl

theorem plug_ne_nil (f : rb_frame) (t : rbt) : f.plug t ≠ .nil := by
  obtain ⟨l, x, c, k, v, s⟩ := f
  cases l <;> simp [rb_frame.plug]

theorem zip_ne_nil : ∀ (path : List rb_frame) (t : rbt), t ≠ .nil → zip path t ≠ .nil := by
  intro path
  induction path with
  | nil => intro t h; exact h
  | cons f fs ih => intro t _; exact ih _ (plug_ne_nil f t)

theorem red_node {t : rbt} (h : t.color = .RB_RED) :
    ∃ l x k v r, t = .node l x .RB_RED k v r := by
  cases t with
  | nil => cases h
  | node l x c k v r =>
    simp only [rbt.color] at h
    subst h
    exact ⟨l, x, k, v, r, rfl⟩

/-- The loop of `rb_tree_insert_fixup` ends with a red-black tree, up to the colour of the
root. -/
theorem ins_fix_ok : ∀ (n : Nat) (path : List rb_frame), path.length ≤ n →
    ∀ (t : rbt), t.rb_ok → t.color = .RB_RED → path_ok path t.bh .RB_BLACK →
      path_root_black path →
      ∃ T, ins_fix path t = some T ∧ T.blacken.rb_ok ∧ T ≠ .nil := by
  intro n
  induction n using Nat.strong_induction_on with
  | _ n ih =>
    intro path hlen t ht hc hp hrb
    obtain ⟨tl, x, k, v, tr, rfl⟩ := red_node hc
    cases path with
    | nil => exact ⟨_, rfl, blacken_ok ht, by simp⟩
    | cons f1 rest1 =>
      cases rest1 with
      | nil =>
        have hf : f1.c = .RB_BLACK := hrb
        refine ⟨f1.plug (.node tl x .RB_RED k v tr), by simp [ins_fix, hf], ?_,
          plug_ne_nil _ _⟩
        obtain ⟨h1, h2, h3, _⟩ := hp
        exact blacken_ok (plug_ok ht h1 h2 rfl (fun h => by rw [hf] at h; cases h)).1
      | cons f2 rest =>
        rcases color_cases f1.c with hf1 | hf1
        · refine ⟨zip (f1 :: f2 :: rest) (.node tl x .RB_RED k v tr), by simp [ins_fix, hf1],
            ?_, zip_ne_nil _ _ (by simp)⟩
          exact blacken_ok (zip_ok _ _ _ _ (path_ok_any hp hf1 .RB_RED) ht rfl rfl)
        · obtain ⟨s_ok, s_bh, s_red, hp2⟩ := hp
          rw [hf1] at hp2
          obtain ⟨u_ok, u_bh, u_red, hp3⟩ := hp2
          have hf2 : f2.c = .RB_BLACK := by
            rcases color_cases f2.c with h | h
            · exact h
            · exact absurd (u_red h).1 (by simp)
          rw [hf2] at hp3
          simp only [if_true, rb_color.noConfusion, if_false, Nat.add_zero, reduceCtorEq] at hp3 u_bh
          have s_blk := (s_red hf1).2
          have hrest : path_root_black rest := root_black_tail (root_black_tail hrb)
          rcases color_cases f2.sib.color with hu | hu
          · -- rotations
            obtain ⟨l1, p, pc, pk, pv, s⟩ := f1
            obtain ⟨l2, g, gc, gk, gv, u⟩ := f2
            simp only at hf1 hf2 s_ok s_bh s_blk u_ok u_bh hu
            subst hf1 hf2
            obtain ⟨tl_ok, tr_ok, t_bh, t_blk⟩ := ht
            obtain ⟨tl_blk, tr_blk⟩ := t_blk rfl
            simp only [rbt.bh, reduceCtorEq, if_false, Nat.add_zero] at s_bh u_bh hp3
            have hp4 := path_ok_black hp3
            cases l2 <;> cases l1
            · refine ⟨_, by simp [ins_fix, hu]; rfl, ?_, zip_ne_nil _ _ (by simp)⟩
              apply blacken_ok
              apply zip_ok _ _ _ _ hp3
              · simp [rbt.rb_ok, rbt.bh, *]
              · simp [rbt.bh, *]
              · rfl
            · refine ⟨_, by simp [ins_fix, hu]; rfl, ?_, zip_ne_nil _ _ (by simp)⟩
              apply blacken_ok
              apply zip_ok _ _ _ _ hp3
              · simp [rbt.rb_ok, rbt.bh, *]
              · simp [rbt.bh, *]
              · rfl
            · refine ⟨_, by simp [ins_fix, hu]; rfl, ?_, zip_ne_nil _ _ (by simp)⟩
              apply blacken_ok
              apply zip_ok _ _ _ _ hp3
              · simp [rbt.rb_ok, rbt.bh, *]
              · simp [rbt.bh, *]
              · rfl
            · refine ⟨_, by simp [ins_fix, hu]; rfl, ?_, zip_ne_nil _ _ (by simp)⟩
              apply blacken_ok
              apply zip_ok _ _ _ _ hp3
              · simp [rbt.rb_ok, rbt.bh, *]
              · simp [rbt.bh, *]
              · rfl
          · -- the uncle is red
            have hl : rest.length < n := by simp at hlen; omega
            have h1 := plug_ok (f := { f1 with c := .RB_BLACK }) ht s_ok s_bh rfl
              (fun h => by cases h)
            have h2 := plug_ok (f := { f2 with c := .RB_RED, sib := f2.sib.blacken })
              h1.1 (blacken_ok u_ok) (by
                show f2.sib.blacken.bh = _
                rw [blacken_bh_red hu, h1.2.1, u_bh]
                simp) h1.2.2 (fun _ => ⟨rfl, blacken_color _⟩)
            obtain ⟨T, hT, hok, hne⟩ := ih rest.length hl rest (le_refl _) _ h2.1 h2.2.2
              (by
                rw [h2.2.1, h1.2.1]
                simpa using path_ok_black hp3) hrest
            exact ⟨T, by simp [ins_fix, hf1, hu, hT], hok, hne⟩

/-! ## Red-black tree: the descent of `rb_tree_insert` -/

/-- The descent loop of `rb_tree_insert` on a tree in memory follows `rbt.descend`. -/
theorem insert_loop_eq (m : rb_mem) (tree : rb_tree_t) (key : Nat) :
    ∀ (t : rbt) (path : List rb_frame) (par fuel : Nat), tree_rep m t par →
      (∀ x ∈ t.ids, 2 ≤ x) → t.height < fuel →
      insert_loop m tree key fuel t.ptr (path_par path).1 (path_par path).2
        = some (match t.descend tree.compare tree.unique key path with
                | .inl x => .inl x
                | .inr p => .inr (path_par p)) := by
  intro t
  induction t with
  | nil =>
    intro path par fuel _ _ hf
    obtain ⟨n, rfl⟩ : ∃ n, fuel = n + 1 := ⟨fuel - 1, by omega⟩
    simp [insert_loop, rbt.descend]
  | node l x c k v r ihl ihr =>
    intro path par fuel hrep hids hf
    obtain ⟨n, rfl⟩ : ∃ n, fuel = n + 1 := ⟨fuel - 1, by omega⟩
    obtain ⟨h1, h2, h3⟩ := hrep
    simp only [rbt.ids, List.mem_append, List.mem_cons] at hids
    have hx : x ≠ NIL := ne_nil_of_ge (hids x (Or.inr (Or.inl rfl)))
    simp only [rbt.height] at hf
    simp only [insert_loop, ptr_node, rbt.descend, h1, hx, ne_eq, not_false_eq_true, if_true]
    split
    · rfl
    · split
      · exact ihl ({ left := true, x := x, c := c, k := k, v := v, sib := r } :: path) x n h2
          (fun z hz => hids z (Or.inl hz)) (by omega)
      · exact ihr ({ left := false, x := x, c := c, k := k, v := v, sib := l } :: path) x n h3
          (fun z hz => hids z (Or.inr (Or.inr hz))) (by omega)

/-- The descent ends at an empty place of the same tree. -/
theorem descend_zip (cmp : Nat → Nat → Int) (u : Bool) (key : Nat) :
    ∀ (t : rbt) (path p : List rb_frame), t.descend cmp u key path = .inr p →
      zip p .nil = zip path t := by
  intro t
  induction t with
  | nil =>
    intro path p h
    simp only [rbt.descend, Sum.inr.injEq] at h
    rw [h]
  | node l x c k v r ihl ihr =>
    intro path p h
    simp only [rbt.descend] at h
    split at h
    · cases h
    · split at h
      · exact ihl _ _ h
      · exact ihr _ _ h

/-- A conflict is a node of the tree whose key compares equal. -/
theorem descend_inl (cmp : Nat → Nat → Int) (u : Bool) (key : Nat) :
    ∀ (t : rbt) (path : List rb_frame) (x : Nat), t.descend cmp u key path = .inl x →
      u = true ∧ ∃ k v, (x, k, v) ∈ t.items ∧ cmp key k = 0 := by
  intro t
  induction t with
  | nil => intro path x h; simp [rbt.descend] at h
  | node l y c k v r ihl ihr =>
    intro path x h
    simp only [rbt.descend] at h
    simp only [rbt.items, List.mem_append, List.mem_cons]
    split at h
    · rename_i h0
      simp only [Sum.inl.injEq] at h
      subst h
      exact ⟨h0.1, k, v, Or.inr (Or.inl rfl), h0.2⟩
    · split at h
      · obtain ⟨a, k1, v1, hm, hc⟩ := ihl _ _ h
        exact ⟨a, k1, v1, Or.inl hm, hc⟩
      · obtain ⟨a, k1, v1, hm, hc⟩ := ihr _ _ h
        exact ⟨a, k1, v1, Or.inr (Or.inr hm), hc⟩

/-- The comparisons made by the descent. -/
theorem descend_bounds (cmp : Nat → Nat → Int) (u : Bool) (key : Nat) :
    ∀ (t : rbt) (path p : List rb_frame), path_bounds cmp u key path →
      t.descend cmp u key path = .inr p → path_bounds cmp u key p := by
  intro t
  induction t with
  | nil =>
    intro path p hb h
    simp only [rbt.descend, Sum.inr.injEq] at h
    rw [← h]
    exact hb
  | node l x c k v r ihl ihr =>
    intro path p hb h
    simp only [rbt.descend] at h
    split at h
    · cases h
    · rename_i h0
      split at h
      · rename_i h1
        refine ihl ({ left := true, x := x, c := c, k := k, v := v, sib := r } :: path) _ ?_ h
        exact ⟨by simpa using h1, hb⟩
      · rename_i h1
        refine ihr ({ left := false, x := x, c := c, k := k, v := v, sib := l } :: path) _ ?_ h
        exact ⟨by
          show (if false = true then _ else _)
          rw [if_neg (by simp)]
          exact ⟨h0, h1⟩, hb⟩

/-- In a unique tree without a conflict no key compares equal. -/
theorem descend_inr_ne {cmp : Nat → Nat → Int} (hcmp : total_order cmp) (key : Nat) :
    ∀ (t : rbt) (path p : List rb_frame), keys_sorted cmp t.keys →
      t.descend cmp true key path = .inr p → ∀ k ∈ t.keys, cmp key k ≠ 0 := by
  intro t
  induction t with
  | nil => intro path p _ _ k hk; simp [rbt.keys, rbt.items] at hk
  | node l x c k v r ihl ihr =>
    intro path p hs h k1 hk1
    obtain ⟨hsl, hsr, hl, hr⟩ := keys_sorted_node hs
    rw [keys_node, List.mem_append, List.mem_cons] at hk1
    simp only [rbt.descend, true_and] at h
    split at h
    · cases h
    · rename_i h0
      split at h
      · rename_i h1
        rcases hk1 with hk1 | rfl | hk1
        · exact ihl _ _ hsl h k1 hk1
        · exact h0
        · intro hc
          have h2 : cmp k key ≤ 0 := cmp_le_trans hcmp (hr k1 hk1) (cmp_le_of_eq hcmp hc)
          exact (cmp_lt_iff_not_le hcmp key k).mp h1 h2
      · rename_i h1
        rcases hk1 with hk1 | rfl | hk1
        · intro hc
          have h2 : cmp key k1 ≤ 0 := by omega
          have h3 : cmp key k ≤ 0 := cmp_le_trans hcmp h2 (hl k1 hk1)
          omega
        · exact h0
        · exact ihr _ _ hsr h k1 hk1

theorem pairwise_insert {α : Type} {R : α → α → Prop} {l1 l2 : List α} {a : α}
    (h : (l1 ++ l2).Pairwise R) (h1 : ∀ x ∈ l1, R x a) (h2 : ∀ y ∈ l2, R a y) :
    (l1 ++ a :: l2).Pairwise R := by
  rw [List.pairwise_append] at h ⊢
  refine ⟨h.1, List.pairwise_cons.2 ⟨h2, h.2.1⟩, ?_⟩
  intro x hx y hy
  rcases List.mem_cons.1 hy with rfl | hy
  · exact h1 x hx
  · exact h.2.2 x hx y hy

theorem pairwise_remove {α : Type} {R : α → α → Prop} {l1 l2 : List α} {a : α}
    (h : (l1 ++ a :: l2).Pairwise R) : (l1 ++ l2).Pairwise R :=
  h.sublist (List.Sublist.append (List.Sublist.refl l1) (List.sublist_cons_self a l2))

/-- The keys around the place found by the descent: those before it are not above the
key (below it in a unique tree), those after it are above the key. -/
theorem path_keys_bounds {cmp : Nat → Nat → Int} (hcmp : total_order cmp) (u : Bool)
    (key : Nat) : ∀ p : List rb_frame, path_bounds cmp u key p →
      keys_sorted cmp ((path_before p ++ path_after p).map fun e => e.2.1) →
      (∀ a ∈ (path_before p).map (fun e => e.2.1),
          cmp a key ≤ 0 ∧ (u = true → cmp a key < 0))
        ∧ (∀ b ∈ (path_after p).map (fun e => e.2.1), cmp key b < 0) := by
  intro p
  induction p with
  | nil => intro _ _; simp [path_before, path_after]
  | cons f fs ih =>
    intro hb hs
    obtain ⟨l, x, c, k, v, s⟩ := f
    obtain ⟨hb1, hb2⟩ := hb
    unfold keys_sorted at hs ih
    cases l
    · simp only [Bool.false_eq_true, if_false] at hb1
      simp only [path_before, path_after, Bool.false_eq_true, if_false, List.nil_append,
        List.map_append, List.map_cons, List.map_nil, List.append_assoc] at hs ⊢
      have hs1 : List.Pairwise (fun a b => cmp a b ≤ 0)
          (List.map (fun e => e.2.1) (path_before fs ++ path_after fs)) := by
        rw [List.map_append]
        refine hs.sublist ?_
        apply List.Sublist.append (List.Sublist.refl _)
        exact (List.sublist_append_right _ _).trans (List.sublist_append_right _ _)
      obtain ⟨ih1, ih2⟩ := ih hb2 hs1
      have hk1 : cmp k key ≤ 0 := by
        have := (cmp_lt_iff_not_le hcmp key k).not.mp hb1.2
        omega
      have hk2 : u = true → cmp k key < 0 := by
        intro hu
        have h1 := hb1.1
        have h2 := hb1.2
        have h3 := hcmp.1 k key
        have : cmp key k ≠ 0 := fun h => h1 ⟨hu, h⟩
        omega
      refine ⟨?_, ih2⟩
      intro a ha
      simp only [List.mem_append, List.mem_cons, List.mem_singleton, List.not_mem_nil,
        or_false] at ha
      rcases ha with ha | ha | rfl
      · exact ih1 a ha
      · have hak : cmp a k ≤ 0 := by
          rw [List.pairwise_append] at hs
          have h2 := hs.2.1
          rw [List.pairwise_append] at h2
          exact h2.2.2 a ha k (by simp)
        exact ⟨cmp_le_trans hcmp hak hk1, fun hu => cmp_lt_of_le_of_lt hcmp hak (hk2 hu)⟩
      · exact ⟨hk1, hk2⟩
    · simp only [if_true] at hb1
      simp only [path_before, path_after, if_true, List.append_nil, List.cons_append,
        List.map_append, List.map_cons] at hs ⊢
      have hs1 : List.Pairwise (fun a b => cmp a b ≤ 0)
          (List.map (fun e => e.2.1) (path_before fs ++ path_after fs)) := by
        rw [List.map_append]
        refine hs.sublist ?_
        apply List.Sublist.append (List.Sublist.refl _)
        exact (List.sublist_append_right _ _).trans (List.sublist_cons_self _ _)
      obtain ⟨ih1, ih2⟩ := ih hb2 hs1
      refine ⟨ih1, ?_⟩
      intro b hb
      simp only [List.mem_append, List.mem_cons] at hb
      rcases hb with rfl | hb | hb
      · exact hb1
      · have hkb : cmp k b ≤ 0 := by
          rw [List.pairwise_append] at hs
          have h2 := hs.2.1
          rw [List.pairwise_cons] at h2
          exact h2.1 b (by simp [hb])
        exact cmp_lt_of_lt_of_le hcmp hb1 hkb
      · exact ih2 b hb

/-! ## Red-black tree: `rb_tree_insert` -/

theorem rb_node_create_nodes (m : rb_mem) (key value : Nat) (z : Nat) :
    (rb_node_create m key value).1.nodes z
      = if z = m.next then
          { key := key, value := value, color := .RB_RED, parent := NIL, left := NIL,
            right := NIL }
        else m.nodes z := by
  simp only [rb_node_create, Function.update_apply]

theorem path_length_le (path : List rb_frame) : path.length ≤ (path_ids path).length := by
  induction path with
  | nil => simp [path_ids]
  | cons f fs ih => simp only [path_ids, List.length_cons, List.length_append]; omega

/-- The memory after `rb_tree_insert` has linked the new node below the place found by the
descent. -/
theorem heap_attach (m : rb_mem) (p : List rb_frame) (key value : Nat)
    (h : heap_ok m (zip p .nil)) (hal : ∀ x ∈ (zip p rbt.nil).ids, x < m.next)
    (hn : 2 ≤ m.next) :
    heap_ok
      (if (path_par p).1 = NULL then (rb_node_create m key value).1
       else if (path_par p).2 = true then
         set_left (set_parent (rb_node_create m key value).1 m.next (path_par p).1)
           (path_par p).1 m.next
       else
         set_right (set_parent (rb_node_create m key value).1 m.next (path_par p).1)
           (path_par p).1 m.next)
      (zip p (.node .nil m.next .RB_RED key value .nil)) := by
  have hnd := heap_sub_nodup h
  have hall := heap_sub_all h
  simp only [rbt.ids, List.append_nil] at hnd hall
  have hlt : ∀ x ∈ path_ids p, x < m.next := by
    intro x hx
    apply hal
    exact (ids_zip_perm p .nil).mem_iff.2 (by simpa [rbt.ids] using hx)
  have hz : m.next ∉ path_ids p := fun hm => Nat.lt_irrefl _ (hlt _ hm)
  have hperm := ids_zip_perm p (.node .nil m.next .RB_RED key value .nil)
  simp only [rbt.ids, List.nil_append] at hperm
  have hnd1 : (zip p (.node .nil m.next .RB_RED key value .nil)).ids.Nodup := by
    rw [List.Perm.nodup_iff hperm, List.nodup_append]
    refine ⟨hnd, by simp, ?_⟩
    intro a ha hb
    rw [List.mem_singleton] at hb
    subst hb
    exact hz ha
  have hall1 : ∀ z ∈ (zip p (.node .nil m.next .RB_RED key value .nil)).ids, 2 ≤ z := by
    intro z hzm
    rw [hperm.mem_iff, List.mem_append, List.mem_singleton] at hzm
    rcases hzm with hzm | rfl
    · exact hall z hzm
    · exact hn
  refine ⟨?_, hnd1, hall1⟩
  have hrep := (rep_zip m p .nil).1 h.1
  rw [rep_zip]
  cases p with
  | nil =>
    simp only [path_par, if_true]
    refine ⟨trivial, ?_, trivial, trivial⟩
    rw [rb_node_create_nodes, if_pos rfl]
    rfl
  | cons f fs =>
    have hf2 : 2 ≤ f.x := hall f.x (by simp [path_ids])
    have hfz : f.x ≠ m.next := fun e => hz (by rw [← e]; simp [path_ids])
    have hf0 : f.x ≠ NULL := by unfold NULL; omega
    simp only [path_par, if_neg hf0]
    have hnf : f.x ∉ f.sib.ids ++ path_ids fs := (List.nodup_cons.1 hnd).1
    constructor
    · apply path_rep_hole m _ f fs NIL m.next hrep.1
      · cases hl : f.left
        · simp [set_right_nodes, set_parent_nodes, rb_node_create_nodes, hfz]
        · simp [set_left_nodes, set_parent_nodes, rb_node_create_nodes, hfz]
      · intro z hzm
        have h1 : z ≠ m.next := fun e => hz (by rw [← e]; simp [path_ids, hzm])
        have h2 : z ≠ f.x := fun e => hnf (by rw [← e]; simp [hzm])
        cases hl : f.left <;>
          simp [set_right_nodes, set_left_nodes, set_parent_nodes, rb_node_create_nodes, h1, h2]
      · intro z hzm
        have h1 : z ≠ m.next := fun e => hz (by rw [← e]; simp [path_ids, hzm])
        have h2 : z ≠ f.x := fun e => hnf (by rw [← e]; simp [hzm])
        cases hl : f.left <;>
          simp [set_right_nodes, set_left_nodes, set_parent_nodes, rb_node_create_nodes, h1, h2]
    · refine ⟨?_, trivial, trivial⟩
      cases hl : f.left <;>
        simp [set_right_nodes, set_left_nodes, set_parent_nodes, rb_node_create_nodes,
          Ne.symm hfz]

theorem heap_attach_nil (m : rb_mem) (p : List rb_frame) (key value : Nat)
    (h : heap_ok m (zip p .nil)) (hn : 2 ≤ m.next) :
    (if (path_par p).1 = NULL then (rb_node_create m key value).1
       else if (path_par p).2 = true then
         set_left (set_parent (rb_node_create m key value).1 m.next (path_par p).1)
           (path_par p).1 m.next
       else
         set_right (set_parent (rb_node_create m key value).1 m.next (path_par p).1)
           (path_par p).1 m.next).nodes NIL = m.nodes NIL := by
  have hall := heap_sub_all h
  have hz : NIL ≠ m.next := by unfold NIL; omega
  cases p with
  | nil => simp [path_par, rb_node_create_nodes, hz]
  | cons f fs =>
    have hf2 : 2 ≤ f.x := hall f.x (by simp [path_ids])
    have hf0 : f.x ≠ NULL := by unfold NULL; omega
    have hf1 : NIL ≠ f.x := by unfold NIL; omega
    simp only [path_par, if_neg hf0]
    cases hl : f.left <;>
      simp [set_right_nodes, set_left_nodes, set_parent_nodes, rb_node_create_nodes, hz, hf1]

theorem node_of_ne_nil {t : rbt} (h : t ≠ .nil) : ∃ l x c k v r, t = .node l x c k v r := by
  cases t with
  | nil => exact absurd rfl h
  | node l x c k v r => exact ⟨l, x, c, k, v, r, rfl⟩

/-- The function `rb_tree_insert_fixup` on a tree in memory. -/
theorem insert_fixup_spec (m : rb_mem) (tree : rb_tree_t) (p : List rb_frame) (l r : rbt)
    (x : Nat) (c : rb_color) (k v : Nat) (T : rbt)
    (h : heap_ok m (zip p (.node l x c k v r)))
    (hroot : tree.root = (zip p (.node l x c k v r)).ptr)
    (hfix : ins_fix p (.node l x .RB_RED k v r) = some T) (hT : T ≠ .nil)
    (hfuel : p.length < m.next) :
    ∃ m1, rb_tree_insert_fixup m tree x = some (m1, { tree with root := T.ptr })
      ∧ heap_ok m1 T.blacken ∧ m1.next = m.next ∧ m1.nodes NIL = m.nodes NIL := by
  have h1 := heap_recolor .RB_RED h
  have hx := ne_nil_of_ge (heap_node_ge h)
  obtain ⟨m1, hl, h2, hn, hz⟩ := insert_fixup_loop_sim p.length p (le_refl _) l r x .RB_RED k v
    (set_color m x .RB_RED) tree T m.next h1
    (hroot.trans (zip_ptr_congr p _ _ rfl)) hfix hfuel
  obtain ⟨tl, y, tc, tk, tv, tr, rfl⟩ := node_of_ne_nil hT
  have h3 : heap_ok m1 (zip [] (.node tl y tc tk tv tr)) := h2
  have hy := ne_nil_of_ge (heap_node_ge h3)
  refine ⟨set_color m1 y .RB_BLACK, ?_, @heap_recolor _ [] _ _ _ _ _ _ .RB_BLACK h3, hn, ?_⟩
  · simp only [rb_tree_insert_fixup, set_color_next, hl]
    rfl
  · rw [set_color_nil _ _ _ hy, hz, set_color_nil _ _ _ hx]

theorem keys_eq_map (t : rbt) : t.keys = t.items.map fun e => e.2.1 := rfl

theorem tree_inv_height {m : rb_mem} {tree : rb_tree_t} {t : rbt} (h : tree_inv m tree t) :
    t.height < m.next := by
  have h1 := height_le_length t
  have h2 := nodup_bounded_length t.ids m.next h.nodup h.alloc h.next_ge
  omega

theorem tree_inv_heap {m : rb_mem} {tree : rb_tree_t} {t : rbt} (h : tree_inv m tree t) :
    heap_ok m t :=
  ⟨h.rep, h.nodup, fun z hz => (h.alloc z hz).1⟩

/-- The call `rb_tree_insert` when the descent finds a conflict. -/
theorem rb_tree_insert_conflict {m : rb_mem} {tree : rb_tree_t} {t : rbt} (key value x : Nat)
    (hinv : tree_inv m tree t)
    (hd : t.descend tree.compare tree.unique key [] = .inl x) :
    rb_tree_insert m tree key value = some (m, tree, x) := by
  have h := insert_loop_eq m tree key t [] NIL m.next hinv.rep (fun z hz => (hinv.alloc z hz).1)
    (tree_inv_height hinv)
  rw [hd] at h
  simp only [path_par] at h
  simp only [rb_tree_insert, hinv.root, h]

/-- The call `rb_tree_insert` when the descent ends at an empty place. -/
theorem rb_tree_insert_new {m : rb_mem} {tree : rb_tree_t} {t : rbt} (key value : Nat)
    (p : List rb_frame) (hcmp : total_order tree.compare) (hinv : tree_inv m tree t)
    (hd : t.descend tree.compare tree.unique key [] = .inr p) :
    ∃ m1 T, rb_tree_insert m tree key value
        = some (m1, { tree with root := T.ptr, size := tree.size + 1 }, NULL)
      ∧ tree_inv m1 { tree with root := T.ptr, size := tree.size + 1 } T
      ∧ T.items = path_before p ++ (m.next, key, value) :: path_after p
      ∧ t.items = path_before p ++ path_after p
      ∧ m1.next = m.next + 1 := by
  have hloop := insert_loop_eq m tree key t [] NIL m.next hinv.rep
    (fun z hz => (hinv.alloc z hz).1) (tree_inv_height hinv)
  rw [hd] at hloop
  simp only [path_par] at hloop
  have hzip : zip p .nil = t := descend_zip _ _ _ t [] p hd
  have hitems : t.items = path_before p ++ path_after p := by
    rw [← hzip, items_zip]
    simp [rbt.items]
  have hheap : heap_ok m (zip p .nil) := by rw [hzip]; exact tree_inv_heap hinv
  have hal : ∀ x ∈ (zip p rbt.nil).ids, x < m.next := by
    rw [hzip]
    exact fun x hx => (hinv.alloc x hx).2
  have hatt := heap_attach m p key value hheap hal hinv.next_ge
  have hattn := heap_attach_nil m p key value hheap hinv.next_ge
  -- the colours
  have hok0 : (zip p .nil).rb_ok := by rw [hzip]; exact hinv.ok
  obtain ⟨_, hpok⟩ := path_ok_of_zip p .nil hok0
  have hprb : path_root_black p := root_black_of_zip p .nil (fun _ => by rw [hzip]; exact hinv.black)
  obtain ⟨T, hfix, hTok, hTne⟩ := ins_fix_ok p.length p (le_refl _)
    (.node .nil m.next .RB_RED key value .nil) (by simp [rbt.rb_ok, rbt.bh]) rfl
    (by simpa [rbt.bh] using hpok) hprb
  have hTitems : T.items = path_before p ++ (m.next, key, value) :: path_after p := by
    rw [ins_fix_items p.length p (le_refl _) _ _ hfix, items_zip]
    simp [rbt.items]
  -- the budget of the loop
  have hlen : p.length < m.next + 1 := by
    have h1 := path_length_le p
    have h2 : (path_ids p).length ≤ t.ids.length := by
      have := (ids_zip_perm p .nil).length_eq
      rw [hzip] at this
      simp [rbt.ids] at this
      omega
    have h3 := nodup_bounded_length t.ids m.next hinv.nodup hinv.alloc hinv.next_ge
    omega
  obtain ⟨m1, hfx, hh1, hn1, hz1⟩ := insert_fixup_spec _
    { tree with root := (zip p (.node .nil m.next .RB_RED key value .nil)).ptr,
                size := tree.size + 1 } p .nil .nil m.next .RB_RED key value T hatt rfl hfix hTne
    (by
      cases p with
      | nil => simp [path_par, rb_node_create]
      | cons f fs =>
        have hf0 : f.x ≠ NULL := by
          have := heap_frame_ge hheap
          unfold NULL
          omega
        simp only [path_par, if_neg hf0]
        cases f.left <;> simpa [rb_node_create] using hlen)
  have hnext : m1.next = m.next + 1 := by
    rw [hn1]
    cases p with
    | nil => simp [path_par, rb_node_create]
    | cons f fs =>
      have hf0 : f.x ≠ NULL := by
        have := heap_frame_ge hheap
        unfold NULL
        omega
      simp only [path_par, if_neg hf0]
      cases f.left <;> simp [rb_node_create]
  refine ⟨m1, T.blacken, ?_, ?_, by rw [blacken_items]; exact hTitems, hitems, hnext⟩
  · rw [blacken_ptr]
    cases p with
    | nil =>
      simp only [path_par, if_true] at hfx
      simp only [rb_tree_insert, hinv.root, hloop, rb_node_create] at hfx ⊢
      simp only [if_true]
      simp only [zip_nil, ptr_node] at hfx
      rw [hfx]
    | cons f fs =>
      have hf0 : f.x ≠ NULL := by
        have := heap_frame_ge hheap
        unfold NULL
        omega
      simp only [path_par, if_neg hf0] at hfx
      have hr : (zip (f :: fs) (rbt.node .nil m.next .RB_RED key value .nil)).ptr = tree.root := by
        rw [hinv.root, ← hzip]
        exact zip_ptr_cons f fs _ _
      rw [hr] at hfx
      simp only [rb_tree_insert, hinv.root, hloop, rb_node_create, if_neg hf0] at hfx ⊢
      cases hl : f.left
      · simp only [hl, Bool.false_eq_true, if_false] at hfx ⊢
        rw [hfx]
      · simp only [hl, if_true] at hfx ⊢
        rw [hfx]
  · have hids : ∀ x, x ∈ T.blacken.ids ↔ x ∈ t.ids ∨ x = m.next := by
      intro x
      rw [ids_eq_map, ids_eq_map, blacken_items, hTitems, hitems]
      simp only [List.map_append, List.map_cons, List.mem_append, List.mem_cons]
      tauto
    have hb := path_keys_bounds hcmp tree.unique key p
      (descend_bounds _ _ _ t [] p trivial hd)
      (by rw [← hitems]; exact hinv.sorted)
    have hge := hinv.next_ge
    refine ⟨hh1.1, by rw [blacken_ptr], hh1.2.1, ?_, by omega, ?_, hTok, blacken_color T,
      ?_⟩
    · intro x hx
      refine ⟨hh1.2.2 x hx, ?_⟩
      rcases (hids x).1 hx with h | h
      · have := (hinv.alloc x h).2
        omega
      · omega
    · rw [hz1, hattn]
      exact hinv.sentinel
    · show keys_sorted tree.compare _
      rw [keys_eq_map, blacken_items, hTitems, List.map_append, List.map_cons]
      apply pairwise_insert
      · have := hinv.sorted
        rw [keys_eq_map, hitems, List.map_append] at this
        exact this
      · exact fun a ha => (hb.1 a ha).1
      · exact fun b hb1 => cmp_lt_le (hb.2 b hb1)

/-- In a unique tree with strictly increasing keys, the keys stay strictly increasing when
`rb_tree_insert` adds a node at the place where its descent ends. -/
theorem insert_new_strict {cmp : Nat → Nat → Int} {t T : rbt} (key value x : Nat)
    (p : List rb_frame) (hcmp : total_order cmp)
    (hd : t.descend cmp true key [] = .inr p)
    (hs : keys_strict cmp t.keys)
    (hT : T.items = path_before p ++ (x, key, value) :: path_after p)
    (ht : t.items = path_before p ++ path_after p) : keys_strict cmp T.keys := by
  have hsorted : keys_sorted cmp ((path_before p ++ path_after p).map fun e => e.2.1) := by
    rw [← ht, ← keys_eq_map]
    exact List.Pairwise.imp (fun hlt => by omega) hs
  have hb := path_keys_bounds hcmp true key p (descend_bounds _ _ _ t [] p trivial hd) hsorted
  show keys_strict cmp _
  rw [keys_eq_map, hT, List.map_append, List.map_cons]
  apply pairwise_insert
  · have := hs
    rw [keys_eq_map, ht, List.map_append] at this
    exact this
  · exact fun a ha => (hb.1 a ha).2 rfl
  · exact fun b hb1 => hb.2 b hb1

/-! ## Red-black tree: `rb_tree_remove_fixup` -/

/-- The colour read at the root pointer of a subtree; the sentinel is black. -/
theorem heap_color {m : rb_mem} {path : List rb_frame} {t : rbt}
    (h : heap_ok m (zip path t)) (hs : (m.nodes NIL).color = .RB_BLACK) :
    (m.nodes t.ptr).color = t.color := by
  cases t with
  | nil => exact hs
  | node l x c k v r => rw [ptr_node, heap_node h]; rfl

/-- The parent pointer read at `x`, also when `x` is the sentinel. -/
theorem heap_x_parent {m : rb_mem} {f : rb_frame} {fs : List rb_frame} {X : rbt}
    (h : heap_ok m (zip (f :: fs) X)) (hn : X = .nil → (m.nodes NIL).parent = f.x) :
    (m.nodes X.ptr).parent = f.x := by
  cases X with
  | nil => exact hn rfl
  | node l x c k v r => rw [ptr_node, heap_node h]; rfl

/-- The pointer `x` is not the sibling. -/
theorem heap_x_ne_sib {m : rb_mem} {f : rb_frame} {fs : List rb_frame} {X : rbt}
    {wl wr : rbt} {w : Nat} {wc : rb_color} {wk wv : Nat}
    (h : heap_ok m (zip (f :: fs) X)) (hw : f.sib = .node wl w wc wk wv wr) : X.ptr ≠ w := by
  have h1 := h
  rw [zip_swap, hw] at h1
  cases X with
  | nil => exact (ne_nil_of_ge (heap_node_ge h1)).symm
  | node l x c k v r =>
    have := heap_ne_sib h
    rw [hw] at this
    exact this

/-- Case 2 of `rb_tree_remove_fixup`, `x` a left child: the children of the sibling are
black. -/
theorem del_case2_l (m : rb_mem) (tree : rb_tree_t) (rest : List rb_frame) (X : rbt)
    (p : Nat) (pc : rb_color) (pk pv : Nat) (wl wr : rbt) (w : Nat) (wc : rb_color)
    (wk wv : Nat)
    (h : heap_ok m (zip (⟨true, p, pc, pk, pv, .node wl w wc wk wv wr⟩ :: rest) X))
    (hs : (m.nodes NIL).color = .RB_BLACK) (hn : X = .nil → (m.nodes NIL).parent = p)
    (hwl : wl.color = .RB_BLACK) (hwr : wr.color = .RB_BLACK) :
    ∃ m1, remove_fixup_black_l m tree X.ptr w = (m1, tree, p)
      ∧ heap_ok m1 (zip rest (.node X p pc pk pv (.node wl w .RB_RED wk wv wr)))
      ∧ m1.next = m.next ∧ m1.nodes NIL = m.nodes NIL := by
  have hxp := heap_x_parent h hn
  have h1 : heap_ok m (zip (⟨false, p, pc, pk, pv, X⟩ :: rest) (.node wl w wc wk wv wr)) := h
  have hw := heap_node h1
  have hwn := ne_nil_of_ge (heap_node_ge h1)
  have h2 : heap_ok m (zip (⟨true, w, wc, wk, wv, wr⟩ :: ⟨false, p, pc, pk, pv, X⟩ :: rest) wl) := h
  have h3 : heap_ok m (zip (⟨false, w, wc, wk, wv, wl⟩ :: ⟨false, p, pc, pk, pv, X⟩ :: rest) wr) := h
  have hcl := heap_color h2 hs
  have hcr := heap_color h3 hs
  have a1 := heap_recolor .RB_RED h1
  simp only [path_ptr_cons] at hw hxp
  simp [remove_fixup_black_l, hw, hcl, hcr, hwl, hwr, hxp]
  exact ⟨a1, by simp [set_color_nodes, Ne.symm hwn]⟩

/-- Case 4 of `rb_tree_remove_fixup`, `x` a left child: the right child of the sibling is
red. -/
theorem del_case4_l (m : rb_mem) (tree : rb_tree_t) (rest : List rb_frame) (X : rbt)
    (p : Nat) (pc : rb_color) (pk pv : Nat) (wl : rbt) (w : Nat) (wc : rb_color)
    (wk wv : Nat) (a b : rbt) (w4 k4 v4 : Nat)
    (h : heap_ok m (zip (⟨true, p, pc, pk, pv,
      .node wl w wc wk wv (.node a w4 .RB_RED k4 v4 b)⟩ :: rest) X))
    (hn : X = .nil → (m.nodes NIL).parent = p) :
    ∃ m1, remove_fixup_black_l m tree X.ptr w
        = (m1, (if path_ptr rest = NIL then { tree with root := w } else tree),
            (if path_ptr rest = NIL then w else tree.root))
      ∧ heap_ok m1 (zip rest (.node (.node X p .RB_BLACK pk pv wl) w pc wk wv
          (.node a w4 .RB_BLACK k4 v4 b)))
      ∧ m1.next = m.next ∧ m1.nodes NIL = m.nodes NIL := by
  have hxp := heap_x_parent h hn
  have hp := heap_frame h
  have hpn := ne_nil_of_ge (heap_frame_ge h)
  have h1 : heap_ok m (zip (⟨false, p, pc, pk, pv, X⟩ :: rest)
      (.node wl w wc wk wv (.node a w4 .RB_RED k4 v4 b))) := h
  have hw := heap_node h1
  have hwn := ne_nil_of_ge (heap_node_ge h1)
  have h3 : heap_ok m (zip (⟨false, w, wc, wk, wv, wl⟩ :: ⟨false, p, pc, pk, pv, X⟩ :: rest)
      (.node a w4 .RB_RED k4 v4 b)) := h
  have hw4 := heap_node h3
  have hw4n := ne_nil_of_ge (heap_node_ge h3)
  have a1 := heap_recolor pc h1
  have a2 := heap_recolor_frame .RB_BLACK a1
  have a3 : heap_ok _ (zip (⟨false, w, pc, wk, wv, wl⟩ :: ⟨false, p, .RB_BLACK, pk, pv, X⟩ :: rest)
      (.node a w4 .RB_RED k4 v4 b)) := a2
  have a4 := heap_recolor .RB_BLACK a3
  have a5 : heap_ok _ (zip rest (.node X p .RB_BLACK pk pv
      (.node wl w pc wk wv (.node a w4 .RB_BLACK k4 v4 b)))) := a4
  obtain ⟨a6, a7, a8, a9⟩ := heap_rotl tree a5
  simp only [path_ptr_cons, ptr_node, if_true] at hw hxp hp hw4
  simp [remove_fixup_black_l, hw, hw4, hxp, hp]
  refine ⟨_, ⟨rfl, a7, ?_⟩, a6, a8, ?_⟩
  · rw [a7]
    split <;> rfl
  · rw [a9]
    simp [set_color_nodes, Ne.symm hwn, Ne.symm hpn, Ne.symm hw4n]

/-- Cases 3 and 4 of `rb_tree_remove_fixup`, `x` a left child: the right child of the
sibling is black and its left child is red. -/
theorem del_case3_l (m : rb_mem) (tree : rb_tree_t) (rest : List rb_frame) (X : rbt)
    (p : Nat) (pc : rb_color) (pk pv : Nat) (wr : rbt) (w : Nat) (wc : rb_color)
    (wk wv : Nat) (a b : rbt) (w3 k3 v3 : Nat)
    (h : heap_ok m (zip (⟨true, p, pc, pk, pv,
      .node (.node a w3 .RB_RED k3 v3 b) w wc wk wv wr⟩ :: rest) X))
    (hs : (m.nodes NIL).color = .RB_BLACK) (hn : X = .nil → (m.nodes NIL).parent = p)
    (hwr : wr.color = .RB_BLACK) :
    ∃ m1, remove_fixup_black_l m tree X.ptr w
        = (m1, (if path_ptr rest = NIL then { tree with root := w3 } else tree),
            (if path_ptr rest = NIL then w3 else tree.root))
      ∧ heap_ok m1 (zip rest (.node (.node X p .RB_BLACK pk pv a) w3 pc k3 v3
          (.node b w .RB_BLACK wk wv wr)))
      ∧ m1.next = m.next ∧ m1.nodes NIL = m.nodes NIL := by
  have hxp := heap_x_parent h hn
  have hpn := ne_nil_of_ge (heap_frame_ge h)
  have h1 : heap_ok m (zip (⟨false, p, pc, pk, pv, X⟩ :: rest)
      (.node (.node a w3 .RB_RED k3 v3 b) w wc wk wv wr)) := h
  have hw := heap_node h1
  have hwn := ne_nil_of_ge (heap_node_ge h1)
  have h2 : heap_ok m (zip (⟨true, w, wc, wk, wv, wr⟩ :: ⟨false, p, pc, pk, pv, X⟩ :: rest)
      (.node a w3 .RB_RED k3 v3 b)) := h
  have hw3 := heap_node h2
  have hw3n := ne_nil_of_ge (heap_node_ge h2)
  have h3 : heap_ok m (zip (⟨false, w, wc, wk, wv, .node a w3 .RB_RED k3 v3 b⟩ ::
      ⟨false, p, pc, pk, pv, X⟩ :: rest) wr) := h
  have hcr := heap_color h3 hs
  -- case 3
  have b1 := heap_recolor .RB_BLACK h2
  have b2 := heap_recolor_frame .RB_RED b1
  have b3 : heap_ok _ (zip (⟨false, p, pc, pk, pv, X⟩ :: rest)
      (.node (.node a w3 .RB_BLACK k3 v3 b) w .RB_RED wk wv wr)) := b2
  obtain ⟨b4, b5, b6, b7⟩ := heap_rotr tree b3
  have b8 : heap_ok _ (zip (⟨true, p, pc, pk, pv,
      .node a w3 .RB_BLACK k3 v3 (.node b w .RB_RED wk wv wr)⟩ :: rest) X) := b4
  have hn3 : X = .nil → ((rb_tree_rotr (set_color (set_color m w3 .RB_BLACK) w .RB_RED)
      tree w).1.nodes NIL).parent = p := by
    intro e
    rw [b7]
    simp only [set_color_get_parent]
    exact hn e
  have hxp3 := heap_x_parent b8 hn3
  have hp3 := heap_frame b8
  have hw33 := heap_node b4
  -- case 4
  have c1 := heap_recolor pc b4
  have c2 := heap_recolor_frame .RB_BLACK c1
  have c3 : heap_ok _ (zip (⟨false, w3, pc, k3, v3, a⟩ :: ⟨false, p, .RB_BLACK, pk, pv, X⟩ :: rest)
      (.node b w .RB_RED wk wv wr)) := c2
  have c4 := heap_recolor .RB_BLACK c3
  have c5 : heap_ok _ (zip rest (.node X p .RB_BLACK pk pv
      (.node a w3 pc k3 v3 (.node b w .RB_BLACK wk wv wr)))) := c4
  obtain ⟨c6, c7, c8, c9⟩ := heap_rotl tree c5
  simp only [path_ptr_cons, ptr_node, if_true] at hw hxp hw3 hxp3 hp3 hw33 b5
  rw [if_neg hpn] at b5
  simp [remove_fixup_black_l, hw, hw3, hxp, hcr, hwr, hxp3, hp3, hw33, b5]
  refine ⟨_, ⟨rfl, c7, ?_⟩, c6, c8.trans b6, ?_⟩
  · rw [c7]
    split <;> rfl
  · rw [c9]
    simp [set_color_nodes, Ne.symm hwn, Ne.symm hpn, Ne.symm hw3n, b7]

/-- Case 1 of `rb_tree_remove_fixup`, `x` a left child: the sibling is red. -/
theorem del_case1_l (m : rb_mem) (tree : rb_tree_t) (rest : List rb_frame) (X : rbt)
    (p : Nat) (pc : rb_color) (pk pv : Nat) (wl wr : rbt) (w : Nat) (wc : rb_color)
    (wk wv : Nat)
    (h : heap_ok m (zip (⟨true, p, pc, pk, pv, .node wl w wc wk wv wr⟩ :: rest) X))
    (hn : X = .nil → (m.nodes NIL).parent = p) :
    ∃ m1, remove_fixup_red_l m tree X.ptr w
        = (m1, (if path_ptr rest = NIL then { tree with root := w } else tree), wl.ptr)
      ∧ heap_ok m1 (zip (⟨true, p, .RB_RED, pk, pv, wl⟩ :: ⟨true, w, .RB_BLACK, wk, wv, wr⟩ :: rest) X)
      ∧ m1.next = m.next ∧ m1.nodes NIL = m.nodes NIL := by
  have hxp := heap_x_parent h hn
  have hpn := ne_nil_of_ge (heap_frame_ge h)
  have h1 : heap_ok m (zip (⟨false, p, pc, pk, pv, X⟩ :: rest) (.node wl w wc wk wv wr)) := h
  have hwn := ne_nil_of_ge (heap_node_ge h1)
  have a1 := heap_recolor .RB_BLACK h1
  have a2 := heap_recolor_frame .RB_RED a1
  have a3 : heap_ok _ (zip rest (.node X p .RB_RED pk pv (.node wl w .RB_BLACK wk wv wr))) := a2
  obtain ⟨a4, a5, a6, a7⟩ := heap_rotl tree a3
  have a8 : heap_ok _ (zip (⟨true, p, .RB_RED, pk, pv, wl⟩ ::
      ⟨true, w, .RB_BLACK, wk, wv, wr⟩ :: rest) X) := a4
  have hn1 : X = .nil → ((rb_tree_rotl (set_color (set_color m w .RB_BLACK) p .RB_RED)
      tree p).1.nodes NIL).parent = p := by
    intro e
    rw [a7]
    simp only [set_color_get_parent]
    exact hn e
  have hxp1 := heap_x_parent a8 hn1
  have hp1 := heap_frame a8
  simp only [path_ptr_cons, ptr_node, if_true] at hxp hxp1 hp1
  simp [remove_fixup_red_l, hxp, hxp1, hp1]
  refine ⟨_, ⟨rfl, a5⟩, a4, a6, ?_⟩
  rw [a7]
  simp [set_color_nodes, Ne.symm hwn, Ne.symm hpn]

/-- Case 2 of `rb_tree_remove_fixup`, `x` a right child. -/
theorem del_case2_r (m : rb_mem) (tree : rb_tree_t) (rest : List rb_frame) (X : rbt)
    (p : Nat) (pc : rb_color) (pk pv : Nat) (wl wr : rbt) (w : Nat) (wc : rb_color)
    (wk wv : Nat)
    (h : heap_ok m (zip (⟨false, p, pc, pk, pv, .node wl w wc wk wv wr⟩ :: rest) X))
    (hs : (m.nodes NIL).color = .RB_BLACK) (hn : X = .nil → (m.nodes NIL).parent = p)
    (hwl : wl.color = .RB_BLACK) (hwr : wr.color = .RB_BLACK) :
    ∃ m1, remove_fixup_black_r m tree X.ptr w = (m1, tree, p)
      ∧ heap_ok m1 (zip rest (.node (.node wl w .RB_RED wk wv wr) p pc pk pv X))
      ∧ m1.next = m.next ∧ m1.nodes NIL = m.nodes NIL := by
  have hxp := heap_x_parent h hn
  have h1 : heap_ok m (zip (⟨true, p, pc, pk, pv, X⟩ :: rest) (.node wl w wc wk wv wr)) := h
  have hw := heap_node h1
  have hwn := ne_nil_of_ge (heap_node_ge h1)
  have h2 : heap_ok m (zip (⟨true, w, wc, wk, wv, wr⟩ :: ⟨true, p, pc, pk, pv, X⟩ :: rest) wl) := h
  have h3 : heap_ok m (zip (⟨false, w, wc, wk, wv, wl⟩ :: ⟨true, p, pc, pk, pv, X⟩ :: rest) wr) := h
  have hcl := heap_color h2 hs
  have hcr := heap_color h3 hs
  have a1 := heap_recolor .RB_RED h1
  simp only [path_ptr_cons] at hw hxp
  simp [remove_fixup_black_r, hw, hcl, hcr, hwl, hwr, hxp]
  exact ⟨a1, by simp [set_color_nodes, Ne.symm hwn]⟩

/-- Case 4 of `rb_tree_remove_fixup`, `x` a right child: the left child of the sibling is
red. -/
theorem del_case4_r (m : rb_mem) (tree : rb_tree_t) (rest : List rb_frame) (X : rbt)
    (p : Nat) (pc : rb_color) (pk pv : Nat) (wr : rbt) (w : Nat) (wc : rb_color)
    (wk wv : Nat) (a b : rbt) (w4 k4 v4 : Nat)
    (h : heap_ok m (zip (⟨false, p, pc, pk, pv,
      .node (.node a w4 .RB_RED k4 v4 b) w wc wk wv wr⟩ :: rest) X))
    (hn : X = .nil → (m.nodes NIL).parent = p) :
    ∃ m1, remove_fixup_black_r m tree X.ptr w
        = (m1, (if path_ptr rest = NIL then { tree with root := w } else tree),
            (if path_ptr rest = NIL then w else tree.root))
      ∧ heap_ok m1 (zip rest (.node (.node a w4 .RB_BLACK k4 v4 b) w pc wk wv
          (.node wr p .RB_BLACK pk pv X)))
      ∧ m1.next = m.next ∧ m1.nodes NIL = m.nodes NIL := by
  have hxp := heap_x_parent h hn
  have hp := heap_frame h
  have hpn := ne_nil_of_ge (heap_frame_ge h)
  have h1 : heap_ok m (zip (⟨true, p, pc, pk, pv, X⟩ :: rest)
      (.node (.node a w4 .RB_RED k4 v4 b) w wc wk wv wr)) := h
  have hw := heap_node h1
  have hwn := ne_nil_of_ge (heap_node_ge h1)
  have h3 : heap_ok m (zip (⟨true, w, wc, wk, wv, wr⟩ :: ⟨true, p, pc, pk, pv, X⟩ :: rest)
      (.node a w4 .RB_RED k4 v4 b)) := h
  have hw4 := heap_node h3
  have hw4n := ne_nil_of_ge (heap_node_ge h3)
  have a1 := heap_recolor pc h1
  have a2 := heap_recolor_frame .RB_BLACK a1
  have a3 : heap_ok _ (zip (⟨true, w, pc, wk, wv, wr⟩ :: ⟨true, p, .RB_BLACK, pk, pv, X⟩ :: rest)
      (.node a w4 .RB_RED k4 v4 b)) := a2
  have a4 := heap_recolor .RB_BLACK a3
  have a5 : heap_ok _ (zip rest (.node (.node (.node a w4 .RB_BLACK k4 v4 b) w pc wk wv wr)
      p .RB_BLACK pk pv X)) := a4
  obtain ⟨a6, a7, a8, a9⟩ := heap_rotr tree a5
  simp only [path_ptr_cons, ptr_node, if_true, Bool.false_eq_true, if_false] at hw hxp hp hw4
  simp [remove_fixup_black_r, hw, hw4, hxp, hp]
  refine ⟨_, ⟨rfl, a7, ?_⟩, a6, a8, ?_⟩
  · rw [a7]
    split <;> rfl
  · rw [a9]
    simp [set_color_nodes, Ne.symm hwn, Ne.symm hpn, Ne.symm hw4n]

/-- Cases 3 and 4 of `rb_tree_remove_fixup`, `x` a right child: the left child of the
sibling is black and its right child is red. -/
theorem del_case3_r (m : rb_mem) (tree : rb_tree_t) (rest : List rb_frame) (X : rbt)
    (p : Nat) (pc : rb_color) (pk pv : Nat) (wl : rbt) (w : Nat) (wc : rb_color)
    (wk wv : Nat) (a b : rbt) (w3 k3 v3 : Nat)
    (h : heap_ok m (zip (⟨false, p, pc, pk, pv,
      .node wl w wc wk wv (.node a w3 .RB_RED k3 v3 b)⟩ :: rest) X))
    (hs : (m.nodes NIL).color = .RB_BLACK) (hn : X = .nil → (m.nodes NIL).parent = p)
    (hwl : wl.color = .RB_BLACK) :
    ∃ m1, remove_fixup_black_r m tree X.ptr w
        = (m1, (if path_ptr rest = NIL then { tree with root := w3 } else tree),
            (if path_ptr rest = NIL then w3 else tree.root))
      ∧ heap_ok m1 (zip rest (.node (.node wl w .RB_BLACK wk wv a) w3 pc k3 v3
          (.node b p .RB_BLACK pk pv X)))
      ∧ m1.next = m.next ∧ m1.nodes NIL = m.nodes NIL := by
  have hxp := heap_x_parent h hn
  have hpn := ne_nil_of_ge (heap_frame_ge h)
  have h1 : heap_ok m (zip (⟨true, p, pc, pk, pv, X⟩ :: rest)
      (.node wl w wc wk wv (.node a w3 .RB_RED k3 v3 b))) := h
  have hw := heap_node h1
  have hwn := ne_nil_of_ge (heap_node_ge h1)
  have h2 : heap_ok m (zip (⟨false, w, wc, wk, wv, wl⟩ :: ⟨true, p, pc, pk, pv, X⟩ :: rest)
      (.node a w3 .RB_RED k3 v3 b)) := h
  have hw3 := heap_node h2
  have hw3n := ne_nil_of_ge (heap_node_ge h2)
  have h3 : heap_ok m (zip (⟨true, w, wc, wk, wv, .node a w3 .RB_RED k3 v3 b⟩ ::
      ⟨true, p, pc, pk, pv, X⟩ :: rest) wl) := h
  have hcl := heap_color h3 hs
  -- case 3
  have b1 := heap_recolor .RB_BLACK h2
  have b2 := heap_recolor_frame .RB_RED b1
  have b3 : heap_ok _ (zip (⟨true, p, pc, pk, pv, X⟩ :: rest)
      (.node wl w .RB_RED wk wv (.node a w3 .RB_BLACK k3 v3 b))) := b2
  obtain ⟨b4, b5, b6, b7⟩ := heap_rotl tree b3
  have b8 : heap_ok _ (zip (⟨false, p, pc, pk, pv,
      .node (.node wl w .RB_RED wk wv a) w3 .RB_BLACK k3 v3 b⟩ :: rest) X) := b4
  have hn3 : X = .nil → ((rb_tree_rotl (set_color (set_color m w3 .RB_BLACK) w .RB_RED)
      tree w).1.nodes NIL).parent = p := by
    intro e
    rw [b7]
    simp only [set_color_get_parent]
    exact hn e
  have hxp3 := heap_x_parent b8 hn3
  have hp3 := heap_frame b8
  have hw33 := heap_node b4
  -- case 4
  have c1 := heap_recolor pc b4
  have c2 := heap_recolor_frame .RB_BLACK c1
  have c3 : heap_ok _ (zip (⟨true, w3, pc, k3, v3, b⟩ :: ⟨true, p, .RB_BLACK, pk, pv, X⟩ :: rest)
      (.node wl w .RB_RED wk wv a)) := c2
  have c4 := heap_recolor .RB_BLACK c3
  have c5 : heap_ok _ (zip rest (.node (.node (.node wl w .RB_BLACK wk wv a) w3 pc k3 v3 b)
      p .RB_BLACK pk pv X)) := c4
  obtain ⟨c6, c7, c8, c9⟩ := heap_rotr tree c5
  simp only [path_ptr_cons, ptr_node, if_true, Bool.false_eq_true, if_false]
    at hw hxp hw3 hxp3 hp3 hw33 b5
  rw [if_neg hpn] at b5
  simp [remove_fixup_black_r, hw, hw3, hxp, hcl, hwl, hxp3, hp3, hw33, b5]
  refine ⟨_, ⟨rfl, c7, ?_⟩, c6, c8.trans b6, ?_⟩
  · rw [c7]
    split <;> rfl
  · rw [c9]
    simp [set_color_nodes, Ne.symm hwn, Ne.symm hpn, Ne.symm hw3n, b7]

/-- Case 1 of `rb_tree_remove_fixup`, `x` a right child: the sibling is red. -/
theorem del_case1_r (m : rb_mem) (tree : rb_tree_t) (rest : List rb_frame) (X : rbt)
    (p : Nat) (pc : rb_color) (pk pv : Nat) (wl wr : rbt) (w : Nat) (wc : rb_color)
    (wk wv : Nat)
    (h : heap_ok m (zip (⟨false, p, pc, pk, pv, .node wl w wc wk wv wr⟩ :: rest) X))
    (hn : X = .nil → (m.nodes NIL).parent = p) :
    ∃ m1, remove_fixup_red_r m tree X.ptr w
        = (m1, (if path_ptr rest = NIL then { tree with root := w } else tree), wr.ptr)
      ∧ heap_ok m1 (zip (⟨false, p, .RB_RED, pk, pv, wr⟩ :: ⟨false, w, .RB_BLACK, wk, wv, wl⟩ :: rest) X)
      ∧ m1.next = m.next ∧ m1.nodes NIL = m.nodes NIL := by
  have hxp := heap_x_parent h hn
  have hpn := ne_nil_of_ge (heap_frame_ge h)
  have h1 : heap_ok m (zip (⟨true, p, pc, pk, pv, X⟩ :: rest) (.node wl w wc wk wv wr)) := h
  have hwn := ne_nil_of_ge (heap_node_ge h1)
  have a1 := heap_recolor .RB_BLACK h1
  have a2 := heap_recolor_frame .RB_RED a1
  have a3 : heap_ok _ (zip rest (.node (.node wl w .RB_BLACK wk wv wr) p .RB_RED pk pv X)) := a2
  obtain ⟨a4, a5, a6, a7⟩ := heap_rotr tree a3
  have a8 : heap_ok _ (zip (⟨false, p, .RB_RED, pk, pv, wr⟩ ::
      ⟨false, w, .RB_BLACK, wk, wv, wl⟩ :: rest) X) := a4
  have hn1 : X = .nil → ((rb_tree_rotr (set_color (set_color m w .RB_BLACK) p .RB_RED)
      tree p).1.nodes NIL).parent = p := by
    intro e
    rw [a7]
    simp only [set_color_get_parent]
    exact hn e
  have hxp1 := heap_x_parent a8 hn1
  have hp1 := heap_frame a8
  simp only [path_ptr_cons, ptr_node, if_true, Bool.false_eq_true, if_false] at hxp hxp1 hp1
  simp [remove_fixup_red_r, hxp, hxp1, hp1]
  refine ⟨_, ⟨rfl, a5⟩, a4, a6, ?_⟩
  rw [a7]
  simp [set_color_nodes, Ne.symm hwn, Ne.symm hpn]

theorem not_black_iff {c : rb_color} : c ≠ .RB_BLACK ↔ c = .RB_RED := by
  cases c <;> simp

theorem root_var_update (tree : rb_tree_t) (path : List rb_frame) (t0 t1 : rbt) (r : Nat)
    (hroot : tree.root = (zip path t0).ptr) (hge : ∀ z ∈ path_ids path, 2 ≤ z)
    (hr : t1.ptr = r) :
    (if path_ptr path = NIL then r else tree.root) = (zip path t1).ptr := by
  subst hr
  cases path with
  | nil => rw [path_ptr_nil, if_pos rfl, zip_nil]
  | cons f fs =>
    have hf : f.x ≠ NIL := ne_nil_of_ge (hge f.x (by simp [path_ids]))
    rw [path_ptr_cons, if_neg hf, zip_ptr_cons f fs t1 t0, ← hroot]

theorem heap_path_ge {m : rb_mem} {path : List rb_frame} {t : rbt}
    (h : heap_ok m (zip path t)) : ∀ z ∈ path_ids path, 2 ≤ z :=
  fun z hz => heap_sub_all h z (List.mem_append_left _ hz)

theorem heap_rest_ge {m : rb_mem} {f : rb_frame} {rest : List rb_frame} {t : rbt}
    (h : heap_ok m (zip (f :: rest) t)) : ∀ z ∈ path_ids rest, 2 ≤ z := by
  intro z hz
  apply heap_path_ge h
  simp [path_ids, hz]

/-- The black-sibling part of an iteration of `rb_tree_remove_fixup` computes
`del_black`. -/
theorem del_black_sim (m : rb_mem) (tree : rb_tree_t) (rest : List rb_frame) (f : rb_frame)
    (X : rbt) (r : rbt ⊕ rbt) (h : heap_ok m (zip (f :: rest) X))
    (hs : (m.nodes NIL).color = .RB_BLACK) (hn : X = .nil → (m.nodes NIL).parent = f.x)
    (hroot : tree.root = (zip (f :: rest) X).ptr) (hd : del_black f X = some r) :
    ∃ m1 tree1 x1,
      (if f.left = true then remove_fixup_black_l m tree X.ptr f.sib.ptr
       else remove_fixup_black_r m tree X.ptr f.sib.ptr) = (m1, tree1, x1)
      ∧ m1.next = m.next ∧ m1.nodes NIL = m.nodes NIL
      ∧ del_black_post m1 tree tree1 x1 f rest r := by
  obtain ⟨l, p, pc, pk, pv, sib⟩ := f
  have hge := heap_rest_ge h
  have hroot1 : tree.root = (zip rest (rb_frame.plug ⟨l, p, pc, pk, pv, sib⟩ X)).ptr := hroot
  cases sib with
  | nil => simp [del_black] at hd
  | node wl w wc wk wv wr =>
    simp only [ptr_node]
    simp only at hn
    cases l
    · simp only [del_black, Bool.false_eq_true, if_false] at hd ⊢
      by_cases h2 : wr.color = .RB_BLACK ∧ wl.color = .RB_BLACK
      · rw [if_pos h2] at hd
        simp only [Option.some.injEq] at hd
        subst hd
        obtain ⟨m1, e, h1, hn1, hz1⟩ :=
          del_case2_r m tree rest X p pc pk pv wl wr w wc wk wv h hs hn h2.2 h2.1
        exact ⟨m1, tree, p, e, hn1, hz1, rfl, rfl, rfl, rfl, h1⟩
      · rw [if_neg h2] at hd
        by_cases h3 : wl.color = .RB_BLACK
        · rw [if_pos h3] at hd
          have h4 : wr.color = .RB_RED := not_black_iff.1 (fun e => h2 ⟨e, h3⟩)
          obtain ⟨a, w3, k3, v3, b, rfl⟩ := red_node h4
          simp only [Option.some.injEq] at hd
          subst hd
          obtain ⟨m1, e, h1, hn1, hz1⟩ :=
            del_case3_r m tree rest X p pc pk pv wl w wc wk wv a b w3 k3 v3 h hs hn h3
          exact ⟨m1, _, _, e, hn1, hz1, root_update tree rest _ _ _ hroot1 hge rfl,
            root_var_update tree rest _ _ _ hroot1 hge rfl, h1⟩
        · rw [if_neg h3] at hd
          obtain ⟨a, w4, k4, v4, b, rfl⟩ := red_node (not_black_iff.1 h3)
          simp only [Option.some.injEq] at hd
          subst hd
          obtain ⟨m1, e, h1, hn1, hz1⟩ :=
            del_case4_r m tree rest X p pc pk pv wr w wc wk wv a b w4 k4 v4 h hn
          exact ⟨m1, _, _, e, hn1, hz1, root_update tree rest _ _ _ hroot1 hge rfl,
            root_var_update tree rest _ _ _ hroot1 hge rfl, h1⟩
    · simp only [del_black, if_true] at hd ⊢
      by_cases h2 : wl.color = .RB_BLACK ∧ wr.color = .RB_BLACK
      · rw [if_pos h2] at hd
        simp only [Option.some.injEq] at hd
        subst hd
        obtain ⟨m1, e, h1, hn1, hz1⟩ :=
          del_case2_l m tree rest X p pc pk pv wl wr w wc wk wv h hs hn h2.1 h2.2
        exact ⟨m1, tree, p, e, hn1, hz1, rfl, rfl, rfl, rfl, h1⟩
      · rw [if_neg h2] at hd
        by_cases h3 : wr.color = .RB_BLACK
        · rw [if_pos h3] at hd
          have h4 : wl.color = .RB_RED := not_black_iff.1 (fun e => h2 ⟨e, h3⟩)
          obtain ⟨a, w3, k3, v3, b, rfl⟩ := red_node h4
          simp only [Option.some.injEq] at hd
          subst hd
          obtain ⟨m1, e, h1, hn1, hz1⟩ :=
            del_case3_l m tree rest X p pc pk pv wr w wc wk wv a b w3 k3 v3 h hs hn h3
          exact ⟨m1, _, _, e, hn1, hz1, root_update tree rest _ _ _ hroot1 hge rfl,
            root_var_update tree rest _ _ _ hroot1 hge rfl, h1⟩
        · rw [if_neg h3] at hd
          obtain ⟨a, w4, k4, v4, b, rfl⟩ := red_node (not_black_iff.1 h3)
          simp only [Option.some.injEq] at hd
          subst hd
          obtain ⟨m1, e, h1, hn1, hz1⟩ :=
            del_case4_l m tree rest X p pc pk pv wl w wc wk wv a b w4 k4 v4 h hn
          exact ⟨m1, _, _, e, hn1, hz1, root_update tree rest _ _ _ hroot1 hge rfl,
            root_var_update tree rest _ _ _ hroot1 hge rfl, h1⟩

theorem heap_x_ne_root {m : rb_mem} {f : rb_frame} {fs : List rb_frame} {X : rbt}
    (h : heap_ok m (zip (f :: fs) X)) : X.ptr ≠ (zip (f :: fs) X).ptr := by
  cases X with
  | nil =>
    have := heap_path_ge h _ (zip_ptr_mem f fs .nil)
    exact (ne_nil_of_ge this).symm
  | node l x c k v r => exact heap_root_ne h

theorem del_loop_exit_root (m : rb_mem) (tree : rb_tree_t) (x : Nat) (fuel : Nat)
    (h : tree.root = x) : remove_fixup_loop (fuel + 1) m tree x = some (m, tree, x) := by
  simp [remove_fixup_loop, h]

theorem del_loop_exit_red (m : rb_mem) (tree : rb_tree_t) (x : Nat) (fuel : Nat)
    (h : (m.nodes x).color = .RB_RED) :
    remove_fixup_loop (fuel + 1) m tree x = some (m, tree, x) := by
  simp [remove_fixup_loop, h]

theorem del_loop_step (m : rb_mem) (tree : rb_tree_t) (x : Nat) (fuel : Nat)
    (h1 : x ≠ tree.root) (h2 : (m.nodes x).color = .RB_BLACK) :
    remove_fixup_loop (fuel + 1) m tree x
      = remove_fixup_loop fuel (remove_fixup_step m tree x).1 (remove_fixup_step m tree x).2.1
          (remove_fixup_step m tree x).2.2 := by
  simp [remove_fixup_loop, h1, h2]

theorem tree_root_twice (tree : rb_tree_t) (a b : Nat) :
    { ({ tree with root := a } : rb_tree_t) with root := b } = { tree with root := b } := rfl

/-- Case 1 of `rb_tree_remove_fixup` on either side. -/
theorem del_red_sim (m : rb_mem) (tree : rb_tree_t) (rest : List rb_frame) (X : rbt)
    (l : Bool) (p : Nat) (pc : rb_color) (pk pv : Nat) (wl wr : rbt) (w : Nat) (wc : rb_color)
    (wk wv : Nat)
    (h : heap_ok m (zip (⟨l, p, pc, pk, pv, .node wl w wc wk wv wr⟩ :: rest) X))
    (hn : X = .nil → (m.nodes NIL).parent = p)
    (hroot : tree.root = (zip (⟨l, p, pc, pk, pv, .node wl w wc wk wv wr⟩ :: rest) X).ptr) :
    ∃ m1,
      (if l = true then remove_fixup_red_l m tree X.ptr w
       else remove_fixup_red_r m tree X.ptr w)
        = (m1, { tree with root := (zip (⟨l, p, .RB_RED, pk, pv, if l = true then wl else wr⟩ ::
              ⟨l, w, .RB_BLACK, wk, wv, if l = true then wr else wl⟩ :: rest) X).ptr },
            (if l = true then wl else wr).ptr)
      ∧ heap_ok m1 (zip (⟨l, p, .RB_RED, pk, pv, if l = true then wl else wr⟩ ::
          ⟨l, w, .RB_BLACK, wk, wv, if l = true then wr else wl⟩ :: rest) X)
      ∧ m1.next = m.next ∧ m1.nodes NIL = m.nodes NIL := by
  have hge := heap_rest_ge h
  cases l
  · obtain ⟨m1, e, h1, hn1, hz1⟩ := del_case1_r m tree rest X p pc pk pv wl wr w wc wk wv h hn
    refine ⟨m1, ?_, h1, hn1, hz1⟩
    simp only [Bool.false_eq_true, if_false]
    rw [e]
    have hroot1 : tree.root = (zip rest (rb_frame.plug
      ⟨false, p, pc, pk, pv, .node wl w wc wk wv wr⟩ X)).ptr := hroot
    rw [root_update tree rest _ (.node wl w .RB_BLACK wk wv (.node wr p .RB_RED pk pv X)) w
      hroot1 hge rfl]
    rfl
  · obtain ⟨m1, e, h1, hn1, hz1⟩ := del_case1_l m tree rest X p pc pk pv wl wr w wc wk wv h hn
    refine ⟨m1, ?_, h1, hn1, hz1⟩
    simp only [if_true]
    rw [e]
    have hroot1 : tree.root = (zip rest (rb_frame.plug
      ⟨true, p, pc, pk, pv, .node wl w wc wk wv wr⟩ X)).ptr := hroot
    rw [root_update tree rest _ (.node (.node X p .RB_RED pk pv wl) w .RB_BLACK wk wv wr) w
      hroot1 hge rfl]
    rfl

/-- The body of the loop of `rb_tree_remove_fixup` at a node whose sibling is a node. -/
theorem remove_fixup_step_frame (m : rb_mem) (tree : rb_tree_t) (rest : List rb_frame)
    (X : rbt) (l : Bool) (p : Nat) (pc : rb_color) (pk pv : Nat) (wl wr : rbt) (w : Nat)
    (wc : rb_color) (wk wv : Nat)
    (h : heap_ok m (zip (⟨l, p, pc, pk, pv, .node wl w wc wk wv wr⟩ :: rest) X))
    (hn : X = .nil → (m.nodes NIL).parent = p) :
    remove_fixup_step m tree X.ptr
      = if wc = .RB_RED then
          if l = true then
            remove_fixup_black_l (remove_fixup_red_l m tree X.ptr w).1
              (remove_fixup_red_l m tree X.ptr w).2.1 X.ptr (remove_fixup_red_l m tree X.ptr w).2.2
          else
            remove_fixup_black_r (remove_fixup_red_r m tree X.ptr w).1
              (remove_fixup_red_r m tree X.ptr w).2.1 X.ptr (remove_fixup_red_r m tree X.ptr w).2.2
        else
          if l = true then remove_fixup_black_l m tree X.ptr w
          else remove_fixup_black_r m tree X.ptr w := by
  have hxp := heap_x_parent h hn
  have hp := heap_frame h
  have hxw := heap_x_ne_sib h rfl
  have h1 : heap_ok m (zip (⟨!l, p, pc, pk, pv, X⟩ :: rest) (.node wl w wc wk wv wr)) := by
    have := h
    rw [zip_swap] at this
    exact this
  have hw := heap_node h1
  simp only [path_ptr_cons, ptr_node] at hxp hp hw
  cases l <;> by_cases hc : wc = .RB_RED <;>
    simp [remove_fixup_step, hxp, hp, hw, hxw, hc]

/-- The loop of `rb_tree_remove_fixup` computes `del_loop`. -/
theorem remove_fixup_loop_sim : ∀ (P : List rb_frame) (X : rbt) (m : rb_mem)
    (tree : rb_tree_t) (P1 : List rb_frame) (X1 : rbt) (fuel : Nat),
    heap_ok m (zip P X) → (m.nodes NIL).color = .RB_BLACK →
    (X = .nil → (m.nodes NIL).parent = path_ptr P) →
    tree.root = (zip P X).ptr → del_loop P X = some (P1, X1) → P.length + 2 ≤ fuel →
    ∃ m1, remove_fixup_loop fuel m tree X.ptr
        = some (m1, { tree with root := (zip P1 X1).ptr }, X1.ptr)
      ∧ heap_ok m1 (zip P1 X1) ∧ m1.next = m.next ∧ m1.nodes NIL = m.nodes NIL := by
  intro P
  induction P with
  | nil =>
    intro X m tree P1 X1 fuel h hs hn hroot hd hfuel
    obtain ⟨fuel, rfl⟩ : ∃ f, fuel = f + 1 := ⟨fuel - 1, by omega⟩
    simp only [del_loop, Option.some.injEq, Prod.mk.injEq] at hd
    obtain ⟨rfl, rfl⟩ := hd
    refine ⟨m, ?_, h, rfl, rfl⟩
    rw [del_loop_exit_root m tree X.ptr fuel hroot]
    exact congrArg (fun t => some (m, t, X.ptr)) (tree_root_eta tree _ hroot).symm
  | cons f rest ih =>
    intro X m tree P1 X1 fuel h hs hn hroot hd hfuel
    obtain ⟨fuel, rfl⟩ : ∃ f, fuel = f + 1 := ⟨fuel - 1, by omega⟩
    obtain ⟨fuel, rfl⟩ : ∃ f, fuel = f + 1 := ⟨fuel - 1, by simp at hfuel; omega⟩
    have hcol := heap_color h hs
    rcases color_cases X.color with hX | hX
    · -- the loop body
      have hne := heap_x_ne_root h
      rw [← hroot] at hne
      rw [hX] at hcol
      rw [del_loop_step m tree X.ptr _ hne hcol]
      simp only [del_loop, hX, reduceCtorEq, if_false] at hd
      have hxp := heap_x_parent h hn
      have hp := heap_frame h
      have hge := heap_rest_ge h
      obtain ⟨l, p, pc, pk, pv, sib⟩ := f
      cases sib with
      | nil => simp at hd
      | node wl w wc wk wv wr =>
        have hxw := heap_x_ne_sib h rfl
        have h1 : heap_ok m (zip (⟨!l, p, pc, pk, pv, X⟩ :: rest) (.node wl w wc wk wv wr)) := by
          have := h
          rw [zip_swap] at this
          exact this
        have hw := heap_node h1
        simp only [path_ptr_cons, ptr_node] at hxp hp hw hn
        simp only at hd
        rw [remove_fixup_step_frame m tree rest X l p pc pk pv wl wr w wc wk wv h hn]
        by_cases hwc : wc = .RB_RED
        · -- case 1
          rw [if_pos hwc] at hd ⊢
          obtain ⟨m1, e1, g1, n1, z1⟩ :=
            del_red_sim m tree rest X l p pc pk pv wl wr w wc wk wv h hn hroot
          have hs1 : (m1.nodes NIL).color = .RB_BLACK := by rw [z1]; exact hs
          have hn1 : X = .nil → (m1.nodes NIL).parent = p := by rw [z1]; exact hn
          cases hdb : del_black
              { left := l, x := p, c := .RB_RED, k := pk, v := pv,
                sib := if l = true then wl else wr } X with
          | none => rw [hdb] at hd; simp at hd
          | some r =>
            rw [hdb] at hd
            obtain ⟨m2, tree2, x2, e2, n2, z2, post⟩ := del_black_sim m1
              { tree with root := (zip (⟨l, p, .RB_RED, pk, pv, if l = true then wl else wr⟩ ::
                ⟨l, w, .RB_BLACK, wk, wv, if l = true then wr else wl⟩ :: rest) X).ptr }
              _ _ X r g1 hs1 hn1 rfl hdb
            have hs2 : (m2.nodes NIL).color = .RB_BLACK := by rw [z2]; exact hs1
            have e3 : (if l = true then
                  remove_fixup_black_l (remove_fixup_red_l m tree X.ptr w).1
                    (remove_fixup_red_l m tree X.ptr w).2.1 X.ptr
                    (remove_fixup_red_l m tree X.ptr w).2.2
                else
                  remove_fixup_black_r (remove_fixup_red_r m tree X.ptr w).1
                    (remove_fixup_red_r m tree X.ptr w).2.1 X.ptr
                    (remove_fixup_red_r m tree X.ptr w).2.2) = (m2, tree2, x2) := by
              rw [← e2]
              cases l
              · simp only [Bool.false_eq_true, if_false] at e1 ⊢
                rw [e1]
              · simp only [if_true] at e1 ⊢
                rw [e1]
            rw [e3]
            show ∃ m1, remove_fixup_loop (fuel + 1) m2 tree2 x2 = _ ∧ _
            cases r with
            | inl S =>
              simp only [Option.some.injEq, Prod.mk.injEq] at hd
              obtain ⟨rfl, rfl⟩ := hd
              obtain ⟨t1, t2, t3, t4, t5⟩ := post
              have hc2 := heap_color t5 hs2
              rw [t3, t4] at hc2
              refine ⟨m2, ?_, t5, n2.trans n1, z2.trans z1⟩
              rw [t1, t2, del_loop_exit_red m2 _ _ _ hc2, t3]
              exact congrArg (fun r => some (m2, ({ tree with root := r } : rb_tree_t), p))
                (zip_ptr_cons _ rest _ _)
            | inr S =>
              simp only [Option.some.injEq, Prod.mk.injEq] at hd
              obtain ⟨rfl, rfl⟩ := hd
              obtain ⟨t1, t2, t5⟩ := post
              refine ⟨m2, ?_, t5, n2.trans n1, z2.trans z1⟩
              rw [t1, t2, del_loop_exit_root m2 _ _ _ rfl]
              rfl
        · -- the sibling is black
          rw [if_neg hwc] at hd ⊢
          cases hdb : del_black
              { left := l, x := p, c := pc, k := pk, v := pv, sib := .node wl w wc wk wv wr } X with
          | none => rw [hdb] at hd; simp at hd
          | some r =>
            rw [hdb] at hd
            obtain ⟨m2, tree2, x2, e2, n2, z2, post⟩ := del_black_sim m tree rest _ X r h hs hn hroot hdb
            have hs2 : (m2.nodes NIL).color = .RB_BLACK := by rw [z2]; exact hs
            simp only [ptr_node] at e2
            rw [e2]
            show ∃ m1, remove_fixup_loop (fuel + 1) m2 tree2 x2 = _ ∧ _
            cases r with
            | inl S =>
              simp only at hd
              obtain ⟨t1, t2, t3, t4, t5⟩ := post
              simp only at t3
              rw [t1, t2]
              have hSn : S = .nil → (m2.nodes NIL).parent = path_ptr rest := by
                intro e
                rw [e] at t3
                exact absurd t3.symm (ne_nil_of_ge (heap_frame_ge h))
              obtain ⟨m3, e3, h3, n3, z3⟩ := ih S m2 tree P1 X1 (fuel + 1) t5 hs2 hSn
                (hroot.trans (zip_ptr_congr rest _ _ (by simp [t3]))) hd
                (by simp at hfuel; omega)
              rw [t3] at e3
              exact ⟨m3, e3, h3, n3.trans n2, z3.trans z2⟩
            | inr S =>
              simp only [Option.some.injEq, Prod.mk.injEq] at hd
              obtain ⟨rfl, rfl⟩ := hd
              obtain ⟨t1, t2, t5⟩ := post
              refine ⟨m2, ?_, t5, n2, z2⟩
              rw [t1, t2, del_loop_exit_root m2 _ _ _ rfl]
              rfl
    · -- `x` is red
      rw [hX] at hcol
      simp only [del_loop, hX, if_true, Option.some.injEq, Prod.mk.injEq] at hd
      obtain ⟨rfl, rfl⟩ := hd
      refine ⟨m, ?_, h, rfl, rfl⟩
      rw [del_loop_exit_red m tree X.ptr _ hcol]
      exact congrArg (fun t => some (m, t, X.ptr)) (tree_root_eta tree _ hroot).symm

/-! ## Red-black tree: the colour invariants of `rb_tree_remove_fixup` -/

theorem blacken_of_black {t : rbt} (h : t.color = .RB_BLACK) : t.blacken = t := by
  cases t with
  | nil => rfl
  | node l x c k v r =>
    simp only [color_node] at h
    subst h
    rfl

theorem node_of_bh_pos {t : rbt} (h : 0 < t.bh) : ∃ l x c k v r, t = .node l x c k v r := by
  cases t with
  | nil => simp [rbt.bh] at h
  | node l x c k v r => exact ⟨l, x, c, k, v, r, rfl⟩

theorem black_node {t : rbt} (h : 0 < t.bh) (hc : t.color = .RB_BLACK) :
    ∃ l x k v r, t = .node l x .RB_BLACK k v r := by
  obtain ⟨l, x, c, k, v, r, rfl⟩ := node_of_bh_pos h
  simp only [color_node] at hc
  subst hc
  exact ⟨l, x, k, v, r, rfl⟩

theorem zip_color_root_black : ∀ (path : List rb_frame) (t : rbt), path ≠ [] →
    path_root_black path → (zip path t).color = .RB_BLACK := by
  intro path
  induction path with
  | nil => intro t h; exact absurd rfl h
  | cons f fs ih =>
    intro t _ hrb
    cases fs with
    | nil =>
      obtain ⟨l, x, c, k, v, s⟩ := f
      have hc : c = .RB_BLACK := hrb
      subst hc
      cases l <;> rfl
    | cons g gs => exact ih (f.plug t) (by simp) hrb

/-- The nodes stay in order in the black-sibling part of an iteration. -/
theorem del_black_items (f : rb_frame) (X : rbt) (r : rbt ⊕ rbt)
    (h : del_black f X = some r) :
    (match r with | .inl S => S.items | .inr S => S.items) = (f.plug X).items := by
  obtain ⟨l, p, pc, pk, pv, sib⟩ := f
  cases sib with
  | nil => simp [del_black] at h
  | node wl w wc wk wv wr =>
    cases l
    · simp only [del_black, Bool.false_eq_true, if_false] at h
      split at h
      · simp only [Option.some.injEq] at h
        subst h
        simp [rb_frame.plug, rbt.items]
      · split at h
        · cases wr with
          | nil => simp at h
          | node a w3 c3 k3 v3 b =>
            simp only [Option.some.injEq] at h
            subst h
            simp [rb_frame.plug, rbt.items]
        · simp only [Option.some.injEq] at h
          subst h
          simp [rb_frame.plug, rbt.items]
    · simp only [del_black, if_true] at h
      split at h
      · simp only [Option.some.injEq] at h
        subst h
        simp [rb_frame.plug, rbt.items]
      · split at h
        · cases wl with
          | nil => simp at h
          | node a w3 c3 k3 v3 b =>
            simp only [Option.some.injEq] at h
            subst h
            simp [rb_frame.plug, rbt.items]
        · simp only [Option.some.injEq] at h
          subst h
          simp [rb_frame.plug, rbt.items]

/-- The loop of `rb_tree_remove_fixup` keeps the nodes in order. -/
theorem del_loop_items : ∀ (P : List rb_frame) (X : rbt) (P1 : List rb_frame) (X1 : rbt),
    del_loop P X = some (P1, X1) → (zip P1 X1).items = (zip P X).items := by
  intro P
  induction P with
  | nil =>
    intro X P1 X1 h
    simp only [del_loop, Option.some.injEq, Prod.mk.injEq] at h
    obtain ⟨rfl, rfl⟩ := h
    rfl
  | cons f rest ih =>
    intro X P1 X1 h
    simp only [del_loop] at h
    split at h
    · simp only [Option.some.injEq, Prod.mk.injEq] at h
      obtain ⟨rfl, rfl⟩ := h
      rfl
    · obtain ⟨l, p, pc, pk, pv, sib⟩ := f
      cases sib with
      | nil => simp at h
      | node wl w wc wk wv wr =>
        simp only at h
        split at h
        · -- case 1
          cases hdb : del_black
              { left := l, x := p, c := .RB_RED, k := pk, v := pv,
                sib := if l = true then wl else wr } X with
          | none => rw [hdb] at h; simp at h
          | some r =>
            rw [hdb] at h
            have hi := del_black_items _ X r hdb
            cases r with
            | inl S =>
              simp only [Option.some.injEq, Prod.mk.injEq] at h
              obtain ⟨rfl, rfl⟩ := h
              simp only at hi
              rw [zip_cons, zip_cons]
              apply items_zip_congr
              cases l <;> simp [rb_frame.plug, rbt.items, hi]
            | inr S =>
              simp only [Option.some.injEq, Prod.mk.injEq] at h
              obtain ⟨rfl, rfl⟩ := h
              simp only at hi
              rw [zip_nil, zip_cons, zip_cons]
              apply items_zip_congr
              cases l <;> simp [rb_frame.plug, rbt.items, hi]
        · cases hdb : del_black
              { left := l, x := p, c := pc, k := pk, v := pv, sib := .node wl w wc wk wv wr } X with
          | none => rw [hdb] at h; simp at h
          | some r =>
            rw [hdb] at h
            have hi := del_black_items _ X r hdb
            cases r with
            | inl S =>
              simp only at h hi
              rw [ih S P1 X1 h, zip_cons]
              exact items_zip_congr rest _ _ hi
            | inr S =>
              simp only [Option.some.injEq, Prod.mk.injEq] at h
              obtain ⟨rfl, rfl⟩ := h
              simp only at hi
              rw [zip_nil, zip_cons]
              exact items_zip_congr rest _ _ hi

/-- The black-sibling part of an iteration of `rb_tree_remove_fixup` on a red-black
tree. -/
theorem del_black_ok (f : rb_frame) (X : rbt) (hX : X.rb_ok) (hXc : X.color = .RB_BLACK)
    (hs : f.sib.rb_ok) (hsc : f.sib.color = .RB_BLACK) (hb : f.sib.bh = X.bh + 1) :
    ∃ r, del_black f X = some r ∧
      match r with
      | .inl S => S.blacken.rb_ok ∧ S.bh = X.bh + (if f.c = .RB_BLACK then 1 else 0)
          ∧ S.color = f.c
      | .inr S => S.rb_ok ∧ S.bh = X.bh + 1 + (if f.c = .RB_BLACK then 1 else 0)
          ∧ S.color = f.c := by
  obtain ⟨l, p, pc, pk, pv, sib⟩ := f
  simp only at hs hsc hb
  obtain ⟨wl, w, wk, wv, wr, rfl⟩ := black_node (by omega) hsc
  obtain ⟨wl_ok, wr_ok, w_bh, _⟩ := hs
  simp only [rbt.bh, if_true] at hb
  have hwl : wl.bh = X.bh := by omega
  have hwr : wr.bh = X.bh := by omega
  cases l
  · simp only [del_black, Bool.false_eq_true, if_false]
    by_cases h2 : wr.color = .RB_BLACK ∧ wl.color = .RB_BLACK
    · rw [if_pos h2]
      refine ⟨_, rfl, ?_⟩
      simp [rbt.blacken, rbt.rb_ok, rbt.bh, *]
    · rw [if_neg h2]
      by_cases h3 : wl.color = .RB_BLACK
      · rw [if_pos h3]
        have h4 : wr.color = .RB_RED := not_black_iff.1 (fun e => h2 ⟨e, h3⟩)
        obtain ⟨a, w3, k3, v3, b, rfl⟩ := red_node h4
        obtain ⟨a_ok, b_ok, ab, hcol⟩ := wr_ok
        obtain ⟨a_blk, b_blk⟩ := hcol rfl
        simp only [rbt.bh, reduceCtorEq, if_false, Nat.add_zero] at hwr w_bh
        refine ⟨_, rfl, ?_⟩
        simp only [rbt.rb_ok, rbt.bh, rbt.blacken, color_node, if_true, reduceCtorEq, if_false,
          Nat.add_zero, *, true_and, and_true, false_implies, implies_true]
        omega
      · rw [if_neg h3]
        obtain ⟨a, w4, k4, v4, b, rfl⟩ := red_node (not_black_iff.1 h3)
        obtain ⟨a_ok, b_ok, ab, hcol⟩ := wl_ok
        simp only [rbt.bh, reduceCtorEq, if_false, Nat.add_zero] at hwl w_bh
        refine ⟨_, rfl, ?_⟩
        simp only [rbt.rb_ok, rbt.bh, rbt.blacken, color_node, if_true, reduceCtorEq, if_false,
          Nat.add_zero, *, true_and, and_true, false_implies, implies_true]
        omega
  · simp only [del_black, if_true]
    by_cases h2 : wl.color = .RB_BLACK ∧ wr.color = .RB_BLACK
    · rw [if_pos h2]
      refine ⟨_, rfl, ?_⟩
      simp [rbt.blacken, rbt.rb_ok, rbt.bh, *]
    · rw [if_neg h2]
      by_cases h3 : wr.color = .RB_BLACK
      · rw [if_pos h3]
        have h4 : wl.color = .RB_RED := not_black_iff.1 (fun e => h2 ⟨e, h3⟩)
        obtain ⟨a, w3, k3, v3, b, rfl⟩ := red_node h4
        obtain ⟨a_ok, b_ok, ab, hcol⟩ := wl_ok
        obtain ⟨a_blk, b_blk⟩ := hcol rfl
        simp only [rbt.bh, reduceCtorEq, if_false, Nat.add_zero] at hwl w_bh
        refine ⟨_, rfl, ?_⟩
        simp only [rbt.rb_ok, rbt.bh, rbt.blacken, color_node, if_true, reduceCtorEq, if_false,
          Nat.add_zero, *, true_and, and_true, false_implies, implies_true]
        omega
      · rw [if_neg h3]
        obtain ⟨a, w4, k4, v4, b, rfl⟩ := red_node (not_black_iff.1 h3)
        obtain ⟨a_ok, b_ok, ab, hcol⟩ := wr_ok
        simp only [rbt.bh, reduceCtorEq, if_false, Nat.add_zero] at hwr w_bh
        refine ⟨_, rfl, ?_⟩
        simp only [rbt.rb_ok, rbt.bh, rbt.blacken, color_node, if_true, reduceCtorEq, if_false,
          Nat.add_zero, *, true_and, and_true, false_implies, implies_true]
        omega

theorem root_black_cons {f g : rb_frame} {rest : List rb_frame}
    (h : path_root_black (f :: rest)) (hg : g.c = .RB_BLACK) : path_root_black (g :: rest) := by
  cases rest with
  | nil => exact hg
  | cons a as => exact h

/-- The loop of `rb_tree_remove_fixup` ends with a red-black tree once the final node is
made black. -/
theorem del_loop_ok : ∀ (P : List rb_frame) (X : rbt), X.blacken.rb_ok →
    path_ok P (X.bh + 1) .RB_BLACK → path_root_black P →
    ∃ P1 X1, del_loop P X = some (P1, X1) ∧ (zip P1 X1.blacken).rb_ok
      ∧ (zip P1 X1.blacken).color = .RB_BLACK := by
  intro P
  induction P with
  | nil =>
    intro X hX _ _
    exact ⟨[], X, rfl, hX, blacken_color X⟩
  | cons f rest ih =>
    intro X hX hp hrb
    rcases color_cases X.color with hXc | hXc
    · -- `x` is black
      rw [blacken_of_black hXc] at hX
      obtain ⟨s_ok, s_bh, s_red, hp2⟩ := hp
      obtain ⟨wl, w, wc, wk, wv, wr, hsib⟩ := node_of_bh_pos (t := f.sib) (by omega)
      obtain ⟨l, p, pc, pk, pv, sib⟩ := f
      simp only at hsib s_ok s_bh s_red hp2
      subst hsib
      simp only [del_loop, hXc, reduceCtorEq, if_false]
      rcases color_cases wc with hwc | hwc
      · -- the sibling is black
        subst hwc
        simp only [reduceCtorEq, if_false]
        obtain ⟨r, hr, post⟩ := del_black_ok ⟨l, p, pc, pk, pv, .node wl w .RB_BLACK wk wv wr⟩ X
          hX hXc s_ok rfl s_bh
        rw [hr]
        cases r with
        | inl S =>
          simp only at post ⊢
          obtain ⟨S_ok, S_bh, S_c⟩ := post
          have hp3 : path_ok rest (S.bh + 1) .RB_BLACK := by
            rw [S_bh]
            have := path_ok_black hp2
            rw [show X.bh + (if pc = rb_color.RB_BLACK then 1 else 0) + 1
              = X.bh + 1 + (if pc = rb_color.RB_BLACK then 1 else 0) by omega]
            exact this
          exact ih S S_ok hp3 (root_black_tail hrb)
        | inr S =>
          simp only at post ⊢
          obtain ⟨S_ok, S_bh, S_c⟩ := post
          refine ⟨[], zip rest S, rfl, ?_, blacken_color _⟩
          exact blacken_ok (zip_ok rest S _ _ hp2 S_ok S_bh S_c)
      · -- case 1: the sibling is red
        subst hwc
        simp only [if_true]
        have hpc : pc = .RB_BLACK := by
          rcases color_cases pc with h | h
          · exact h
          · exact absurd (s_red h).2 (by simp)
        subst hpc
        obtain ⟨wl_ok, wr_ok, w_bh, w_red⟩ := s_ok
        obtain ⟨wl_blk, wr_blk⟩ := w_red rfl
        simp only [rbt.bh, reduceCtorEq, if_false, Nat.add_zero, if_true] at s_bh hp2
        obtain ⟨r, hr, post⟩ := del_black_ok
          ⟨l, p, .RB_RED, pk, pv, if l = true then wl else wr⟩ X hX hXc
          (by cases l <;> simp [*]) (by cases l <;> simp [*])
          (by cases l <;> simp <;> omega)
        rw [hr]
        have hg : path_ok (⟨l, w, .RB_BLACK, wk, wv, if l = true then wr else wl⟩ :: rest)
            (X.bh + 1) .RB_RED := by
          refine ⟨by cases l <;> simp [*], by cases l <;> simp <;> omega, by simp, ?_⟩
          simpa using hp2
        have hgrb : path_root_black
            (⟨l, w, .RB_BLACK, wk, wv, if l = true then wr else wl⟩ :: rest) :=
          root_black_cons hrb rfl
        cases r with
        | inl S =>
          simp only at post ⊢
          obtain ⟨S_ok, S_bh, S_c⟩ := post
          simp only [reduceCtorEq, if_false, Nat.add_zero] at S_bh
          refine ⟨_, S, rfl, ?_, zip_color_root_black _ _ (by simp) hgrb⟩
          exact zip_ok _ _ _ _ (path_ok_black hg) S_ok (by rw [blacken_bh_red S_c, S_bh])
            (blacken_color S)
        | inr S =>
          simp only at post ⊢
          obtain ⟨S_ok, S_bh, S_c⟩ := post
          simp only [reduceCtorEq, if_false, Nat.add_zero] at S_bh
          refine ⟨[], _, rfl, ?_, blacken_color _⟩
          exact blacken_ok (zip_ok _ S _ _ hg S_ok S_bh S_c)
    · -- `x` is red
      refine ⟨f :: rest, X, by simp [del_loop, hXc], ?_, zip_color_root_black _ _ (by simp) hrb⟩
      exact zip_ok _ _ _ _ hp hX (blacken_bh_red hXc) (blacken_color X)

/-! ## Red-black tree: `rb_tree_remove_node` -/

theorem zip_append (p1 p2 : List rb_frame) : ∀ t : rbt, zip (p1 ++ p2) t = zip p2 (zip p1 t) := by
  induction p1 with
  | nil => intro t; rfl
  | cons f fs ih => intro t; exact ih (f.plug t)

theorem path_ids_append (p1 p2 : List rb_frame) :
    (path_ids (p1 ++ p2)).Perm (path_ids p1 ++ path_ids p2) := by
  induction p1 with
  | nil => simp [path_ids]
  | cons f fs ih =>
    simp only [List.cons_append, path_ids, List.append_assoc]
    exact List.Perm.cons _ (List.Perm.append_left _ ih)

theorem path_before_append (p1 p2 : List rb_frame) :
    path_before (p1 ++ p2) = path_before p2 ++ path_before p1 := by
  induction p1 with
  | nil => simp [path_before]
  | cons f fs ih => simp [path_before, ih]

theorem path_after_append (p1 p2 : List rb_frame) :
    path_after (p1 ++ p2) = path_after p1 ++ path_after p2 := by
  induction p1 with
  | nil => simp [path_after]
  | cons f fs ih => simp [path_after, ih]

/-- The leftmost node of a subtree: the path to it consists of left steps inside the
subtree, and it has no left child. -/
theorem min_path_spec : ∀ (t : rbt) (path : List rb_frame), t ≠ .nil →
    ∃ inner y c k v r, t.min_path path = (inner ++ path, .node .nil y c k v r)
      ∧ zip inner (.node .nil y c k v r) = t
      ∧ path_before inner = []
      ∧ inner.length < t.height := by
  intro t
  induction t with
  | nil => intro path h; exact absurd rfl h
  | node l y c k v r ihl _ =>
    intro path _
    cases l with
    | nil =>
      exact ⟨[], y, c, k, v, r, rfl, rfl, rfl, by simp [rbt.height]⟩
    | node ll x cl kl vl lr =>
      obtain ⟨inner, y1, c1, k1, v1, r1, h1, h2, h3, h4⟩ :=
        ihl ({ left := true, x := y, c := c, k := k, v := v, sib := r } :: path) (by simp)
      refine ⟨inner ++ [{ left := true, x := y, c := c, k := k, v := v, sib := r }],
        y1, c1, k1, v1, r1, ?_, ?_, ?_, ?_⟩
      · rw [rbt.min_path, h1]
        simp
      · rw [zip_append, h2]
        rfl
      · rw [path_before_append, h3]
        simp [path_before]
      · simp only [List.length_append, List.length_singleton, rbt.height] at h4 ⊢
        omega

/-- The loop of `rb_node_min` on a tree in memory ends at the leftmost node. -/
theorem min_loop_eq (m : rb_mem) : ∀ (t : rbt) (path : List rb_frame) (par fuel : Nat),
    tree_rep m t par → (∀ x ∈ t.ids, 2 ≤ x) → t ≠ .nil → t.height ≤ fuel →
    min_loop m fuel t.ptr = some (t.min_path path).2.ptr := by
  intro t
  induction t with
  | nil => intro path par fuel _ _ h; exact absurd rfl h
  | node l y c k v r ihl _ =>
    intro path par fuel hrep hids _ hf
    obtain ⟨n, rfl⟩ : ∃ n, fuel = n + 1 := ⟨fuel - 1, by simp [rbt.height] at hf; omega⟩
    obtain ⟨h1, h2, h3⟩ := hrep
    simp only [rbt.height] at hf
    cases l with
    | nil => simp [min_loop, h1, rbt.min_path]
    | node ll x cl kl vl lr =>
      have hx : x ≠ NIL := ne_nil_of_ge (hids x (by simp [rbt.ids]))
      simp only [min_loop, ptr_node, h1, hx, ne_eq, not_false_eq_true, if_true, rbt.min_path]
      exact ihl _ y n h2 (fun z hz => hids z (by simp only [rbt.ids, List.mem_append] at hz ⊢; tauto))
        (by simp) (by omega)

/-- The loop of `rb_tree_remove` on a tree in memory follows `rbt.find`. -/
theorem remove_loop_eq (m : rb_mem) (cmp : Nat → Nat → Int) (key : Nat) :
    ∀ (t : rbt) (par fuel : Nat), tree_rep m t par → (∀ x ∈ t.ids, 2 ≤ x) →
      t.height < fuel → remove_loop m cmp key fuel t.ptr = some (t.find cmp key) := by
  intro t
  induction t with
  | nil =>
    intro par fuel _ _ hf
    obtain ⟨n, rfl⟩ : ∃ n, fuel = n + 1 := ⟨fuel - 1, by omega⟩
    simp [remove_loop, rbt.find]
  | node l x c k v r ihl ihr =>
    intro par fuel hrep hids hf
    obtain ⟨n, rfl⟩ : ∃ n, fuel = n + 1 := ⟨fuel - 1, by omega⟩
    obtain ⟨h1, h2, h3⟩ := hrep
    simp only [rbt.ids, List.mem_append, List.mem_cons] at hids
    have hx : x ≠ NIL := ne_nil_of_ge (hids x (Or.inr (Or.inl rfl)))
    simp only [rbt.height] at hf
    simp only [remove_loop, ptr_node, rbt.find, h1, hx, ne_eq, not_false_eq_true, if_true]
    split
    · rfl
    · split
      · exact ihl x n h2 (fun z hz => hids z (Or.inl hz)) (by omega)
      · exact ihr x n h3 (fun z hz => hids z (Or.inr (Or.inr hz))) (by omega)

/-- The node found by the search, with its place in the tree. -/
theorem find_path_spec (cmp : Nat → Nat → Int) (key : Nat) :
    ∀ (t : rbt) (path : List rb_frame),
      match t.find_path cmp key path with
      | none => t.find cmp key = NULL
      | some (P, s) => zip P s = zip path t ∧ s.ptr = t.find cmp key
          ∧ ∃ l x c k v r, s = .node l x c k v r ∧ cmp key k = 0 := by
  intro t
  induction t with
  | nil => intro path; simp [rbt.find_path, rbt.find]
  | node l x c k v r ihl ihr =>
    intro path
    simp only [rbt.find_path, rbt.find]
    by_cases h0 : cmp key k = 0
    · rw [if_pos h0, if_pos h0]
      exact ⟨rfl, rfl, l, x, c, k, v, r, rfl, h0⟩
    · rw [if_neg h0, if_neg h0]
      by_cases h1 : cmp key k < 0
      · rw [if_pos h1, if_pos h1]
        exact ihl ({ left := true, x := x, c := c, k := k, v := v, sib := r } :: path)
      · rw [if_neg h1, if_neg h1]
        exact ihr ({ left := false, x := x, c := c, k := k, v := v, sib := l } :: path)

theorem heap_ok_congr {m m1 : rb_mem} {T : rbt} (h : heap_ok m T)
    (hc : ∀ z ∈ T.ids, m1.nodes z = m.nodes z) : heap_ok m1 T :=
  ⟨tree_rep_congr m m1 T NIL hc h.1, h.2.1, h.2.2⟩

/-- The assignments `x->key = k1; x->value = v1` on a node of the tree. -/
theorem heap_set_kv {m : rb_mem} {path : List rb_frame} {l r : rbt} {x : Nat} {c : rb_color}
    {k v : Nat} (k1 v1 : Nat) (h : heap_ok m (zip path (.node l x c k v r))) :
    heap_ok (set_kv m x k1 v1) (zip path (.node l x c k1 v1 r)) := by
  have hnd := heap_sub_nodup h
  have hrep := (rep_zip m path _).1 h.1
  rw [List.nodup_append] at hnd
  obtain ⟨_, hn, hd⟩ := hnd
  have hx : x ∈ (rbt.node l x c k v r).ids := by simp [rbt.ids]
  have hxp : x ∉ path_ids path := fun hm => hd hm hx
  simp only [rbt.ids, List.nodup_append, List.nodup_cons] at hn
  have hxl : x ∉ l.ids := fun hm => hn.2.2 hm (by simp)
  have hxr : x ∉ r.ids := hn.2.1.1
  have hp : (zip path (rbt.node l x c k1 v1 r)).ids.Perm (zip path (.node l x c k v r)).ids :=
    ids_zip_congr path _ _ (by simp [rbt.ids])
  refine ⟨?_, (List.Perm.nodup_iff hp).2 h.2.1, fun z hz => h.2.2 z (hp.mem_iff.1 hz)⟩
  rw [rep_zip]
  refine ⟨path_rep_congr m _ path _ ?_ hrep.1, ?_, tree_rep_congr m _ l x ?_ hrep.2.2.1,
    tree_rep_congr m _ r x ?_ hrep.2.2.2⟩
  · intro z hz
    rw [set_kv_nodes, if_neg (by rintro rfl; exact hxp hz)]
  · rw [set_kv_nodes, if_pos rfl, hrep.2.1]
  · intro z hz
    rw [set_kv_nodes, if_neg (by rintro rfl; exact hxl hz)]
  · intro z hz
    rw [set_kv_nodes, if_neg (by rintro rfl; exact hxr hz)]

/-- The assignments `x->key = k1; x->value = v1` on a node of the path. -/
theorem heap_set_kv_frame {m : rb_mem} {inner : List rb_frame} {f : rb_frame}
    {path : List rb_frame} {t : rbt} (k1 v1 : Nat)
    (h : heap_ok m (zip (inner ++ f :: path) t)) :
    heap_ok (set_kv m f.x k1 v1) (zip (inner ++ { f with k := k1, v := v1 } :: path) t) := by
  rw [zip_append] at h ⊢
  obtain ⟨l, x, c, k, v, s⟩ := f
  cases l
  · exact @heap_set_kv _ path _ _ _ _ _ _ k1 v1 h
  · exact @heap_set_kv _ path _ _ _ _ _ _ k1 v1 h

/-- The memory after `rb_tree_remove_node` has unlinked the node `y`, which has at most
one child: the child `X` takes its place. -/
theorem heap_splice (m : rb_mem) (Q : List rb_frame) (yl yr : rbt) (y : Nat) (yc : rb_color)
    (yk yv : Nat) (X : rbt) (h : heap_ok m (zip Q (.node yl y yc yk yv yr)))
    (hX : (yl = .nil ∧ X = yr) ∨ (yr = .nil ∧ X = yl)) :
    heap_ok
      (if path_ptr Q = NIL then set_parent m X.ptr (path_ptr Q)
       else if (path_par Q).2 = true then
         set_left (set_parent m X.ptr (path_ptr Q)) (path_ptr Q) X.ptr
       else set_right (set_parent m X.ptr (path_ptr Q)) (path_ptr Q) X.ptr)
      (zip Q X)
    ∧ (X = .nil →
        ((if path_ptr Q = NIL then set_parent m X.ptr (path_ptr Q)
       else if (path_par Q).2 = true then
         set_left (set_parent m X.ptr (path_ptr Q)) (path_ptr Q) X.ptr
       else set_right (set_parent m X.ptr (path_ptr Q)) (path_ptr Q) X.ptr).nodes NIL).parent
        = path_ptr Q)
    ∧ ((if path_ptr Q = NIL then set_parent m X.ptr (path_ptr Q)
       else if (path_par Q).2 = true then
         set_left (set_parent m X.ptr (path_ptr Q)) (path_ptr Q) X.ptr
       else set_right (set_parent m X.ptr (path_ptr Q)) (path_ptr Q) X.ptr).nodes NIL).color
        = (m.nodes NIL).color
    ∧ (if path_ptr Q = NIL then set_parent m X.ptr (path_ptr Q)
       else if (path_par Q).2 = true then
         set_left (set_parent m X.ptr (path_ptr Q)) (path_ptr Q) X.ptr
       else set_right (set_parent m X.ptr (path_ptr Q)) (path_ptr Q) X.ptr).nodes y
        = m.nodes y := by
  have hnd := heap_sub_nodup h
  have hall := heap_sub_all h
  have hrep := (rep_zip m Q _).1 h.1
  obtain ⟨hpr, hy, hyl, hyr⟩ := hrep
  have hy2 : 2 ≤ y := heap_node_ge h
  -- the nodes of `X` are nodes of the subtree at `y`
  have hXsub : ∀ z ∈ X.ids, z ∈ (rbt.node yl y yc yk yv yr).ids ∧ z ≠ y := by
    intro z hz
    rw [List.nodup_append] at hnd
    have hn := hnd.2.1
    simp only [rbt.ids, List.nodup_append, List.nodup_cons] at hn
    simp only [rbt.ids, List.mem_append, List.mem_cons]
    rcases hX with ⟨_, rfl⟩ | ⟨_, rfl⟩
    · exact ⟨Or.inr (Or.inr hz), fun e => hn.2.1.1 (e ▸ hz)⟩
    · exact ⟨Or.inl hz, fun e => hn.2.2 hz (by simp [e])⟩
  have hXrep : tree_rep m X y := by
    rcases hX with ⟨_, rfl⟩ | ⟨_, rfl⟩
    · exact hyr
    · exact hyl
  have hXnd : X.ids.Nodup := by
    rw [List.nodup_append] at hnd
    have hn := hnd.2.1
    simp only [rbt.ids, List.nodup_append, List.nodup_cons] at hn
    rcases hX with ⟨_, rfl⟩ | ⟨_, rfl⟩
    · exact hn.2.1.2
    · exact hn.1
  have hXp : ∀ z ∈ X.ids, z ∉ path_ids Q := by
    intro z hz hq
    rw [List.nodup_append] at hnd
    exact hnd.2.2 hq (hXsub z hz).1
  have hyp : y ∉ path_ids Q := by
    intro hq
    rw [List.nodup_append] at hnd
    exact hnd.2.2 hq (by simp [rbt.ids])
  have hXptr : X.ptr = NIL ∨ X.ptr ∈ X.ids := ptr_nil_or_mem X
  have hXy : X.ptr ≠ y := by
    rcases hXptr with e | e
    · rw [e]; exact (ne_nil_of_ge hy2).symm
    · exact (hXsub _ e).2
  have hperm : (zip Q X).ids.Perm (path_ids Q ++ X.ids) := ids_zip_perm Q X
  have hsubl : ∀ z ∈ (zip Q X).ids, z ∈ path_ids Q ++ (rbt.node yl y yc yk yv yr).ids := by
    intro z hz
    rw [hperm.mem_iff, List.mem_append] at hz
    rw [List.mem_append]
    rcases hz with hz | hz
    · exact Or.inl hz
    · exact Or.inr (hXsub z hz).1
  have hndX : (zip Q X).ids.Nodup := by
    rw [List.Perm.nodup_iff hperm, List.nodup_append]
    rw [List.nodup_append] at hnd
    exact ⟨hnd.1, hXnd, fun a ha hb => hXp a hb ha⟩
  cases Q with
  | nil =>
    simp only [path_ptr_nil, if_true]
    refine ⟨⟨?_, hndX, fun z hz => hall z (hsubl z hz)⟩, ?_, ?_, ?_⟩
    · rw [rep_zip]
      refine ⟨trivial, ?_⟩
      apply tree_rep_reparent m _ X y NIL hXrep
      · intro _
        rw [set_parent_nodes, if_pos rfl]
      · intro z _ hne
        rw [set_parent_nodes, if_neg hne]
      · exact hXnd
    · intro hXn
      subst hXn
      simp [set_parent_nodes]
    · rw [set_parent_nodes]
      split <;> simp_all
    · rw [set_parent_nodes, if_neg (Ne.symm hXy)]
  | cons f fs =>
    have hf2 : 2 ≤ f.x := hall f.x (by simp [path_ids])
    have hfn : f.x ≠ NIL := ne_nil_of_ge hf2
    have hfy : f.x ≠ y := fun e => hyp (by rw [← e]; simp [path_ids])
    have hXf : X.ptr ≠ f.x := by
      rcases hXptr with e | e
      · rw [e]; exact hfn.symm
      · intro e1
        exact hXp _ e (by rw [e1]; simp [path_ids])
    have hnf : f.x ∉ f.sib.ids ++ path_ids fs := by
      rw [List.nodup_append] at hnd
      exact (List.nodup_cons.1 hnd.1).1
    simp only [path_ptr_cons, if_neg hfn, path_par]
    have key : ∀ z, z ≠ f.x → z ≠ X.ptr →
        (if f.left = true then set_left (set_parent m X.ptr f.x) f.x X.ptr
         else set_right (set_parent m X.ptr f.x) f.x X.ptr).nodes z = m.nodes z := by
      intro z h1 h2
      cases f.left <;> simp [set_left_nodes, set_right_nodes, set_parent_nodes, h1, h2]
    refine ⟨⟨?_, hndX, fun z hz => hall z (hsubl z hz)⟩, ?_, ?_, ?_⟩
    · rw [rep_zip]
      constructor
      · apply path_rep_hole m _ f fs y X.ptr hpr
        · cases f.left <;>
            simp [set_left_nodes, set_right_nodes, set_parent_nodes, Ne.symm hXf]
        · intro z hz
          apply key z (fun e => hnf (by rw [← e]; simp [hz]))
          intro e
          rcases hXptr with e1 | e1
          · have := hall z (by simp [path_ids, hz])
            rw [e, e1] at this
            unfold NIL at this
            omega
          · exact hXp _ e1 (by rw [← e]; simp [path_ids, hz])
        · intro z hz
          apply key z (fun e => hnf (by rw [← e]; simp [hz]))
          intro e
          rcases hXptr with e1 | e1
          · have := hall z (by simp [path_ids, hz])
            rw [e, e1] at this
            unfold NIL at this
            omega
          · exact hXp _ e1 (by rw [← e]; simp [path_ids, hz])
      · apply tree_rep_reparent m _ X y f.x hXrep
        · intro _
          cases f.left <;>
            simp [set_left_nodes, set_right_nodes, set_parent_nodes, hXf]
        · intro z hz hne
          exact key z (fun e => hXp z hz (by rw [e]; simp [path_ids])) hne
        · exact hXnd
    · intro hXn
      subst hXn
      cases f.left <;>
        simp [set_left_nodes, set_right_nodes, set_parent_nodes, Ne.symm hfn]
    · cases f.left <;> simp [set_left_nodes, set_right_nodes, set_parent_nodes, Ne.symm hfn] <;>
        split <;> simp_all
    · exact key y (Ne.symm hfy) (Ne.symm hXy)

/-! ## Red-black tree: the fixup functions do not touch keys and values -/

theorem kv_same_refl (m : rb_mem) : kv_same m m := fun _ => ⟨rfl, rfl⟩

theorem kv_same_trans {m2 m1 m : rb_mem} (h2 : kv_same m2 m1) (h1 : kv_same m1 m) :
    kv_same m2 m := fun a => ⟨(h2 a).1.trans (h1 a).1, (h2 a).2.trans (h1 a).2⟩

theorem kv_same_set_color (m : rb_mem) (x : Nat) (c : rb_color) :
    kv_same (set_color m x c) m := fun _ => ⟨by simp, by simp⟩

theorem kv_same_set_parent (m : rb_mem) (x p : Nat) :
    kv_same (set_parent m x p) m := fun _ => ⟨by simp, by simp⟩

theorem kv_same_set_left (m : rb_mem) (x p : Nat) :
    kv_same (set_left m x p) m := fun _ => ⟨by simp, by simp⟩

theorem kv_same_set_right (m : rb_mem) (x p : Nat) :
    kv_same (set_right m x p) m := fun _ => ⟨by simp, by simp⟩

theorem kv_same_rotl (m : rb_mem) (tree : rb_tree_t) (x : Nat) :
    kv_same (rb_tree_rotl m tree x).1 m := by
  intro a
  unfold rb_tree_rotl
  constructor <;> (simp only []; split_ifs <;> simp)

theorem kv_same_rotr (m : rb_mem) (tree : rb_tree_t) (x : Nat) :
    kv_same (rb_tree_rotr m tree x).1 m := by
  intro a
  unfold rb_tree_rotr
  constructor <;> (simp only []; split_ifs <;> simp)

@[simp] theorem rotl_get_key (m : rb_mem) (tree : rb_tree_t) (x a : Nat) :
    ((rb_tree_rotl m tree x).1.nodes a).key = (m.nodes a).key := (kv_same_rotl m tree x a).1

@[simp] theorem rotl_get_value (m : rb_mem) (tree : rb_tree_t) (x a : Nat) :
    ((rb_tree_rotl m tree x).1.nodes a).value = (m.nodes a).value := (kv_same_rotl m tree x a).2

@[simp] theorem rotr_get_key (m : rb_mem) (tree : rb_tree_t) (x a : Nat) :
    ((rb_tree_rotr m tree x).1.nodes a).key = (m.nodes a).key := (kv_same_rotr m tree x a).1

@[simp] theorem rotr_get_value (m : rb_mem) (tree : rb_tree_t) (x a : Nat) :
    ((rb_tree_rotr m tree x).1.nodes a).value = (m.nodes a).value := (kv_same_rotr m tree x a).2

theorem kv_same_red_l (m : rb_mem) (tree : rb_tree_t) (x w : Nat) :
    kv_same (remove_fixup_red_l m tree x w).1 m := by
  intro a
  simp [remove_fixup_red_l]

theorem kv_same_red_r (m : rb_mem) (tree : rb_tree_t) (x w : Nat) :
    kv_same (remove_fixup_red_r m tree x w).1 m := by
  intro a
  simp [remove_fixup_red_r]

theorem kv_same_black_l (m : rb_mem) (tree : rb_tree_t) (x w : Nat) :
    kv_same (remove_fixup_black_l m tree x w).1 m := by
  intro a
  unfold remove_fixup_black_l
  split_ifs <;> simp

theorem kv_same_black_r (m : rb_mem) (tree : rb_tree_t) (x w : Nat) :
    kv_same (remove_fixup_black_r m tree x w).1 m := by
  intro a
  unfold remove_fixup_black_r
  split_ifs <;> simp

theorem kv_same_step (m : rb_mem) (tree : rb_tree_t) (x : Nat) :
    kv_same (remove_fixup_step m tree x).1 m := by
  unfold remove_fixup_step
  by_cases h1 : x = (m.nodes (m.nodes x).parent).left
  · by_cases h2 : (m.nodes (m.nodes (m.nodes x).parent).right).color = .RB_RED
    · simp only [if_pos h1, if_pos h2]
      exact kv_same_trans (kv_same_black_l _ _ _ _) (kv_same_red_l _ _ _ _)
    · simp only [if_pos h1, if_neg h2]
      exact kv_same_black_l _ _ _ _
  · by_cases h2 : (m.nodes (m.nodes (m.nodes x).parent).left).color = .RB_RED
    · simp only [if_neg h1, if_pos h2]
      exact kv_same_trans (kv_same_black_r _ _ _ _) (kv_same_red_r _ _ _ _)
    · simp only [if_neg h1, if_neg h2]
      exact kv_same_black_r _ _ _ _

theorem kv_same_loop : ∀ (fuel : Nat) (m : rb_mem) (tree : rb_tree_t) (x : Nat)
    (r : rb_mem × rb_tree_t × Nat), remove_fixup_loop fuel m tree x = some r →
    kv_same r.1 m := by
  intro fuel
  induction fuel with
  | zero => intro m tree x r h; simp [remove_fixup_loop] at h
  | succ n ih =>
    intro m tree x r h
    simp only [remove_fixup_loop] at h
    split at h
    · exact kv_same_trans (ih _ _ _ r h) (kv_same_step m tree x)
    · simp only [Option.some.injEq] at h
      subst h
      exact kv_same_refl m

theorem kv_same_remove_fixup (m : rb_mem) (tree : rb_tree_t) (x : Nat)
    (r : rb_mem × rb_tree_t) (h : rb_tree_remove_fixup m tree x = some r) : kv_same r.1 m := by
  simp only [rb_tree_remove_fixup] at h
  cases hl : remove_fixup_loop m.next m tree x with
  | none => rw [hl] at h; simp at h
  | some q =>
    rw [hl] at h
    simp only [Option.some.injEq] at h
    subst h
    exact kv_same_trans (kv_same_set_color _ _ _) (kv_same_loop _ _ _ _ q hl)

/-- The function `rb_tree_remove_fixup` on a tree in memory. -/
theorem remove_fixup_spec (m : rb_mem) (tree : rb_tree_t) (P : List rb_frame) (X : rbt)
    (P1 : List rb_frame) (X1 : rbt) (h : heap_ok m (zip P X))
    (hs : (m.nodes NIL).color = .RB_BLACK)
    (hn : X = .nil → (m.nodes NIL).parent = path_ptr P)
    (hroot : tree.root = (zip P X).ptr) (hd : del_loop P X = some (P1, X1))
    (hfuel : P.length + 2 ≤ m.next) :
    ∃ m1, rb_tree_remove_fixup m tree X.ptr
        = some (m1, { tree with root := (zip P1 X1.blacken).ptr })
      ∧ heap_ok m1 (zip P1 X1.blacken) ∧ m1.next = m.next
      ∧ (m1.nodes NIL).color = .RB_BLACK := by
  obtain ⟨m1, hl, h1, hn1, hz1⟩ :=
    remove_fixup_loop_sim P X m tree P1 X1 m.next h hs hn hroot hd hfuel
  have hptr : (zip P1 X1.blacken).ptr = (zip P1 X1).ptr :=
    zip_ptr_congr P1 _ _ (blacken_ptr X1)
  refine ⟨set_color m1 X1.ptr .RB_BLACK, ?_, ?_, hn1, ?_⟩
  · simp only [rb_tree_remove_fixup, hl, hptr]
  · cases X1 with
    | nil =>
      apply heap_ok_congr h1
      intro z hz
      have hz2 := h1.2.2 z hz
      rw [set_color_nodes, ptr_nil, if_neg (ne_nil_of_ge hz2)]
    | node l x c k v r => exact heap_recolor .RB_BLACK h1
  · rw [set_color_get_color]
    split
    · rfl
    · rw [hz1]; exact hs

theorem path_ok_frame_kv (inner : List rb_frame) (f : rb_frame) (P : List rb_frame)
    (k1 v1 : Nat) : ∀ (n : Nat) (c : rb_color),
    path_ok (inner ++ f :: P) n c → path_ok (inner ++ { f with k := k1, v := v1 } :: P) n c := by
  induction inner with
  | nil => intro n c h; exact h
  | cons g gs ih => intro n c h; exact ⟨h.1, h.2.1, h.2.2.1, ih _ _ h.2.2.2⟩

theorem root_black_frame_kv (inner : List rb_frame) (f : rb_frame) (P : List rb_frame)
    (k1 v1 : Nat) :
    path_root_black (inner ++ f :: P) →
      path_root_black (inner ++ { f with k := k1, v := v1 } :: P) := by
  induction inner with
  | nil =>
    intro h
    cases P with
    | nil => exact h
    | cons a as => exact h
  | cons g gs ih =>
    intro h
    cases gs with
    | nil => exact ih h
    | cons a as => exact ih h

theorem path_ptr_frame_kv (inner : List rb_frame) (f : rb_frame) (P : List rb_frame)
    (k1 v1 : Nat) :
    path_ptr (inner ++ { f with k := k1, v := v1 } :: P) = path_ptr (inner ++ f :: P) := by
  cases inner <;> rfl

theorem path_par_frame_kv (inner : List rb_frame) (f : rb_frame) (P : List rb_frame)
    (k1 v1 : Nat) :
    path_par (inner ++ { f with k := k1, v := v1 } :: P) = path_par (inner ++ f :: P) := by
  cases inner <;> rfl

theorem path_ptr_ne_nil_of_mem {m : rb_mem} {f : rb_frame} {fs : List rb_frame} {t : rbt}
    (h : heap_ok m (zip (f :: fs) t)) : path_ptr (f :: fs) ≠ NIL :=
  ne_nil_of_ge (heap_frame_ge h)

theorem kv_same_splice (m : rb_mem) (Q : List rb_frame) (X : rbt) :
    kv_same (splice_mem m Q X) m := by
  intro a
  unfold splice_mem
  split_ifs <;> simp

theorem splice_mem_next (m : rb_mem) (Q : List rb_frame) (X : rbt) :
    (splice_mem m Q X).next = m.next := by
  unfold splice_mem
  split_ifs <;> rfl

/-- The value of `rb_tree_remove_node` once the node `y` to unlink is known. -/
theorem remove_node_eval (m : rb_mem) (tree : rb_tree_t) (z : Nat) (Q : List rb_frame)
    (yl yr : rbt) (y : Nat) (yc : rb_color) (yk yv : Nat) (X : rbt)
    (h : heap_ok m (zip Q (.node yl y yc yk yv yr)))
    (hX : (yl = .nil ∧ X = yr) ∨ (yr = .nil ∧ X = yl))
    (hsel : (if (m.nodes z).left ≠ NIL ∧ (m.nodes z).right ≠ NIL then rb_node_successor m z
             else some z) = some y) :
    rb_tree_remove_node m tree z
      = match (if yc = .RB_BLACK then
                 rb_tree_remove_fixup
                   (if y ≠ z then
                      set_kv (set_kv (splice_mem m Q X) z yk yv) y (m.nodes z).key
                        (m.nodes z).value
                    else splice_mem m Q X)
                   (if path_ptr Q = NIL then { tree with root := X.ptr } else tree) X.ptr
               else
                 some ((if y ≠ z then
                      set_kv (set_kv (splice_mem m Q X) z yk yv) y (m.nodes z).key
                        (m.nodes z).value
                    else splice_mem m Q X),
                   (if path_ptr Q = NIL then { tree with root := X.ptr } else tree))) with
        | none => none
        | some (m1, tree1) =>
          some (m1, { tree1 with size := tree1.size - 1 }, if y ≠ z then y else z) := by
  have hy := heap_node h
  have hy2 := heap_node_ge h
  have hxptr : (if yl.ptr = NIL then yr.ptr else yl.ptr) = X.ptr := by
    rcases hX with ⟨rfl, rfl⟩ | ⟨rfl, rfl⟩
    · simp
    · simp only [ptr_nil]
      split <;> simp_all
  have hXy : X.ptr ≠ y := by
    have hnd := heap_sub_nodup h
    rw [List.nodup_append] at hnd
    have hn := hnd.2.1
    simp only [rbt.ids, List.nodup_append, List.nodup_cons] at hn
    rcases ptr_nil_or_mem X with e | e
    · rw [e]; exact (ne_nil_of_ge hy2).symm
    · rcases hX with ⟨_, rfl⟩ | ⟨_, rfl⟩
      · rintro e1; rw [e1] at e; exact hn.2.1.1 e
      · rintro e1; rw [e1] at e; exact hn.2.2 e (by simp)
  have hyp : (m.nodes y).parent = path_ptr Q := by rw [hy]
  have hyl : (m.nodes y).left = yl.ptr := by rw [hy]
  have hyr : (m.nodes y).right = yr.ptr := by rw [hy]
  have hyc : (m.nodes y).color = yc := by rw [hy]
  have hyk : (m.nodes y).key = yk := by rw [hy]
  have hyv : (m.nodes y).value = yv := by rw [hy]
  unfold rb_tree_remove_node
  rw [hsel]
  clear hsel
  cases Q with
  | nil =>
    simp only [path_ptr_nil] at hyp
    by_cases hyz : y = z
    · subst hyz
      simp [splice_mem, Ne.symm hXy, rb_node_swap, hyp, hyl, hyr, hyc, hyk, hyv, hxptr] <;> rfl
    · simp [splice_mem, Ne.symm hXy, rb_node_swap, hyp, hyl, hyr, hyc, hyk, hyv, hxptr, hyz] <;> rfl
  | cons f fs =>
    have hfn := ne_nil_of_ge (heap_frame_ge h)
    have hp := heap_frame h
    have hys := heap_ne_sib h
    have hXf : X.ptr ≠ f.x := by
      have hnd := heap_sub_nodup h
      rw [List.nodup_append] at hnd
      rcases ptr_nil_or_mem X with e | e
      · rw [e]; exact hfn.symm
      · intro e1
        refine hnd.2.2 (show f.x ∈ path_ids (f :: fs) by simp [path_ids]) ?_
        rw [← e1]
        simp only [rbt.ids, List.mem_append, List.mem_cons]
        rcases hX with ⟨_, rfl⟩ | ⟨_, rfl⟩
        · exact Or.inr (Or.inr e)
        · exact Or.inl e
    have hpl : y = (m.nodes f.x).left ↔ f.left = true := by
      rw [hp]
      cases f.left
      · simpa using hys
      · simp
    simp only [path_ptr_cons] at hyp
    by_cases hyz : y = z
    · subst hyz
      cases hl : f.left <;>
        simp [splice_mem, path_par, Ne.symm hXy, rb_node_swap, hyp, hyl, hyr, hyc, hyk, hyv, hxptr,
          hfn, hXf, Ne.symm hXf, hpl, hl] <;> rfl
    · cases hl : f.left <;>
        simp [splice_mem, path_par, Ne.symm hXy, rb_node_swap, hyp, hyl, hyr, hyc, hyk, hyv, hxptr,
          hfn, hXf, Ne.symm hXf, hpl, hl, hyz] <;> rfl

/-- The end of `rb_tree_remove_node`: the fixup, if the unlinked node was black, gives a
red-black tree with the same nodes in the same order. -/
theorem remove_finish (m2 : rb_mem) (tree2 : rb_tree_t) (Q : List rb_frame) (yl yr : rbt)
    (y : Nat) (yc : rb_color) (yk yv : Nat) (X : rbt)
    (hX : (yl = .nil ∧ X = yr) ∨ (yr = .nil ∧ X = yl))
    (h : heap_ok m2 (zip Q X)) (hs : (m2.nodes NIL).color = .RB_BLACK)
    (hn : X = .nil → (m2.nodes NIL).parent = path_ptr Q)
    (hroot : tree2.root = (zip Q X).ptr)
    (hok : (zip Q (.node yl y yc yk yv yr)).rb_ok)
    (hblk : (zip Q (.node yl y yc yk yv yr)).color = .RB_BLACK)
    (hfuel : Q.length + 2 ≤ m2.next) :
    ∃ m1 T, (if yc = .RB_BLACK then rb_tree_remove_fixup m2 tree2 X.ptr
             else some (m2, tree2)) = some (m1, { tree2 with root := T.ptr })
      ∧ heap_ok m1 T ∧ T.rb_ok ∧ T.color = .RB_BLACK ∧ T.items = (zip Q X).items
      ∧ m1.next = m2.next ∧ (m1.nodes NIL).color = .RB_BLACK ∧ kv_same m1 m2 := by
  obtain ⟨hyok, hpok⟩ := path_ok_of_zip Q _ hok
  obtain ⟨yl_ok, yr_ok, y_bh, y_red⟩ := hyok
  have hXok : X.rb_ok := by
    rcases hX with ⟨_, rfl⟩ | ⟨_, rfl⟩
    · exact yr_ok
    · exact yl_ok
  have hXbh : X.bh = yl.bh := by
    rcases hX with ⟨_, rfl⟩ | ⟨_, rfl⟩
    · exact y_bh.symm
    · rfl
  have hprb : path_root_black Q := root_black_of_zip Q _ (fun _ => hblk)
  rcases color_cases yc with hyc | hyc
  · subst hyc
    simp only [rbt.bh, if_true, color_node] at hpok
    rw [← hXbh] at hpok
    obtain ⟨P1, X1, hd, hT, hTc⟩ := del_loop_ok Q X (blacken_ok hXok) hpok hprb
    obtain ⟨m1, hf, h1, hn1, hs1⟩ := remove_fixup_spec m2 tree2 Q X P1 X1 h hs hn hroot hd hfuel
    refine ⟨m1, zip P1 X1.blacken, ?_, h1, hT, hTc, ?_, hn1, hs1, ?_⟩
    · rw [if_pos rfl, hf]
    · rw [items_zip_congr P1 _ _ (blacken_items X1)]
      exact del_loop_items Q X P1 X1 hd
    · exact kv_same_remove_fixup m2 tree2 X.ptr _ hf
  · subst hyc
    simp only [rbt.bh, reduceCtorEq, if_false, Nat.add_zero, color_node] at hpok
    obtain ⟨c1, c2⟩ := y_red rfl
    have hXc : X.color = .RB_BLACK := by
      rcases hX with ⟨_, rfl⟩ | ⟨_, rfl⟩
      · exact c2
      · exact c1
    have hQ : Q ≠ [] := by
      rintro rfl
      exact absurd hblk (by simp [zip])
    refine ⟨m2, zip Q X, ?_, h, ?_, ?_, rfl, rfl, hs, kv_same_refl m2⟩
    · rw [if_neg (by simp)]
      exact congrArg (fun t => some (m2, t)) (tree_root_eta tree2 _ hroot).symm
    · exact zip_ok Q X _ _ (path_ok_black hpok) hXok hXbh hXc
    · exact zip_color_root_black Q X hQ hprb

theorem entries_eq_map (t : rbt) : t.entries = t.items.map fun e => e.2 := rfl

theorem tree_inv_fuel {m : rb_mem} {tree : rb_tree_t} {t : rbt} (hinv : tree_inv m tree t)
    (Q : List rb_frame) (s : rbt) (hz : zip Q s = t) (hs : s ≠ .nil) :
    Q.length + 3 ≤ m.next := by
  have h1 := path_length_le Q
  have h2 := (ids_zip_perm Q s).length_eq
  rw [hz, List.length_append] at h2
  have h3 := nodup_bounded_length t.ids m.next hinv.nodup hinv.alloc hinv.next_ge
  have h4 : 1 ≤ s.ids.length := by
    cases s with
    | nil => exact absurd rfl hs
    | node l x c k v r => simp only [rbt.ids, List.length_append, List.length_cons]; omega
  omega

theorem splice_root (tree : rb_tree_t) (Q : List rb_frame) (t0 X : rbt)
    (hroot : tree.root = (zip Q t0).ptr) (hge : ∀ z ∈ path_ids Q, 2 ≤ z) :
    (if path_ptr Q = NIL then { tree with root := X.ptr } else tree).root = (zip Q X).ptr := by
  rw [root_update tree Q t0 X X.ptr hroot hge rfl]

theorem splice_tree_size (tree : rb_tree_t) (Q : List rb_frame) (X : rbt) (r : Nat) :
    ({ ({ (if path_ptr Q = NIL then { tree with root := X.ptr } else tree) with root := r }
        : rb_tree_t) with
      size := (if path_ptr Q = NIL then ({ tree with root := X.ptr } : rb_tree_t)
               else tree).size - 1 } : rb_tree_t)
      = { tree with root := r, size := tree.size - 1 } := by
  split <;> rfl

/-- The call `rb_tree_remove_node` on a node with at most one child. -/
theorem remove_node_leaf {m : rb_mem} {tree : rb_tree_t} {t : rbt} (hinv : tree_inv m tree t)
    (P : List rb_frame) (l r : rbt) (z : Nat) (c : rb_color) (k v : Nat)
    (hz : zip P (.node l z c k v r) = t) (hlr : l = .nil ∨ r = .nil) :
    ∃ m1 T, rb_tree_remove_node m tree z
        = some (m1, { tree with root := T.ptr, size := tree.size - 1 }, z)
      ∧ heap_ok m1 T ∧ T.rb_ok ∧ T.color = .RB_BLACK ∧ m1.next = m.next
      ∧ (m1.nodes NIL).color = .RB_BLACK
      ∧ T.items = (path_before P ++ l.items) ++ (r.items ++ path_after P)
      ∧ (m1.nodes z).key = k ∧ (m1.nodes z).value = v := by
  have h : heap_ok m (zip P (.node l z c k v r)) := by rw [hz]; exact tree_inv_heap hinv
  have hzn := heap_node h
  have hall := heap_sub_all h
  obtain ⟨X, hX, hXi⟩ : ∃ X, ((l = .nil ∧ X = r) ∨ (r = .nil ∧ X = l))
      ∧ X.items = l.items ++ r.items := by
    cases l with
    | nil => exact ⟨r, Or.inl ⟨rfl, rfl⟩, by simp [rbt.items]⟩
    | node ll x cl kl vl lr =>
      rcases hlr with e | e
      · cases e
      · subst e
        exact ⟨_, Or.inr ⟨rfl, rfl⟩, by simp [rbt.items]⟩
  have hsel : (if (m.nodes z).left ≠ NIL ∧ (m.nodes z).right ≠ NIL then rb_node_successor m z
      else some z) = some z := by
    rw [if_neg]
    rw [hzn]
    rcases hlr with rfl | rfl <;> simp
  have hev := remove_node_eval m tree z P l r z c k v X h hX hsel
  obtain ⟨hS, hNp, hNc, _⟩ := heap_splice m P l r z c k v X h hX
  have hroot2 := splice_root tree P _ X (hinv.root.trans (congrArg rbt.ptr hz.symm))
    (heap_path_ge h)
  obtain ⟨m1, T, hf, h1, hTok, hTc, hTi, hn1, hs1, hkv⟩ :=
    remove_finish (splice_mem m P X) _ P l r z c k v X hX hS (hNc.trans hinv.sentinel) hNp hroot2
      (by rw [hz]; exact hinv.ok) (by rw [hz]; exact hinv.black)
      (by rw [splice_mem_next]; have := tree_inv_fuel hinv P _ hz (by simp); omega)
  refine ⟨m1, T, ?_, h1, hTok, hTc, hn1.trans (splice_mem_next m P X), hs1, ?_, ?_, ?_⟩
  · rw [hev]
    simp only [ne_eq, not_true_eq_false, if_false]
    rw [hf]
    simp only
    exact congrArg (fun t => some (m1, t, z)) (splice_tree_size tree P X T.ptr)
  · rw [hTi, items_zip, hXi]
    simp
  · rw [(hkv z).1, (kv_same_splice m P X z).1, hzn]
  · rw [(hkv z).2, (kv_same_splice m P X z).2, hzn]

theorem path_ids_frame_kv (inner : List rb_frame) (f : rb_frame) (P : List rb_frame)
    (k1 v1 : Nat) :
    path_ids (inner ++ { f with k := k1, v := v1 } :: P) = path_ids (inner ++ f :: P) := by
  induction inner with
  | nil => rfl
  | cons g gs ih =>
    show g.x :: (g.sib.ids ++ path_ids (gs ++ _)) = g.x :: (g.sib.ids ++ path_ids (gs ++ _))
    rw [ih]

theorem length_frame_kv (inner : List rb_frame) (f : rb_frame) (P : List rb_frame)
    (k1 v1 : Nat) :
    (inner ++ { f with k := k1, v := v1 } :: P).length = (inner ++ f :: P).length := by
  simp

theorem zip_frame_kv_ptr (inner : List rb_frame) (f : rb_frame) (P : List rb_frame)
    (k1 v1 : Nat) (t t1 : rbt) :
    (zip (inner ++ { f with k := k1, v := v1 } :: P) t).ptr = (zip (inner ++ f :: P) t1).ptr := by
  rw [zip_append, zip_append]
  cases P with
  | nil =>
    obtain ⟨l, x, c, k, v, s⟩ := f
    cases l <;> rfl
  | cons g gs =>
    rw [zip_cons, zip_cons]
    exact zip_ptr_cons g gs _ _

theorem zip_frame_kv_color (inner : List rb_frame) (f : rb_frame) (P : List rb_frame)
    (k1 v1 : Nat) (t t1 : rbt) :
    (zip (inner ++ { f with k := k1, v := v1 } :: P) t).color
      = (zip (inner ++ f :: P) t1).color := by
  rw [zip_append, zip_append]
  cases P with
  | nil =>
    obtain ⟨l, x, c, k, v, s⟩ := f
    cases l <;> rfl
  | cons g gs =>
    rw [zip_cons, zip_cons]
    exact zip_color_cons g gs _ _

theorem zip_frame_kv_ok (inner : List rb_frame) (f : rb_frame) (P : List rb_frame)
    (k1 v1 : Nat) (t : rbt) (h : (zip (inner ++ f :: P) t).rb_ok) :
    (zip (inner ++ { f with k := k1, v := v1 } :: P) t).rb_ok := by
  obtain ⟨h1, h2⟩ := path_ok_of_zip _ _ h
  exact zip_ok _ _ _ _ (path_ok_frame_kv inner f P k1 v1 _ _ h2) h1 rfl rfl

theorem heap_splice_mem (m : rb_mem) (Q : List rb_frame) (yl yr : rbt) (y : Nat)
    (yc : rb_color) (yk yv : Nat) (X : rbt) (h : heap_ok m (zip Q (.node yl y yc yk yv yr)))
    (hX : (yl = .nil ∧ X = yr) ∨ (yr = .nil ∧ X = yl)) :
    heap_ok (splice_mem m Q X) (zip Q X)
    ∧ (X = .nil → ((splice_mem m Q X).nodes NIL).parent = path_ptr Q)
    ∧ ((splice_mem m Q X).nodes NIL).color = (m.nodes NIL).color
    ∧ (splice_mem m Q X).nodes y = m.nodes y :=
  heap_splice m Q yl yr y yc yk yv X h hX

/-- The call `rb_tree_remove_node` on a node with two children: its successor is
unlinked and the node takes the key and the value of the successor. -/
theorem remove_node_inner {m : rb_mem} {tree : rb_tree_t} {t : rbt} (hinv : tree_inv m tree t)
    (P : List rb_frame) (l r : rbt) (z : Nat) (c : rb_color) (k v : Nat)
    (hz : zip P (.node l z c k v r) = t) (hl : l ≠ .nil) (hr : r ≠ .nil) :
    ∃ (m1 : rb_mem) (T : rbt) (inner : List rb_frame) (y yk yv : Nat) (yr : rbt),
      rb_tree_remove_node m tree z
        = some (m1, { tree with root := T.ptr, size := tree.size - 1 }, y)
      ∧ heap_ok m1 T ∧ T.rb_ok ∧ T.color = .RB_BLACK ∧ m1.next = m.next
      ∧ (m1.nodes NIL).color = .RB_BLACK
      ∧ r.items = (y, yk, yv) :: (yr.items ++ path_after inner)
      ∧ T.items = (path_before P ++ l.items) ++ (z, yk, yv) :: (yr.items ++ path_after inner
          ++ path_after P)
      ∧ (m1.nodes y).key = k ∧ (m1.nodes y).value = v := by
  have h : heap_ok m (zip P (.node l z c k v r)) := by rw [hz]; exact tree_inv_heap hinv
  have hzn := heap_node h
  have hrep := (rep_zip m P _).1 h.1
  have hrr : tree_rep m r z := hrep.2.2.2
  have hr2 : ∀ x ∈ r.ids, 2 ≤ x := by
    intro x hx
    apply heap_sub_all h
    simp [rbt.ids, hx]
  obtain ⟨inner, y, yc, yk, yv, yr, hmp, hzr, hpb, hlen⟩ := min_path_spec r [] hr
  have hheight : r.height ≤ m.next := by
    have h1 := height_le_length r
    have h2 := (ids_zip_perm P (.node l z c k v r)).length_eq
    rw [hz] at h2
    simp only [rbt.ids, List.length_append, List.length_cons] at h2
    have h3 := nodup_bounded_length t.ids m.next hinv.nodup hinv.alloc hinv.next_ge
    omega
  have hmin := min_loop_eq m r [] z m.next hrr hr2 hr hheight
  rw [hmp] at hmin
  simp only [ptr_node] at hmin
  have hln : l.ptr ≠ NIL := fun e => hl ((ptr_eq_nil_iff l (fun x hx => heap_sub_all h x (by
    simp [rbt.ids, hx]))).1 e)
  have hrn : r.ptr ≠ NIL := fun e => hr ((ptr_eq_nil_iff r hr2).1 e)
  have hsel : (if (m.nodes z).left ≠ NIL ∧ (m.nodes z).right ≠ NIL then rb_node_successor m z
      else some z) = some y := by
    rw [if_pos (by rw [hzn]; exact ⟨hln, hrn⟩)]
    unfold rb_node_successor
    rw [if_pos (by rw [hzn]; exact hrn)]
    rw [hzn]
    exact hmin
  -- the place of the successor
  have hzQ : zip (inner ++ ⟨false, z, c, k, v, l⟩ :: P) (.node .nil y yc yk yv yr) = t := by
    rw [zip_append, hzr]
    exact hz
  have hQ : heap_ok m (zip (inner ++ ⟨false, z, c, k, v, l⟩ :: P) (.node .nil y yc yk yv yr)) := by
    rw [hzQ]; exact tree_inv_heap hinv
  have hnd := heap_sub_nodup hQ
  have hyz : y ≠ z := by
    intro e
    rw [List.nodup_append] at hnd
    refine hnd.2.2 (show z ∈ path_ids (inner ++ ⟨false, z, c, k, v, l⟩ :: P) from ?_)
      (show z ∈ (rbt.node .nil y yc yk yv yr).ids by simp [rbt.ids, e])
    rw [(path_ids_append inner _).mem_iff]
    simp [path_ids]
  have hev := remove_node_eval m tree z _ .nil yr y yc yk yv yr hQ (Or.inl ⟨rfl, rfl⟩) hsel
  obtain ⟨hS, hNp, hNc, _⟩ := heap_splice_mem m _ .nil yr y yc yk yv yr hQ (Or.inl ⟨rfl, rfl⟩)
  have hS1 := heap_set_kv_frame yk yv hS
  have hyid : y ∉ (zip (inner ++ ⟨false, z, c, yk, yv, l⟩ :: P) yr).ids := by
    intro hm
    rw [(ids_zip_perm _ _).mem_iff, List.mem_append] at hm
    rw [List.nodup_append] at hnd
    rcases hm with hm | hm
    · rw [path_ids_frame_kv inner ⟨false, z, c, k, v, l⟩ P yk yv] at hm
      exact hnd.2.2 hm (by simp [rbt.ids])
    · have := hnd.2.1
      simp only [rbt.ids, List.nil_append, List.nodup_cons] at this
      exact this.1 hm
  have hS2 : heap_ok (set_kv (set_kv (splice_mem m (inner ++ ⟨false, z, c, k, v, l⟩ :: P) yr)
      z yk yv) y (m.nodes z).key (m.nodes z).value)
      (zip (inner ++ ⟨false, z, c, yk, yv, l⟩ :: P) yr) := by
    apply heap_ok_congr hS1
    intro a ha
    rw [set_kv_nodes, if_neg (by rintro rfl; exact hyid ha)]
  have hQne : path_ptr (inner ++ ⟨false, z, c, k, v, l⟩ :: P) ≠ NIL := by
    cases inner with
    | nil => exact ne_nil_of_ge (@heap_frame_ge _ _ P _ hQ)
    | cons g gs => exact ne_nil_of_ge (@heap_frame_ge _ _ (gs ++ _ :: P) _ hQ)
  have hroot2 : tree.root = (zip (inner ++ ⟨false, z, c, yk, yv, l⟩ :: P) yr).ptr := by
    have e := zip_frame_kv_ptr inner ⟨false, z, c, k, v, l⟩ P yk yv yr (.node .nil y yc yk yv yr)
    rw [hzQ] at e
    exact hinv.root.trans e.symm
  obtain ⟨m1, T, hf, h1, hTok, hTc, hTi, hn1, hs1, hkv⟩ :=
    remove_finish _ tree (inner ++ ⟨false, z, c, yk, yv, l⟩ :: P) .nil yr y yc yk yv yr
      (Or.inl ⟨rfl, rfl⟩) hS2
      (by simp only [set_kv_get_color]; exact hNc.trans hinv.sentinel)
      (by
        intro e
        simp only [set_kv_get_parent]
        rw [hNp e]
        exact (path_ptr_frame_kv inner ⟨false, z, c, k, v, l⟩ P yk yv).symm)
      hroot2
      (zip_frame_kv_ok inner ⟨false, z, c, k, v, l⟩ P yk yv _ (by rw [hzQ]; exact hinv.ok))
      (by
        rw [zip_frame_kv_color inner ⟨false, z, c, k, v, l⟩ P yk yv _ (.node .nil y yc yk yv yr),
          hzQ]
        exact hinv.black)
      (by
        have := tree_inv_fuel hinv _ _ hzQ (by simp)
        simp only [set_kv_next, splice_mem_next]
        simp only [List.length_append, List.length_cons] at this ⊢
        omega)
  have hri : r.items = (y, yk, yv) :: (yr.items ++ path_after inner) := by
    rw [← hzr, items_zip, hpb]
    simp [rbt.items]
  refine ⟨m1, T, inner, y, yk, yv, yr, ?_, h1, hTok, hTc, ?_, hs1, hri, ?_, ?_, ?_⟩
  · rw [hev, if_neg hQne, if_pos hyz, if_pos hyz]
    rw [hf]
  · rw [hn1]
    simp only [set_kv_next, splice_mem_next]
  · rw [hTi, items_zip, path_before_append, path_after_append, hpb]
    simp [path_before, path_after]
  · rw [(hkv y).1]
    simp only [set_kv_get_key, if_true]
    rw [hzn]
  · rw [(hkv y).2]
    simp only [set_kv_get_value, if_true]
    rw [hzn]

/-! ## Red-black tree: `rb_tree_remove` -/

/-- The call `rb_tree_remove` when no key compares equal on the search path. -/
theorem rb_tree_remove_absent {m : rb_mem} {tree : rb_tree_t} {t : rbt} (key : Nat)
    (hinv : tree_inv m tree t) (hf : t.find tree.compare key = NULL) :
    rb_tree_remove m tree key = some (m, tree, NULL) := by
  have h := remove_loop_eq m tree.compare key t NIL m.next hinv.rep
    (fun z hz => (hinv.alloc z hz).1) (tree_inv_height hinv)
  simp only [rb_tree_remove, hinv.root, h, hf, if_true]

theorem tree_inv_of_heap {m m1 : rb_mem} {tree : rb_tree_t} {t T : rbt} (size : Nat)
    (hinv : tree_inv m tree t) (h1 : heap_ok m1 T) (hok : T.rb_ok) (hc : T.color = .RB_BLACK)
    (hn : m1.next = m.next) (hs : (m1.nodes NIL).color = .RB_BLACK)
    (hids : ∀ x ∈ T.ids, x ∈ t.ids) (hkeys : T.keys.Sublist t.keys) :
    tree_inv m1 { tree with root := T.ptr, size := size } T := by
  refine ⟨h1.1, rfl, h1.2.1, ?_, by rw [hn]; exact hinv.next_ge, hs, hok, hc, ?_⟩
  · intro x hx
    rw [hn]
    exact hinv.alloc x (hids x hx)
  · exact List.Pairwise.sublist hkeys hinv.sorted

theorem perm_skip {α : Type} (y z : α) (A R : List α) :
    (y :: (A ++ z :: R)).Perm (A ++ z :: y :: R) :=
  List.perm_middle.symm.trans (List.Perm.append_left A (List.Perm.swap z y R))

/-- The call `rb_tree_remove` when a key compares equal on the search path: the entry
found is removed, the tree stays a red-black tree, and the node returned carries the
entry. -/
theorem rb_tree_remove_present {m : rb_mem} {tree : rb_tree_t} {t : rbt} (key : Nat)
    (hinv : tree_inv m tree t) (hf : t.find tree.compare key ≠ NULL) :
    ∃ (m1 : rb_mem) (T : rbt) (ret k v : Nat) (eb ea : List (Nat × Nat)),
      rb_tree_remove m tree key
        = some (m1, { tree with root := T.ptr, size := tree.size - 1 }, ret)
      ∧ tree_inv m1 { tree with root := T.ptr, size := tree.size - 1 } T
      ∧ ret ≠ NULL ∧ tree.compare key k = 0
      ∧ (m1.nodes ret).key = k ∧ (m1.nodes ret).value = v
      ∧ t.entries = eb ++ (k, v) :: ea ∧ T.entries = eb ++ ea
      ∧ (ret :: T.ids).Perm t.ids ∧ m1.next = m.next := by
  have hloop := remove_loop_eq m tree.compare key t NIL m.next hinv.rep
    (fun z hz => (hinv.alloc z hz).1) (tree_inv_height hinv)
  have hfp := find_path_spec tree.compare key t []
  cases hp : t.find_path tree.compare key [] with
  | none =>
    rw [hp] at hfp
    exact absurd hfp hf
  | some ps =>
    obtain ⟨P, s⟩ := ps
    rw [hp] at hfp
    obtain ⟨hz, hptr, l, z, c, k, v, r, rfl, hk⟩ := hfp
    simp only [zip_nil, ptr_node] at hz hptr
    have hev : rb_tree_remove m tree key = rb_tree_remove_node m tree z := by
      simp only [rb_tree_remove, hinv.root, hloop, ← hptr]
      rw [if_neg]
      rw [hptr]
      exact hf
    have hti : t.items = (path_before P ++ l.items) ++ (z, k, v) :: (r.items ++ path_after P) := by
      rw [← hz, items_zip]
      simp [rbt.items]
    have hz0 : z ≠ NULL := by rw [hptr]; exact hf
    by_cases hlr : l = .nil ∨ r = .nil
    · obtain ⟨m1, T, he, h1, hTok, hTc, hn1, hs1, hTi, hrk, hrv⟩ :=
        remove_node_leaf hinv P l r z c k v hz hlr
      have hperm : (z :: T.ids).Perm t.ids := by
        rw [ids_eq_map, ids_eq_map t, hTi, hti]
        simp only [List.map_append, List.map_cons]
        exact List.perm_middle.symm
      refine ⟨m1, T, z, k, v, (path_before P ++ l.items).map (fun e => e.2),
        (r.items ++ path_after P).map (fun e => e.2), hev.trans he, ?_, hz0, hk, hrk, hrv, ?_, ?_,
        hperm, hn1⟩
      · apply tree_inv_of_heap _ hinv h1 hTok hTc hn1 hs1
        · intro x hx
          exact hperm.mem_iff.1 (List.mem_cons_of_mem _ hx)
        · rw [keys_eq_map, keys_eq_map, hTi, hti]
          simp only [List.map_append, List.map_cons]
          exact List.Sublist.append (List.Sublist.refl _) (List.sublist_cons_self _ _)
      · rw [entries_eq_map, hti]
        simp
      · rw [entries_eq_map, hTi]
        simp
    · have hl : l ≠ .nil := fun e => hlr (Or.inl e)
      have hr : r ≠ .nil := fun e => hlr (Or.inr e)
      obtain ⟨m1, T, inner, y, yk, yv, yr, he, h1, hTok, hTc, hn1, hs1, hri, hTi, hrk, hrv⟩ :=
        remove_node_inner hinv P l r z c k v hz hl hr
      have hperm : (y :: T.ids).Perm t.ids := by
        rw [ids_eq_map, ids_eq_map t, hTi, hti, hri]
        simp only [List.map_append, List.map_cons, List.cons_append]
        exact perm_skip _ _ _ _
      have hy0 : y ≠ NULL := by
        have : y ∈ t.ids := hperm.mem_iff.1 (List.mem_cons_self _ _)
        have := (hinv.alloc y this).1
        unfold NULL
        omega
      refine ⟨m1, T, y, k, v, (path_before P ++ l.items).map (fun e => e.2),
        (r.items ++ path_after P).map (fun e => e.2), hev.trans he, ?_, hy0, hk, hrk, hrv, ?_, ?_,
        hperm, hn1⟩
      · apply tree_inv_of_heap _ hinv h1 hTok hTc hn1 hs1
        · intro x hx
          exact hperm.mem_iff.1 (List.mem_cons_of_mem _ hx)
        · rw [keys_eq_map, keys_eq_map, hTi, hti, hri]
          simp only [List.map_append, List.map_cons, List.append_assoc, List.cons_append]
          refine List.Sublist.append (List.Sublist.refl _) (List.Sublist.append (List.Sublist.refl _) ?_)
          exact List.sublist_cons_self _ _
      · rw [entries_eq_map, hti]
        simp
      · rw [entries_eq_map, hTi, hri]
        simp

/-! ## Red-black tree: the iterator -/

theorem first_ptr_append_cons (a : List (Nat × Nat × Nat)) (e : Nat × Nat × Nat)
    (b : List (Nat × Nat × Nat)) : first_ptr ((e :: a) ++ b) = e.1 := rfl

/-- The climb of `rb_node_successor` from a subtree ends at the next node in order. -/
theorem succ_loop_climb (m : rb_mem) : ∀ (P : List rb_frame) (s : rbt) (fuel : Nat),
    heap_ok m (zip P s) → s ≠ .nil → P.length < fuel →
    succ_loop m fuel s.ptr (path_ptr P) = some (first_ptr (path_after P)) := by
  intro P
  induction P with
  | nil =>
    intro s fuel _ _ hf
    obtain ⟨n, rfl⟩ : ∃ n, fuel = n + 1 := ⟨fuel - 1, by omega⟩
    simp [succ_loop, path_after, first_ptr]
  | cons f fs ih =>
    intro s fuel h hs hf
    obtain ⟨n, rfl⟩ : ∃ n, fuel = n + 1 := ⟨fuel - 1, by omega⟩
    obtain ⟨l, x, c, k, v, r, rfl⟩ := node_of_ne_nil hs
    have hp := heap_frame h
    have hfn := ne_nil_of_ge (heap_frame_ge h)
    have hxs := heap_ne_sib h
    simp only [ptr_node] at hp hxs
    simp only [succ_loop, path_ptr_cons, ptr_node, hp]
    obtain ⟨fl, p, pc, pk, pv, sib⟩ := f
    cases fl
    · simp only [Bool.false_eq_true, if_false, ne_eq, hfn, not_false_eq_true, and_self, if_true]
      have := ih (rb_frame.plug ⟨false, p, pc, pk, pv, sib⟩ (.node l x c k v r)) n h
        (plug_ne_nil _ _) (by simp at hf; omega)
      simpa [path_after] using this
    · simp only [if_true] at hxs ⊢
      simp [hxs, path_after, first_ptr]

theorem sub_height_bound {m : rb_mem} {P : List rb_frame} {s : rbt}
    (h : heap_ok m (zip P s)) (hb : (zip P s).ids.length + 2 ≤ m.next) :
    P.length + 2 ≤ m.next ∧ s.height + 2 ≤ m.next := by
  have h1 := path_length_le P
  have h2 := (ids_zip_perm P s).length_eq
  rw [List.length_append] at h2
  have h3 := height_le_length s
  omega

/-- The function `rb_node_successor` at a node of the tree: the next node in order. -/
theorem successor_eq {m : rb_mem} {P : List rb_frame} {l r : rbt} {x : Nat} {c : rb_color}
    {k v : Nat} (h : heap_ok m (zip P (.node l x c k v r)))
    (hb : (zip P (.node l x c k v r)).ids.length + 2 ≤ m.next) :
    rb_node_successor m x = some (first_ptr (r.items ++ path_after P)) := by
  have hx := heap_node h
  have hbd := sub_height_bound h hb
  unfold rb_node_successor
  rw [hx]
  simp only
  cases r with
  | nil =>
    simp only [ptr_nil, ne_eq, not_true_eq_false, if_false, rbt.items, List.nil_append]
    exact succ_loop_climb m P (.node l x c k v .nil) m.next h (by simp) (by omega)
  | node rl y rc rk rv rr =>
    have h1 : heap_ok m (zip (⟨false, x, c, k, v, l⟩ :: P) (.node rl y rc rk rv rr)) := h
    have hyn := ne_nil_of_ge (heap_node_ge h1)
    have hbd1 := sub_height_bound h1 hb
    have hrep := (rep_zip m _ _).1 h1.1
    simp only [ptr_node, ne_eq, hyn, not_false_eq_true, if_true]
    obtain ⟨inner, y1, c1, k1, v1, r1, hmp, hzr, hpb, _⟩ :=
      min_path_spec (.node rl y rc rk rv rr) [] (by simp)
    have hmin := min_loop_eq m (.node rl y rc rk rv rr) [] x m.next hrep.2 (heap_sub_ge h1)
      (by simp) (by omega)
    rw [hmp] at hmin
    simp only [ptr_node] at hmin
    rw [hmin, ← hzr, items_zip, hpb]
    simp [rbt.items, first_ptr]

/-- The place of the first node after a subtree. -/
theorem next_of_path : ∀ (P : List rb_frame) (s : rbt) (e : Nat × Nat × Nat)
    (rest : List (Nat × Nat × Nat)), path_after P = e :: rest →
    ∃ (P1 : List rb_frame) (l1 : rbt) (c1 : rb_color) (r1 : rbt),
      zip P1 (.node l1 e.1 c1 e.2.1 e.2.2 r1) = zip P s
      ∧ r1.items ++ path_after P1 = rest := by
  intro P
  induction P with
  | nil => intro s e rest h; simp [path_after] at h
  | cons f fs ih =>
    intro s e rest h
    obtain ⟨fl, p, pc, pk, pv, sib⟩ := f
    cases fl
    · simp only [path_after, Bool.false_eq_true, if_false, List.nil_append] at h
      obtain ⟨P1, l1, c1, r1, h1, h2⟩ := ih (rb_frame.plug ⟨false, p, pc, pk, pv, sib⟩ s) e rest h
      exact ⟨P1, l1, c1, r1, h1, h2⟩
    · simp only [path_after, if_true, List.cons_append, List.cons.injEq] at h
      obtain ⟨rfl, rfl⟩ := h
      exact ⟨fs, s, pc, sib, rfl, rfl⟩

/-- The place of the node that follows a node of the tree in order. -/
theorem next_focus (P : List rb_frame) (l r : rbt) (x : Nat) (c : rb_color) (k v : Nat)
    (e : Nat × Nat × Nat) (rest : List (Nat × Nat × Nat))
    (h : r.items ++ path_after P = e :: rest) :
    ∃ (P1 : List rb_frame) (l1 : rbt) (c1 : rb_color) (r1 : rbt),
      zip P1 (.node l1 e.1 c1 e.2.1 e.2.2 r1) = zip P (.node l x c k v r)
      ∧ r1.items ++ path_after P1 = rest := by
  cases r with
  | nil =>
    simp only [rbt.items, List.nil_append] at h
    exact next_of_path P _ e rest h
  | node rl y rc rk rv rr =>
    obtain ⟨inner, y1, c1, k1, v1, r1, _, hzr, hpb, _⟩ :=
      min_path_spec (.node rl y rc rk rv rr) [] (by simp)
    have hri : (rbt.node rl y rc rk rv rr).items = (y1, k1, v1) :: (r1.items ++ path_after inner) := by
      rw [← hzr, items_zip, hpb]
      simp [rbt.items]
    rw [hri] at h
    simp only [List.cons_append, List.cons.injEq] at h
    obtain ⟨rfl, rfl⟩ := h
    refine ⟨inner ++ ⟨false, x, c, k, v, l⟩ :: P, .nil, c1, r1, ?_, ?_⟩
    · rw [zip_append, hzr]
      rfl
    · rw [path_after_append]
      simp [path_after]

theorem iter_collect_invalid (m : rb_mem) (steps : Nat) (iter : rb_iter_t)
    (h : iter.node = NIL) : iter_collect m steps iter = some [] := by
  cases steps <;> simp [iter_collect, rb_iter_valid, h]

/-- The traversal from a node of the tree visits that node and then every later node in
order. -/
theorem iter_collect_from (m : rb_mem) (T : rbt) (hok : heap_ok m T)
    (hb : T.ids.length + 2 ≤ m.next) : ∀ (n : Nat) (P : List rb_frame) (l r : rbt) (x : Nat)
    (c : rb_color) (k v : Nat) (iter : rb_iter_t) (steps : Nat),
    zip P (.node l x c k v r) = T → (r.items ++ path_after P).length = n → n + 1 ≤ steps →
    iter.node = x →
    iter_collect m steps iter
      = some ((k, v) :: (r.items ++ path_after P).map (fun e => (e.2.1, e.2.2))) := by
  intro n
  induction n with
  | zero =>
    intro P l r x c k v iter steps hz hn hs hx
    subst hz
    obtain ⟨s, rfl⟩ : ∃ s, steps = s + 1 := ⟨steps - 1, by omega⟩
    have hxn := ne_nil_of_ge (heap_node_ge hok)
    have hnode := heap_node hok
    have hsucc := successor_eq hok hb
    have he : r.items ++ path_after P = [] := List.length_eq_zero.1 hn
    rw [he] at hsucc ⊢
    simp only [iter_collect, rb_iter_valid, rb_iter_next, rb_iter_key, rb_iter_value, hx, ne_eq,
      hxn, not_false_eq_true, decide_True, if_true, if_false, hsucc, first_ptr, hnode]
    rw [iter_collect_invalid m s _ rfl]
    rfl
  | succ n ih =>
    intro P l r x c k v iter steps hz hn hs hx
    subst hz
    obtain ⟨s, rfl⟩ : ∃ s, steps = s + 1 := ⟨steps - 1, by omega⟩
    have hxn := ne_nil_of_ge (heap_node_ge hok)
    have hnode := heap_node hok
    have hsucc := successor_eq hok hb
    obtain ⟨e, rest, he⟩ : ∃ e rest, r.items ++ path_after P = e :: rest := by
      cases hl : r.items ++ path_after P with
      | nil => rw [hl] at hn; simp at hn
      | cons e rest => exact ⟨e, rest, rfl⟩
    obtain ⟨P1, l1, c1, r1, hz1, hr1⟩ := next_focus P l r x c k v e rest he
    rw [he] at hsucc hn ⊢
    have hrec := ih P1 l1 r1 e.1 c1 e.2.1 e.2.2 { iter with node := e.1 } s hz1
      (by rw [hr1]; simpa using hn) (by omega) rfl
    simp only [iter_collect, rb_iter_valid, rb_iter_next, rb_iter_key, rb_iter_value, hx, ne_eq,
      hxn, not_false_eq_true, decide_True, if_true, if_false, hsucc, first_ptr, hnode, hrec, hr1,
      List.map_cons]

/-- The traversal `rb_iter_seek_first`, `rb_iter_next` until `rb_iter_valid` is false
visits the entries of the tree in order. -/
theorem seek_first_collect {m : rb_mem} {t : rbt} (tree : rb_tree_t) (hok : heap_ok m t)
    (hroot : tree.root = t.ptr) (hb : t.ids.length + 2 ≤ m.next) (steps : Nat)
    (hs : t.ids.length ≤ steps) :
    ∃ iter, rb_iter_seek_first m (rb_iter_init tree) = some iter
      ∧ iter_collect m steps iter = some t.entries := by
  cases t with
  | nil =>
    refine ⟨{ rb_iter_init tree with node := NIL }, ?_, ?_⟩
    · simp [rb_iter_seek_first, rb_iter_init, rb_node_min, hroot]
    · rw [iter_collect_invalid m steps _ rfl]
      rfl
  | node tl y tc tk tv tr =>
    have h0 : heap_ok m (zip [] (.node tl y tc tk tv tr)) := hok
    have hyn := ne_nil_of_ge (heap_node_ge h0)
    have hbd := sub_height_bound h0 hb
    obtain ⟨inner, y1, c1, k1, v1, r1, hmp, hzr, hpb, _⟩ :=
      min_path_spec (.node tl y tc tk tv tr) [] (by simp)
    have hmin := min_loop_eq m (.node tl y tc tk tv tr) [] NIL m.next hok.1 (heap_sub_ge h0)
      (by simp) (by omega)
    rw [hmp] at hmin
    simp only [ptr_node] at hmin
    have hri : (rbt.node tl y tc tk tv tr).items
        = (y1, k1, v1) :: (r1.items ++ path_after inner) := by
      rw [← hzr, items_zip, hpb]
      simp [rbt.items]
    have hlen : (rbt.node tl y tc tk tv tr).ids.length
        = (r1.items ++ path_after inner).length + 1 := by
      rw [ids_eq_map, hri]
      simp
    refine ⟨{ rb_iter_init tree with node := y1 }, ?_, ?_⟩
    · simp [rb_iter_seek_first, rb_iter_init, rb_node_min, hroot, hyn, hmin]
    · have := iter_collect_from m _ hok hb _ inner .nil r1 y1 c1 k1 v1
        { rb_iter_init tree with node := y1 } steps (by simpa [zip_append] using hzr) rfl
        (by omega) rfl
      rw [this, entries_eq_map, hri]
      rfl

/-! ## Red-black tree: seeking -/

/-- The loop of `rb_iter_seek_min` on a tree in memory follows `rbt.lower`. -/
theorem seek_min_loop_eq (m : rb_mem) (cmp : Nat → Nat → Int) (key : Nat) :
    ∀ (t : rbt) (par fuel cur : Nat), tree_rep m t par → (∀ x ∈ t.ids, 2 ≤ x) →
      t.height < fuel →
      seek_min_loop m cmp key fuel t.ptr cur
        = some (found_ptr cur (t.lower cmp key)) := by
  intro t
  induction t with
  | nil =>
    intro par fuel cur _ _ hf
    obtain ⟨n, rfl⟩ : ∃ n, fuel = n + 1 := ⟨fuel - 1, by omega⟩
    simp [seek_min_loop, rbt.lower, found_ptr]
  | node l x c k v r ihl ihr =>
    intro par fuel cur hrep hids hf
    obtain ⟨n, rfl⟩ : ∃ n, fuel = n + 1 := ⟨fuel - 1, by omega⟩
    obtain ⟨h1, h2, h3⟩ := hrep
    simp only [rbt.ids, List.mem_append, List.mem_cons] at hids
    have hx : x ≠ NIL := by
      have := hids x (Or.inr (Or.inl rfl))
      unfold NIL
      omega
    simp only [rbt.height] at hf
    simp only [seek_min_loop, ptr_node, rbt.lower, h1, hx, ne_eq, not_false_eq_true, if_true]
    by_cases h0 : cmp k key = 0
    · simp only [h0, if_true, found_ptr]
    · by_cases hpos : cmp k key > 0
      · simp only [h0, hpos, if_true, if_false]
        rw [ihl x n x h2 (fun z hz => hids z (Or.inl hz)) (by omega)]
        cases l.lower cmp key <;> rfl
      · simp only [h0, hpos, if_false]
        exact ihr x n cur h3 (fun z hz => hids z (Or.inr (Or.inr hz))) (by omega)

/-- The loop of `rb_iter_seek_max` on a tree in memory follows `rbt.upper`. -/
theorem seek_max_loop_eq (m : rb_mem) (cmp : Nat → Nat → Int) (key : Nat) :
    ∀ (t : rbt) (par fuel cur : Nat), tree_rep m t par → (∀ x ∈ t.ids, 2 ≤ x) →
      t.height < fuel →
      seek_max_loop m cmp key fuel t.ptr cur
        = some (found_ptr cur (t.upper cmp key)) := by
  intro t
  induction t with
  | nil =>
    intro par fuel cur _ _ hf
    obtain ⟨n, rfl⟩ : ∃ n, fuel = n + 1 := ⟨fuel - 1, by omega⟩
    simp [seek_max_loop, rbt.upper, found_ptr]
  | node l x c k v r ihl ihr =>
    intro par fuel cur hrep hids hf
    obtain ⟨n, rfl⟩ : ∃ n, fuel = n + 1 := ⟨fuel - 1, by omega⟩
    obtain ⟨h1, h2, h3⟩ := hrep
    simp only [rbt.ids, List.mem_append, List.mem_cons] at hids
    have hx : x ≠ NIL := by
      have := hids x (Or.inr (Or.inl rfl))
      unfold NIL
      omega
    simp only [rbt.height] at hf
    simp only [seek_max_loop, ptr_node, rbt.upper, h1, hx, ne_eq, not_false_eq_true, if_true]
    by_cases h0 : cmp k key = 0
    · simp only [h0, if_true, found_ptr]
    · by_cases hneg : cmp k key < 0
      · simp only [h0, hneg, if_true, if_false]
        rw [ihr x n x h3 (fun z hz => hids z (Or.inr (Or.inr hz))) (by omega)]
        cases r.upper cmp key <;> rfl
      · simp only [h0, hneg, if_false]
        exact ihl x n cur h2 (fun z hz => hids z (Or.inl hz)) (by omega)

theorem items_sorted_node {cmp : Nat → Nat → Int} {l r : rbt} {x : Nat} {c : rb_color}
    {k v : Nat} (h : keys_sorted cmp (rbt.node l x c k v r).keys) :
    keys_sorted cmp l.keys ∧ keys_sorted cmp r.keys
      ∧ (∀ e ∈ l.items, cmp e.2.1 k ≤ 0) ∧ (∀ e ∈ r.items, cmp k e.2.1 ≤ 0)
      ∧ (∀ e ∈ l.items, ∀ e1 ∈ r.items, cmp e.2.1 e1.2.1 ≤ 0) := by
  unfold keys_sorted at h ⊢
  rw [keys_node, List.pairwise_append] at h
  obtain ⟨hl, hkr, hlr⟩ := h
  rw [List.pairwise_cons] at hkr
  refine ⟨hl, hkr.2, ?_, ?_, ?_⟩
  · intro e he
    exact hlr _ (List.mem_map_of_mem _ he) k (List.mem_cons_self _ _)
  · intro e he
    exact hkr.1 _ (List.mem_map_of_mem _ he)
  · intro e he e1 he1
    exact hlr _ (List.mem_map_of_mem _ he) _ (List.mem_cons_of_mem _ (List.mem_map_of_mem _ he1))

/-- When `rbt.lower` finds nothing, every key of the tree is below the target. -/
theorem lower_none {cmp : Nat → Nat → Int} (hcmp : total_order cmp) (key : Nat) :
    ∀ t : rbt, keys_sorted cmp t.keys → t.lower cmp key = none →
      ∀ e ∈ t.items, cmp e.2.1 key < 0 := by
  intro t
  induction t with
  | nil => intro _ _ e he; simp [rbt.items] at he
  | node l x c k v r ihl ihr =>
    intro hs h e he
    obtain ⟨hsl, hsr, hl, hr, _⟩ := items_sorted_node hs
    simp only [rbt.lower] at h
    by_cases h0 : cmp k key = 0
    · simp [h0] at h
    · by_cases hpos : cmp k key > 0
      · simp only [h0, hpos, if_true, if_false] at h
        cases hl1 : l.lower cmp key <;> simp [hl1] at h
      · simp only [h0, hpos, if_false] at h
        have hk : cmp k key < 0 := by omega
        simp only [rbt.items, List.mem_append, List.mem_cons] at he
        rcases he with he | rfl | he
        · exact cmp_lt_of_le_of_lt hcmp (hl e he) hk
        · exact hk
        · exact ihr hsr h e he

/-- The node that `rbt.lower` finds is the first one whose key is not below the target. -/
theorem lower_some {cmp : Nat → Nat → Int} (hcmp : total_order cmp) (key : Nat) :
    ∀ (t : rbt) (e : Nat × Nat × Nat), keys_sorted cmp t.keys → t.lower cmp key = some e →
      e ∈ t.items ∧ 0 ≤ cmp e.2.1 key
        ∧ ∀ e1 ∈ t.items, 0 ≤ cmp e1.2.1 key → cmp e.2.1 e1.2.1 ≤ 0 := by
  intro t
  induction t with
  | nil => intro e _ h; simp [rbt.lower] at h
  | node l x c k v r ihl ihr =>
    intro e hs h
    obtain ⟨hsl, hsr, hl, hr, hlr⟩ := items_sorted_node hs
    simp only [rbt.lower] at h
    simp only [rbt.items, List.mem_append, List.mem_cons]
    by_cases h0 : cmp k key = 0
    · simp only [h0, if_true, Option.some.injEq] at h
      subst h
      refine ⟨Or.inr (Or.inl rfl), by simp only; omega, ?_⟩
      rintro e1 (he1 | rfl | he1) hge
      · have h1 : cmp key e1.2.1 ≤ 0 := by
          have := hcmp.1 e1.2.1 key
          omega
        exact cmp_le_trans hcmp (by simp only; omega) h1
      · have := cmp_refl hcmp k
        simp only
        omega
      · exact hr e1 he1
    · by_cases hpos : cmp k key > 0
      · simp only [h0, hpos, if_true, if_false] at h
        cases hl1 : l.lower cmp key with
        | none =>
          simp only [hl1, Option.some.injEq] at h
          subst h
          have hnone := lower_none hcmp key l hsl hl1
          refine ⟨Or.inr (Or.inl rfl), by simp only; omega, ?_⟩
          rintro e1 (he1 | rfl | he1) hge
          · have := hnone e1 he1
            omega
          · have := cmp_refl hcmp k
            simp only
            omega
          · exact hr e1 he1
        | some e0 =>
          simp only [hl1, Option.some.injEq] at h
          subst h
          obtain ⟨hm, hge0, hmin⟩ := ihl e0 hsl hl1
          refine ⟨Or.inl hm, hge0, ?_⟩
          rintro e1 (he1 | rfl | he1) hge
          · exact hmin e1 he1 hge
          · exact hl e0 hm
          · exact hlr e0 hm e1 he1
      · simp only [h0, hpos, if_false] at h
        have hk : cmp k key < 0 := by omega
        obtain ⟨hm, hge0, hmin⟩ := ihr e hsr h
        refine ⟨Or.inr (Or.inr hm), hge0, ?_⟩
        rintro e1 (he1 | rfl | he1) hge
        · have := cmp_lt_of_le_of_lt hcmp (hl e1 he1) hk
          omega
        · simp only at hge
          omega
        · exact hmin e1 he1 hge

/-- When `rbt.upper` finds nothing, every key of the tree is above the target. -/
theorem upper_none {cmp : Nat → Nat → Int} (hcmp : total_order cmp) (key : Nat) :
    ∀ t : rbt, keys_sorted cmp t.keys → t.upper cmp key = none →
      ∀ e ∈ t.items, 0 < cmp e.2.1 key := by
  intro t
  induction t with
  | nil => intro _ _ e he; simp [rbt.items] at he
  | node l x c k v r ihl ihr =>
    intro hs h e he
    obtain ⟨hsl, hsr, hl, hr, _⟩ := items_sorted_node hs
    simp only [rbt.upper] at h
    by_cases h0 : cmp k key = 0
    · simp [h0] at h
    · by_cases hneg : cmp k key < 0
      · simp only [h0, hneg, if_true, if_false] at h
        cases hr1 : r.upper cmp key <;> simp [hr1] at h
      · simp only [h0, hneg, if_false] at h
        have hk : cmp key k < 0 := by
          have := hcmp.1 key k
          omega
        simp only [rbt.items, List.mem_append, List.mem_cons] at he
        rcases he with he | rfl | he
        · exact ihl hsl h e he
        · have := hcmp.1 key k
          simp only
          omega
        · have := cmp_lt_of_lt_of_le hcmp hk (hr e he)
          have := hcmp.1 key e.2.1
          omega

/-- The node that `rbt.upper` finds is the last one whose key is not above the target. -/
theorem upper_some {cmp : Nat → Nat → Int} (hcmp : total_order cmp) (key : Nat) :
    ∀ (t : rbt) (e : Nat × Nat × Nat), keys_sorted cmp t.keys → t.upper cmp key = some e →
      e ∈ t.items ∧ cmp e.2.1 key ≤ 0
        ∧ ∀ e1 ∈ t.items, cmp e1.2.1 key ≤ 0 → cmp e1.2.1 e.2.1 ≤ 0 := by
  intro t
  induction t with
  | nil => intro e _ h; simp [rbt.upper] at h
  | node l x c k v r ihl ihr =>
    intro e hs h
    obtain ⟨hsl, hsr, hl, hr, hlr⟩ := items_sorted_node hs
    simp only [rbt.upper] at h
    simp only [rbt.items, List.mem_append, List.mem_cons]
    by_cases h0 : cmp k key = 0
    · simp only [h0, if_true, Option.some.injEq] at h
      subst h
      refine ⟨Or.inr (Or.inl rfl), by simp only; omega, ?_⟩
      rintro e1 (he1 | rfl | he1) hle
      · exact hl e1 he1
      · have := cmp_refl hcmp k
        simp only
        omega
      · have h1 : cmp key k ≤ 0 := cmp_le_of_eq hcmp h0
        exact cmp_le_trans hcmp hle h1
    · by_cases hneg : cmp k key < 0
      · simp only [h0, hneg, if_true, if_false] at h
        cases hr1 : r.upper cmp key with
        | none =>
          simp only [hr1, Option.some.injEq] at h
          subst h
          have hnone := upper_none hcmp key r hsr hr1
          refine ⟨Or.inr (Or.inl rfl), by simp only; omega, ?_⟩
          rintro e1 (he1 | rfl | he1) hle
          · exact hl e1 he1
          · have := cmp_refl hcmp k
            simp only
            omega
          · have := hnone e1 he1
            omega
        | some e0 =>
          simp only [hr1, Option.some.injEq] at h
          subst h
          obtain ⟨hm, hle0, hmax⟩ := ihr e0 hsr hr1
          refine ⟨Or.inr (Or.inr hm), hle0, ?_⟩
          rintro e1 (he1 | rfl | he1) hle
          · exact hlr e1 he1 e0 hm
          · exact hr e0 hm
          · exact hmax e1 he1 hle
      · simp only [h0, hneg, if_false] at h
        have hk : cmp key k < 0 := by
          have := hcmp.1 key k
          omega
        obtain ⟨hm, hle0, hmax⟩ := ihl e hsl h
        refine ⟨Or.inl hm, hle0, ?_⟩
        rintro e1 (he1 | rfl | he1) hle
        · exact hmax e1 he1 hle
        · have := hcmp.1 key k
          simp only at hle
          omega
        · have := cmp_lt_of_lt_of_le hcmp hk (hr e1 he1)
          have := hcmp.1 key e1.2.1
          omega

/-- The record of a node of the tree holds its key and its value. -/
theorem rep_mem (m : rb_mem) : ∀ (t : rbt) (par : Nat) (e : Nat × Nat × Nat),
    tree_rep m t par → e ∈ t.items →
      (m.nodes e.1).key = e.2.1 ∧ (m.nodes e.1).value = e.2.2 := by
  intro t
  induction t with
  | nil => intro par e _ he; simp [rbt.items] at he
  | node l x c k v r ihl ihr =>
    intro par e hrep he
    obtain ⟨h1, h2, h3⟩ := hrep
    simp only [rbt.items, List.mem_append, List.mem_cons] at he
    rcases he with he | rfl | he
    · exact ihl x e h2 he
    · simp [h1]
    · exact ihr x e h3 he

theorem mem_ids_of_items {t : rbt} {e : Nat × Nat × Nat} (h : e ∈ t.items) : e.1 ∈ t.ids := by
  rw [ids_eq_map]
  exact List.mem_map_of_mem _ h

theorem mem_entries_of_items {t : rbt} {e : Nat × Nat × Nat} (h : e ∈ t.items) :
    e.2 ∈ t.entries := by
  rw [entries_eq_map]
  exact List.mem_map_of_mem _ h

theorem mem_keys_of_items {t : rbt} {e : Nat × Nat × Nat} (h : e ∈ t.items) :
    e.2.1 ∈ t.keys := by
  rw [keys_eq_map]
  exact List.mem_map_of_mem _ h

theorem items_of_mem_entries {t : rbt} {e : Nat × Nat} (h : e ∈ t.entries) :
    ∃ x, (x, e) ∈ t.items := by
  rw [entries_eq_map, List.mem_map] at h
  obtain ⟨a, ha, rfl⟩ := h
  exact ⟨a.1, ha⟩

/-! ## Red-black tree: sequences of calls -/

theorem iter_nodes_invalid (m : rb_mem) (steps : Nat) (iter : rb_iter_t)
    (h : iter.node = NIL) : iter_nodes m steps iter = some [] := by
  cases steps <;> simp [iter_nodes, rb_iter_valid, h]

/-- The traversal from a node of the tree visits that node and then every later node in
order. -/
theorem iter_nodes_from (m : rb_mem) (T : rbt) (hok : heap_ok m T)
    (hb : T.ids.length + 2 ≤ m.next) : ∀ (n : Nat) (P : List rb_frame) (l r : rbt) (x : Nat)
    (c : rb_color) (k v : Nat) (iter : rb_iter_t) (steps : Nat),
    zip P (.node l x c k v r) = T → (r.items ++ path_after P).length = n → n + 1 ≤ steps →
    iter.node = x →
    iter_nodes m steps iter
      = some (x :: (r.items ++ path_after P).map (fun e => e.1)) := by
  intro n
  induction n with
  | zero =>
    intro P l r x c k v iter steps hz hn hs hx
    subst hz
    obtain ⟨s, rfl⟩ : ∃ s, steps = s + 1 := ⟨steps - 1, by omega⟩
    have hxn := ne_nil_of_ge (heap_node_ge hok)
    have hsucc := successor_eq hok hb
    have he : r.items ++ path_after P = [] := List.length_eq_zero.1 hn
    rw [he] at hsucc ⊢
    simp only [iter_nodes, rb_iter_valid, rb_iter_next, hx, ne_eq,
      hxn, not_false_eq_true, decide_True, if_true, if_false, hsucc, first_ptr]
    rw [iter_nodes_invalid m s _ rfl]
    rfl
  | succ n ih =>
    intro P l r x c k v iter steps hz hn hs hx
    subst hz
    obtain ⟨s, rfl⟩ : ∃ s, steps = s + 1 := ⟨steps - 1, by omega⟩
    have hxn := ne_nil_of_ge (heap_node_ge hok)
    have hsucc := successor_eq hok hb
    obtain ⟨e, rest, he⟩ : ∃ e rest, r.items ++ path_after P = e :: rest := by
      cases hl : r.items ++ path_after P with
      | nil => rw [hl] at hn; simp at hn
      | cons e rest => exact ⟨e, rest, rfl⟩
    obtain ⟨P1, l1, c1, r1, hz1, hr1⟩ := next_focus P l r x c k v e rest he
    rw [he] at hsucc hn ⊢
    have hrec := ih P1 l1 r1 e.1 c1 e.2.1 e.2.2 { iter with node := e.1 } s hz1
      (by rw [hr1]; simpa using hn) (by omega) rfl
    simp only [iter_nodes, rb_iter_valid, rb_iter_next, hx, ne_eq,
      hxn, not_false_eq_true, decide_True, if_true, if_false, hsucc, first_ptr, hrec, hr1,
      List.map_cons]

/-- The traversal visits the nodes of the tree in order. -/
theorem seek_first_nodes {m : rb_mem} {t : rbt} (tree : rb_tree_t) (hok : heap_ok m t)
    (hroot : tree.root = t.ptr) (hb : t.ids.length + 2 ≤ m.next) (steps : Nat)
    (hs : t.ids.length ≤ steps) :
    ∃ iter, rb_iter_seek_first m (rb_iter_init tree) = some iter
      ∧ iter_nodes m steps iter = some t.ids := by
  cases t with
  | nil =>
    refine ⟨{ rb_iter_init tree with node := NIL }, ?_, ?_⟩
    · simp [rb_iter_seek_first, rb_iter_init, rb_node_min, hroot]
    · rw [iter_nodes_invalid m steps _ rfl]
      rfl
  | node tl y tc tk tv tr =>
    have h0 : heap_ok m (zip [] (.node tl y tc tk tv tr)) := hok
    have hyn := ne_nil_of_ge (heap_node_ge h0)
    have hbd := sub_height_bound h0 hb
    obtain ⟨inner, y1, c1, k1, v1, r1, hmp, hzr, hpb, _⟩ :=
      min_path_spec (.node tl y tc tk tv tr) [] (by simp)
    have hmin := min_loop_eq m (.node tl y tc tk tv tr) [] NIL m.next hok.1 (heap_sub_ge h0)
      (by simp) (by omega)
    rw [hmp] at hmin
    simp only [ptr_node] at hmin
    have hri : (rbt.node tl y tc tk tv tr).items
        = (y1, k1, v1) :: (r1.items ++ path_after inner) := by
      rw [← hzr, items_zip, hpb]
      simp [rbt.items]
    have hlen : (rbt.node tl y tc tk tv tr).ids.length
        = (r1.items ++ path_after inner).length + 1 := by
      rw [ids_eq_map, hri]
      simp
    refine ⟨{ rb_iter_init tree with node := y1 }, ?_, ?_⟩
    · simp [rb_iter_seek_first, rb_iter_init, rb_node_min, hroot, hyn, hmin]
    · have := iter_nodes_from m _ hok hb _ inner .nil r1 y1 c1 k1 v1
        { rb_iter_init tree with node := y1 } steps (by simpa [zip_append] using hzr) rfl
        (by omega) rfl
      rw [this, ids_eq_map, hri]
      rfl

theorem tree_inv_bound {m : rb_mem} {tree : rb_tree_t} {t : rbt} (h : tree_inv m tree t) :
    t.ids.length + 2 ≤ m.next :=
  nodup_bounded_length t.ids m.next h.nodup h.alloc h.next_ge

theorem entries_length (t : rbt) : t.entries.length = t.ids.length := by
  rw [entries_eq_map, ids_eq_map, List.length_map, List.length_map]

/-- The traversal of a tree in memory, with a budget of at least `tree.size` positions,
visits the entries of the tree in order. -/
theorem reach_collect {m : rb_mem} {tree : rb_tree_t} {stored : List (Nat × Nat)} {t : rbt}
    (h : rb_reach m tree stored t) (steps : Nat) (hs : tree.size ≤ steps) :
    ∃ iter, rb_iter_seek_first m (rb_iter_init tree) = some iter
      ∧ iter_collect m steps iter = some t.entries :=
  seek_first_collect tree (tree_inv_heap h.inv) h.inv.root (tree_inv_bound h.inv) steps
    (by rw [← h.size]; exact hs)

theorem reach_traverse {m : rb_mem} {tree : rb_tree_t} {stored : List (Nat × Nat)} {t : rbt}
    (h : rb_reach m tree stored t) : rb_traverse m tree = some t.entries := by
  obtain ⟨iter, h1, h2⟩ := reach_collect h tree.size (Nat.le_refl _)
  simp only [rb_traverse, h1, h2]

theorem reach_traverse_nodes {m : rb_mem} {tree : rb_tree_t} {stored : List (Nat × Nat)}
    {t : rbt} (h : rb_reach m tree stored t) : rb_traverse_nodes m tree = some t.ids := by
  obtain ⟨iter, h1, h2⟩ := seek_first_nodes tree (tree_inv_heap h.inv) h.inv.root
    (tree_inv_bound h.inv) tree.size (by rw [← h.size])
  simp only [rb_traverse_nodes, h1, h2]

/-- The tree that `rb_tree_init` makes is an empty red-black tree. -/
theorem reach_init (cmp : Nat → Nat → Int) (u : Bool) :
    rb_reach rb_mem_init (rb_tree_init cmp u) [] .nil := by
  refine ⟨⟨trivial, rfl, List.nodup_nil, ?_, Nat.le_refl 2, rfl, trivial, rfl, ?_⟩, rfl,
    List.Perm.refl _, ?_⟩
  · intro x hx
    simp [rbt.ids] at hx
  · exact List.Pairwise.nil
  · intro _
    exact List.Pairwise.nil

/-- A search finds a node exactly when a key of the tree compares equal. -/
theorem find_ne_null_iff {cmp : Nat → Nat → Int} (hcmp : total_order cmp) (key : Nat) (t : rbt)
    (hs : keys_sorted cmp t.keys) (hids : ∀ x ∈ t.ids, 2 ≤ x) :
    t.find cmp key ≠ NULL ↔ ∃ e ∈ t.entries, cmp key e.1 = 0 := by
  constructor
  · intro h
    obtain ⟨k, v, hm, hk⟩ := find_mem cmp key t h
    exact ⟨(k, v), mem_entries_of_items hm, hk⟩
  · rintro ⟨e, he, hk⟩
    obtain ⟨x, hx⟩ := items_of_mem_entries he
    exact find_of_mem hcmp key t hs hids ⟨e.1, mem_keys_of_items hx, hk⟩

/-- A call of `rb_tree_insert` on a tree in memory. -/
theorem reach_insert {m : rb_mem} {tree : rb_tree_t} {stored : List (Nat × Nat)} {t : rbt}
    (hcmp : total_order tree.compare) (h : rb_reach m tree stored t) (key value : Nat) :
    ∃ m1 tree1 node T, rb_tree_insert m tree key value = some (m1, tree1, node)
      ∧ rb_reach m1 tree1 (if node = NULL then (key, value) :: stored else stored) T
      ∧ tree1.compare = tree.compare ∧ tree1.unique = tree.unique := by
  cases hd : t.descend tree.compare tree.unique key [] with
  | inl x =>
    obtain ⟨_, k, v, hm, _⟩ := descend_inl _ _ _ _ _ _ hd
    have hx : x ≠ NULL := by
      have := (h.inv.alloc x (mem_ids_of_items hm)).1
      unfold NULL
      omega
    refine ⟨m, tree, x, t, rb_tree_insert_conflict key value x h.inv hd, ?_, rfl, rfl⟩
    rw [if_neg hx]
    exact h
  | inr p =>
    obtain ⟨m1, T, hins, hinv, hT, ht, _⟩ := rb_tree_insert_new key value p hcmp h.inv hd
    refine ⟨m1, _, NULL, T, hins, ?_, rfl, rfl⟩
    rw [if_pos rfl]
    refine ⟨hinv, ?_, ?_, ?_⟩
    · show tree.size + 1 = T.ids.length
      rw [h.size, ids_eq_map, ids_eq_map, hT, ht]
      simp only [List.length_map, List.length_append, List.length_cons]
      omega
    · rw [entries_eq_map, hT]
      have h1 := h.perm
      rw [entries_eq_map, ht] at h1
      simp only [List.map_append, List.map_cons] at h1 ⊢
      exact List.perm_middle.trans (List.Perm.cons _ h1)
    · intro hu
      have hu1 : tree.unique = true := hu
      rw [hu1] at hd
      exact insert_new_strict key value m.next p hcmp hd (h.strict hu1) hT ht

theorem perm_cons_erase_entry (e : Nat × Nat) : ∀ l : List (Nat × Nat), e ∈ l →
    l.Perm (e :: erase_entry e l) := by
  intro l
  induction l with
  | nil => intro h; simp at h
  | cons a rest ih =>
    intro h
    by_cases hae : a = e
    · subst hae
      simp [erase_entry]
    · simp only [erase_entry, if_neg hae]
      have hm : e ∈ rest := by
        rcases List.mem_cons.1 h with h1 | h1
        · exact absurd h1.symm hae
        · exact h1
      exact (List.Perm.cons a (ih hm)).trans (List.Perm.swap e a _)

theorem entries_keys (t : rbt) : t.entries.map Prod.fst = t.keys := by
  rw [keys_eq_map, entries_eq_map, List.map_map]
  rfl

/-- The keys that stay after a removal are in the order they had. -/
theorem remove_keys_sublist {t T : rbt} {e : Nat × Nat} {eb ea : List (Nat × Nat)}
    (ht : t.entries = eb ++ e :: ea) (hT : T.entries = eb ++ ea) :
    T.keys.Sublist t.keys := by
  rw [← entries_keys, ← entries_keys, ht, hT]
  simp only [List.map_append, List.map_cons]
  exact List.Sublist.append_left (List.sublist_cons_self _ _) _

/-- A call of `rb_tree_remove` on a tree in memory. -/
theorem reach_remove {m : rb_mem} {tree : rb_tree_t} {stored : List (Nat × Nat)} {t : rbt}
    (h : rb_reach m tree stored t) (key : Nat) :
    ∃ m1 tree1 node T, rb_tree_remove m tree key = some (m1, tree1, node)
      ∧ rb_reach m1 tree1
          (if node = NULL then stored
           else erase_entry ((m1.nodes node).key, (m1.nodes node).value) stored) T
      ∧ tree1.compare = tree.compare ∧ tree1.unique = tree.unique := by
  by_cases hf : t.find tree.compare key = NULL
  · refine ⟨m, tree, NULL, t, rb_tree_remove_absent key h.inv hf, ?_, rfl, rfl⟩
    rw [if_pos rfl]
    exact h
  · obtain ⟨m1, T, ret, k, v, eb, ea, hrem, hinv, hret, _, hk, hv, ht, hT, hp, _⟩ :=
      rb_tree_remove_present key h.inv hf
    refine ⟨m1, _, ret, T, hrem, ?_, rfl, rfl⟩
    rw [if_neg hret, hk, hv]
    refine ⟨hinv, ?_, ?_, ?_⟩
    · show tree.size - 1 = T.ids.length
      have := hp.length_eq
      rw [List.length_cons] at this
      rw [h.size, ← this]
      rfl
    · have h1 := h.perm
      rw [ht] at h1
      rw [hT]
      have h2 : ((k, v) :: (eb ++ ea)).Perm stored := List.perm_middle.symm.trans h1
      have h3 := perm_cons_erase_entry (k, v) stored (h2.subset (List.mem_cons_self _ _))
      exact (h2.trans h3).cons_inv
    · intro hu
      exact List.Pairwise.sublist (remove_keys_sublist ht hT) (h.strict hu)

/-- Every sequence of calls on a tree in memory runs to its end and leaves a tree in
memory. -/
theorem rb_run_from_reach (cmp : Nat → Nat → Int) (u : Bool) (hcmp : total_order cmp) :
    ∀ (ops : List rb_op) (m : rb_mem) (tree : rb_tree_t) (stored : List (Nat × Nat)) (t : rbt),
      rb_reach m tree stored t → tree.compare = cmp → tree.unique = u →
      ∃ m1 tree1 stored1 t1, rb_run_from m tree stored ops = some (m1, tree1, stored1)
        ∧ rb_reach m1 tree1 stored1 t1 ∧ tree1.compare = cmp ∧ tree1.unique = u := by
  intro ops
  induction ops with
  | nil =>
    intro m tree stored t h hc hu
    exact ⟨m, tree, stored, t, rfl, h, hc, hu⟩
  | cons op ops ih =>
    intro m tree stored t h hc hu
    cases op with
    | insert key value =>
      obtain ⟨m1, tree1, node, T, h1, h2, h3, h4⟩ :=
        reach_insert (by rw [hc]; exact hcmp) h key value
      simp only [rb_run_from, h1]
      exact ih m1 tree1 _ T h2 (h3.trans hc) (h4.trans hu)
    | remove key =>
      obtain ⟨m1, tree1, node, T, h1, h2, h3, h4⟩ := reach_remove h key
      simp only [rb_run_from, h1]
      exact ih m1 tree1 _ T h2 (h3.trans hc) (h4.trans hu)

theorem rb_run_reach (cmp : Nat → Nat → Int) (u : Bool) (hcmp : total_order cmp)
    (ops : List rb_op) :
    ∃ m tree stored t, rb_run cmp u ops = some (m, tree, stored)
      ∧ rb_reach m tree stored t ∧ tree.compare = cmp ∧ tree.unique = u :=
  rb_run_from_reach cmp u hcmp ops _ _ _ _ (reach_init cmp u) rfl rfl

/-! ## Red-black tree: searches in a tree with unique keys -/

theorem cmp_eq_trans {cmp : Nat → Nat → Int} (h : total_order cmp) {a b c : Nat}
    (hab : cmp a b = 0) (hbc : cmp b c = 0) : cmp a c = 0 := by
  have h1 := cmp_le_trans h (a := a) (b := b) (c := c) (by omega) (by omega)
  have h2 := cmp_le_trans h (a := c) (b := b) (c := a) (cmp_le_of_eq h hbc) (cmp_le_of_eq h hab)
  have h3 := h.1 a c
  omega

theorem items_strict {cmp : Nat → Nat → Int} {t : rbt} (h : keys_strict cmp t.keys) :
    t.items.Pairwise fun a b => cmp a.2.1 b.2.1 < 0 := by
  unfold keys_strict at h
  rw [keys_eq_map, List.pairwise_map] at h
  exact h

/-- In a tree with strictly increasing keys, two nodes whose keys compare equal are the
same node. -/
theorem strict_items_eq {cmp : Nat → Nat → Int} (hcmp : total_order cmp) {t : rbt}
    (h : keys_strict cmp t.keys) {a b : Nat × Nat × Nat} (ha : a ∈ t.items) (hb : b ∈ t.items)
    (hab : cmp a.2.1 b.2.1 = 0) : a = b := by
  by_contra hne
  have hp : t.items.Pairwise fun a b => cmp a.2.1 b.2.1 < 0 ∨ cmp b.2.1 a.2.1 < 0 :=
    (items_strict h).imp fun hlt => Or.inl hlt
  have hsym : Symmetric fun (a b : Nat × Nat × Nat) => cmp a.2.1 b.2.1 < 0 ∨ cmp b.2.1 a.2.1 < 0 :=
    fun _ _ hxy => hxy.symm
  have := hp.forall hsym ha hb hne
  have h2 := cmp_eq_symm hcmp hab
  omega

theorem strict_sorted {cmp : Nat → Nat → Int} {ks : List Nat} (h : keys_strict cmp ks) :
    keys_sorted cmp ks :=
  List.Pairwise.imp (fun hlt => by omega) h

/-- In a tree with strictly increasing keys, the search for a key that compares equal to
the key of a node finds that node. -/
theorem find_unique {cmp : Nat → Nat → Int} (hcmp : total_order cmp) {t : rbt}
    (h : keys_strict cmp t.keys) (hids : ∀ x ∈ t.ids, 2 ≤ x) (key : Nat)
    {a : Nat × Nat × Nat} (ha : a ∈ t.items) (hk : cmp key a.2.1 = 0) :
    t.find cmp key = a.1 := by
  have hne := find_of_mem hcmp key t (strict_sorted h) hids ⟨a.2.1, mem_keys_of_items ha, hk⟩
  obtain ⟨k, v, hm, hk1⟩ := find_mem cmp key t hne
  have := strict_items_eq hcmp h ha hm (cmp_eq_trans hcmp (cmp_eq_symm hcmp hk) hk1)
  rw [this]

/-- The call `rb_tree_search` on a tree in memory. -/
theorem search_eq {m : rb_mem} {tree : rb_tree_t} {t : rbt} (hinv : tree_inv m tree t)
    (key : Nat) : rb_tree_search m tree key = some (t.find tree.compare key) := by
  unfold rb_tree_search
  rw [hinv.root]
  exact search_loop_eq m tree.compare key t NIL m.next hinv.rep (fun x hx => (hinv.alloc x hx).1)
    (tree_inv_height hinv)

theorem total_order_set64 : total_order rb_set64_compare := by
  constructor
  · intro a b
    unfold rb_set64_compare
    split_ifs <;> omega
  · intro a b c
    unfold rb_set64_compare
    split_ifs <;> omega

theorem set64_compare_eq_zero (x y : Nat) : rb_set64_compare x y = 0 ↔ x = y := by
  unfold rb_set64_compare
  split_ifs <;> simp_all

theorem mem_keys_iff (t : rbt) (k : Nat) : k ∈ t.keys ↔ ∃ e ∈ t.entries, e.1 = k := by
  rw [keys_eq_map, entries_eq_map]
  simp only [List.mem_map]
  constructor
  · rintro ⟨a, ha, rfl⟩
    exact ⟨a.2, ⟨a, ha, rfl⟩, rfl⟩
  · rintro ⟨e, ⟨a, ha, rfl⟩, rfl⟩
    exact ⟨a, ha, rfl⟩

/-! ## Sets of 64-bit integers -/

/-- The call `rb_set64_has` on a set in memory. -/
theorem set64_has_eq {m : rb_mem} {tree : rb_tree_t} {t : rbt} (hinv : tree_inv m tree t)
    (hc : tree.compare = rb_set64_compare) (x : Nat) :
    rb_set64_has m tree x = some (decide (x ∈ t.keys)) := by
  have hs := search_eq hinv x
  have hiff := find_ne_null_iff (hc ▸ total_order_set64) x t hinv.sorted
    (fun z hz => (hinv.alloc z hz).1)
  simp only [rb_set64_has, hs, Option.some.injEq, decide_eq_decide]
  rw [hiff, mem_keys_iff, hc]
  constructor
  · rintro ⟨e, he, h0⟩
    exact ⟨e, he, ((set64_compare_eq_zero _ _).1 h0).symm⟩
  · rintro ⟨e, he, h0⟩
    exact ⟨e, he, (set64_compare_eq_zero _ _).2 h0.symm⟩

/-- The call `rb_set64_put` on a set in memory. -/
theorem set64_put_eq {m : rb_mem} {tree : rb_tree_t} {t : rbt} (hinv : tree_inv m tree t)
    (hc : tree.compare = rb_set64_compare) (hu : tree.unique = true)
    (hst : keys_strict tree.compare t.keys) (x : Nat) :
    ∃ m1 tree1 t1, rb_set64_put m tree x = some (m1, tree1, decide (x ∉ t.keys))
      ∧ tree_inv m1 tree1 t1 ∧ tree1.compare = rb_set64_compare ∧ tree1.unique = true
      ∧ keys_strict tree1.compare t1.keys
      ∧ ∀ z, z ∈ t1.keys ↔ z = x ∨ z ∈ t.keys := by
  have hcmp : total_order tree.compare := hc ▸ total_order_set64
  cases hd : t.descend tree.compare tree.unique x [] with
  | inl y =>
    obtain ⟨_, k, v, hm, h0⟩ := descend_inl _ _ _ _ _ _ hd
    rw [hc, set64_compare_eq_zero] at h0
    subst h0
    have hy : y ≠ NULL := by
      have := (hinv.alloc y (mem_ids_of_items hm)).1
      unfold NULL
      omega
    have hx : x ∈ t.keys := mem_keys_of_items hm
    refine ⟨m, tree, t, ?_, hinv, hc, hu, hst, ?_⟩
    · simp [rb_set64_put, rb_tree_insert_conflict x 0 y hinv hd, hy, hx]
    · intro z
      constructor
      · exact Or.inr
      · rintro (rfl | hz)
        · exact hx
        · exact hz
  | inr p =>
    have hx : x ∉ t.keys := by
      intro hx
      rw [hu] at hd
      have := descend_inr_ne hcmp x t [] p hinv.sorted hd x hx
      rw [hc] at this
      exact this ((set64_compare_eq_zero _ _).2 rfl)
    obtain ⟨m1, T, hins, hinv1, hT, ht, _⟩ := rb_tree_insert_new x 0 p hcmp hinv hd
    have hstT : keys_strict tree.compare T.keys := by
      rw [hu] at hd
      exact insert_new_strict x 0 m.next p hcmp hd hst hT ht
    refine ⟨m1, _, T, ?_, hinv1, hc, hu, hstT, ?_⟩
    · simp [rb_set64_put, hins, hx]
    · intro z
      rw [keys_eq_map, keys_eq_map, hT, ht]
      simp only [List.map_append, List.map_cons, List.mem_append, List.mem_cons]
      tauto

theorem strict_middle {cmp : Nat → Nat → Int} (hcmp : total_order cmp) {A B : List Nat}
    {k : Nat} (h : keys_strict cmp (A ++ k :: B)) : ∀ z ∈ A ++ B, cmp z k ≠ 0 := by
  unfold keys_strict at h
  rw [List.pairwise_append, List.pairwise_cons] at h
  obtain ⟨_, ⟨hkB, _⟩, hAk⟩ := h
  intro z hz
  rcases List.mem_append.1 hz with hz | hz
  · have := hAk z hz k (List.mem_cons_self _ _)
    omega
  · have := hkB z hz
    have := hcmp.1 k z
    omega

/-- The call `rb_set64_del` on a set in memory. -/
theorem set64_del_eq {m : rb_mem} {tree : rb_tree_t} {t : rbt} (hinv : tree_inv m tree t)
    (hc : tree.compare = rb_set64_compare) (hu : tree.unique = true)
    (hst : keys_strict tree.compare t.keys) (x : Nat) :
    ∃ m1 tree1 t1, rb_set64_del m tree x = some (m1, tree1, decide (x ∈ t.keys))
      ∧ tree_inv m1 tree1 t1 ∧ tree1.compare = rb_set64_compare ∧ tree1.unique = true
      ∧ keys_strict tree1.compare t1.keys
      ∧ ∀ z, z ∈ t1.keys ↔ z ≠ x ∧ z ∈ t.keys := by
  have hcmp : total_order tree.compare := hc ▸ total_order_set64
  have hiff := find_ne_null_iff hcmp x t hinv.sorted (fun z hz => (hinv.alloc z hz).1)
  by_cases hf : t.find tree.compare x = NULL
  · have hx : x ∉ t.keys := by
      intro hx
      obtain ⟨e, he, h0⟩ := (mem_keys_iff t x).1 hx
      apply hiff.2 ⟨e, he, ?_⟩ hf
      rw [hc, set64_compare_eq_zero]
      exact h0.symm
    refine ⟨m, tree, t, ?_, hinv, hc, hu, hst, ?_⟩
    · simp [rb_set64_del, rb_tree_remove_absent x hinv hf, hx]
    · intro z
      constructor
      · intro hz
        exact ⟨fun h => hx (h ▸ hz), hz⟩
      · exact fun h => h.2
  · obtain ⟨m1, T, ret, k, v, eb, ea, hrem, hinv1, hret, h0, _, _, ht, hT, _, _⟩ :=
      rb_tree_remove_present x hinv hf
    rw [hc, set64_compare_eq_zero] at h0
    subst h0
    have hkt : t.keys = eb.map Prod.fst ++ x :: ea.map Prod.fst := by
      have : t.keys = t.entries.map Prod.fst := by
        rw [keys_eq_map, entries_eq_map, List.map_map]
        rfl
      rw [this, ht]
      simp
    have hkT : T.keys = eb.map Prod.fst ++ ea.map Prod.fst := by
      have : T.keys = T.entries.map Prod.fst := by
        rw [keys_eq_map, entries_eq_map, List.map_map]
        rfl
      rw [this, hT]
      simp
    have hx : x ∈ t.keys := by
      rw [hkt]
      simp
    have hstT : keys_strict tree.compare T.keys :=
      List.Pairwise.sublist (remove_keys_sublist ht hT) hst
    have hstrict := hst
    rw [hkt] at hstrict
    have hmid := strict_middle hcmp hstrict
    refine ⟨m1, _, T, ?_, hinv1, hc, hu, hstT, ?_⟩
    · simp [rb_set64_del, hrem, hret, hx]
    · intro z
      rw [hkT, hkt]
      constructor
      · intro hz
        refine ⟨?_, ?_⟩
        · rintro rfl
          have := hmid z hz
          rw [hc] at this
          exact this ((set64_compare_eq_zero _ _).2 rfl)
        · simp only [List.mem_append, List.mem_cons] at hz ⊢
          tauto
      · rintro ⟨hne, hz⟩
        simp only [List.mem_append, List.mem_cons] at hz ⊢
        tauto

/-- The set in memory holds the elements of the finite set `s`. -/
theorem set64_run_from_spec : ∀ (ops : List set64_op) (m : rb_mem) (tree : rb_tree_t) (t : rbt)
    (s : Finset Nat), tree_inv m tree t → tree.compare = rb_set64_compare →
    tree.unique = true → keys_strict tree.compare t.keys → (∀ z, z ∈ t.keys ↔ z ∈ s) →
    ∃ m1 tree1 t1, set64_run_from m tree ops = some (m1, tree1, (set_spec_run s ops).2)
      ∧ tree_inv m1 tree1 t1 ∧ tree1.compare = rb_set64_compare
      ∧ ∀ z, z ∈ t1.keys ↔ z ∈ (set_spec_run s ops).1 := by
  intro ops
  induction ops with
  | nil =>
    intro m tree t s hinv hc _ _ hs
    exact ⟨m, tree, t, rfl, hinv, hc, hs⟩
  | cons op ops ih =>
    intro m tree t s hinv hc hu hst hs
    cases op with
    | put x =>
      obtain ⟨m1, tree1, t1, h1, hinv1, hc1, hu1, hst1, hk1⟩ := set64_put_eq hinv hc hu hst x
      obtain ⟨m2, tree2, t2, h2, hinv2, hc2, hk2⟩ := ih m1 tree1 t1 (insert x s) hinv1 hc1 hu1
        hst1 (by intro z; rw [hk1, Finset.mem_insert, hs])
      refine ⟨m2, tree2, t2, ?_, hinv2, hc2, hk2⟩
      simp only [set64_run_from, set64_apply, h1, set_spec_run, set_spec_step, h2, hs]
    | del x =>
      obtain ⟨m1, tree1, t1, h1, hinv1, hc1, hu1, hst1, hk1⟩ := set64_del_eq hinv hc hu hst x
      obtain ⟨m2, tree2, t2, h2, hinv2, hc2, hk2⟩ := ih m1 tree1 t1 (s.erase x) hinv1 hc1 hu1
        hst1 (by intro z; rw [hk1, Finset.mem_erase, hs])
      refine ⟨m2, tree2, t2, ?_, hinv2, hc2, hk2⟩
      simp only [set64_run_from, set64_apply, h1, set_spec_run, set_spec_step, h2, hs]
    | has x =>
      obtain ⟨m2, tree2, t2, h2, hinv2, hc2, hk2⟩ := ih m tree t s hinv hc hu hst hs
      refine ⟨m2, tree2, t2, ?_, hinv2, hc2, hk2⟩
      simp only [set64_run_from, set64_apply, set64_has_eq hinv hc x, set_spec_run,
        set_spec_step, h2, hs]

/-- C13: starting from `rb_set64_init`, every sequence of calls of `rb_set64_put`,
`rb_set64_del` and `rb_set64_has` runs to its end and returns the results of the same
calls on a mathematical finite set that starts empty: `put` returns 1 exactly when the
item was not a member and makes it a member, `del` returns 1 exactly when the item was a
member and takes it out, `has` is non-zero exactly for a member, no call changes the
membership of another item; and afterwards `rb_set64_has` answers membership in the
final set for every item. -/
theorem set64_refines_finset (ops : List set64_op) :
    ∃ m tree, set64_run ops = some (m, tree, (set_spec_run ∅ ops).2)
      ∧ ∀ x, rb_set64_has m tree x = some (decide (x ∈ (set_spec_run ∅ ops).1)) := by
  obtain ⟨m, tree, t, h1, hinv, hc, hk⟩ :=
    set64_run_from_spec ops rb_mem_init rb_set64_init .nil ∅ (reach_init _ _).inv rfl rfl
      List.Pairwise.nil (by intro z; simp [rbt.keys, rbt.items])
  refine ⟨m, tree, h1, fun x => ?_⟩
  rw [set64_has_eq hinv hc x]
  simp only [hk]

/-! ## Red-black tree: the contracts of the traversal, of seeking, of removal and of
insertion -/

/-- C14: for every sequence of `rb_tree_insert` and `rb_tree_remove` calls on a tree made
by `rb_tree_init` with a comparator that is a total order, the calls run to their end, and
an iterator initialised on the resulting tree, placed by `rb_iter_seek_first` and moved by
`rb_iter_next` until `rb_iter_valid` is false, visits every stored entry exactly once (the
entries visited are a rearrangement of the stored entries), in non-decreasing key order,
and visits exactly `tree.size` entries. -/
theorem iter_visits_stored (cmp : Nat → Nat → Int) (u : Bool) (hcmp : total_order cmp)
    (ops : List rb_op) :
    ∃ m tree stored iter es, rb_run cmp u ops = some (m, tree, stored)
      ∧ rb_iter_seek_first m (rb_iter_init tree) = some iter
      ∧ (∀ steps, tree.size ≤ steps → iter_collect m steps iter = some es)
      ∧ es.Perm stored ∧ keys_sorted cmp (es.map Prod.fst) ∧ es.length = tree.size := by
  obtain ⟨m, tree, stored, t, hrun, hreach, hc, _⟩ := rb_run_reach cmp u hcmp ops
  obtain ⟨iter, h1, _⟩ := reach_collect hreach tree.size (Nat.le_refl _)
  refine ⟨m, tree, stored, iter, t.entries, hrun, h1, ?_, hreach.perm, ?_, ?_⟩
  · intro steps hs
    obtain ⟨iter1, h3, h4⟩ := reach_collect hreach steps hs
    rw [h1, Option.some.injEq] at h3
    rw [h3]
    exact h4
  · rw [entries_keys, ← hc]
    exact hreach.inv.sorted
  · rw [entries_length, hreach.size]

theorem iter_visits_stored_witness :
    ∃ m tree stored iter es,
      rb_run rb_set64_compare false
          [.insert 2 20, .insert 1 10, .insert 2 21, .remove 1, .insert 3 30]
        = some (m, tree, stored)
      ∧ rb_iter_seek_first m (rb_iter_init tree) = some iter
      ∧ (∀ steps, tree.size ≤ steps → iter_collect m steps iter = some es)
      ∧ es.Perm stored ∧ keys_sorted rb_set64_compare (es.map Prod.fst)
      ∧ es.length = tree.size :=
  iter_visits_stored rb_set64_compare false total_order_set64
    [.insert 2 20, .insert 1 10, .insert 2 21, .remove 1, .insert 3 30]

theorem mem_stored_items {m : rb_mem} {tree : rb_tree_t} {stored : List (Nat × Nat)} {t : rbt}
    (h : rb_reach m tree stored t) {e : Nat × Nat} (he : e ∈ stored) :
    ∃ x, (x, e) ∈ t.items :=
  items_of_mem_entries (h.perm.symm.subset he)

theorem mem_items_stored {m : rb_mem} {tree : rb_tree_t} {stored : List (Nat × Nat)} {t : rbt}
    (h : rb_reach m tree stored t) {a : Nat × Nat × Nat} (ha : a ∈ t.items) :
    a.2 ∈ stored :=
  h.perm.subset (mem_entries_of_items ha)

/-- The call `rb_iter_seek_min` on a tree in memory. -/
theorem seek_min_eq {m : rb_mem} {tree : rb_tree_t} {t : rbt} (hinv : tree_inv m tree t)
    (key : Nat) :
    rb_iter_seek_min m (rb_iter_init tree) key
      = some { rb_iter_init tree with
               node := found_ptr NIL (t.lower tree.compare key) } := by
  have := seek_min_loop_eq m tree.compare key t NIL m.next NIL hinv.rep
    (fun x hx => (hinv.alloc x hx).1) (tree_inv_height hinv)
  simp only [rb_iter_seek_min, rb_iter_init, hinv.root, this]

/-- The call `rb_iter_seek_max` on a tree in memory. -/
theorem seek_max_eq {m : rb_mem} {tree : rb_tree_t} {t : rbt} (hinv : tree_inv m tree t)
    (key : Nat) :
    rb_iter_seek_max m (rb_iter_init tree) key
      = some { rb_iter_init tree with
               node := found_ptr NIL (t.upper tree.compare key) } := by
  have := seek_max_loop_eq m tree.compare key t NIL m.next NIL hinv.rep
    (fun x hx => (hinv.alloc x hx).1) (tree_inv_height hinv)
  simp only [rb_iter_seek_max, rb_iter_init, hinv.root, this]

/-- C15: for every tree with unique keys built by `rb_tree_insert` and `rb_tree_remove`
calls under a total order and every target key, `rb_iter_seek` leaves the iterator invalid
exactly when every stored key is below the target, and otherwise positions it on a stored
entry whose key is not below the target and is below the key of every other stored entry
that is not below the target; symmetrically `rb_iter_seek_max` leaves the iterator invalid
exactly when every stored key is above the target, and otherwise positions it on a stored
entry whose key is not above the target and is above the key of every other stored entry
that is not above the target. -/
theorem seek_positions (cmp : Nat → Nat → Int) (hcmp : total_order cmp) (ops : List rb_op)
    (key : Nat) :
    ∃ m tree stored lo hi, rb_run cmp true ops = some (m, tree, stored)
      ∧ rb_iter_seek m (rb_iter_init tree) key = some lo
      ∧ rb_iter_seek_max m (rb_iter_init tree) key = some hi
      ∧ (rb_iter_valid lo = false ↔ ∀ e ∈ stored, cmp e.1 key < 0)
      ∧ (rb_iter_valid lo = true →
          (rb_iter_key m lo, rb_iter_value m lo) ∈ stored
          ∧ 0 ≤ cmp (rb_iter_key m lo) key
          ∧ ∀ e ∈ stored, 0 ≤ cmp e.1 key →
              e = (rb_iter_key m lo, rb_iter_value m lo) ∨ cmp (rb_iter_key m lo) e.1 < 0)
      ∧ (rb_iter_valid hi = false ↔ ∀ e ∈ stored, 0 < cmp e.1 key)
      ∧ (rb_iter_valid hi = true →
          (rb_iter_key m hi, rb_iter_value m hi) ∈ stored
          ∧ cmp (rb_iter_key m hi) key ≤ 0
          ∧ ∀ e ∈ stored, cmp e.1 key ≤ 0 →
              e = (rb_iter_key m hi, rb_iter_value m hi) ∨ cmp e.1 (rb_iter_key m hi) < 0) := by
  obtain ⟨m, tree, stored, t, hrun, hreach, hc, hu⟩ := rb_run_reach cmp true hcmp ops
  have hinv := hreach.inv
  have hstrict := hreach.strict hu
  rw [hc] at hstrict
  have hsorted := hinv.sorted
  rw [hc] at hsorted
  refine ⟨m, tree, stored, _, _, hrun, seek_min_eq hinv key, seek_max_eq hinv key, ?_⟩
  rw [hc]
  have hlo : (rb_iter_valid { rb_iter_init tree with
               node := found_ptr NIL (t.lower cmp key) } = false ↔ ∀ e ∈ stored, cmp e.1 key < 0)
      ∧ (rb_iter_valid { rb_iter_init tree with
               node := found_ptr NIL (t.lower cmp key) } = true →
          ∃ a ∈ t.items, found_ptr NIL (t.lower cmp key) = a.1 ∧ 0 ≤ cmp a.2.1 key
          ∧ ∀ e ∈ stored, 0 ≤ cmp e.1 key → e = a.2 ∨ cmp a.2.1 e.1 < 0) := by
    cases hl : t.lower cmp key with
    | none =>
      have hn := lower_none hcmp key t hsorted hl
      simp only [found_ptr, rb_iter_valid, ne_eq, not_true_eq_false, decide_False, true_iff,
        Bool.false_eq_true, false_implies, and_true]
      intro e he
      obtain ⟨x, hx⟩ := mem_stored_items hreach he
      exact hn _ hx
    | some a =>
      obtain ⟨hm, hge, hmin⟩ := lower_some hcmp key t a hsorted hl
      have hne : a.1 ≠ NIL := ne_nil_of_ge (hinv.alloc _ (mem_ids_of_items hm)).1
      simp only [found_ptr, rb_iter_valid, ne_eq, hne, not_false_eq_true, decide_True,
        Bool.true_eq_false,
        false_iff, true_implies]
      refine ⟨fun hall => ?_, a, hm, rfl, hge, ?_⟩
      · have := hall a.2 (mem_items_stored hreach hm)
        omega
      · intro e he hge1
        obtain ⟨x, hx⟩ := mem_stored_items hreach he
        by_cases heq : e = a.2
        · exact Or.inl heq
        · right
          have h1 := hmin _ hx hge1
          have h2 : cmp a.2.1 e.1 ≠ 0 := by
            intro h0
            have := strict_items_eq hcmp hstrict hm hx h0
            exact heq (by rw [this])
          simp only at h1
          omega
  have hhi : (rb_iter_valid { rb_iter_init tree with
               node := found_ptr NIL (t.upper cmp key) } = false ↔ ∀ e ∈ stored, 0 < cmp e.1 key)
      ∧ (rb_iter_valid { rb_iter_init tree with
               node := found_ptr NIL (t.upper cmp key) } = true →
          ∃ a ∈ t.items, found_ptr NIL (t.upper cmp key) = a.1 ∧ cmp a.2.1 key ≤ 0
          ∧ ∀ e ∈ stored, cmp e.1 key ≤ 0 → e = a.2 ∨ cmp e.1 a.2.1 < 0) := by
    cases hl : t.upper cmp key with
    | none =>
      have hn := upper_none hcmp key t hsorted hl
      simp only [found_ptr, rb_iter_valid, ne_eq, not_true_eq_false, decide_False, true_iff,
        Bool.false_eq_true, false_implies, and_true]
      intro e he
      obtain ⟨x, hx⟩ := mem_stored_items hreach he
      exact hn _ hx
    | some a =>
      obtain ⟨hm, hle, hmax⟩ := upper_some hcmp key t a hsorted hl
      have hne : a.1 ≠ NIL := ne_nil_of_ge (hinv.alloc _ (mem_ids_of_items hm)).1
      simp only [found_ptr, rb_iter_valid, ne_eq, hne, not_false_eq_true, decide_True,
        Bool.true_eq_false,
        false_iff, true_implies]
      refine ⟨fun hall => ?_, a, hm, rfl, hle, ?_⟩
      · have := hall a.2 (mem_items_stored hreach hm)
        omega
      · intro e he hle1
        obtain ⟨x, hx⟩ := mem_stored_items hreach he
        by_cases heq : e = a.2
        · exact Or.inl heq
        · right
          have h1 := hmax _ hx hle1
          have h2 : cmp e.1 a.2.1 ≠ 0 := by
            intro h0
            have := strict_items_eq hcmp hstrict hx hm h0
            exact heq (by rw [← this])
          simp only at h1
          omega
  refine ⟨hlo.1, ?_, hhi.1, ?_⟩
  · intro hv
    obtain ⟨a, ha, hnode, hge, hmin⟩ := hlo.2 hv
    obtain ⟨hk, hval⟩ := rep_mem m t NIL a hinv.rep ha
    simp only [rb_iter_key, rb_iter_value, hnode, hk, hval]
    exact ⟨mem_items_stored hreach ha, hge, hmin⟩
  · intro hv
    obtain ⟨a, ha, hnode, hle, hmax⟩ := hhi.2 hv
    obtain ⟨hk, hval⟩ := rep_mem m t NIL a hinv.rep ha
    simp only [rb_iter_key, rb_iter_value, hnode, hk, hval]
    exact ⟨mem_items_stored hreach ha, hle, hmax⟩

/-- C16: on every tree built by `rb_tree_insert` and `rb_tree_remove` calls under a total
order, `rb_tree_remove(tree, key)` returns `NULL` and leaves the memory and the tree
(contents and size) unchanged if no stored key compares equal to `key`; otherwise it
returns a node that is not `NULL`, that is no longer visited by the traversal of the tree
(it is detached), whose key compares equal to `key` and whose key and value are those of
an entry of the in-order sequence, the in-order sequence of the remaining tree is the
previous sequence with exactly that one entry deleted, and the size is one less. -/
theorem remove_contract (cmp : Nat → Nat → Int) (u : Bool) (hcmp : total_order cmp)
    (ops : List rb_op) (key : Nat) :
    ∃ m tree stored es, rb_run cmp u ops = some (m, tree, stored)
      ∧ rb_traverse m tree = some es ∧ es.Perm stored
      ∧ ((∀ e ∈ stored, cmp key e.1 ≠ 0) → rb_tree_remove m tree key = some (m, tree, NULL))
      ∧ ((∃ e ∈ stored, cmp key e.1 = 0) →
          ∃ m1 tree1 node eb ea ns, rb_tree_remove m tree key = some (m1, tree1, node)
            ∧ node ≠ NULL
            ∧ cmp key (m1.nodes node).key = 0
            ∧ es = eb ++ ((m1.nodes node).key, (m1.nodes node).value) :: ea
            ∧ rb_traverse m1 tree1 = some (eb ++ ea)
            ∧ rb_traverse_nodes m1 tree1 = some ns ∧ node ∉ ns
            ∧ tree1.size + 1 = tree.size) := by
  obtain ⟨m, tree, stored, t, hrun, hreach, hc, _⟩ := rb_run_reach cmp u hcmp ops
  have hinv := hreach.inv
  have hiff := find_ne_null_iff (hc ▸ hcmp) key t hinv.sorted (fun z hz => (hinv.alloc z hz).1)
  rw [hc] at hiff
  refine ⟨m, tree, stored, t.entries, hrun, reach_traverse hreach, hreach.perm, ?_, ?_⟩
  · intro hno
    apply rb_tree_remove_absent key hinv
    by_contra hf
    rw [hc] at hf
    obtain ⟨e, he, h0⟩ := hiff.1 hf
    exact hno e (hreach.perm.subset he) h0
  · rintro ⟨e, he, h0⟩
    have hf : t.find tree.compare key ≠ NULL := by
      rw [hc]
      exact hiff.2 ⟨e, hreach.perm.symm.subset he, h0⟩
    obtain ⟨m1, T, ret, k, v, eb, ea, hrem, hinv1, hret, hk0, hk, hv, ht, hT, hp, _⟩ :=
      rb_tree_remove_present key hinv hf
    have hlen := hp.length_eq
    rw [List.length_cons] at hlen
    have hreach1 : rb_reach m1 { tree with root := T.ptr, size := tree.size - 1 } T.entries T :=
      ⟨hinv1, by show tree.size - 1 = T.ids.length; rw [hreach.size, ← hlen]; rfl,
        List.Perm.refl _,
        fun hu => List.Pairwise.sublist (remove_keys_sublist ht hT) (hreach.strict hu)⟩
    refine ⟨m1, _, ret, eb, ea, T.ids, hrem, hret, ?_, ?_, ?_, reach_traverse_nodes hreach1, ?_,
      ?_⟩
    · rw [hk, ← hc]
      exact hk0
    · rw [hk, hv]
      exact ht
    · rw [reach_traverse hreach1, hT]
    · have hnd : (ret :: T.ids).Nodup := hp.nodup_iff.2 hinv.nodup
      exact (List.nodup_cons.1 hnd).1
    · show tree.size - 1 + 1 = tree.size
      rw [hreach.size, ← hlen]
      rfl

theorem remove_contract_witness :
    ∃ m tree stored es,
      rb_run rb_set64_compare false [.insert 2 20, .insert 1 10, .insert 2 21, .insert 3 30]
        = some (m, tree, stored)
      ∧ rb_traverse m tree = some es ∧ es.Perm stored
      ∧ ((∀ e ∈ stored, rb_set64_compare 2 e.1 ≠ 0) →
          rb_tree_remove m tree 2 = some (m, tree, NULL))
      ∧ ((∃ e ∈ stored, rb_set64_compare 2 e.1 = 0) →
          ∃ m1 tree1 node eb ea ns, rb_tree_remove m tree 2 = some (m1, tree1, node)
            ∧ node ≠ NULL
            ∧ rb_set64_compare 2 (m1.nodes node).key = 0
            ∧ es = eb ++ ((m1.nodes node).key, (m1.nodes node).value) :: ea
            ∧ rb_traverse m1 tree1 = some (eb ++ ea)
            ∧ rb_traverse_nodes m1 tree1 = some ns ∧ node ∉ ns
            ∧ tree1.size + 1 = tree.size) :=
  remove_contract rb_set64_compare false total_order_set64
    [.insert 2 20, .insert 1 10, .insert 2 21, .insert 3 30] 2

/-- C17: on every tree created with `unique` non-zero and built by `rb_tree_insert` and
`rb_tree_remove` calls under a total order, `rb_tree_insert` of a key that compares equal
to a stored key returns the existing node, which carries a stored entry, and leaves the
memory and the tree unchanged (no node added, size unchanged, key and value not
overwritten); otherwise it returns `NULL`, the size grows by one, `rb_tree_search` for the
key afterwards returns a node carrying the inserted key and value, and the search for any
other key (one that does not compare equal to the inserted key) returns the same node as
before, with the same key and value. -/
theorem insert_unique_contract (cmp : Nat → Nat → Int) (hcmp : total_order cmp)
    (ops : List rb_op) (key value : Nat) :
    ∃ m tree stored, rb_run cmp true ops = some (m, tree, stored)
      ∧ ((∃ e ∈ stored, cmp key e.1 = 0) →
          ∃ node, rb_tree_insert m tree key value = some (m, tree, node)
            ∧ node ≠ NULL ∧ cmp key (m.nodes node).key = 0
            ∧ ((m.nodes node).key, (m.nodes node).value) ∈ stored)
      ∧ ((∀ e ∈ stored, cmp key e.1 ≠ 0) →
          ∃ m1 tree1 node, rb_tree_insert m tree key value = some (m1, tree1, NULL)
            ∧ tree1.size = tree.size + 1
            ∧ rb_tree_search m1 tree1 key = some node ∧ node ≠ NULL
            ∧ (m1.nodes node).key = key ∧ (m1.nodes node).value = value
            ∧ ∀ key1, cmp key1 key ≠ 0 →
                ∃ r, rb_tree_search m tree key1 = some r
                  ∧ rb_tree_search m1 tree1 key1 = some r
                  ∧ (r ≠ NULL → (m1.nodes r).key = (m.nodes r).key
                      ∧ (m1.nodes r).value = (m.nodes r).value)) := by
  obtain ⟨m, tree, stored, t, hrun, hreach, hc, hu⟩ := rb_run_reach cmp true hcmp ops
  have hinv := hreach.inv
  have hct : total_order tree.compare := hc ▸ hcmp
  have hge : ∀ x ∈ t.ids, 2 ≤ x := fun z hz => (hinv.alloc z hz).1
  refine ⟨m, tree, stored, hrun, ?_, ?_⟩
  · rintro ⟨e, he, h0⟩
    cases hd : t.descend tree.compare tree.unique key [] with
    | inr p =>
      exfalso
      rw [hu] at hd
      obtain ⟨x, hx⟩ := mem_stored_items hreach he
      have := descend_inr_ne hct key t [] p hinv.sorted hd e.1 (mem_keys_of_items hx)
      rw [hc] at this
      exact this h0
    | inl x =>
      obtain ⟨_, k, v, hm, hk0⟩ := descend_inl _ _ _ _ _ _ hd
      obtain ⟨hk, hv⟩ := rep_mem m t NIL _ hinv.rep hm
      have hx : x ≠ NULL := by
        have := hge x (mem_ids_of_items hm)
        unfold NULL
        omega
      refine ⟨x, rb_tree_insert_conflict key value x hinv hd, hx, ?_, ?_⟩
      · rw [hk, ← hc]
        exact hk0
      · rw [hk, hv]
        exact mem_items_stored hreach hm
  · intro hno
    cases hd : t.descend tree.compare tree.unique key [] with
    | inl x =>
      exfalso
      obtain ⟨_, k, v, hm, hk0⟩ := descend_inl _ _ _ _ _ _ hd
      rw [hc] at hk0
      exact hno (k, v) (mem_items_stored hreach hm) hk0
    | inr p =>
      obtain ⟨m1, T, hins, hinv1, hT, ht, _⟩ := rb_tree_insert_new key value p hct hinv hd
      have hgeT : ∀ x ∈ T.ids, 2 ≤ x := fun z hz => (hinv1.alloc z hz).1
      have hstrict : keys_strict tree.compare T.keys := by
        rw [hu] at hd
        exact insert_new_strict key value m.next p hct hd (hreach.strict hu) hT ht
      have hnew : (m.next, key, value) ∈ T.items := by
        rw [hT]
        simp
      have hsub : ∀ a ∈ t.items, a ∈ T.items := by
        intro a ha
        rw [ht] at ha
        rw [hT]
        simp only [List.mem_append, List.mem_cons] at ha ⊢
        tauto
      have hfind : T.find tree.compare key = m.next :=
        find_unique hct hstrict hgeT key hnew (cmp_refl hct key)
      obtain ⟨hk, hv⟩ := rep_mem m1 T NIL _ hinv1.rep hnew
      refine ⟨m1, _, m.next, hins, rfl, ?_, ?_, hk, hv, ?_⟩
      · rw [search_eq hinv1, ← hfind]
      · have := hinv.next_ge
        unfold NULL
        omega
      · intro key1 hne1
        refine ⟨t.find tree.compare key1, search_eq hinv key1, ?_, ?_⟩
        · rw [search_eq hinv1]
          show some (T.find tree.compare key1) = _
          by_cases hf : t.find tree.compare key1 = NULL
          · rw [hf]
            by_contra hf1
            have hf2 : T.find tree.compare key1 ≠ NULL := fun h => hf1 (by rw [h])
            obtain ⟨k, v, hm, hk0⟩ := find_mem _ key1 T hf2
            rw [hT] at hm
            simp only [List.mem_append, List.mem_cons] at hm
            have hmt : (T.find tree.compare key1, k, v) ∈ t.items ∨ k = key := by
              rw [ht]
              simp only [List.mem_append]
              rcases hm with hm | hm | hm
              · exact Or.inl (Or.inl hm)
              · exact Or.inr (Prod.mk.inj (Prod.mk.inj hm).2).1
              · exact Or.inl (Or.inr hm)
            rcases hmt with hmt | rfl
            · exact find_of_mem hct key1 t hinv.sorted hge ⟨k, mem_keys_of_items hmt, hk0⟩ hf
            · rw [hc] at hk0
              exact hne1 hk0
          · obtain ⟨k, v, hm, hk0⟩ := find_mem _ key1 t hf
            rw [find_unique hct hstrict hgeT key1 (hsub _ hm) hk0]
        · intro hr
          obtain ⟨k, v, hm, _⟩ := find_mem _ key1 t hr
          obtain ⟨h1, h2⟩ := rep_mem m t NIL _ hinv.rep hm
          obtain ⟨h3, h4⟩ := rep_mem m1 T NIL _ hinv1.rep (hsub _ hm)
          simp only at h1 h2 h3 h4
          rw [h1, h2, h3, h4]
          exact ⟨rfl, rfl⟩

theorem insert_unique_contract_witness :
    ∃ m tree stored,
      rb_run rb_set64_compare true [.insert 2 20, .insert 1 10, .insert 2 21, .remove 1]
        = some (m, tree, stored)
      ∧ ((∃ e ∈ stored, rb_set64_compare 2 e.1 = 0) →
          ∃ node, rb_tree_insert m tree 2 22 = some (m, tree, node)
            ∧ node ≠ NULL ∧ rb_set64_compare 2 (m.nodes node).key = 0
            ∧ ((m.nodes node).key, (m.nodes node).value) ∈ stored)
      ∧ ((∀ e ∈ stored, rb_set64_compare 2 e.1 ≠ 0) →
          ∃ m1 tree1 node, rb_tree_insert m tree 2 22 = some (m1, tree1, NULL)
            ∧ tree1.size = tree.size + 1
            ∧ rb_tree_search m1 tree1 2 = some node ∧ node ≠ NULL
            ∧ (m1.nodes node).key = 2 ∧ (m1.nodes node).value = 22
            ∧ ∀ key1, rb_set64_compare key1 2 ≠ 0 →
                ∃ r, rb_tree_search m tree key1 = some r
                  ∧ rb_tree_search m1 tree1 key1 = some r
                  ∧ (r ≠ NULL → (m1.nodes r).key = (m.nodes r).key
                      ∧ (m1.nodes r).value = (m.nodes r).value)) :=
  insert_unique_contract rb_set64_compare total_order_set64
    [.insert 2 20, .insert 1 10, .insert 2 21, .remove 1] 2 22

theorem seek_positions_witness :
    ∃ m tree stored lo hi,
      rb_run rb_set64_compare true [.insert 2 20, .insert 5 50, .insert 9 90, .remove 5]
        = some (m, tree, stored)
      ∧ rb_iter_seek m (rb_iter_init tree) 4 = some lo
      ∧ rb_iter_seek_max m (rb_iter_init tree) 4 = some hi
      ∧ (rb_iter_valid lo = false ↔ ∀ e ∈ stored, rb_set64_compare e.1 4 < 0)
      ∧ (rb_iter_valid lo = true →
          (rb_iter_key m lo, rb_iter_value m lo) ∈ stored
          ∧ 0 ≤ rb_set64_compare (rb_iter_key m lo) 4
          ∧ ∀ e ∈ stored, 0 ≤ rb_set64_compare e.1 4 →
              e = (rb_iter_key m lo, rb_iter_value m lo)
                ∨ rb_set64_compare (rb_iter_key m lo) e.1 < 0)
      ∧ (rb_iter_valid hi = false ↔ ∀ e ∈ stored, 0 < rb_set64_compare e.1 4)
      ∧ (rb_iter_valid hi = true →
          (rb_iter_key m hi, rb_iter_value m hi) ∈ stored
          ∧ rb_set64_compare (rb_iter_key m hi) 4 ≤ 0
          ∧ ∀ e ∈ stored, rb_set64_compare e.1 4 ≤ 0 →
              e = (rb_iter_key m hi, rb_iter_value m hi)
                ∨ rb_set64_compare e.1 (rb_iter_key m hi) < 0) :=
  seek_positions rb_set64_compare total_order_set64
    [.insert 2 20, .insert 5 50, .insert 9 90, .remove 5] 4

/-! ## Red-black tree: the invariants, the size, the reset -/

theorem black_counts_ne_nil : ∀ t : rbt, t.black_counts ≠ [] := by
  intro t
  cases t with
  | nil => simp [rbt.black_counts]
  | node l x c k v r =>
    cases hl : l.black_counts with
    | nil => exact absurd hl (black_counts_ne_nil l)
    | cons a as => simp [rbt.black_counts, hl]

theorem bh_mem_black_counts : ∀ t : rbt, t.bh ∈ t.black_counts := by
  intro t
  induction t with
  | nil => simp [rbt.black_counts, rbt.bh]
  | node l x c k v r ihl _ =>
    simp only [rbt.black_counts, rbt.bh, List.mem_map, List.mem_append]
    exact ⟨l.bh, Or.inl ihl, rfl⟩

/-- The red-black conditions `rb_ok` say exactly that no red node has a red child and that
all paths from the root to a leaf have the same number of black nodes. -/
theorem rb_ok_iff : ∀ t : rbt,
    t.rb_ok ↔ t.no_red_red ∧ ∃ n, ∀ a ∈ t.black_counts, a = n := by
  intro t
  induction t with
  | nil => simp [rbt.rb_ok, rbt.no_red_red, rbt.black_counts]
  | node l x c k v r ihl ihr =>
    simp only [rbt.rb_ok, rbt.no_red_red, rbt.black_counts, List.mem_map, List.mem_append]
    constructor
    · rintro ⟨hl, hr, hbh, hc⟩
      obtain ⟨hl1, nl, hnl⟩ := ihl.1 hl
      obtain ⟨hr1, nr, hnr⟩ := ihr.1 hr
      have h1 := hnl _ (bh_mem_black_counts l)
      have h2 := hnr _ (bh_mem_black_counts r)
      refine ⟨⟨hl1, hr1, hc⟩, nl + (if c = .RB_BLACK then 1 else 0), ?_⟩
      rintro a ⟨b, hb | hb, rfl⟩
      · rw [hnl b hb]
      · rw [hnr b hb]
        omega
    · rintro ⟨⟨hl1, hr1, hc⟩, n, hn⟩
      have hl2 : ∀ a ∈ l.black_counts, a = l.bh := by
        intro a ha
        have h1 := hn _ ⟨a, Or.inl ha, rfl⟩
        have h2 := hn _ ⟨l.bh, Or.inl (bh_mem_black_counts l), rfl⟩
        omega
      have hr2 : ∀ a ∈ r.black_counts, a = r.bh := by
        intro a ha
        have h1 := hn _ ⟨a, Or.inr ha, rfl⟩
        have h2 := hn _ ⟨r.bh, Or.inr (bh_mem_black_counts r), rfl⟩
        omega
      refine ⟨ihl.2 ⟨hl1, _, hl2⟩, ihr.2 ⟨hr1, _, hr2⟩, ?_, hc⟩
      have h1 := hn _ ⟨l.bh, Or.inl (bh_mem_black_counts l), rfl⟩
      have h2 := hn _ ⟨r.bh, Or.inr (bh_mem_black_counts r), rfl⟩
      omega

/-- The count of the nodes reachable from the root of a tree in memory. -/
theorem count_nodes_eq (m : rb_mem) : ∀ (t : rbt) (par fuel : Nat), tree_rep m t par →
    (∀ x ∈ t.ids, 2 ≤ x) → t.height < fuel →
    count_nodes m fuel t.ptr = some t.ids.length := by
  intro t
  induction t with
  | nil =>
    intro par fuel _ _ hf
    obtain ⟨n, rfl⟩ : ∃ n, fuel = n + 1 := ⟨fuel - 1, by omega⟩
    simp [count_nodes, rbt.ids]
  | node l x c k v r ihl ihr =>
    intro par fuel hrep hids hf
    obtain ⟨n, rfl⟩ : ∃ n, fuel = n + 1 := ⟨fuel - 1, by omega⟩
    obtain ⟨h1, h2, h3⟩ := hrep
    simp only [rbt.ids, List.mem_append, List.mem_cons] at hids
    have hx : x ≠ NIL := by
      have := hids x (Or.inr (Or.inl rfl))
      unfold NIL
      omega
    simp only [rbt.height] at hf
    simp only [count_nodes, ptr_node, h1, hx, if_false,
      ihl x n h2 (fun z hz => hids z (Or.inl hz)) (by omega),
      ihr x n h3 (fun z hz => hids z (Or.inr (Or.inr hz))) (by omega)]
    simp only [rbt.ids, List.length_append, List.length_cons, Option.some.injEq]
    omega

/-- The recursion of `rb_node_clear` over a tree in memory ends. -/
theorem rb_node_clear_eq (m : rb_mem) : ∀ (t : rbt) (par fuel : Nat), tree_rep m t par →
    (∀ x ∈ t.ids, 2 ≤ x) → t.height < fuel → rb_node_clear m fuel t.ptr = some () := by
  intro t
  induction t with
  | nil =>
    intro par fuel _ _ hf
    obtain ⟨n, rfl⟩ : ∃ n, fuel = n + 1 := ⟨fuel - 1, by omega⟩
    simp [rb_node_clear]
  | node l x c k v r ihl ihr =>
    intro par fuel hrep hids hf
    obtain ⟨n, rfl⟩ : ∃ n, fuel = n + 1 := ⟨fuel - 1, by omega⟩
    obtain ⟨h1, h2, h3⟩ := hrep
    simp only [rbt.ids, List.mem_append, List.mem_cons] at hids
    have hx : x ≠ NIL := by
      have := hids x (Or.inr (Or.inl rfl))
      unfold NIL
      omega
    simp only [rbt.height] at hf
    simp only [rb_node_clear, ptr_node, h1, hx, ne_eq, not_false_eq_true, if_true,
      ihl x n h2 (fun z hz => hids z (Or.inl hz)) (by omega),
      ihr x n h3 (fun z hz => hids z (Or.inr (Or.inr hz))) (by omega)]

/-- The call `rb_tree_reset` on a tree in memory: the root becomes `NIL`, nothing else
changes. -/
theorem rb_tree_reset_eq {m : rb_mem} {tree : rb_tree_t} {t : rbt} (hinv : tree_inv m tree t) :
    rb_tree_reset m tree = some (m, { tree with root := NIL }) := by
  have := rb_node_clear_eq m t NIL m.next hinv.rep (fun x hx => (hinv.alloc x hx).1)
    (tree_inv_height hinv)
  simp only [rb_tree_reset, hinv.root, this]

/-- The call `rb_tree_insert` keeps the red-black invariants. -/
theorem insert_inv {m : rb_mem} {tree : rb_tree_t} {t : rbt} (hcmp : total_order tree.compare)
    (hinv : tree_inv m tree t) (key value : Nat) :
    ∃ m1 tree1 node T, rb_tree_insert m tree key value = some (m1, tree1, node)
      ∧ tree_inv m1 tree1 T
      ∧ (node = NULL → tree1.size = tree.size + 1 ∧ T.ids.length = t.ids.length + 1)
      ∧ (node ≠ NULL → tree1.size = tree.size ∧ T.ids.length = t.ids.length) := by
  cases hd : t.descend tree.compare tree.unique key [] with
  | inl x =>
    obtain ⟨_, k, v, hm, _⟩ := descend_inl _ _ _ _ _ _ hd
    have hx : x ≠ NULL := by
      have := (hinv.alloc x (mem_ids_of_items hm)).1
      unfold NULL
      omega
    exact ⟨m, tree, x, t, rb_tree_insert_conflict key value x hinv hd, hinv,
      fun h => absurd h hx, fun _ => ⟨rfl, rfl⟩⟩
  | inr p =>
    obtain ⟨m1, T, hins, hinv1, hT, ht, _⟩ := rb_tree_insert_new key value p hcmp hinv hd
    refine ⟨m1, _, NULL, T, hins, hinv1, fun _ => ⟨rfl, ?_⟩, fun h => absurd rfl h⟩
    rw [ids_eq_map, ids_eq_map, hT, ht]
    simp only [List.length_map, List.length_append, List.length_cons]
    omega

/-- The call `rb_tree_remove` keeps the red-black invariants. -/
theorem remove_inv {m : rb_mem} {tree : rb_tree_t} {t : rbt} (hinv : tree_inv m tree t)
    (key : Nat) :
    ∃ m1 tree1 node T, rb_tree_remove m tree key = some (m1, tree1, node)
      ∧ tree_inv m1 tree1 T
      ∧ (node ≠ NULL → tree1.size = tree.size - 1 ∧ T.ids.length + 1 = t.ids.length)
      ∧ (node = NULL → tree1.size = tree.size ∧ T.ids.length = t.ids.length) := by
  by_cases hf : t.find tree.compare key = NULL
  · exact ⟨m, tree, NULL, t, rb_tree_remove_absent key hinv hf, hinv,
      fun h => absurd rfl h, fun _ => ⟨rfl, rfl⟩⟩
  · obtain ⟨m1, T, ret, k, v, eb, ea, hrem, hinv1, hret, _, _, _, _, _, hp, _⟩ :=
      rb_tree_remove_present key hinv hf
    refine ⟨m1, _, ret, T, hrem, hinv1, fun _ => ⟨rfl, ?_⟩, fun h => absurd h hret⟩
    have := hp.length_eq
    rw [List.length_cons] at this
    exact this

/-- C25: the empty tree that `rb_tree_init` makes satisfies the red-black invariants
(binary-search-tree order under the comparator, black root, no red node with a red child,
the same number of black nodes on every path from the root to a leaf); and if a tree
satisfies them and its comparator is a total order, then `rb_tree_insert` of any key and
value returns (unique tree or not, the conflict case included) and the tree satisfies the
invariants afterwards. -/
theorem insert_keeps_invariants :
    (∀ (cmp : Nat → Nat → Int) (u : Bool), rb_invariants rb_mem_init (rb_tree_init cmp u))
      ∧ ∀ (m : rb_mem) (tree : rb_tree_t) (key value : Nat), total_order tree.compare →
          rb_invariants m tree →
          ∃ m1 tree1 node, rb_tree_insert m tree key value = some (m1, tree1, node)
            ∧ rb_invariants m1 tree1 := by
  refine ⟨fun cmp u => ⟨.nil, (reach_init cmp u).inv⟩, ?_⟩
  rintro m tree key value hcmp ⟨t, hinv⟩
  obtain ⟨m1, tree1, node, T, h1, h2, _, _⟩ := insert_inv hcmp hinv key value
  exact ⟨m1, tree1, node, h1, T, h2⟩

theorem insert_keeps_invariants_witness :
    ∃ m tree stored,
      rb_run rb_set64_compare true [.insert 2 20, .insert 1 10, .insert 3 30]
        = some (m, tree, stored)
      ∧ tree.size = 3
      ∧ ∃ m1 tree1 node, rb_tree_insert m tree 5 50 = some (m1, tree1, node)
          ∧ rb_invariants m1 tree1 := by
  obtain ⟨m, tree, stored, t, hrun, hreach, hc, _⟩ := rb_run_reach rb_set64_compare true
    total_order_set64 [.insert 2 20, .insert 1 10, .insert 3 30]
  have hsize : (rb_run rb_set64_compare true
      [.insert 2 20, .insert 1 10, .insert 3 30]).map (fun r => r.2.1.size) = some 3 := rfl
  rw [hrun] at hsize
  exact ⟨m, tree, stored, hrun, Option.some.inj hsize,
    insert_keeps_invariants.2 m tree 5 50 (hc ▸ total_order_set64) ⟨t, hreach.inv⟩⟩

/-- C26: if a tree satisfies the red-black invariants (binary-search-tree order, black
root, no red node with a red child, equal black height on every path from the root to a
leaf), then `rb_tree_remove` of any key, present or absent, returns and the remaining tree
satisfies them. -/
theorem remove_keeps_invariants (m : rb_mem) (tree : rb_tree_t) (key : Nat)
    (h : rb_invariants m tree) :
    ∃ m1 tree1 node, rb_tree_remove m tree key = some (m1, tree1, node)
      ∧ rb_invariants m1 tree1 := by
  obtain ⟨t, hinv⟩ := h
  obtain ⟨m1, tree1, node, T, h1, h2, _, _⟩ := remove_inv hinv key
  exact ⟨m1, tree1, node, h1, T, h2⟩

theorem remove_keeps_invariants_witness :
    ∃ m tree stored,
      rb_run rb_set64_compare false [.insert 2 20, .insert 1 10, .insert 3 30, .insert 2 21]
        = some (m, tree, stored)
      ∧ ∃ m1 tree1 node, rb_tree_remove m tree 2 = some (m1, tree1, node)
          ∧ rb_invariants m1 tree1 := by
  obtain ⟨m, tree, stored, t, hrun, hreach, _, _⟩ := rb_run_reach rb_set64_compare false
    total_order_set64 [.insert 2 20, .insert 1 10, .insert 3 30, .insert 2 21]
  exact ⟨m, tree, stored, hrun, remove_keeps_invariants m tree 2 ⟨t, hreach.inv⟩⟩

/-- C27: in every state reached from `rb_tree_init` by `rb_tree_insert` and
`rb_tree_remove` calls under a total order, `tree.size` is the number of nodes reachable
from `tree.root` (whatever the budget of the count, from the number of allocated addresses
on); a further `rb_tree_insert` increases the size by one exactly when it returns `NULL`
and leaves it otherwise, and a further `rb_tree_remove` decreases it by one exactly when
it returns a node and leaves it otherwise. -/
theorem size_invariant (cmp : Nat → Nat → Int) (u : Bool) (hcmp : total_order cmp)
    (ops : List rb_op) :
    ∃ m tree stored, rb_run cmp u ops = some (m, tree, stored)
      ∧ (∀ fuel, m.next ≤ fuel → count_nodes m fuel tree.root = some tree.size)
      ∧ (∀ key value, ∃ m1 tree1 node,
          rb_tree_insert m tree key value = some (m1, tree1, node)
            ∧ (node = NULL → tree1.size = tree.size + 1)
            ∧ (node ≠ NULL → tree1.size = tree.size))
      ∧ (∀ key, ∃ m1 tree1 node,
          rb_tree_remove m tree key = some (m1, tree1, node)
            ∧ (node ≠ NULL → tree1.size + 1 = tree.size)
            ∧ (node = NULL → tree1.size = tree.size)) := by
  obtain ⟨m, tree, stored, t, hrun, hreach, hc, _⟩ := rb_run_reach cmp u hcmp ops
  have hinv := hreach.inv
  refine ⟨m, tree, stored, hrun, ?_, ?_, ?_⟩
  · intro fuel hf
    rw [hinv.root, hreach.size]
    exact count_nodes_eq m t NIL fuel hinv.rep (fun x hx => (hinv.alloc x hx).1)
      (Nat.lt_of_lt_of_le (tree_inv_height hinv) hf)
  · intro key value
    obtain ⟨m1, tree1, node, T, h1, _, h3, h4⟩ := insert_inv (hc ▸ hcmp) hinv key value
    exact ⟨m1, tree1, node, h1, fun h => (h3 h).1, fun h => (h4 h).1⟩
  · intro key
    obtain ⟨m1, tree1, node, T, h1, _, h3, h4⟩ := remove_inv hinv key
    refine ⟨m1, tree1, node, h1, fun h => ?_, fun h => (h4 h).1⟩
    have := h3 h
    have hs := hreach.size
    omega

theorem size_invariant_witness :
    ∃ m tree stored,
      rb_run rb_set64_compare true [.insert 2 20, .insert 1 10, .insert 2 21, .remove 1]
        = some (m, tree, stored)
      ∧ (∀ fuel, m.next ≤ fuel → count_nodes m fuel tree.root = some tree.size)
      ∧ (∀ key value, ∃ m1 tree1 node,
          rb_tree_insert m tree key value = some (m1, tree1, node)
            ∧ (node = NULL → tree1.size = tree.size + 1)
            ∧ (node ≠ NULL → tree1.size = tree.size))
      ∧ (∀ key, ∃ m1 tree1 node,
          rb_tree_remove m tree key = some (m1, tree1, node)
            ∧ (node ≠ NULL → tree1.size + 1 = tree.size)
            ∧ (node = NULL → tree1.size = tree.size)) :=
  size_invariant rb_set64_compare true total_order_set64
    [.insert 2 20, .insert 1 10, .insert 2 21, .remove 1]

/-- C28: `rb_tree_reset` on the tree made by `rb_tree_init` and one `rb_tree_insert`
leaves `tree.size` at 1, not 0, although the tree is empty afterwards: the root is `NIL`,
`rb_tree_search` returns `NULL` for every key and an iterator initialised on the tree is
invalid after `rb_iter_seek_first`. -/
theorem rb_tree_reset_stale_size :
    ∃ m tree stored m1 tree1 iter,
      rb_run rb_set64_compare true [.insert 1 1] = some (m, tree, stored)
      ∧ rb_tree_reset m tree = some (m1, tree1)
      ∧ tree1.size = 1 ∧ tree1.root = NIL
      ∧ count_nodes m1 m1.next tree1.root = some 0
      ∧ (∀ key, rb_tree_search m1 tree1 key = some NULL)
      ∧ rb_iter_seek_first m1 (rb_iter_init tree1) = some iter
      ∧ rb_iter_valid iter = false := by
  obtain ⟨m, tree, stored, t, hrun, hreach, _, _⟩ := rb_run_reach rb_set64_compare true
    total_order_set64 [.insert 1 1]
  have hsize : (rb_run rb_set64_compare true [.insert 1 1]).map (fun r => r.2.1.size)
      = some 1 := by rfl
  rw [hrun] at hsize
  simp only [Option.map_some', Option.some.injEq] at hsize
  have hge := hreach.inv.next_ge
  obtain ⟨n, hn⟩ : ∃ n, m.next = n + 1 := ⟨m.next - 1, by omega⟩
  refine ⟨m, tree, stored, m, { tree with root := NIL },
    { rb_iter_init { tree with root := NIL } with node := NIL }, hrun,
    rb_tree_reset_eq hreach.inv, hsize, rfl, ?_, ?_, ?_, ?_⟩
  · simp [hn, count_nodes]
  · intro key
    simp [rb_tree_search, hn, search_loop]
  · simp [rb_iter_seek_first, rb_iter_init, rb_node_min]
  · simp [rb_iter_valid]

/-! ## The two bytewise comparators -/

/-- C32: for all byte strings `x` and `y`, `ldb_slice_compare(x, y)` of lwdb.c and
`rdb_memcmp4(x, xn, y, yn)` of internal.c have the same sign: both negative, both zero, or
both positive. -/
theorem slice_compare_agrees (x y : Bytes) :
    (ldb_slice_compare x y < 0 ↔ rdb_memcmp4 x y < 0)
      ∧ (ldb_slice_compare x y = 0 ↔ rdb_memcmp4 x y = 0)
      ∧ (0 < ldb_slice_compare x y ↔ 0 < rdb_memcmp4 x y) := by
  have h : ldb_slice_compare x y = rdb_memcmp4 x y := by
    unfold ldb_slice_compare rdb_memcmp4
    simp only []
    split_ifs <;> first | rfl | omega
  rw [h]
  exact ⟨Iff.rfl, Iff.rfl, Iff.rfl⟩

/-! ## The offsets recorded by the builder -/

/-- The starts of a list of filters are in non-decreasing order, between the base and the
end of the filter data. -/
theorem filter_starts_sorted : ∀ (fs : List Bytes) (base : Nat),
    List.Pairwise (fun a b => a ≤ b) (filter_starts base fs)
      ∧ ∀ o ∈ filter_starts base fs, base ≤ o ∧ o ≤ base + fs.flatten.length := by
  intro fs
  induction fs with
  | nil => intro base; simp [filter_starts]
  | cons f fs ih =>
    intro base
    obtain ⟨h1, h2⟩ := ih (base + f.length)
    simp only [filter_starts, List.pairwise_cons, List.mem_cons, List.flatten_cons,
      List.length_append]
    refine ⟨⟨fun o ho => ?_, h1⟩, ?_⟩
    · have := (h2 o ho).1
      omega
    · rintro o (rfl | ho)
      · omega
      · have := h2 o ho
        omega

/-- The state that `finish` leaves: the offsets are those of the filters of the run, and
the result is the finished block. -/
theorem finish_run_state (policy : ldb_bloom_t) (ops : List filter_op)
    (fb : ldb_filterbuilder_t)
    (hrun : run_ops (ldb_filterbuilder_init policy) ops = some fb) :
    (ldb_filterbuilder_finish fb).1.filter_offsets
        = filter_starts 0 (generated_filters policy ops)
      ∧ (ldb_filterbuilder_finish fb).1.result = filter_block (generated_filters policy ops) := by
  obtain ⟨hrep, hpol⟩ := rep_run ops _ fb _ (rep_init policy) hrun
  have hfl := rep_flush fb _ hrep
  rw [hpol] at hfl
  refine ⟨?_, ?_⟩
  · exact hfl.2
  · have h1 : (ldb_filterbuilder_finish fb).1.result = (ldb_filterbuilder_finish fb).2 := rfl
    rw [h1]
    exact finish_run_block policy ops fb hrun

theorem filter_block_ones_head :
    ∃ rest, filter_block [List.replicate (2 ^ 32) 1]
      = 1 :: 1 :: 1 :: 1 :: 1 :: 1 :: 1 :: 1 :: rest := by
  have e0 : (2 : Nat) ^ 32 = 8 + (2 ^ 32 - 8) := by norm_num
  have e1 : [List.replicate (2 ^ 32) (1 : UInt8)].flatten
      = List.replicate 8 1 ++ List.replicate (2 ^ 32 - 8) 1 := by
    rw [← List.replicate_add, ← e0]
    simp only [List.flatten_cons, List.flatten_nil, List.append_nil]
  refine ⟨List.replicate (2 ^ 32 - 8) 1
    ++ (((filter_starts 0 [List.replicate (2 ^ 32) 1]).map ldb_fixed32_encode).flatten
    ++ (ldb_fixed32_encode [List.replicate (2 ^ 32) (1 : UInt8)].flatten.length
    ++ [UInt8.ofNat LDB_FILTER_BASE_LG])), ?_⟩
  unfold filter_block
  rw [e1, List.append_assoc, List.append_assoc, List.append_assoc]
  rfl

/-- The reader state on the block finished after `add_key ""` with the policy
`policy_ones`: the `array_offset` word has wrapped to `0`. -/
theorem filterreader_ones_init :
    ∃ rest, ldb_filterreader_init policy_ones (ldb_filterbuilder_finish
        (ldb_filterbuilder_add_key (ldb_filterbuilder_init policy_ones) [])).2
      = { policy := policy_ones, data := 1 :: 1 :: 1 :: 1 :: 1 :: 1 :: 1 :: 1 :: rest,
          offset := 0, num := 2 ^ 30 + 1, base_lg := 11 } := by
  have hrun : run_ops (ldb_filterbuilder_init policy_ones) [.add_key []]
      = some (ldb_filterbuilder_add_key (ldb_filterbuilder_init policy_ones) []) := rfl
  have hfs : generated_filters policy_ones [.add_key []] = [List.replicate (2 ^ 32) 1] := rfl
  have hlen : [List.replicate (2 ^ 32) (1 : UInt8)].flatten.length = 2 ^ 32 := by
    simp only [List.flatten_cons, List.flatten_nil, List.append_nil, List.length_replicate]
  obtain ⟨rest, hrest⟩ := filter_block_ones_head
  refine ⟨rest, ?_⟩
  rw [finish_run_block _ _ _ hrun, filterreader_init_block, hfs, hlen, hrest, Nat.mod_self]
  have hnum : (2 ^ 32 + 4 * [List.replicate (2 ^ 32) (1 : UInt8)].length - 0) / 4
      = 2 ^ 30 + 1 := by
    rw [List.length_singleton]
    norm_num
  rw [hnum]

/-- The lookup of block offset 0 in that reader takes the branch for an empty filter. -/
theorem filterreader_ones_matches (wide : Nat → Nat → Nat) (rest : Bytes) :
    ldb_filterreader_matches wide
      { policy := policy_ones, data := 1 :: 1 :: 1 :: 1 :: 1 :: 1 :: 1 :: 1 :: rest,
        offset := 0, num := 2 ^ 30 + 1, base_lg := 11 } 0 [] = false := by
  have hd0 : ldb_fixed32_decode (1 :: 1 :: 1 :: 1 :: 1 :: 1 :: 1 :: 1 :: rest) (0 + 0 >>> 11 * 4)
      = 16843009 := rfl
  have hd4 : ldb_fixed32_decode (1 :: 1 :: 1 :: 1 :: 1 :: 1 :: 1 :: 1 :: rest)
      (0 + 0 >>> 11 * 4 + 4) = 16843009 := rfl
  unfold ldb_filterreader_matches
  simp only [uint64_shr_lt wide 0 (show 11 < 64 by decide), hd0, hd4]
  rw [if_pos (by norm_num), if_neg (by norm_num), if_pos trivial]

/-- C31, counterexample: with a policy that builds a filter of `2 ^ 32` bytes, all `1`,
the run `add_key ""`, `finish` generates one filter and gives a block on which the reader
has `array_offset = 0` and `num = 2 ^ 30 + 1`; at index 0 it reads `start = limit = 0x01010101`, so
`limit <= array_offset` fails, and the lookup takes the branch for an empty filter and
answers `false` although the policy matches every key. -/
theorem builder_output_counterexample :
    run_ops (ldb_filterbuilder_init policy_ones) [.add_key []]
        = some (ldb_filterbuilder_add_key (ldb_filterbuilder_init policy_ones) [])
    ∧ (generated_filters policy_ones [.add_key []]).length = 1
    ∧ (ldb_filterreader_init policy_ones (ldb_filterbuilder_finish
        (ldb_filterbuilder_add_key (ldb_filterbuilder_init policy_ones) [])).2).offset = 0
    ∧ 0 < (ldb_filterreader_init policy_ones (ldb_filterbuilder_finish
        (ldb_filterbuilder_add_key (ldb_filterbuilder_init policy_ones) [])).2).num
    ∧ ldb_fixed32_decode (ldb_filterreader_init policy_ones (ldb_filterbuilder_finish
        (ldb_filterbuilder_add_key (ldb_filterbuilder_init policy_ones) [])).2).data (0 + 0 * 4)
        = 16843009
    ∧ ldb_fixed32_decode (ldb_filterreader_init policy_ones (ldb_filterbuilder_finish
        (ldb_filterbuilder_add_key (ldb_filterbuilder_init policy_ones) [])).2).data
          (0 + 0 * 4 + 4) = 16843009
    ∧ ¬ (16843009 ≤ (ldb_filterreader_init policy_ones (ldb_filterbuilder_finish
        (ldb_filterbuilder_add_key (ldb_filterbuilder_init policy_ones) [])).2).offset)
    ∧ ldb_filterreader_matches shr_mod64 (ldb_filterreader_init policy_ones
        (ldb_filterbuilder_finish
          (ldb_filterbuilder_add_key (ldb_filterbuilder_init policy_ones) [])).2) 0 [] = false := by
  obtain ⟨rest, hinit⟩ := filterreader_ones_init
  rw [hinit]
  refine ⟨rfl, rfl, rfl, ?_, rfl, rfl, ?_, filterreader_ones_matches shr_mod64 rest⟩
  · show 0 < 2 ^ 30 + 1
    norm_num
  · show ¬ (16843009 ≤ 0)
    norm_num

/-- C31, amended: after any sequence of `start_block` and `add_key` calls on a filter
builder, and after `finish`, the recorded filter offsets are non-decreasing and each is at
most the current result length; and when the filter data of the run is shorter than
`2 ^ 32` bytes, in a reader (with any policy) over the finish output every index
`i < num` has `start <= limit <= array_offset` and `base_lg` is 11, so that every lookup
with an index below `num` runs the policy's match on the slice between `start` and
`limit`: the branches for malformed offsets are never taken. -/
theorem builder_output_well_formed (policy policy1 : ldb_bloom_t) (ops : List filter_op)
    (fb : ldb_filterbuilder_t)
    (hrun : run_ops (ldb_filterbuilder_init policy) ops = some fb) :
    (List.Pairwise (fun a b => a ≤ b) fb.filter_offsets
        ∧ ∀ o ∈ fb.filter_offsets, o ≤ fb.result.length)
      ∧ (List.Pairwise (fun a b => a ≤ b) (ldb_filterbuilder_finish fb).1.filter_offsets
        ∧ ∀ o ∈ (ldb_filterbuilder_finish fb).1.filter_offsets,
            o ≤ (ldb_filterbuilder_finish fb).1.result.length)
      ∧ ((generated_filters policy ops).flatten.length < 2 ^ 32 →
          ∀ fr, fr = ldb_filterreader_init policy1 (ldb_filterbuilder_finish fb).2 →
            (∀ i, i < fr.num →
              ldb_fixed32_decode fr.data (fr.offset + i * 4)
                  ≤ ldb_fixed32_decode fr.data (fr.offset + i * 4 + 4)
                ∧ ldb_fixed32_decode fr.data (fr.offset + i * 4 + 4) ≤ fr.offset)
            ∧ fr.base_lg = 11
            ∧ ∀ (wide : Nat → Nat → Nat) (block_offset : Nat) (key : Bytes),
                block_offset >>> fr.base_lg < fr.num →
                ldb_filterreader_matches wide fr block_offset key
                  = policy1.key_match
                      (slice fr.data
                        (ldb_fixed32_decode fr.data (fr.offset + (block_offset >>> fr.base_lg) * 4))
                        (ldb_fixed32_decode fr.data
                          (fr.offset + (block_offset >>> fr.base_lg) * 4 + 4))) key) := by
  obtain ⟨hrep, _⟩ := rep_run ops _ fb _ (rep_init policy) hrun
  obtain ⟨hr, ho, _, _⟩ := hrep
  obtain ⟨hfo, hfr⟩ := finish_run_state policy ops fb hrun
  refine ⟨?_, ?_, ?_⟩
  · rw [ho, hr]
    have := filter_starts_sorted (view_run (ldb_filterbuilder_init policy).policy
      { filters := [], pending := [] } ops).filters 0
    exact ⟨this.1, fun o h => by have := (this.2 o h).2; omega⟩
  · rw [hfo, hfr, filter_block_length]
    have := filter_starts_sorted (generated_filters policy ops) 0
    exact ⟨this.1, fun o h => by have := (this.2 o h).2; omega⟩
  · intro hsize fr hfr1
    rw [finish_run_block policy ops fb hrun,
      filterreader_init_block_small policy1 _ hsize] at hfr1
    subst hfr1
    have hrange : ∀ i, i < (generated_filters policy ops).length →
        ldb_fixed32_decode (filter_block (generated_filters policy ops))
            ((generated_filters policy ops).flatten.length + i * 4)
          ≤ ldb_fixed32_decode (filter_block (generated_filters policy ops))
            ((generated_filters policy ops).flatten.length + i * 4 + 4)
        ∧ ldb_fixed32_decode (filter_block (generated_filters policy ops))
            ((generated_filters policy ops).flatten.length + i * 4 + 4)
          ≤ (generated_filters policy ops).flatten.length := by
      intro i hi
      have h1 := filter_block_word_small _ i (Nat.le_of_lt hi) hsize
      have h2 := filter_block_word_small _ (i + 1) hi hsize
      have e : (generated_filters policy ops).flatten.length + i * 4 + 4
          = (generated_filters policy ops).flatten.length + (i + 1) * 4 := by omega
      rw [e, h1, h2]
      refine ⟨?_, take_flatten_length_le _ _⟩
      rw [take_succ_flatten _ i hi, List.length_append]
      omega
    refine ⟨hrange, rfl, ?_⟩
    intro wide block_offset key hidx
    simp only [] at hidx
    unfold ldb_filterreader_matches
    simp only [uint64_shr_lt wide block_offset (show 11 < 64 by decide)]
    rw [if_pos hidx, if_pos (hrange _ hidx)]

theorem builder_output_well_formed_witness :
    (List.Pairwise (fun a b => a ≤ b)
        ([0, 2, 2] : List Nat)
      ∧ ∀ o ∈ ([0, 2, 2] : List Nat), o ≤ ([1, 1] : Bytes).length)
    ∧ (generated_filters policy_len [.add_key [7], .start_block 6144, .add_key []]).flatten.length
        < 2 ^ 32 :=
  ⟨(builder_output_well_formed policy_len policy_len
      [.add_key [7], .start_block 6144, .add_key []]
      { policy := policy_len, keys := [], start := [0], result := [1, 1],
        filter_offsets := [0, 2, 2] } rfl).1, by decide⟩

end Lcdb
